import Mathlib

/-!
# Graph core of the path-finding demo

A shallow embedding of `node.h`, `node.cpp` and `graph.cpp`.

* A `Node*` is the index of the node in the `node_` vector of the graph that
  owns it; a null pointer is `none`.
* `float` values (edge costs, node costs, positions) are elements of an
  arbitrary linearly ordered commutative ring `α`, i.e. arithmetic is exact.
  The code computes with `float`: `FindPathF` is `FindPath` with every sum of
  costs rounded and the sentinel stored as a `float`, and `SelectNodeF` is
  `SelectNode` in IEEE 754 `float` and `double` arithmetic. Statements about
  the costs that `FindPath` stores and about the pick test of `SelectNode`
  are made for these two.
* `rand()` and `std::random_shuffle` are oracles indexed by the number of the
  call; the order in which `std::priority_queue` returns entries of equal
  cost is an oracle indexed by the iteration of the relaxation loop.
* An operation that dereferences a null pointer or indexes a vector out of
  bounds yields `none`; loops that need not terminate take a fuel argument
  and yield `none` when it is used up.
-/

set_option autoImplicit false
set_option linter.unusedSectionVars false
set_option linter.unusedVariables false

namespace game

/-! ## Data model (`node.h`, `graph.h`) -/

/-- An edge between two nodes: `n1` is always the source, `n2` the target. -/
structure Edge (α : Type) where
  n1 : Nat
  n2 : Nat
  cost : α
deriving DecidableEq, Repr

/-- A node of a graph, with its adjacency list and its scratch fields. -/
structure Node (α : Type) where
  edge_ : List (Edge α)
  id_ : Int
  x_ : α
  y_ : α
  visited_ : Bool
  cost_ : α
  on_path_ : Bool
  prev_ : Option Nat
deriving DecidableEq, Repr

/-- The part of a sprite object the graph reads: its scale. -/
structure GameObject (α : Type) where
  scale_ : α
deriving DecidableEq, Repr

/-- A graph: the owned nodes, the sprites, and the path-finding members. -/
structure Graph (α : Type) where
  node_obj_ : Option (GameObject α)
  edge_obj_ : Option (GameObject α)
  node_ : List (Node α)
  hover_node_ : Option Nat
  start_node_ : Option Nat
  end_node_ : Option Nat
  path_node_ : List (Option Nat)
deriving DecidableEq, Repr

/-- An entry of the priority queue of `FindPath`. -/
structure QNode (α : Type) where
  node : Nat
  cost : α
deriving DecidableEq, Repr

section Defs

variable {α : Type} [LinearOrderedCommRing α]

/-- The value `INT_MAX` that `Node::Node` and `FindPath` store as cost. -/
def INT_MAX : α := 2147483647

/-- The constructor `Node::Node(id, x, y)`. -/
def Node.new (id : Int) (x y : α) : Node α :=
  { edge_ := [], id_ := id, x_ := x, y_ := y, visited_ := false,
    cost_ := INT_MAX, on_path_ := false, prev_ := none }

/-- The constructor `Graph::Graph`. -/
def Graph.new : Graph α :=
  { node_obj_ := none, edge_obj_ := none, node_ := [], hover_node_ := none,
    start_node_ := none, end_node_ := none, path_node_ := [] }

/-! ## `Node::AddEdge`, `Node::AddNeighbor` -/

/-- The call `node->AddEdge(e)` on the node at index `i`. -/
def AddEdge (nodes : List (Node α)) (i : Nat) (e : Edge α) : Option (List (Node α)) :=
  match nodes[i]? with
  | none => none
  | some n => some (nodes.set i { n with edge_ := n.edge_ ++ [e] })

/-- The call `a->AddNeighbor(b, edge_cost)`: the edge goes to `a`, then the
edge with its ends swapped goes to `b`. -/
def AddNeighbor (nodes : List (Node α)) (a b : Nat) (edge_cost : α) :
    Option (List (Node α)) :=
  match AddEdge nodes a ⟨a, b, edge_cost⟩ with
  | none => none
  | some nodes1 => AddEdge nodes1 b ⟨b, a, edge_cost⟩

/-- The call `Graph::AddNode(id, x, y)` on the node vector. -/
def AddNode (nodes : List (Node α)) (id : Int) (x y : α) : List (Node α) :=
  nodes ++ [Node.new id x y]

/-- The call `Graph::GetNode(index)` with an `int` index: the pointer stored
at that place of `node_`. -/
def GetNode (nodes : List (Node α)) (index : Int) : Option Nat :=
  if 0 ≤ index ∧ index.toNat < nodes.length then some index.toNat else none

/-! ## `Graph::FindPath` -/

/-- Whether position `i` of the queue holds an entry that `CompareNode` ranks
below no other entry, so that `top` may return it. -/
def isTopAt (q : List (QNode α)) (i : Nat) : Bool :=
  match q[i]? with
  | none => false
  | some x => q.all (fun y => decide (x.cost ≤ y.cost))

/-- The position of the entry that `pq.top()` returns: the one the oracle
names if that is an entry of least cost, the first entry of least cost
otherwise. -/
def topIdx (t : Nat) (q : List (QNode α)) : Nat :=
  if isTopAt q t then t else q.findIdx (fun x => q.all (fun y => decide (x.cost ≤ y.cost)))

/-- One pass of the body of the loop over the edges of the popped node. -/
def relaxEdge (u : Nat) (c : α) (st : List (Node α) × List (QNode α)) (edge : Edge α) :
    Option (List (Node α) × List (QNode α)) :=
  match st.1[edge.n2]? with
  | none => none
  | some n =>
    let node_cost := c + edge.cost
    if node_cost < n.cost_ then
      some (st.1.set edge.n2 { n with cost_ := node_cost, prev_ := some u },
            st.2 ++ [⟨edge.n2, node_cost⟩])
    else some st

/-- The loop over the edges of the popped node. -/
def relaxEdges (u : Nat) (c : α) :
    List (Edge α) → List (Node α) × List (QNode α) → Option (List (Node α) × List (QNode α))
  | [], st => some st
  | edge :: rest, st =>
    match relaxEdge u c st edge with
    | none => none
    | some st1 => relaxEdges u c rest st1

/-- The loop `while (!pq.empty())` of `FindPath`; `k` counts the iterations
done so far. -/
def relaxLoop (tie : Nat → Nat) (end_node : Nat) :
    Nat → Nat → List (Node α) → List (QNode α) → Option (List (Node α))
  | 0, _, _, _ => none
  | fuel + 1, k, nodes, pq =>
    if pq.isEmpty then some nodes
    else
      match pq[topIdx (tie k) pq]? with
      | none => none
      | some lowest =>
        if lowest.node = end_node then some nodes
        else
          match nodes[lowest.node]? with
          | none => none
          | some un =>
            match relaxEdges lowest.node lowest.cost un.edge_
                (nodes, pq.eraseIdx (topIdx (tie k) pq)) with
            | none => none
            | some st => relaxLoop tie end_node fuel (k + 1) st.1 st.2

/-- The loop that walks the `prev` links back from the end node. It yields
the nodes, the path collected so far and the pointer at which it stopped. -/
def backtrack (start_node : Nat) :
    Nat → Option Nat → List (Node α) → List (Option Nat) →
      Option (List (Node α) × List (Option Nat) × Option Nat)
  | 0, _, _, _ => none
  | _ + 1, none, nodes, path => some (nodes, path, none)
  | fuel + 1, some c, nodes, path =>
    if c = start_node then some (nodes, path, some c)
    else
      match nodes[c]? with
      | none => none
      | some n =>
        backtrack start_node fuel n.prev_ (nodes.set c { n with on_path_ := true })
          (path ++ [some c])

/-- The call `node->SetOnPath(true)` on the node at index `i`. -/
def setOnPath (nodes : List (Node α)) (i : Nat) : Option (List (Node α)) :=
  match nodes[i]? with
  | none => none
  | some n => some (nodes.set i { n with on_path_ := true })

/-- The method `Graph::FindPath`. -/
def FindPath (fuel : Nat) (tie : Nat → Nat) (g : Graph α) : Option (Graph α) :=
  match g.start_node_, g.end_node_ with
  | some s, some e =>
    let nodes0 : List (Node α) :=
      g.node_.map (fun n => { n with cost_ := INT_MAX, on_path_ := false })
    match nodes0[s]? with
    | none => none
    | some sn =>
      match relaxLoop tie e fuel 0 (nodes0.set s { sn with cost_ := 0 }) [⟨s, 0⟩] with
      | none => none
      | some nodes2 =>
        match nodes2[e]? with
        | none => none
        | some en =>
          match backtrack s fuel en.prev_ nodes2 [some e] with
          | none => none
          | some (nodes3, path, cur) =>
            match setOnPath nodes3 s with
            | none => none
            | some nodes4 =>
              match setOnPath nodes4 e with
              | none => none
              | some nodes5 =>
                some { g with node_ := nodes5, path_node_ := (path ++ [cur]).reverse }
  | _, _ => none

/-! ## Builders -/

/-- A loop `for (int i = lo; i < lo + cnt; i++)` whose body may fail. -/
def forLoop {σ : Type} (body : Nat → σ → Option σ) : Nat → Nat → σ → Option σ
  | _, 0, s => some s
  | lo, cnt + 1, s =>
    match body lo s with
    | none => none
    | some s1 => forLoop body (lo + 1) cnt s1

/-- The method `Graph::BuildEmptyGraph`. -/
def BuildEmptyGraph (node_sprite edge_sprite : Option (GameObject α)) (g : Graph α) :
    Graph α :=
  { g with node_obj_ := node_sprite, edge_obj_ := edge_sprite }

/-- The method `Graph::BuildSimpleGraph`. -/
def BuildSimpleGraph (fuel : Nat) (tie : Nat → Nat)
    (node_sprite edge_sprite : Option (GameObject α)) (g : Graph α) : Option (Graph α) :=
  let nodes := g.node_
  let n0 := nodes.length
  let nodes := AddNode nodes 0 (-2) 0
  let n1 := nodes.length
  let nodes := AddNode nodes 1 (-1) 0
  let n2 := nodes.length
  let nodes := AddNode nodes 2 0 0
  let n3 := nodes.length
  let nodes := AddNode nodes 3 1 0
  let n4 := nodes.length
  let nodes := AddNode nodes 4 2 0
  match AddNeighbor nodes n0 n1 1 with
  | none => none
  | some nodes =>
    match AddNeighbor nodes n1 n2 1 with
    | none => none
    | some nodes =>
      match AddNeighbor nodes n2 n3 1 with
      | none => none
      | some nodes =>
        match AddNeighbor nodes n3 n4 1 with
        | none => none
        | some nodes =>
          FindPath fuel tie
            { g with node_obj_ := node_sprite, edge_obj_ := edge_sprite, node_ := nodes,
                     start_node_ := some n0, end_node_ := some n4 }

/-- The inner loop of the first loop nest of `BuildGrid`, run `cnt` times on
the node vector, `id` and `x`. -/
def gridAddRow (disp_x y : α) : Nat → List (Node α) × Int × α → List (Node α) × Int × α
  | 0, st => st
  | cnt + 1, st => gridAddRow disp_x y cnt (AddNode st.1 st.2.1 st.2.2 y, st.2.1 + 1, st.2.2 + disp_x)

/-- The first loop nest of `BuildGrid`, run `cnt` times on the node vector,
`id`, `x` and `y`. -/
def gridAddRows (cols : Nat) (disp_x disp_y start_x : α) :
    Nat → List (Node α) × Int × α × α → List (Node α) × Int × α × α
  | 0, st => st
  | cnt + 1, st =>
    let r := gridAddRow disp_x st.2.2.2 cols (st.1, st.2.1, st.2.2.1)
    gridAddRows cols disp_x disp_y start_x cnt (r.1, r.2.1, start_x, st.2.2.2 - disp_y)

/-- The weight `10 + (rand() % 6)` for the value `r` that `rand` returned. -/
def randWeight (r : Nat) : α := ((10 + r % 6 : Nat) : α)

/-- A guarded statement `if (c) { rand_weight = 10 + (rand() % 6);
node_[a]->AddNeighbor(node_[b], rand_weight); }` on the node vector and the
number of calls of `rand` so far. -/
def gridAddWeighted (rand : Nat → Nat) (c : Prop) [Decidable c] (a b : Nat)
    (st : List (Node α) × Nat) : Option (List (Node α) × Nat) :=
  if c then
    match AddNeighbor st.1 a b (randWeight (rand st.2)) with
    | none => none
    | some nodes => some (nodes, st.2 + 1)
  else some st

/-- The body of the second loop nest of `BuildGrid` at row `i`, column `j`,
on the node vector, `index` and the number of calls of `rand` so far. -/
def gridConnectCell (rand : Nat → Nat) (cols rows i j : Nat)
    (st : List (Node α) × Nat × Nat) : Option (List (Node α) × Nat × Nat) :=
  match gridAddWeighted rand (j < cols - 1) st.2.1 (st.2.1 + 1) (st.1, st.2.2) with
  | none => none
  | some st1 =>
    match gridAddWeighted rand (i < rows - 1) st.2.1 ((i + 1) * cols + j) st1 with
    | none => none
    | some st2 => some (st2.1, st.2.1 + 1, st2.2)

/-- The second loop nest of `BuildGrid`. -/
def gridConnect (rand : Nat → Nat) (cols rows : Nat) (nodes : List (Node α)) :
    Option (List (Node α) × Nat × Nat) :=
  forLoop (fun i st => forLoop (gridConnectCell rand cols rows i) 0 cols st) 0 rows
    (nodes, 0, 0)

/-- The method `Graph::BuildGrid`. -/
def BuildGrid (fuel : Nat) (tie : Nat → Nat) (rand : Nat → Nat) (cols rows : Nat)
    (disp_x disp_y start_x start_y viewport_height : α)
    (node_sprite edge_sprite : Option (GameObject α)) (g : Graph α) : Option (Graph α) :=
  let added := gridAddRows cols disp_x disp_y start_x rows
    (g.node_, 0, start_x, viewport_height - start_y)
  match gridConnect rand cols rows added.1 with
  | none => none
  | some st =>
    if 0 < st.1.length then
      if rows * cols - 1 < st.1.length ∧ 0 < rows * cols then
        FindPath fuel tie
          { g with node_obj_ := node_sprite, edge_obj_ := edge_sprite, node_ := st.1,
                   start_node_ := some 0, end_node_ := some (rows * cols - 1) }
      else none
    else none

/-! ## `Graph::BuildMaze` -/

/-- The loop of `BuildMaze` that looks for an unvisited neighbour among the
edges of the node on top of the stack, in the order of the shuffled indices:
`some none` when there is none, `some (some edge)` for the first one found. -/
def scanUnvisited (src : List (Node α)) (edges : List (Edge α)) :
    List Nat → Option (Option (Edge α))
  | [] => some none
  | i :: rest =>
    match edges[i]? with
    | none => none
    | some edge =>
      match src[edge.n2]? with
      | none => none
      | some neigh =>
        if !neigh.visited_ then some (some edge) else scanUnvisited src edges rest

/-- The body of the depth-first loop of `BuildMaze` in iteration `k`, with the
node `n` on top of the stack `st`: it yields the source nodes, the output
nodes and the stack (top first). -/
def carveStep (shuffle : Nat → List Nat → List Nat) (k : Nat) (src out : List (Node α))
    (n : Nat) (st : List Nat) : Option (List (Node α) × List (Node α) × List Nat) :=
  match src[n]? with
  | none => none
  | some nd =>
    match scanUnvisited src nd.edge_ (shuffle k (List.range nd.edge_.length)) with
    | none => none
    | some none => some (src, out, st)
    | some (some edge) =>
      match src[edge.n2]? with
      | none => none
      | some neigh =>
        match GetNode out nd.id_, GetNode out neigh.id_ with
        | some n1, some n2 =>
          match AddNeighbor out n1 n2 edge.cost with
          | none => none
          | some out1 =>
            some (src.set edge.n2 { neigh with visited_ := true }, out1, edge.n2 :: n :: st)
        | _, _ => none

/-- The depth-first loop `while (st.size() > 0)` of `BuildMaze` on the source
nodes, the output nodes and the stack (top first); `k` counts the iterations
done so far. -/
def carveLoop (shuffle : Nat → List Nat → List Nat) :
    Nat → Nat → List (Node α) → List (Node α) → List Nat →
      Option (List (Node α) × List (Node α))
  | 0, _, _, _, _ => none
  | _ + 1, _, src, out, [] => some (src, out)
  | fuel + 1, k, src, out, n :: st =>
    match carveStep shuffle k src out n st with
    | none => none
    | some r => carveLoop shuffle fuel (k + 1) r.1 r.2.1 r.2.2

/-- The part of `BuildMaze` before the final `FindPath`: copy the nodes, clear
the visited flags, and carve. It yields the source nodes and the output
nodes. -/
def carveMaze (fuel : Nat) (shuffle : Nat → List Nat → List Nat)
    (src out : List (Node α)) : Option (List (Node α) × List (Node α)) :=
  let out1 := src.foldl (fun o n => AddNode o n.id_ n.x_ n.y_) out
  let src1 := src.map (fun n => { n with visited_ := false })
  match src1[0]? with
  | none => none
  | some first =>
    carveLoop shuffle fuel 0 (src1.set 0 { first with visited_ := true }) out1 [0]

/-- The method `Graph::BuildMaze`, called on `g` with the graph `output`: it
yields both graphs. -/
def BuildMaze (fuel : Nat) (tie : Nat → Nat) (shuffle : Nat → List Nat → List Nat)
    (g output : Graph α) : Option (Graph α × Graph α) :=
  match carveMaze fuel shuffle g.node_ output.node_ with
  | none => none
  | some r =>
    match GetNode r.2 0, GetNode r.2 ((r.2.length : Int) - 1) with
    | some s, some e =>
      match FindPath fuel tie { output with node_ := r.2, start_node_ := some s,
                                            end_node_ := some e } with
      | none => none
      | some output1 => some ({ g with node_ := r.1 }, output1)
    | _, _ => none

/-! ## Vocabulary of the statements -/

/-- The adjacency list of the node at index `u` (empty when there is no such
node). -/
def edgesOf (nodes : List (Node α)) (u : Nat) : List (Edge α) :=
  match nodes[u]? with
  | none => []
  | some n => n.edge_

/-- Edge symmetry: every stored edge has the node that stores it as source,
and the edge `(u, v, w)` occurs in the list of `u` as often as the edge
`(v, u, w)` occurs in the list of `v`. -/
def EdgeSym (nodes : List (Node α)) : Prop :=
  (∀ u, ∀ e ∈ edgesOf nodes u, e.n1 = u) ∧
  ∀ u v w, (edgesOf nodes u).count ⟨u, v, w⟩ = (edgesOf nodes v).count ⟨v, u, w⟩


/-- The cost field of the node at index `v` (`INT_MAX` when there is no such
node). -/
def costOf (nodes : List (Node α)) (v : Nat) : α :=
  match nodes[v]? with
  | none => INT_MAX
  | some n => n.cost_

/-- The `prev` pointer of the node at index `v`. -/
def prevOf (nodes : List (Node α)) (v : Nat) : Option Nat :=
  match nodes[v]? with
  | none => none
  | some n => n.prev_

/-- The `on_path` flag of the node at index `v`. -/
def onPathOf (nodes : List (Node α)) (v : Nat) : Bool :=
  match nodes[v]? with
  | none => false
  | some n => n.on_path_

/-- The fields of a node that `FindPath` never writes. -/
def Node.fixed (n : Node α) : List (Edge α) × Int × α × α × Bool :=
  (n.edge_, n.id_, n.x_, n.y_, n.visited_)

/-- The least element of a list of costs. -/
def leastCost : List α → Option α
  | [] => none
  | a :: l =>
    match leastCost l with
    | none => some a
    | some b => some (if a ≤ b then a else b)

/-- The cost of going from `u` to `v` over one edge: the cost of the cheapest
edge with target `v` in the adjacency list of `u`, if there is one. -/
def edgeCost? (nodes : List (Node α)) (u v : Nat) : Option α :=
  leastCost (((edgesOf nodes u).filter (fun e => e.n2 = v)).map Edge.cost)

/-- The cumulative edge cost of a node sequence: the sum of the costs of the
steps between consecutive nodes, if every such step is an edge. -/
def pathCost (nodes : List (Node α)) : List Nat → Option α
  | [] => some 0
  | [_] => some 0
  | u :: v :: rest =>
    match edgeCost? nodes u v, pathCost nodes (v :: rest) with
    | some w, some c => some (w + c)
    | _, _ => none

/-- The node `v` can be entered from `u` over one edge. -/
def Adj (nodes : List (Node α)) (u v : Nat) : Prop :=
  ∃ e ∈ edgesOf nodes u, e.n2 = v

/-- Every edge target is a node of the graph. -/
def TargetsValid (nodes : List (Node α)) : Prop :=
  ∀ u, ∀ e ∈ edgesOf nodes u, e.n2 < nodes.length

/-- No edge has a negative cost. -/
def NonNegCosts (nodes : List (Node α)) : Prop :=
  ∀ u, ∀ e ∈ edgesOf nodes u, 0 ≤ e.cost

/-- What the loop over the edges of the popped node `u`, popped with cost `c`,
does to the nodes and the queue. -/
structure RelaxSpec (u : Nat) (c : α) (es : List (Edge α))
    (st st1 : List (Node α) × List (QNode α)) : Prop where
  fixed : st1.1.map Node.fixed = st.1.map Node.fixed
  onp : st1.1.map Node.on_path_ = st.1.map Node.on_path_
  le : ∀ x, costOf st1.1 x ≤ costOf st.1 x
  change : ∀ x, (costOf st1.1 x = costOf st.1 x ∧ prevOf st1.1 x = prevOf st.1 x) ∨
    (costOf st1.1 x < costOf st.1 x ∧ prevOf st1.1 x = some u ∧
      (∃ e ∈ es, e.n2 = x ∧ costOf st1.1 x = c + e.cost) ∧ ⟨x, costOf st1.1 x⟩ ∈ st1.2)
  relaxed : ∀ e ∈ es, costOf st1.1 e.n2 ≤ c + e.cost
  queue : ∃ added, st1.2 = st.2 ++ added ∧ added.length ≤ es.length ∧
    ∀ q ∈ added, ∃ e ∈ es, q.node = e.n2 ∧ q.cost = c + e.cost ∧
      costOf st1.1 q.node ≤ q.cost ∧ q.cost < costOf st.1 q.node

/-- The number of edge records stored in the first `n` nodes that are not in
`S`. -/
def openDegree (E : Nat → List (Edge α)) (n : Nat) (S : Finset Nat) : Nat :=
  ∑ u in Finset.range n, if u ∈ S then 0 else (E u).length

/-- The invariant of the relaxation loop of `FindPath`, for a graph with `n`
nodes, adjacency lists `E` and start node `s`. The set `S` holds the nodes
whose edges have been relaxed with their final cost, `m` is the cost of the
last entry popped, `rank` orders `S` by the time of entry, and `prev0` are
the `prev` pointers the loop started with. -/
structure DInv (E : Nat → List (Edge α)) (n s : Nat) (prev0 : Nat → Option Nat)
    (F : List (List (Edge α) × Int × α × α × Bool)) (O : List Bool)
    (S : Finset Nat) (m : α) (rank : Nat → Nat) (B : Nat)
    (nodes : List (Node α)) (pq : List (QNode α)) : Prop where
  fixed : nodes.map Node.fixed = F
  onp : nodes.map Node.on_path_ = O
  len : nodes.length = n
  edges : edgesOf nodes = E
  start_lt : s < n
  start_cost : costOf nodes s = 0
  cost_le : ∀ v, costOf nodes v ≤ INT_MAX
  queue : ∀ q ∈ pq, q.node < n ∧ costOf nodes q.node ≤ q.cost ∧ m ≤ q.cost ∧ q.cost < INT_MAX
  m_nonneg : 0 ≤ m
  settled : ∀ u ∈ S, u < n ∧ costOf nodes u ≤ m ∧
    ∀ e ∈ E u, costOf nodes e.n2 ≤ costOf nodes u + e.cost
  pending : ∀ v, v < n → v ∉ S → costOf nodes v < INT_MAX → ⟨v, costOf nodes v⟩ ∈ pq
  tree : ∀ v, v < n → v ≠ s → costOf nodes v < INT_MAX →
    ∃ u e, prevOf nodes v = some u ∧ u ∈ S ∧ e ∈ E u ∧ e.n2 = v ∧
      costOf nodes v = costOf nodes u + e.cost ∧ (v ∈ S → rank u < rank v)
  rank_lt : ∀ u ∈ S, rank u < B
  prov : ∀ v, prevOf nodes v ≠ prev0 v → costOf nodes v < INT_MAX ∧ v ≠ s




/-- The node sequence from the start node `s` to `v` along the `prev`
pointers: `TreePath prev s v p` holds when `p` starts with `s`, ends with `v`
and every node of it but `s` has its predecessor in `p` as `prev`. -/
inductive TreePath (prev : Nat → Option Nat) (s : Nat) : Nat → List Nat → Prop
  | root : TreePath prev s s [s]
  | step {v u : Nat} {p : List Nat} : v ≠ s → prev v = some u → TreePath prev s u p →
      TreePath prev s v (p ++ [v])

/-- A number of iterations that suffices for each loop of `FindPath`: the
number of edge records plus the number of nodes plus two. -/
def fuelBound (nodes : List (Node α)) : Nat :=
  openDegree (edgesOf nodes) nodes.length ∅ + nodes.length + 2




/-- The fields of a node other than its adjacency list. -/
def Node.rest (n : Node α) : Int × α × α × Bool × α × Bool × Option Nat :=
  (n.id_, n.x_, n.y_, n.visited_, n.cost_, n.on_path_, n.prev_)

/-- The number of edges with target `v` in the adjacency list of `u`. -/
def targetCount (nodes : List (Node α)) (u v : Nat) : Nat :=
  (edgesOf nodes u).countP (fun e => e.n2 = v)

/-- The grid cell with row-major index `c` has a right (`d = c + 1`) or bottom
(`d = c + cols`) neighbour with index `d`. -/
def isRB (cols rows c d : Nat) : Prop :=
  (d = c + 1 ∧ c % cols + 1 < cols) ∨ (d = c + cols ∧ c / cols + 1 < rows)

instance (cols rows c d : Nat) : Decidable (isRB cols rows c d) := by
  unfold isRB
  infer_instance

/-- The invariant of the second loop nest of `BuildGrid` after `t` cells,
where `nodes0` are the nodes before the loop nest. -/
structure GridInv (cols rows : Nat) (nodes0 : List (Node α)) (t : Nat)
    (nodes : List (Node α)) : Prop where
  len : nodes.length = rows * cols
  rest : nodes.map Node.rest = nodes0.map Node.rest
  sym : EdgeSym nodes
  weights : ∀ u, ∀ e ∈ edgesOf nodes u, ∃ r : Nat, e.cost = randWeight r
  count : ∀ u v, targetCount nodes u v =
    (if u < t ∧ isRB cols rows u v then 1 else 0) + (if v < t ∧ isRB cols rows v u then 1 else 0)
  degree : ∀ u, (edgesOf nodes u).length =
    (if u < t ∧ u % cols + 1 < cols then 1 else 0) +
    (if u < t ∧ u / cols + 1 < rows then 1 else 0) +
    (if 1 ≤ u ∧ u - 1 < t ∧ (u - 1) % cols + 1 < cols then 1 else 0) +
    (if cols ≤ u ∧ u - cols < t ∧ (u - cols) / cols + 1 < rows then 1 else 0)






/-- The `visited` flag of the node at index `v`. -/
def visitedOf (nodes : List (Node α)) (v : Nat) : Bool :=
  match nodes[v]? with
  | none => false
  | some n => n.visited_

/-- The node `b` can be reached from `a` over edges. -/
def Reach (nodes : List (Node α)) (a b : Nat) : Prop :=
  Relation.ReflTransGen (Adj nodes) a b

/-- The node sequence `p` is a simple path from `a` to `b`: it starts with
`a`, ends with `b`, repeats no node, and each node of it can be entered from
the one before over one edge. -/
def SimplePath (nodes : List (Node α)) (a b : Nat) (p : List Nat) : Prop :=
  p.head? = some a ∧ p.getLast? = some b ∧ p.Nodup ∧ List.Chain' (Adj nodes) p

/-- The id of every node is its index in the node vector. -/
def IdsAreIndices (nodes : List (Node α)) : Prop :=
  ∀ (k : Nat) (n : Node α), nodes[k]? = some n → n.id_ = (k : Int)

/-- The total number of edge records over all nodes. -/
def totalEdges (nodes : List (Node α)) : Nat :=
  (nodes.map (fun n => n.edge_.length)).sum

/-- The edge `e` stored in the output node `u` corresponds to an edge of the
source between the same two nodes with the same cost. -/
def FromSource (src : List (Node α)) (u : Nat) (e : Edge α) : Prop :=
  (∃ e1 ∈ edgesOf src u, e1.n2 = e.n2 ∧ e1.cost = e.cost) ∨
  (∃ e1 ∈ edgesOf src e.n2, e1.n2 = u ∧ e1.cost = e.cost)

/-- The invariant of the depth-first loop of `BuildMaze`: `E` are the
adjacency lists of the source, `n` is the number of its nodes, and `V` is the
set of the nodes visited so far. -/
structure CInv (srcE : List (List (Edge α))) (outR : List (Int × α × α × Bool × α × Bool × Option Nat))
    (V : Finset Nat) (src out : List (Node α)) (stack : List Nat) : Prop where
  src_edges : src.map Node.edge_ = srcE
  src_ids : IdsAreIndices src
  out_rest : out.map Node.rest = outR
  out_len : out.length = src.length
  visited : ∀ v, v ∈ V ↔ visitedOf src v = true
  root : 0 ∈ V
  stack_sub : ∀ x ∈ stack, x ∈ V
  closed : ∀ u ∈ V, u ∉ stack → ∀ e ∈ edgesOf src u, e.n2 ∈ V
  reach : ∀ v ∈ V, Reach src 0 v
  sym : EdgeSym out
  outside : ∀ u, u ∉ V → edgesOf out u = []
  inside : ∀ u, ∀ e ∈ edgesOf out u, e.n2 ∈ V ∧ FromSource src u e
  total : totalEdges out + 2 = 2 * V.card
  tree : ∀ v ∈ V, ∃! p, SimplePath out 0 v p



/-- The id and the position of a node. -/
def Node.place (n : Node α) : Int × α × α :=
  (n.id_, n.x_, n.y_)

/-- What `BuildMaze` leaves behind, for the source nodes `src0` before the
call, the source nodes `src` and the output nodes `out` after it: the set `V`
of the nodes that can be reached from node 0 in the source is the set of the
nodes marked visited, and the output is a tree on `V` made of source edges. -/
structure MazeResult (src0 src out : List (Node α)) (V : Finset Nat) : Prop where
  reach : ∀ v, v ∈ V ↔ Reach src0 0 v
  visited : ∀ v, v ∈ V ↔ visitedOf src v = true
  src_edges : src.map Node.edge_ = src0.map Node.edge_
  out_len : out.length = src0.length
  out_place : out.map Node.place = src0.map Node.place
  sym : EdgeSym out
  outside : ∀ u, u ∉ V → edgesOf out u = []
  inside : ∀ u, ∀ e ∈ edgesOf out u, e.n2 ∈ V ∧ FromSource src0 u e
  total : totalEdges out + 2 = 2 * V.card
  tree : ∀ v ∈ V, ∃! p, SimplePath out 0 v p



/-! ## Concrete graphs -/

/-- Whether the node sequence stored in `path_node_` is a sequence of nodes
without a null pointer that leads from `s` to `e`, whose cumulative edge cost
is the cost field of the node `e`, and no path from `s` to `e` is cheaper. -/
def StoresCheapestPath (g : Graph α) (s e : Nat) : Prop :=
  ∃ p : List Nat, g.path_node_ = p.map some ∧ p.head? = some s ∧ p.getLast? = some e ∧
    pathCost g.node_ p = some (costOf g.node_ e) ∧
    ∀ p1 L1, p1.head? = some s → p1.getLast? = some e → pathCost g.node_ p1 = some L1 →
      costOf g.node_ e ≤ L1

/-- Whether the node sequence stored in `path_node_` leads from `s` to `e`
without a null pointer and without a repeated node, each step over an edge. -/
def StoresSimplePath (g : Graph α) (s e : Nat) : Prop :=
  ∃ p : List Nat, g.path_node_ = p.map some ∧ SimplePath g.node_ s e p

/-- The numbers of edges that the specification gives for the cells of
a grid: 4 for a cell in the interior, 2 for a corner, 3 for any other cell on
the boundary. -/
def GridDegrees (cols rows : Nat) (nodes : List (Node α)) : Prop :=
  ∀ i j, i < rows → j < cols →
    ((0 < i ∧ i + 1 < rows) ∧ (0 < j ∧ j + 1 < cols) →
      (edgesOf nodes (i * cols + j)).length = 4) ∧
    ((i = 0 ∨ i + 1 = rows) ∧ (j = 0 ∨ j + 1 = cols) →
      (edgesOf nodes (i * cols + j)).length = 2) ∧
    (((i = 0 ∨ i + 1 = rows) ∧ (0 < j ∧ j + 1 < cols)) ∨
      ((0 < i ∧ i + 1 < rows) ∧ (j = 0 ∨ j + 1 = cols)) →
      (edgesOf nodes (i * cols + j)).length = 3)

/-- A graph with one node that is both start and end node, as `BuildGrid`
with one column and one row sets it up before it calls `FindPath`. -/
def singleNodeGraph : Graph Int :=
  { (Graph.new : Graph Int) with
    node_ := [Node.new 0 0 0], start_node_ := some 0, end_node_ := some 0 }

/-- Two nodes joined by an edge whose cost is `INT_MAX`. -/
def sentinelGraph : Graph Int :=
  { (Graph.new : Graph Int) with
    node_ := [{ (Node.new 0 0 0 : Node Int) with edge_ := [⟨0, 1, 2147483647⟩] },
              { (Node.new 1 1 0 : Node Int) with edge_ := [⟨1, 0, 2147483647⟩] }],
    start_node_ := some 0, end_node_ := some 1 }

/-- Three nodes in a line, joined by edges of cost 2 and 3, with a direct edge
of cost 7 between the ends. -/
def triangleGraph : Graph Int :=
  { (Graph.new : Graph Int) with
    node_ := [{ (Node.new 0 0 0 : Node Int) with edge_ := [⟨0, 1, 2⟩, ⟨0, 2, 7⟩] },
              { (Node.new 1 1 0 : Node Int) with edge_ := [⟨1, 0, 2⟩, ⟨1, 2, 3⟩] },
              { (Node.new 2 2 0 : Node Int) with edge_ := [⟨2, 1, 3⟩, ⟨2, 0, 7⟩] }],
    start_node_ := some 0, end_node_ := some 2 }

/-- A shuffle that leaves every list as it is. -/
def keepOrder : Nat → List Nat → List Nat := fun _ l => l





/-- Two nodes without any edge; the first is the start node, the second the
end node. -/
def isolatedGraph : Graph Int :=
  { (Graph.new : Graph Int) with
    node_ := [Node.new 0 0 0, Node.new 1 1 0], start_node_ := some 0, end_node_ := some 1 }

/-- The graph `triangleGraph` with its middle node as start node and as end
node. -/
def sameNodeGraph : Graph Int :=
  { triangleGraph with start_node_ := some 1, end_node_ := some 1 }

/-- Three nodes, the first two joined by an edge of cost 1 and the third
without an edge, as `AddNode`, `AddNeighbor`, `SetStartNode` and `SetEndNode`
build it: the first node is the start node, the second the end node. -/
def splitGraph : Graph Int :=
  { (Graph.new : Graph Int) with
    node_ := [{ (Node.new 0 0 0 : Node Int) with edge_ := [⟨0, 1, 1⟩] },
              { (Node.new 1 1 0 : Node Int) with edge_ := [⟨1, 0, 1⟩] },
              Node.new 2 2 0],
    start_node_ := some 0, end_node_ := some 1 }

/-- The graph `splitGraph` after `SetStartNode` with its third node, before
any call of `FindPath`. -/
def freshSplitGraph : Graph Int :=
  { splitGraph with start_node_ := some 2 }

/-- The graph `splitGraph` after a call of `FindPath` followed by
`SetStartNode` with its third node. -/
def staleSplitGraph : Graph Int :=
  { (Graph.new : Graph Int) with
    node_ := [{ (Node.new 0 0 0 : Node Int) with
                edge_ := [⟨0, 1, 1⟩], cost_ := 0, on_path_ := true },
              { (Node.new 1 1 0 : Node Int) with
                edge_ := [⟨1, 0, 1⟩], cost_ := 1, on_path_ := true, prev_ := some 0 },
              Node.new 2 2 0],
    start_node_ := some 2, end_node_ := some 1, path_node_ := [some 0, some 1] }

/-! ## `Graph::SelectNode` -/

/-- The test `x < 0 || x > window_width || y < 0 || y > window_height` with
which `SelectNode` starts. -/
def outsideWindow {β : Type} [LinearOrderedField β] (x y : β)
    (window_width window_height : Int) : Prop :=
  x < 0 ∨ x > (window_width : β) ∨ y < 0 ∨ y > (window_height : β)

instance {β : Type} [LinearOrderedField β] (x y : β) (window_width window_height : Int) :
    Decidable (outsideWindow x y window_width window_height) := by
  unfold outsideWindow
  infer_instance

/-- A division of `float` values. When the divisor is zero the quotient is an
infinity or not a number, which is no element of `β`: `none`. -/
def fdiv {β : Type} [LinearOrderedField β] (a b : β) : Option β :=
  if b = 0 then none else some (a / b)

/-- The position in world coordinates that `SelectNode` derives from the
pixel position `(x, y)`: `cursor_x_pos` and `cursor_y_pos`, each `none` when
it is not a finite number. -/
def cursorPos {β : Type} [LinearOrderedField β] (x y : β) (window_width window_height : Int)
    (camera_zoom : β) : Option β × Option β :=
  let w : β := window_width
  let h : β := window_height
  if w > h then
    let aspect_ratio := fdiv w h
    (aspect_ratio.bind (fun a => fdiv ((2 * x - w) * a) (w * camera_zoom)),
     fdiv (-2 * y + h) (h * camera_zoom))
  else
    let aspect_ratio := fdiv h w
    (fdiv (2 * x - w) (w * camera_zoom),
     aspect_ratio.bind (fun a => fdiv ((-2 * y + h) * a) (h * camera_zoom)))

/-- The test `glm::length(v) < r` for a vector `v = (vx, vy)` of finite
numbers: the square root of `vx * vx + vy * vy` is below `r` exactly when `r`
is positive and `vx * vx + vy * vy` is below `r * r`. -/
def lengthLt {β : Type} [LinearOrderedField β] (vx vy r : β) : Prop :=
  0 < r ∧ vx * vx + vy * vy < r * r

instance {β : Type} [LinearOrderedField β] (vx vy r : β) : Decidable (lengthLt vx vy r) := by
  unfold lengthLt
  infer_instance

/-- The test `glm::length(cursor - center) < node_scale*node_scale` of the
loop of `SelectNode` for the node `n`; it fails when a coordinate of the
cursor is not a finite number. -/
def hitsNode {β : Type} [LinearOrderedField β] (cursor : Option β × Option β) (node_scale : β)
    (n : Node β) : Bool :=
  match cursor.1, cursor.2 with
  | some cx, some cy => decide (lengthLt (cx - n.x_) (cy - n.y_) (node_scale * node_scale))
  | _, _ => false

/-- The loop of `SelectNode` over the nodes from index `i` on: the index of
the first node that passes the test. -/
def pickLoop {β : Type} [LinearOrderedField β] (cursor : Option β × Option β) (node_scale : β) :
    List (Node β) → Nat → Option Nat
  | [], _ => none
  | n :: rest, i =>
    if hitsNode cursor node_scale n then some i else pickLoop cursor node_scale rest (i + 1)

/-- The method `Graph::SelectNode`: `some none` is the result `NULL`; the
call has no result when it dereferences the null sprite pointer. -/
def SelectNode {β : Type} [LinearOrderedField β] (g : Graph β) (x y : β)
    (window_width window_height : Int) (camera_zoom : β) : Option (Option Nat) :=
  if outsideWindow x y window_width window_height then some none
  else
    let cursor := cursorPos x y window_width window_height camera_zoom
    match g.node_obj_ with
    | none => none
    | some node_obj => some (pickLoop cursor node_obj.scale_ g.node_ 0)

/-- The nodes that lie within the pick radius of the cursor: the coordinates
of the cursor are finite numbers, the radius `node_scale * node_scale` is
positive, and the square of the distance between the node and the cursor is
below the square of the radius. -/
def InRadius {β : Type} [LinearOrderedField β] (cursor : Option β × Option β) (node_scale : β)
    (n : Node β) : Prop :=
  ∃ cx cy, cursor = (some cx, some cy) ∧ 0 < node_scale * node_scale ∧
    (cx - n.x_) ^ 2 + (cy - n.y_) ^ 2 < (node_scale * node_scale) ^ 2

/-- The pixel-to-world mapping of `SelectNode` for a window of the given size
and the given zoom sends the pixel rectangle from `(0, 0)` to
`(window_width, window_height)` onto the world rectangle from `(xlo, ylo)` to
`(xhi, yhi)`: the left edge goes to `xlo`, the right edge to `xhi`, the top
edge (`y = 0`) to `yhi` and the bottom edge to `ylo`, every pixel of the
rectangle has its image in the world rectangle, and every point of the world
rectangle is the image of a pixel of the rectangle. -/
def MapsOnto {β : Type} [LinearOrderedField β] (window_width window_height : Int)
    (camera_zoom xlo xhi ylo yhi : β) : Prop :=
  (∀ y, (cursorPos 0 y window_width window_height camera_zoom).1 = some xlo) ∧
  (∀ y, (cursorPos (window_width : β) y window_width window_height camera_zoom).1 = some xhi) ∧
  (∀ x, (cursorPos x 0 window_width window_height camera_zoom).2 = some yhi) ∧
  (∀ x, (cursorPos x (window_height : β) window_width window_height camera_zoom).2 =
    some ylo) ∧
  (∀ x y, 0 ≤ x → x ≤ (window_width : β) → 0 ≤ y → y ≤ (window_height : β) →
    ∃ cx cy, cursorPos x y window_width window_height camera_zoom = (some cx, some cy) ∧
      xlo ≤ cx ∧ cx ≤ xhi ∧ ylo ≤ cy ∧ cy ≤ yhi) ∧
  (∀ cx cy, xlo ≤ cx → cx ≤ xhi → ylo ≤ cy → cy ≤ yhi →
    ∃ x y, 0 ≤ x ∧ x ≤ (window_width : β) ∧ 0 ≤ y ∧ y ≤ (window_height : β) ∧
      cursorPos x y window_width window_height camera_zoom = (some cx, some cy))

/-- A graph over the rational numbers with a node at `(1, 0)` and a node at
the origin, and a node sprite of scale 2. -/
def nearGraph : Graph ℚ :=
  { (Graph.new : Graph ℚ) with
    node_obj_ := some ⟨2⟩, node_ := [Node.new 0 1 0, Node.new 1 0 0] }

/-- The graph `splitGraph` after a call of `FindPath`, `SetStartNode` with its
second node, `SetEndNode` with its first node, a second call of `FindPath`,
and `SetStartNode` with its third node: the `prev` pointers of the first two
nodes point at each other. -/
def cycleGraph : Graph Int :=
  { (Graph.new : Graph Int) with
    node_ := [{ (Node.new 0 0 0 : Node Int) with
                edge_ := [⟨0, 1, 1⟩], cost_ := 1, on_path_ := true, prev_ := some 1 },
              { (Node.new 1 1 0 : Node Int) with
                edge_ := [⟨1, 0, 1⟩], cost_ := 0, on_path_ := true, prev_ := some 0 },
              Node.new 2 2 0],
    start_node_ := some 2, end_node_ := some 0, path_node_ := [some 1, some 0] }

/-! ## `Graph::Update` -/

/-- The method `Graph::Update`, for the cursor position `(xpos, ypos)`, the
window size and the states of the two mouse buttons that GLFW reports. Each
of the two calls of `FindPath` has its own oracle for the ties of the queue. -/
def Update {β : Type} [LinearOrderedField β] (fuel : Nat) (tie_left tie_right : Nat → Nat)
    (g : Graph β) (xpos ypos : β) (width height : Int) (left_pressed right_pressed : Bool)
    (zoom : β) : Option (Graph β) :=
  match SelectNode g xpos ypos width height zoom with
  | none => none
  | some n =>
    let g1 : Graph β := { g with hover_node_ := n }
    let after_left : Option (Graph β) :=
      if left_pressed then
        FindPath fuel tie_left
          (if n ≠ none ∧ n ≠ g1.end_node_ then { g1 with start_node_ := n } else g1)
      else some g1
    match after_left with
    | none => none
    | some g2 =>
      if right_pressed then
        FindPath fuel tie_right
          (if n ≠ none ∧ n ≠ g2.start_node_ then { g2 with end_node_ := n } else g2)
      else some g2

/-- The graph `nearGraph` with its first node as start node and its second
node as end node. -/
def pickGraph : Graph ℚ :=
  { nearGraph with start_node_ := some 0, end_node_ := some 1 }

/-- The second loop nest of `BuildGrid` with a check at the head of its body:
the running index is `i * cols + j`, and the indices of the right and of the
bottom neighbour, where the body uses them, are below the size of the node
vector. The loop nest has no result when a check fails. -/
def gridConnectChecked (rand : Nat → Nat) (cols rows : Nat) (nodes : List (Node α)) :
    Option (List (Node α) × Nat × Nat) :=
  forLoop (fun i st => forLoop (fun j st =>
      if st.2.1 = i * cols + j ∧ (j < cols - 1 → st.2.1 + 1 < st.1.length) ∧
          (i < rows - 1 → (i + 1) * cols + j < st.1.length) then
        gridConnectCell rand cols rows i j st
      else none) 0 cols st) 0 rows
    (nodes, 0, 0)

/-- The node that iteration `k` of the depth-first loop of `BuildMaze` pushes
when the node `n` is on top of the stack: the target of the edge that the scan
finds, if it finds one. -/
def carvePushed (shuffle : Nat → List Nat → List Nat) (k : Nat) (src : List (Node α))
    (n : Nat) : Option Nat :=
  match src[n]? with
  | none => none
  | some nd =>
    match scanUnvisited src nd.edge_ (shuffle k (List.range nd.edge_.length)) with
    | some (some edge) => some edge.n2
    | _ => none

/-- The depth-first loop of `BuildMaze` with a log: besides the source nodes
and the output nodes it yields the nodes that the loop has pushed, in the
order of the pushes, and the number of iterations it has run. Like
`carveLoop` it returns only when the stack is empty. -/
def carveLoopLog (shuffle : Nat → List Nat → List Nat) :
    Nat → Nat → List (Node α) → List (Node α) → List Nat → List Nat →
      Option (List (Node α) × List (Node α) × List Nat × Nat)
  | 0, _, _, _, _, _ => none
  | _ + 1, k, src, out, [], log => some (src, out, log, k)
  | fuel + 1, k, src, out, n :: st, log =>
    match carveStep shuffle k src out n st with
    | none => none
    | some r =>
      carveLoopLog shuffle fuel (k + 1) r.1 r.2.1 r.2.2
        (log ++ (carvePushed shuffle k src n).toList)

/-- The part of `BuildMaze` before the final `FindPath`, with the log of the
depth-first loop. -/
def carveMazeLog (fuel : Nat) (shuffle : Nat → List Nat → List Nat)
    (src out : List (Node α)) : Option (List (Node α) × List (Node α) × List Nat × Nat) :=
  let out1 := src.foldl (fun o n => AddNode o n.id_ n.x_ n.y_) out
  let src1 := src.map (fun n => { n with visited_ := false })
  match src1[0]? with
  | none => none
  | some first =>
    carveLoopLog shuffle fuel 0 (src1.set 0 { first with visited_ := true }) out1 [0] []

/-! ## Variants of `Graph::FindPath` that the specification compares it with -/

/-- The method `Graph::FindPath` with the relaxation loop as a parameter:
`loop` is run with the end node, the nodes and the queue with which the loop
`while (!pq.empty())` of `FindPath` starts. -/
def FindPathWith (loop : Nat → List (Node α) → List (QNode α) → Option (List (Node α)))
    (fuel : Nat) (g : Graph α) : Option (Graph α) :=
  match g.start_node_, g.end_node_ with
  | some s, some e =>
    let nodes0 : List (Node α) :=
      g.node_.map (fun n => { n with cost_ := INT_MAX, on_path_ := false })
    match nodes0[s]? with
    | none => none
    | some sn =>
      match loop e (nodes0.set s { sn with cost_ := 0 }) [⟨s, 0⟩] with
      | none => none
      | some nodes2 =>
        match nodes2[e]? with
        | none => none
        | some en =>
          match backtrack s fuel en.prev_ nodes2 [some e] with
          | none => none
          | some (nodes3, path, cur) =>
            match setOnPath nodes3 s with
            | none => none
            | some nodes4 =>
              match setOnPath nodes4 e with
              | none => none
              | some nodes5 =>
                some { g with node_ := nodes5, path_node_ := (path ++ [cur]).reverse }
  | _, _ => none

/-- The relaxation loop of the variant of `FindPath` that skips stale queue
entries: an entry whose cost is greater than the cost of its node is dropped
without a look at the edges of the node. -/
def relaxLoopSkip (tie : Nat → Nat) (end_node : Nat) :
    Nat → Nat → List (Node α) → List (QNode α) → Option (List (Node α))
  | 0, _, _, _ => none
  | fuel + 1, k, nodes, pq =>
    if pq.isEmpty then some nodes
    else
      match pq[topIdx (tie k) pq]? with
      | none => none
      | some lowest =>
        if lowest.node = end_node then some nodes
        else
          match nodes[lowest.node]? with
          | none => none
          | some un =>
            if un.cost_ < lowest.cost then
              relaxLoopSkip tie end_node fuel (k + 1) nodes (pq.eraseIdx (topIdx (tie k) pq))
            else
              match relaxEdges lowest.node lowest.cost un.edge_
                  (nodes, pq.eraseIdx (topIdx (tie k) pq)) with
              | none => none
              | some st => relaxLoopSkip tie end_node fuel (k + 1) st.1 st.2

/-- The variant of `FindPath` that skips stale queue entries. -/
def FindPathSkip (fuel : Nat) (tie : Nat → Nat) (g : Graph α) : Option (Graph α) :=
  FindPathWith (fun e nodes pq => relaxLoopSkip tie e fuel 0 nodes pq) fuel g

/-- The relaxation loop of the variant of `FindPath` without the early exit:
it relaxes until the queue is empty. -/
def relaxLoopFull (tie : Nat → Nat) :
    Nat → Nat → List (Node α) → List (QNode α) → Option (List (Node α))
  | 0, _, _, _ => none
  | fuel + 1, k, nodes, pq =>
    if pq.isEmpty then some nodes
    else
      match pq[topIdx (tie k) pq]? with
      | none => none
      | some lowest =>
        match nodes[lowest.node]? with
        | none => none
        | some un =>
          match relaxEdges lowest.node lowest.cost un.edge_
              (nodes, pq.eraseIdx (topIdx (tie k) pq)) with
          | none => none
          | some st => relaxLoopFull tie fuel (k + 1) st.1 st.2

/-- The variant of `FindPath` that keeps relaxing until the queue is empty. -/
def FindPathFull (fuel : Nat) (tie : Nat → Nat) (g : Graph α) : Option (Graph α) :=
  FindPathWith (fun _ nodes pq => relaxLoopFull tie fuel 0 nodes pq) fuel g

/-- The states in which the loop `while (!pq.empty())` of `FindPath`, started
with the nodes `nodes0` and the queue `pq0`, evaluates its condition: the
number of iterations done, the nodes and the queue. -/
inductive LoopState (tie : Nat → Nat) (end_node : Nat) (nodes0 : List (Node α))
    (pq0 : List (QNode α)) : Nat → List (Node α) → List (QNode α) → Prop
  | start : LoopState tie end_node nodes0 pq0 0 nodes0 pq0
  | next {k : Nat} {nodes : List (Node α)} {pq : List (QNode α)} {lowest : QNode α}
      {un : Node α} {st : List (Node α) × List (QNode α)} :
      LoopState tie end_node nodes0 pq0 k nodes pq →
      pq[topIdx (tie k) pq]? = some lowest → lowest.node ≠ end_node →
      nodes[lowest.node]? = some un →
      relaxEdges lowest.node lowest.cost un.edge_
        (nodes, pq.eraseIdx (topIdx (tie k) pq)) = some st →
      LoopState tie end_node nodes0 pq0 (k + 1) st.1 st.2

/-- Two nodes joined by an edge of cost 1, after a call of `FindPath` from the
second node to the first and `SetStartNode` with the first node: the first
node is start node and end node, and its `prev` pointer is the second node. -/
def staleSameGraph : Graph Int :=
  { (Graph.new : Graph Int) with
    node_ := [{ (Node.new 0 0 0 : Node Int) with
                edge_ := [⟨0, 1, 1⟩], cost_ := 1, on_path_ := true, prev_ := some 1 },
              { (Node.new 1 1 0 : Node Int) with
                edge_ := [⟨1, 0, 1⟩], cost_ := 0, on_path_ := true }],
    start_node_ := some 0, end_node_ := some 0, path_node_ := [some 1, some 0] }


/-- Four nodes: the edges 0–1 and 1–2 cost 1, the edge 0–2 costs 5 and the
edge 2–3 costs 10; node 0 is the start node and node 3 the end node. On the
way from node 0 the entry of node 2 with cost 5 goes stale. -/
def staleEntryGraph : Graph Int :=
  { (Graph.new : Graph Int) with
    node_ := [{ (Node.new 0 0 0 : Node Int) with edge_ := [⟨0, 1, 1⟩, ⟨0, 2, 5⟩] },
              { (Node.new 1 1 0 : Node Int) with edge_ := [⟨1, 0, 1⟩, ⟨1, 2, 1⟩] },
              { (Node.new 2 2 0 : Node Int) with
                edge_ := [⟨2, 0, 5⟩, ⟨2, 1, 1⟩, ⟨2, 3, 10⟩] },
              { (Node.new 3 3 0 : Node Int) with edge_ := [⟨3, 2, 10⟩] }],
    start_node_ := some 0, end_node_ := some 3 }

/-- Two results of a path computation give the same answer for the end node
`e`: the same `path_node_`, the same cost of `e`, and the same `prev` pointer
at every node of the path. -/
def SameAnswer (e : Nat) (g1 g2 : Graph α) : Prop :=
  g1.path_node_ = g2.path_node_ ∧ costOf g1.node_ e = costOf g2.node_ e ∧
    ∀ x, some x ∈ g1.path_node_ → prevOf g1.node_ x = prevOf g2.node_ x


/-- Two nodes joined by an edge of cost 1, as `AddNode`, `AddNeighbor`,
`SetStartNode` and `SetEndNode` build them: the second node is the start node
and the first the end node. -/
def pairGraph : Graph Int :=
  { (Graph.new : Graph Int) with
    node_ := [{ (Node.new 0 0 0 : Node Int) with edge_ := [⟨0, 1, 1⟩] },
              { (Node.new 1 1 0 : Node Int) with edge_ := [⟨1, 0, 1⟩] }],
    start_node_ := some 1, end_node_ := some 0 }

/-! ## `Graph::BuildGrid` with the weight expression as a parameter -/

/-- The guarded statement `if (c) { rand_weight = ...;
node_[a]->AddNeighbor(node_[b], rand_weight); }` of `BuildGrid` with the
expression for the weight as a parameter: `weight k` is the value that the
assignment to `rand_weight` number `k` stores. The source has
`10 + (rand() % 6)` there and the remark that all weights may be set to 1. -/
def gridAddWith (weight : Nat → α) (c : Prop) [Decidable c] (a b : Nat)
    (st : List (Node α) × Nat) : Option (List (Node α) × Nat) :=
  if c then
    match AddNeighbor st.1 a b (weight st.2) with
    | none => none
    | some nodes => some (nodes, st.2 + 1)
  else some st

/-- The body of the second loop nest of `BuildGrid` at row `i`, column `j`,
with the expression for the weight as a parameter. -/
def gridConnectCellWith (weight : Nat → α) (cols rows i j : Nat)
    (st : List (Node α) × Nat × Nat) : Option (List (Node α) × Nat × Nat) :=
  match gridAddWith weight (j < cols - 1) st.2.1 (st.2.1 + 1) (st.1, st.2.2) with
  | none => none
  | some st1 =>
    match gridAddWith weight (i < rows - 1) st.2.1 ((i + 1) * cols + j) st1 with
    | none => none
    | some st2 => some (st2.1, st.2.1 + 1, st2.2)

/-- The second loop nest of `BuildGrid` with the expression for the weight as
a parameter. -/
def gridConnectWith (weight : Nat → α) (cols rows : Nat) (nodes : List (Node α)) :
    Option (List (Node α) × Nat × Nat) :=
  forLoop (fun i st => forLoop (gridConnectCellWith weight cols rows i) 0 cols st) 0 rows
    (nodes, 0, 0)

/-- The method `Graph::BuildGrid` with the expression for the weight as a
parameter. -/
def BuildGridWith (weight : Nat → α) (fuel : Nat) (tie : Nat → Nat) (cols rows : Nat)
    (disp_x disp_y start_x start_y viewport_height : α)
    (node_sprite edge_sprite : Option (GameObject α)) (g : Graph α) : Option (Graph α) :=
  let added := gridAddRows cols disp_x disp_y start_x rows
    (g.node_, 0, start_x, viewport_height - start_y)
  match gridConnectWith weight cols rows added.1 with
  | none => none
  | some st =>
    if 0 < st.1.length then
      if rows * cols - 1 < st.1.length ∧ 0 < rows * cols then
        FindPath fuel tie
          { g with node_obj_ := node_sprite, edge_obj_ := edge_sprite, node_ := st.1,
                   start_node_ := some 0, end_node_ := some (rows * cols - 1) }
      else none
    else none

/-- The cells with the row-major indices `u` and `v` lie side by side in a
row or one above the other in a column of the grid. -/
def GridAdj (cols rows u v : Nat) : Prop :=
  isRB cols rows u v ∨ isRB cols rows v u

instance (cols rows u v : Nat) : Decidable (GridAdj cols rows u v) := by
  unfold GridAdj
  infer_instance

/-- The adjacency lists of the grid of 3 columns and 3 rows with every edge
weight 1, in the order in which `BuildGrid` fills them. -/
def unitGrid3Edges : List (List (Edge α)) :=
  [[⟨0, 1, 1⟩, ⟨0, 3, 1⟩],
   [⟨1, 0, 1⟩, ⟨1, 2, 1⟩, ⟨1, 4, 1⟩],
   [⟨2, 1, 1⟩, ⟨2, 5, 1⟩],
   [⟨3, 0, 1⟩, ⟨3, 4, 1⟩, ⟨3, 6, 1⟩],
   [⟨4, 1, 1⟩, ⟨4, 3, 1⟩, ⟨4, 5, 1⟩, ⟨4, 7, 1⟩],
   [⟨5, 2, 1⟩, ⟨5, 4, 1⟩, ⟨5, 8, 1⟩],
   [⟨6, 3, 1⟩, ⟨6, 7, 1⟩],
   [⟨7, 4, 1⟩, ⟨7, 6, 1⟩, ⟨7, 8, 1⟩],
   [⟨8, 5, 1⟩, ⟨8, 7, 1⟩]]


/-! ## `Graph::FindPath` with the `float` arithmetic of the code -/

/-- The spacing of the `float` values around the natural number `m`: the
least of the powers of two `q`, `2 * q`, `4 * q`, ... for which `m` is below
`2 ^ 24` times the power. -/
def quantum (m : Nat) : Nat → Nat → Nat
  | 0, q => q
  | fuel + 1, q => if m / q < 2 ^ 24 then q else quantum m fuel (2 * q)

/-- The `float` (IEEE 754 binary32) value nearest to the natural number `m`,
ties going to the even significand; `2 ^ 128` stands for infinity. -/
def roundMag (m : Nat) : Nat :=
  let q := quantum m m 1
  let k := m / q
  let r := m % q
  let k1 := if 2 * r < q then k else if q < 2 * r then k + 1 else if k % 2 = 0 then k else k + 1
  if 2 ^ 128 ≤ k1 * q then 2 ^ 128 else k1 * q

/-- The conversion of an integer to `float`, which is also the rounding of a
sum of two `float` values that are integers: the `float` value nearest to
`x`, ties going to the even significand. -/
def roundF32 (x : Int) : Int :=
  if 0 ≤ x then (roundMag x.toNat : Int) else -(roundMag (-x).toNat : Int)

/-- One pass of the body of the loop over the edges of the popped node, with
the sum `lowest.cost + edge.cost` rounded to `float` by `rnd` as it is stored
in `float node_cost`. -/
def relaxEdgeF (rnd : α → α) (u : Nat) (c : α) (st : List (Node α) × List (QNode α))
    (edge : Edge α) : Option (List (Node α) × List (QNode α)) :=
  match st.1[edge.n2]? with
  | none => none
  | some n =>
    let node_cost := rnd (c + edge.cost)
    if node_cost < n.cost_ then
      some (st.1.set edge.n2 { n with cost_ := node_cost, prev_ := some u },
            st.2 ++ [⟨edge.n2, node_cost⟩])
    else some st

/-- The loop over the edges of the popped node, in `float` arithmetic. -/
def relaxEdgesF (rnd : α → α) (u : Nat) (c : α) :
    List (Edge α) → List (Node α) × List (QNode α) → Option (List (Node α) × List (QNode α))
  | [], st => some st
  | edge :: rest, st =>
    match relaxEdgeF rnd u c st edge with
    | none => none
    | some st1 => relaxEdgesF rnd u c rest st1

/-- The loop `while (!pq.empty())` of `FindPath` in `float` arithmetic; `k`
counts the iterations done so far. -/
def relaxLoopF (rnd : α → α) (tie : Nat → Nat) (end_node : Nat) :
    Nat → Nat → List (Node α) → List (QNode α) → Option (List (Node α))
  | 0, _, _, _ => none
  | fuel + 1, k, nodes, pq =>
    if pq.isEmpty then some nodes
    else
      match pq[topIdx (tie k) pq]? with
      | none => none
      | some lowest =>
        if lowest.node = end_node then some nodes
        else
          match nodes[lowest.node]? with
          | none => none
          | some un =>
            match relaxEdgesF rnd lowest.node lowest.cost un.edge_
                (nodes, pq.eraseIdx (topIdx (tie k) pq)) with
            | none => none
            | some st => relaxLoopF rnd tie end_node fuel (k + 1) st.1 st.2

/-- The method `Graph::FindPath` with the `float` arithmetic of the code:
`rnd` rounds a number to `float`. The call `SetCost(INT_MAX)` converts the
`int` to `float` and so stores `rnd INT_MAX`, and every sum of a cost and an
edge cost is rounded as it is stored. The start node gets the cost `0.0`. -/
def FindPathF (rnd : α → α) (fuel : Nat) (tie : Nat → Nat) (g : Graph α) : Option (Graph α) :=
  match g.start_node_, g.end_node_ with
  | some s, some e =>
    let nodes0 : List (Node α) :=
      g.node_.map (fun n => { n with cost_ := rnd INT_MAX, on_path_ := false })
    match nodes0[s]? with
    | none => none
    | some sn =>
      match relaxLoopF rnd tie e fuel 0 (nodes0.set s { sn with cost_ := 0 }) [⟨s, 0⟩] with
      | none => none
      | some nodes2 =>
        match nodes2[e]? with
        | none => none
        | some en =>
          match backtrack s fuel en.prev_ nodes2 [some e] with
          | none => none
          | some (nodes3, path, cur) =>
            match setOnPath nodes3 s with
            | none => none
            | some nodes4 =>
              match setOnPath nodes4 e with
              | none => none
              | some nodes5 =>
                some { g with node_ := nodes5, path_node_ := (path ++ [cur]).reverse }
  | _, _ => none

/-- The node as the `float` code stores it when in exact arithmetic it is
stored as `n`: a cost `INT_MAX` is stored as `rnd INT_MAX`. -/
def Node.stored (rnd : α → α) (n : Node α) : Node α :=
  { n with cost_ := if n.cost_ = INT_MAX then rnd INT_MAX else n.cost_ }

/-- The graph with every node as the `float` code stores it. -/
def Graph.stored (rnd : α → α) (g : Graph α) : Graph α :=
  { g with node_ := g.node_.map (Node.stored rnd) }

/-- The costs of the walks from the start node `s`, summed edge by edge in
`float` arithmetic: `FCost rnd nodes s v c` holds when some sequence of edges
leads from `s` to `v` and the sums along it, each rounded by `rnd`, end
with `c`. -/
inductive FCost (rnd : α → α) (nodes : List (Node α)) (s : Nat) : Nat → α → Prop
  | start : FCost rnd nodes s s 0
  | step {u : Nat} {c : α} {e : Edge α} : FCost rnd nodes s u c → e ∈ edgesOf nodes u →
      FCost rnd nodes s e.n2 (rnd (c + e.cost))

/-- Every edge cost is a natural number, `W` at most. -/
def CostsUpTo (W : Nat) (nodes : List (Node α)) : Prop :=
  ∀ n ∈ nodes, ∀ e ∈ n.edge_, ∃ j : Nat, e.cost = (j : α) ∧ j ≤ W

/-- Three nodes in a line, joined by edges of cost 16777216 and 1: the sum of
the two costs is no `float` value. -/
def roundingGraph : Graph Int :=
  { (Graph.new : Graph Int) with
    node_ := [{ (Node.new 0 0 0 : Node Int) with edge_ := [⟨0, 1, 16777216⟩] },
              { (Node.new 1 1 0 : Node Int) with edge_ := [⟨1, 0, 16777216⟩, ⟨1, 2, 1⟩] },
              { (Node.new 2 2 0 : Node Int) with edge_ := [⟨2, 1, 1⟩] }],
    start_node_ := some 0, end_node_ := some 2 }

/-- Three nodes in a line, joined by edges of cost 2147483520 and 64: the sum
of the two costs is below `INT_MAX`, and as a `float` it is `2 ^ 31`. -/
def nearSentinelGraph : Graph Int :=
  { (Graph.new : Graph Int) with
    node_ := [{ (Node.new 0 0 0 : Node Int) with edge_ := [⟨0, 1, 2147483520⟩] },
              { (Node.new 1 1 0 : Node Int) with edge_ := [⟨1, 0, 2147483520⟩, ⟨1, 2, 64⟩] },
              { (Node.new 2 2 0 : Node Int) with edge_ := [⟨2, 1, 64⟩] }],
    start_node_ := some 0, end_node_ := some 2 }

/-- Five nodes in a line, joined by edges of cost 2147483520, 60, 60 and 60:
every sum of 2147483520 and 60 is rounded to 2147483520 as a `float`. -/
def chainGraph : Graph Int :=
  { (Graph.new : Graph Int) with
    node_ := [{ (Node.new 0 0 0 : Node Int) with edge_ := [⟨0, 1, 2147483520⟩] },
              { (Node.new 1 1 0 : Node Int) with edge_ := [⟨1, 0, 2147483520⟩, ⟨1, 2, 60⟩] },
              { (Node.new 2 2 0 : Node Int) with edge_ := [⟨2, 1, 60⟩, ⟨2, 3, 60⟩] },
              { (Node.new 3 3 0 : Node Int) with edge_ := [⟨3, 2, 60⟩, ⟨3, 4, 60⟩] },
              { (Node.new 4 4 0 : Node Int) with edge_ := [⟨4, 3, 60⟩] }],
    start_node_ := some 0, end_node_ := some 4 }

/-- Two nodes joined by an edge whose cost is `2 ^ 31`, the `float` value
that `FindPath` stores for `INT_MAX`. -/
def farGraph : Graph Int :=
  { (Graph.new : Graph Int) with
    node_ := [{ (Node.new 0 0 0 : Node Int) with edge_ := [⟨0, 1, 2147483648⟩] },
              { (Node.new 1 1 0 : Node Int) with edge_ := [⟨1, 0, 2147483648⟩] }],
    start_node_ := some 0, end_node_ := some 1 }

/-- Two nodes joined by an edge of cost 1 whose ids, 5 and 6, are not their
indices in the node vector. -/
def offsetIdGraph : Graph Int :=
  { (Graph.new : Graph Int) with
    node_ := [{ (Node.new 5 0 0 : Node Int) with edge_ := [⟨0, 1, 1⟩] },
              { (Node.new 6 1 0 : Node Int) with edge_ := [⟨1, 0, 1⟩] }],
    start_node_ := some 0, end_node_ := some 1 }

/-! ## `Graph::SelectNode` in binary floating-point arithmetic

The pick test of `SelectNode` is computed with `float` and `double` values.
The definitions below follow IEEE 754 arithmetic with rounding to nearest,
ties to even: every operation yields the exact result rounded once to the
format of its C++ type. -/

/-- A value of a binary floating-point format. A finite value is a sign and a
magnitude counted in units of `2 ^ (-1074)`, the smallest positive `double`;
zero carries a sign. The other values are the two infinities and "not a
number". -/
inductive Fp where
  | fin (neg : Bool) (mag : Nat)
  | inf (neg : Bool)
  | nan
deriving DecidableEq, Repr

/-- A binary format: the number of significant bits, the spacing of the
subnormal values and the least magnitude that rounds to infinity, the last
two in units of `2 ^ (-1074)`. -/
structure Fmt where
  prec : Nat
  grid : Nat
  huge : Nat
deriving DecidableEq, Repr

/-- The format `float`: 24 significant bits, subnormal spacing `2 ^ (-149)`,
overflow from `2 ^ 128`. -/
def binary32 : Fmt := { prec := 24, grid := 2 ^ 925, huge := 2 ^ 1202 }

/-- The format `double`: 53 significant bits, subnormal spacing
`2 ^ (-1074)`, overflow from `2 ^ 1024`. -/
def binary64 : Fmt := { prec := 53, grid := 1, huge := 2 ^ 2098 }

/-- The spacing of the values of `prec` significant bits around `m`: the least
power of two `q` (from the start value on) with `m / q < 2 ^ prec`. -/
def spacing (prec m : Nat) : Nat → Nat → Nat
  | 0, q => q
  | fuel + 1, q => if m / q < 2 ^ prec then q else spacing prec m fuel (2 * q)

/-- The magnitude `n / d` (in units of `2 ^ (-1074)`) rounded to the format,
to nearest with ties to even, with the given sign. -/
def roundFp (f : Fmt) (neg : Bool) (n d : Nat) : Fp :=
  let D := d * f.grid
  let N := n / D
  let R := n % D
  let q := spacing f.prec N N 1
  let k := N / q
  let twice := 2 * ((N % q) * D + R)
  let k1 := if twice < q * D then k else if q * D < twice then k + 1
    else if k % 2 = 0 then k else k + 1
  if f.huge ≤ k1 * q * f.grid then Fp.inf neg else Fp.fin neg (k1 * q * f.grid)

/-- The least power of two (from the start value on) whose square exceeds
`n`. -/
def rootBound (n : Nat) : Nat → Nat → Nat
  | 0, g => g
  | fuel + 1, g => if n < g * g then g else rootBound n fuel (2 * g)

/-- The iteration of Heron from a guess above the square root of `n`: it
stops at the first guess that the next one does not improve. -/
def heron (n : Nat) : Nat → Nat → Nat
  | 0, g => g
  | fuel + 1, g =>
    if (g + n / g) / 2 < g then heron n fuel ((g + n / g) / 2) else g

/-- The integer square root of `n`. -/
def isqrt (n : Nat) : Nat := heron n n (rootBound n n 1)

/-- The number one, `2 ^ 1074` units. -/
def Fp.unit : Nat := 2 ^ 1074

/-- The conversion of an integer to the format. -/
def Fp.ofInt (f : Fmt) (z : Int) : Fp :=
  roundFp f (decide (z < 0)) (z.natAbs * Fp.unit) 1

/-- The conversion of a value to the format: of a `double` to `float` when it
is stored in a `float` variable. -/
def Fp.cvt (f : Fmt) : Fp → Fp
  | Fp.fin s x => roundFp f s x 1
  | a => a

/-- The unary minus. -/
def Fp.neg : Fp → Fp
  | Fp.fin s x => Fp.fin (!s) x
  | Fp.inf s => Fp.inf (!s)
  | Fp.nan => Fp.nan

/-- The sum of two values in the format. -/
def Fp.add (f : Fmt) : Fp → Fp → Fp
  | Fp.nan, _ => Fp.nan
  | _, Fp.nan => Fp.nan
  | Fp.inf s, Fp.inf t => if s = t then Fp.inf s else Fp.nan
  | Fp.inf s, Fp.fin _ _ => Fp.inf s
  | Fp.fin _ _, Fp.inf t => Fp.inf t
  | Fp.fin s x, Fp.fin t y =>
    if s = t then roundFp f s (x + y) 1
    else if y < x then roundFp f s (x - y) 1
    else if x < y then roundFp f t (y - x) 1
    else Fp.fin false 0

/-- The difference of two values in the format. -/
def Fp.sub (f : Fmt) (a b : Fp) : Fp := Fp.add f a (Fp.neg b)

/-- The product of two values in the format. -/
def Fp.mul (f : Fmt) : Fp → Fp → Fp
  | Fp.nan, _ => Fp.nan
  | _, Fp.nan => Fp.nan
  | Fp.inf s, Fp.inf t => Fp.inf (xor s t)
  | Fp.inf s, Fp.fin t y => if y = 0 then Fp.nan else Fp.inf (xor s t)
  | Fp.fin s x, Fp.inf t => if x = 0 then Fp.nan else Fp.inf (xor s t)
  | Fp.fin s x, Fp.fin t y => roundFp f (xor s t) (x * y) Fp.unit

/-- The quotient of two values in the format. -/
def Fp.div (f : Fmt) : Fp → Fp → Fp
  | Fp.nan, _ => Fp.nan
  | _, Fp.nan => Fp.nan
  | Fp.inf _, Fp.inf _ => Fp.nan
  | Fp.inf s, Fp.fin t _ => Fp.inf (xor s t)
  | Fp.fin s _, Fp.inf t => Fp.fin (xor s t) 0
  | Fp.fin s x, Fp.fin t y =>
    if y = 0 then (if x = 0 then Fp.nan else Fp.inf (xor s t))
    else roundFp f (xor s t) (x * Fp.unit) y

/-- The square root in the format: the root of `x * 2 ^ (-1074)` is half the
root of `4 * x * 2 ^ 1074` units; when that root is no whole number, a quarter
above its integer part lies on the same side of every value of the format and
of every midpoint between two of them. -/
def Fp.sqrt (f : Fmt) : Fp → Fp
  | Fp.nan => Fp.nan
  | Fp.inf s => if s then Fp.nan else Fp.inf false
  | Fp.fin s x =>
    if x = 0 then Fp.fin s 0
    else if s then Fp.nan
    else
      let X := 4 * x * Fp.unit
      let N := isqrt X
      roundFp f false (if N * N = X then 2 * N else 2 * N + 1) 4

/-- The comparison `a < b`. -/
def Fp.lt : Fp → Fp → Bool
  | Fp.nan, _ => false
  | _, Fp.nan => false
  | Fp.inf s, Fp.inf t => s && !t
  | Fp.inf s, Fp.fin _ _ => s
  | Fp.fin _ _, Fp.inf t => !t
  | Fp.fin s x, Fp.fin t y =>
    match s, t with
    | false, false => decide (x < y)
    | true, true => decide (y < x)
    | true, false => decide (x ≠ 0 ∨ y ≠ 0)
    | false, true => false

/-- The comparison `a > b`. -/
def Fp.gt (a b : Fp) : Bool := Fp.lt b a

/-- The test `x < 0 || x > window_width || y < 0 || y > window_height` on
`double` values. -/
def outsideWindowF (x y : Fp) (window_width window_height : Int) : Bool :=
  Fp.lt x (Fp.ofInt binary64 0) || Fp.gt x (Fp.ofInt binary64 window_width) ||
  Fp.lt y (Fp.ofInt binary64 0) || Fp.gt y (Fp.ofInt binary64 window_height)

/-- The values `cursor_x_pos` and `cursor_y_pos` of `SelectNode`. The literals
`2.0f` and `-2.0f` and the `float` operands are promoted to `double` without
change; `w/h`, `h/w`, `w*camera_zoom` and `h*camera_zoom` are `float`
operations, the others `double` operations, and the result is stored in a
`float`. -/
def cursorPosF (x y : Fp) (window_width window_height : Int) (camera_zoom : Fp) : Fp × Fp :=
  let w := Fp.ofInt binary32 window_width
  let h := Fp.ofInt binary32 window_height
  let two := Fp.ofInt binary32 2
  if Fp.gt w h then
    let aspect_ratio := Fp.div binary32 w h
    (Fp.cvt binary32 (Fp.div binary64
        (Fp.mul binary64 (Fp.sub binary64 (Fp.mul binary64 two x) w) aspect_ratio)
        (Fp.mul binary32 w camera_zoom)),
     Fp.cvt binary32 (Fp.div binary64
        (Fp.add binary64 (Fp.mul binary64 (Fp.neg two) y) h)
        (Fp.mul binary32 h camera_zoom)))
  else
    let aspect_ratio := Fp.div binary32 h w
    (Fp.cvt binary32 (Fp.div binary64
        (Fp.sub binary64 (Fp.mul binary64 two x) w)
        (Fp.mul binary32 w camera_zoom)),
     Fp.cvt binary32 (Fp.div binary64
        (Fp.mul binary64 (Fp.add binary64 (Fp.mul binary64 (Fp.neg two) y) h) aspect_ratio)
        (Fp.mul binary32 h camera_zoom)))

/-- The value `glm::length(v)` of a vector of two `float` components: the
square root of the sum of the squares, each operation in `float`. -/
def lengthF (vx vy : Fp) : Fp :=
  Fp.sqrt binary32 (Fp.add binary32 (Fp.mul binary32 vx vx) (Fp.mul binary32 vy vy))

/-- The test `glm::length(cursor - center) < node_scale*node_scale` of the
loop of `SelectNode` for the node `n`. -/
def hitsNodeF (cursor : Fp × Fp) (node_scale : Fp) (n : Node Fp) : Bool :=
  Fp.lt (lengthF (Fp.sub binary32 cursor.1 n.x_) (Fp.sub binary32 cursor.2 n.y_))
    (Fp.mul binary32 node_scale node_scale)

/-- The loop of `SelectNode` over the nodes from index `i` on: the index of
the first node that passes the test. -/
def pickLoopF (cursor : Fp × Fp) (node_scale : Fp) : List (Node Fp) → Nat → Option Nat
  | [], _ => none
  | n :: rest, i =>
    if hitsNodeF cursor node_scale n then some i else pickLoopF cursor node_scale rest (i + 1)

/-- The method `Graph::SelectNode` in floating-point arithmetic: `some none`
is the result `NULL`; the call has no result when it dereferences the null
sprite pointer. -/
def SelectNodeF (g : Graph Fp) (x y : Fp) (window_width window_height : Int)
    (camera_zoom : Fp) : Option (Option Nat) :=
  if outsideWindowF x y window_width window_height then some none
  else
    let cursor := cursorPosF x y window_width window_height camera_zoom
    match g.node_obj_ with
    | none => none
    | some node_obj => some (pickLoopF cursor node_obj.scale_ g.node_ 0)

/-- The number a finite value stands for; the other values have none. -/
def Fp.toRat : Fp → Option ℚ
  | Fp.fin s x => some ((if s then -1 else 1) * (x : ℚ) / 2 ^ 1074)
  | _ => none

/-- A node at the position `(x, y)` with the given id, as the constructor
`Node::Node(id, x, y)` builds it. -/
def Node.newF (id : Int) (x y : Fp) : Node Fp :=
  { edge_ := [], id_ := id, x_ := x, y_ := y, visited_ := false,
    cost_ := Fp.ofInt binary32 2147483647, on_path_ := false, prev_ := none }

/-- A graph with a single node at `(67108864, 0)` and a node sprite of scale
8192. -/
def farPickGraph : Graph Fp :=
  { node_obj_ := some ⟨Fp.ofInt binary32 8192⟩, edge_obj_ := none,
    node_ := [Node.newF 0 (Fp.ofInt binary32 67108864) (Fp.ofInt binary32 0)],
    hover_node_ := none, start_node_ := none, end_node_ := none, path_node_ := [] }

/-- A graph with a node at `(1, 0)` and a node at the origin, and a node
sprite of scale 2. -/
def nearGraphF : Graph Fp :=
  { node_obj_ := some ⟨Fp.ofInt binary32 2⟩, edge_obj_ := none,
    node_ := [Node.newF 0 (Fp.ofInt binary32 1) (Fp.ofInt binary32 0),
              Node.newF 1 (Fp.ofInt binary32 0) (Fp.ofInt binary32 0)],
    hover_node_ := none, start_node_ := none, end_node_ := none, path_node_ := [] }

/-- A graph with a single node at the origin and a node sprite of the scale
`2 ^ (-75)`, whose square `2 ^ (-150)` is half the smallest positive `float`. -/
def tinyScaleGraph : Graph Fp :=
  { node_obj_ := some ⟨Fp.fin false (2 ^ 999)⟩, edge_obj_ := none,
    node_ := [Node.newF 0 (Fp.ofInt binary32 0) (Fp.ofInt binary32 0)],
    hover_node_ := none, start_node_ := none, end_node_ := none, path_node_ := [] }

end Defs

/-! ## Lemmas on the node vector -/

section Basic

variable {α : Type} [LinearOrderedCommRing α]

theorem edgesOf_of_get {nodes : List (Node α)} {u : Nat} {n : Node α}
    (h : nodes[u]? = some n) : edgesOf nodes u = n.edge_ := by
  simp [edgesOf, h]

theorem edgesOf_of_map_eq {nodes nodes1 : List (Node α)}
    (h : nodes1.map Node.edge_ = nodes.map Node.edge_) : edgesOf nodes1 = edgesOf nodes := by
  funext u
  have h1 : (nodes1.map Node.edge_)[u]? = (nodes.map Node.edge_)[u]? := by rw [h]
  simp only [List.getElem?_map] at h1
  unfold edgesOf
  cases h2 : nodes1[u]? <;> cases h3 : nodes[u]? <;> simp_all

theorem AddEdge_eq_some_iff {nodes nodes1 : List (Node α)} {i : Nat} {e : Edge α} :
    AddEdge nodes i e = some nodes1 ↔
      ∃ n, nodes[i]? = some n ∧ nodes1 = nodes.set i { n with edge_ := n.edge_ ++ [e] } := by
  unfold AddEdge
  cases h : nodes[i]? with
  | none => simp
  | some n => simp [eq_comm]

theorem AddEdge_length {nodes nodes1 : List (Node α)} {i : Nat} {e : Edge α}
    (h : AddEdge nodes i e = some nodes1) : nodes1.length = nodes.length := by
  obtain ⟨n, _, rfl⟩ := AddEdge_eq_some_iff.1 h
  simp

theorem AddEdge_isSome {nodes : List (Node α)} {i : Nat} (e : Edge α)
    (h : i < nodes.length) : ∃ nodes1, AddEdge nodes i e = some nodes1 := by
  unfold AddEdge
  rw [List.getElem?_eq_getElem h]
  exact ⟨_, rfl⟩

theorem AddEdge_edgesOf {nodes nodes1 : List (Node α)} {i : Nat} {e : Edge α}
    (h : AddEdge nodes i e = some nodes1) (u : Nat) :
    edgesOf nodes1 u = edgesOf nodes u ++ (if u = i then [e] else []) := by
  obtain ⟨n, hn, rfl⟩ := AddEdge_eq_some_iff.1 h
  have hi : i < nodes.length := by
    rcases List.getElem?_eq_some.1 hn with ⟨hlt, _⟩
    exact hlt
  unfold edgesOf
  by_cases hu : u = i
  · subst hu
    simp [List.getElem?_set, hi, hn]
  · have hne : i ≠ u := fun h1 => hu h1.symm
    simp [List.getElem?_set, hne, hu]

/-- The nodes after `AddEdge` differ from the nodes before only in the
adjacency list of the node at `i`. -/
theorem AddEdge_get {nodes nodes1 : List (Node α)} {i : Nat} {e : Edge α}
    (h : AddEdge nodes i e = some nodes1) (u : Nat) :
    nodes1[u]? = (nodes[u]?).map
      (fun n => if u = i then { n with edge_ := n.edge_ ++ [e] } else n) := by
  obtain ⟨n, hn, rfl⟩ := AddEdge_eq_some_iff.1 h
  have hi : i < nodes.length := by
    rcases List.getElem?_eq_some.1 hn with ⟨hlt, _⟩
    exact hlt
  by_cases hu : u = i
  · subst hu
    simp [List.getElem?_set, hi, hn]
  · have hne : i ≠ u := fun h1 => hu h1.symm
    simp only [List.getElem?_set, hne, if_false, hu]
    cases nodes[u]? <;> simp

theorem AddNeighbor_eq_some_iff {nodes nodes2 : List (Node α)} {a b : Nat} {w : α} :
    AddNeighbor nodes a b w = some nodes2 ↔
      ∃ nodes1, AddEdge nodes a ⟨a, b, w⟩ = some nodes1 ∧
        AddEdge nodes1 b ⟨b, a, w⟩ = some nodes2 := by
  unfold AddNeighbor
  cases h : AddEdge nodes a ⟨a, b, w⟩ with
  | none => simp
  | some nodes1 => simp

theorem AddNeighbor_length {nodes nodes2 : List (Node α)} {a b : Nat} {w : α}
    (h : AddNeighbor nodes a b w = some nodes2) : nodes2.length = nodes.length := by
  obtain ⟨nodes1, h1, h2⟩ := AddNeighbor_eq_some_iff.1 h
  rw [AddEdge_length h2, AddEdge_length h1]

theorem AddNeighbor_isSome {nodes : List (Node α)} {a b : Nat} (w : α)
    (ha : a < nodes.length) (hb : b < nodes.length) :
    ∃ nodes2, AddNeighbor nodes a b w = some nodes2 := by
  obtain ⟨nodes1, h1⟩ := AddEdge_isSome (⟨a, b, w⟩ : Edge α) ha
  have hb1 : b < nodes1.length := by rw [AddEdge_length h1]; exact hb
  obtain ⟨nodes2, h2⟩ := AddEdge_isSome (⟨b, a, w⟩ : Edge α) hb1
  exact ⟨nodes2, AddNeighbor_eq_some_iff.2 ⟨nodes1, h1, h2⟩⟩

theorem AddNeighbor_valid {nodes nodes2 : List (Node α)} {a b : Nat} {w : α}
    (h : AddNeighbor nodes a b w = some nodes2) : a < nodes.length ∧ b < nodes.length := by
  obtain ⟨nodes1, h1, h2⟩ := AddNeighbor_eq_some_iff.1 h
  obtain ⟨n, hn, _⟩ := AddEdge_eq_some_iff.1 h1
  obtain ⟨m, hm, _⟩ := AddEdge_eq_some_iff.1 h2
  rcases List.getElem?_eq_some.1 hn with ⟨hlt, _⟩
  rcases List.getElem?_eq_some.1 hm with ⟨hlt2, _⟩
  rw [AddEdge_length h1] at hlt2
  exact ⟨hlt, hlt2⟩

/-- The adjacency lists after `AddNeighbor`: the list of `a` gains the edge to
`b` at its end, then the list of `b` gains the edge to `a` at its end. -/
theorem AddNeighbor_edgesOf {nodes nodes2 : List (Node α)} {a b : Nat} {w : α}
    (h : AddNeighbor nodes a b w = some nodes2) (u : Nat) :
    edgesOf nodes2 u = edgesOf nodes u ++ (if u = a then [⟨a, b, w⟩] else []) ++
      (if u = b then [⟨b, a, w⟩] else []) := by
  obtain ⟨nodes1, h1, h2⟩ := AddNeighbor_eq_some_iff.1 h
  rw [AddEdge_edgesOf h2, AddEdge_edgesOf h1]

theorem AddNeighbor_get {nodes nodes2 : List (Node α)} {a b : Nat} {w : α}
    (h : AddNeighbor nodes a b w = some nodes2) (u : Nat) :
    nodes2[u]? = (nodes[u]?).map (fun n =>
      { n with edge_ := n.edge_ ++ (if u = a then [⟨a, b, w⟩] else []) ++
                 (if u = b then [⟨b, a, w⟩] else []) }) := by
  obtain ⟨nodes1, h1, h2⟩ := AddNeighbor_eq_some_iff.1 h
  rw [AddEdge_get h2, AddEdge_get h1]
  cases nodes[u]? with
  | none => simp
  | some n =>
    by_cases hua : u = a
    · subst hua
      by_cases hub : u = b
      · subst hub
        simp
      · simp [hub]
    · by_cases hub : u = b
      · subst hub
        simp [hua]
      · simp [hua, hub]

end Basic

/-! ## The relaxation of the edges of one node -/

section Relax

variable {α : Type} [LinearOrderedCommRing α]

theorem INT_MAX_pos : (0 : α) < INT_MAX := by
  unfold INT_MAX
  norm_num

theorem length_eq_of_map_eq {β : Type} {f : Node α → β} {nodes nodes1 : List (Node α)}
    (h : nodes1.map f = nodes.map f) : nodes1.length = nodes.length := by
  have := congrArg List.length h
  simpa using this

theorem edgesOf_of_fixed_eq {nodes nodes1 : List (Node α)}
    (h : nodes1.map Node.fixed = nodes.map Node.fixed) : edgesOf nodes1 = edgesOf nodes := by
  apply edgesOf_of_map_eq
  have := congrArg (List.map Prod.fst) h
  simpa [List.map_map, Function.comp_def, Node.fixed] using this

theorem costOf_set {nodes : List (Node α)} {i : Nat} {n : Node α} (hi : i < nodes.length)
    (x : Nat) : costOf (nodes.set i n) x = if x = i then n.cost_ else costOf nodes x := by
  unfold costOf
  by_cases hx : x = i
  · subst hx
    simp [hi]
  · have hne : i ≠ x := fun h => hx h.symm
    simp [List.getElem?_set_ne hne, hx]

theorem prevOf_set {nodes : List (Node α)} {i : Nat} {n : Node α} (hi : i < nodes.length)
    (x : Nat) : prevOf (nodes.set i n) x = if x = i then n.prev_ else prevOf nodes x := by
  unfold prevOf
  by_cases hx : x = i
  · subst hx
    simp [hi]
  · have hne : i ≠ x := fun h => hx h.symm
    simp [List.getElem?_set_ne hne, hx]

theorem onPathOf_set {nodes : List (Node α)} {i : Nat} {n : Node α} (hi : i < nodes.length)
    (x : Nat) : onPathOf (nodes.set i n) x = if x = i then n.on_path_ else onPathOf nodes x := by
  unfold onPathOf
  by_cases hx : x = i
  · subst hx
    simp [hi]
  · have hne : i ≠ x := fun h => hx h.symm
    simp [List.getElem?_set_ne hne, hx]

/-- Writing back a node that agrees with the stored one under `f` does not
change the image of the node vector under `f`. -/
theorem map_set_of_eq {β : Type} (f : Node α → β) {nodes : List (Node α)} {i : Nat}
    {n n1 : Node α} (h : nodes[i]? = some n) (hf : f n1 = f n) :
    (nodes.set i n1).map f = nodes.map f := by
  apply List.ext_getElem?
  intro k
  simp only [List.getElem?_map, List.getElem?_set]
  by_cases hk : i = k
  · subst hk
    rcases List.getElem?_eq_some.1 h with ⟨hlt, _⟩
    simp [hlt, h, hf]
  · simp [hk]

theorem relaxEdge_spec {u : Nat} {c : α} {st : List (Node α) × List (QNode α)} {e : Edge α}
    (hv : e.n2 < st.1.length) :
    ∃ st1, relaxEdge u c st e = some st1 ∧ RelaxSpec u c [e] st st1 := by
  obtain ⟨nodes, pq⟩ := st
  simp only at hv
  have hget : nodes[e.n2]? = some nodes[e.n2] := List.getElem?_eq_getElem hv
  have hcost : costOf nodes e.n2 = (nodes[e.n2]).cost_ := by simp [costOf, hget]
  unfold relaxEdge
  simp only [hget]
  by_cases hlt : c + e.cost < (nodes[e.n2]).cost_
  · simp only [hlt, if_true]
    refine ⟨_, rfl, ?_⟩
    constructor
    · exact map_set_of_eq Node.fixed hget rfl
    · exact map_set_of_eq Node.on_path_ hget rfl
    · intro x
      simp only [costOf_set hv]
      by_cases hx : x = e.n2
      · simp only [hx, if_true]
        rw [hcost]
        exact le_of_lt hlt
      · simp [hx]
    · intro x
      by_cases hx : x = e.n2
      · right
        subst hx
        refine ⟨?_, ?_, ⟨e, by simp, rfl, ?_⟩, ?_⟩
        · rw [costOf_set hv, hcost]
          simpa using hlt
        · rw [prevOf_set hv]
          simp
        · rw [costOf_set hv]
          simp
        · rw [costOf_set hv]
          simp
      · left
        rw [costOf_set hv, prevOf_set hv]
        simp [hx]
    · intro e1 he1
      have : e1 = e := by simpa using he1
      subst this
      simp [costOf_set hv]
    · refine ⟨[⟨e.n2, c + e.cost⟩], rfl, by simp, ?_⟩
      intro q hq
      have : q = ⟨e.n2, c + e.cost⟩ := by simpa using hq
      subst this
      refine ⟨e, by simp, rfl, rfl, ?_, ?_⟩
      · simp [costOf_set hv]
      · rw [hcost]
        exact hlt
  · simp only [hlt, if_false]
    refine ⟨_, rfl, ?_⟩
    constructor
    · rfl
    · rfl
    · intro x
      exact le_refl _
    · intro x
      left
      exact ⟨rfl, rfl⟩
    · intro e1 he1
      have : e1 = e := by simpa using he1
      subst this
      rw [hcost]
      exact not_lt.1 hlt
    · exact ⟨[], by simp, by simp, by simp⟩

theorem RelaxSpec.nil (u : Nat) (c : α) (st : List (Node α) × List (QNode α)) :
    RelaxSpec u c [] st st := by
  constructor
  · rfl
  · rfl
  · intro x
    exact le_refl _
  · intro x
    left
    exact ⟨rfl, rfl⟩
  · intro e he
    simp at he
  · exact ⟨[], by simp, by simp, by simp⟩

theorem RelaxSpec.cons {u : Nat} {c : α} {e : Edge α} {es : List (Edge α)}
    {st st1 st2 : List (Node α) × List (QNode α)}
    (h1 : RelaxSpec u c [e] st st1) (h2 : RelaxSpec u c es st1 st2) :
    RelaxSpec u c (e :: es) st st2 := by
  obtain ⟨a1, hq1, hl1, ha1⟩ := h1.queue
  obtain ⟨a2, hq2, hl2, ha2⟩ := h2.queue
  constructor
  · rw [h2.fixed, h1.fixed]
  · rw [h2.onp, h1.onp]
  · intro x
    exact le_trans (h2.le x) (h1.le x)
  · intro x
    rcases h2.change x with ⟨hc2, hp2⟩ | ⟨hc2, hp2, ⟨e2, he2, hn2, hv2⟩, hm2⟩
    · rcases h1.change x with ⟨hc1, hp1⟩ | ⟨hc1, hp1, ⟨e1, he1, hn1, hv1⟩, hm1⟩
      · left
        exact ⟨hc2.trans hc1, hp2.trans hp1⟩
      · right
        refine ⟨by rw [hc2]; exact hc1, by rw [hp2]; exact hp1, ⟨e1, ?_, hn1, by rw [hc2]; exact hv1⟩, ?_⟩
        · have : e1 = e := by simpa using he1
          simp [this]
        · rw [hq2, hc2]
          exact List.mem_append_left _ hm1
    · right
      exact ⟨lt_of_lt_of_le hc2 (h1.le x), hp2, ⟨e2, List.mem_cons_of_mem _ he2, hn2, hv2⟩, hm2⟩
  · intro e1 he1
    rcases List.mem_cons.1 he1 with rfl | hmem
    · exact le_trans (h2.le _) (h1.relaxed _ (by simp))
    · exact h2.relaxed _ hmem
  · refine ⟨a1 ++ a2, by rw [hq2, hq1, List.append_assoc], ?_, ?_⟩
    · simp only [List.length_append, List.length_cons]
      simp only [List.length_singleton] at hl1
      omega
    · intro q hq
      rcases List.mem_append.1 hq with hq | hq
      · obtain ⟨e1, he1, hn, hc, hle, hlt⟩ := ha1 q hq
        have he : e1 = e := by simpa using he1
        exact ⟨e1, by simp [he], hn, hc, le_trans (h2.le _) hle, hlt⟩
      · obtain ⟨e2, he2, hn, hc, hle, hlt⟩ := ha2 q hq
        exact ⟨e2, List.mem_cons_of_mem _ he2, hn, hc, hle, lt_of_lt_of_le hlt (h1.le _)⟩

theorem relaxEdges_spec {u : Nat} {c : α} (es : List (Edge α)) :
    ∀ (st : List (Node α) × List (QNode α)), (∀ e ∈ es, e.n2 < st.1.length) →
      ∃ st1, relaxEdges u c es st = some st1 ∧ RelaxSpec u c es st st1 := by
  induction es with
  | nil =>
    intro st _
    exact ⟨st, rfl, RelaxSpec.nil u c st⟩
  | cons e es ih =>
    intro st hv
    obtain ⟨st1, hr1, hs1⟩ := @relaxEdge_spec _ _ u c st e (hv e (by simp))
    have hlen : st1.1.length = st.1.length := length_eq_of_map_eq hs1.fixed
    obtain ⟨st2, hr2, hs2⟩ := ih st1 (fun e1 he1 => by
      rw [hlen]
      exact hv e1 (List.mem_cons_of_mem _ he1))
    refine ⟨st2, ?_, RelaxSpec.cons hs1 hs2⟩
    simp only [relaxEdges, hr1, hr2]

end Relax

/-! ## The priority queue -/

section Queue

variable {α : Type} [LinearOrderedCommRing α]

theorem mem_eraseIdx_of_ne {β : Type} {l : List β} {i : Nat} {x y : β} (hx : x ∈ l)
    (hy : l[i]? = some y) (hne : x ≠ y) : x ∈ l.eraseIdx i := by
  induction l generalizing i with
  | nil => simp at hx
  | cons a l ih =>
    cases i with
    | zero =>
      simp only [List.getElem?_cons_zero, Option.some.injEq] at hy
      subst hy
      rcases List.mem_cons.1 hx with h | h
      · exact absurd h hne
      · simpa using h
    | succ i =>
      simp only [List.getElem?_cons_succ] at hy
      rcases List.mem_cons.1 hx with h | h
      · simp [h]
      · simp only [List.eraseIdx_cons_succ, List.mem_cons]
        right
        exact ih h hy

theorem exists_least_entry (q : List (QNode α)) (h : q ≠ []) :
    ∃ x ∈ q, ∀ y ∈ q, x.cost ≤ y.cost := by
  induction q with
  | nil => exact absurd rfl h
  | cons a l ih =>
    by_cases hl : l = []
    · subst hl
      exact ⟨a, by simp, by simp⟩
    · obtain ⟨x, hx, hmin⟩ := ih hl
      by_cases hax : a.cost ≤ x.cost
      · refine ⟨a, by simp, ?_⟩
        intro y hy
        rcases List.mem_cons.1 hy with rfl | hy
        · exact le_refl _
        · exact le_trans hax (hmin y hy)
      · refine ⟨x, List.mem_cons_of_mem _ hx, ?_⟩
        intro y hy
        rcases List.mem_cons.1 hy with rfl | hy
        · exact le_of_lt (not_le.1 hax)
        · exact hmin y hy

/-- The entry that `top` returns exists and no entry of the queue is cheaper. -/
theorem topIdx_spec (t : Nat) (q : List (QNode α)) (h : q ≠ []) :
    ∃ x, q[topIdx t q]? = some x ∧ ∀ y ∈ q, x.cost ≤ y.cost := by
  unfold topIdx
  by_cases ht : isTopAt q t = true
  · simp only [ht, if_true]
    unfold isTopAt at ht
    cases hq : q[t]? with
    | none => simp [hq] at ht
    | some x =>
      simp only [hq, List.all_eq_true, decide_eq_true_eq] at ht
      exact ⟨x, rfl, ht⟩
  · simp only [ht]
    obtain ⟨x, hx, hmin⟩ := exists_least_entry q h
    have hex : ∃ z ∈ q, (fun z : QNode α => q.all (fun y => decide (z.cost ≤ y.cost))) z = true :=
      ⟨x, hx, by simpa using hmin⟩
    have hlt := List.findIdx_lt_length_of_exists hex
    have hp := List.findIdx_getElem (w := hlt)
    refine ⟨q[q.findIdx (fun z : QNode α => q.all (fun y => decide (z.cost ≤ y.cost)))], ?_, ?_⟩
    · simp [List.getElem?_eq_getElem hlt]
    · simpa using hp

end Queue

/-! ## One iteration of the relaxation loop -/

section Step

variable {α : Type} [LinearOrderedCommRing α]

theorem openDegree_insert (E : Nat → List (Edge α)) {n u : Nat} {S : Finset Nat}
    (hu : u < n) (hS : u ∉ S) :
    openDegree E n (insert u S) + (E u).length = openDegree E n S := by
  unfold openDegree
  have hmem : u ∈ Finset.range n := Finset.mem_range.2 hu
  rw [← Finset.add_sum_erase _ _ hmem, ← Finset.add_sum_erase (Finset.range n) _ hmem]
  have h1 : ∀ x ∈ (Finset.range n).erase u,
      (if x ∈ insert u S then 0 else (E x).length) = (if x ∈ S then 0 else (E x).length) := by
    intro x hx
    have hne : x ≠ u := (Finset.mem_erase.1 hx).1
    simp [Finset.mem_insert, hne]
  rw [Finset.sum_congr rfl h1]
  simp [hS]
  omega

variable {E : Nat → List (Edge α)} {n s : Nat} {prev0 : Nat → Option Nat}
  {F : List (List (Edge α) × Int × α × α × Bool)} {O : List Bool}
  {S : Finset Nat} {m : α} {rank : Nat → Nat} {B : Nat}
  {nodes : List (Node α)} {pq : List (QNode α)}

/-- Popping an entry of a node that is already settled changes nothing but the
queue, which loses the entry. -/
theorem relax_step_settled (inv : DInv E n s prev0 F O S m rank B nodes pq)
    {i : Nat} {q : QNode α} (hq : pq[i]? = some q) (hS : q.node ∈ S)
    {st1 : List (Node α) × List (QNode α)}
    (hs : RelaxSpec q.node q.cost (E q.node) (nodes, pq.eraseIdx i) st1) :
    DInv E n s prev0 F O S m rank B st1.1 st1.2 ∧ st1.2.length < pq.length := by
  have hqmem : q ∈ pq := List.getElem?_mem hq
  obtain ⟨hqn, hqc, hqm, hqi⟩ := inv.queue q hqmem
  obtain ⟨_, hum, hclosed⟩ := inv.settled q.node hS
  have hsame : ∀ x, costOf st1.1 x = costOf nodes x ∧ prevOf st1.1 x = prevOf nodes x := by
    intro x
    rcases hs.change x with h | ⟨hlt, _, ⟨e, he, hn, hv⟩, _⟩
    · exact h
    · exfalso
      have h1 := hclosed e he
      rw [hn] at h1
      simp only at hlt
      linarith
  have hc : costOf st1.1 = costOf nodes := funext fun x => (hsame x).1
  have hp : prevOf st1.1 = prevOf nodes := funext fun x => (hsame x).2
  obtain ⟨added, hadd, _, hprop⟩ := hs.queue
  have hnil : added = [] := by
    apply List.eq_nil_iff_forall_not_mem.2
    intro q1 hq1
    obtain ⟨e, he, hn, hv, _, hlt⟩ := hprop q1 hq1
    have h1 := hclosed e he
    rw [← hn] at h1
    simp only at hlt
    linarith
  subst hnil
  simp only [List.append_nil] at hadd
  have hi : i < pq.length := by
    rcases List.getElem?_eq_some.1 hq with ⟨h, _⟩
    exact h
  refine ⟨?_, ?_⟩
  · constructor
    · rw [hs.fixed]; exact inv.fixed
    · rw [hs.onp]; exact inv.onp
    · rw [length_eq_of_map_eq hs.fixed]; exact inv.len
    · rw [edgesOf_of_fixed_eq hs.fixed]; exact inv.edges
    · exact inv.start_lt
    · rw [hc]; exact inv.start_cost
    · rw [hc]; exact inv.cost_le
    · intro q1 hq1
      rw [hadd] at hq1
      rw [hc]
      exact inv.queue q1 (List.mem_of_mem_eraseIdx hq1)
    · exact inv.m_nonneg
    · rw [hc]; exact inv.settled
    · intro v hv hvS hfin
      rw [hc] at hfin ⊢
      rw [hadd]
      refine mem_eraseIdx_of_ne (inv.pending v hv hvS hfin) hq ?_
      intro heq
      apply hvS
      have : v = q.node := by rw [← heq]
      rw [this]
      exact hS
    · rw [hc, hp]; exact inv.tree
    · exact inv.rank_lt
    · rw [hc, hp]; exact inv.prov
  · rw [hadd, List.length_eraseIdx_of_lt hi]
    omega

/-- Popping the entry of a node that is not yet settled settles it. -/
theorem relax_step_fresh (hnonneg : ∀ u, ∀ e ∈ E u, 0 ≤ e.cost)
    (hvalid : ∀ u, ∀ e ∈ E u, e.n2 < n)
    (inv : DInv E n s prev0 F O S m rank B nodes pq)
    {i : Nat} {q : QNode α} (hq : pq[i]? = some q) (hmin : ∀ y ∈ pq, q.cost ≤ y.cost)
    (hS : q.node ∉ S) {st1 : List (Node α) × List (QNode α)}
    (hs : RelaxSpec q.node q.cost (E q.node) (nodes, pq.eraseIdx i) st1) :
    DInv E n s prev0 F O (insert q.node S) q.cost (Function.update rank q.node B) (B + 1)
        st1.1 st1.2 ∧
      st1.2.length + openDegree E n (insert q.node S) < pq.length + openDegree E n S := by
  have hqmem : q ∈ pq := List.getElem?_mem hq
  obtain ⟨hqn, hqc, hqm, hqi⟩ := inv.queue q hqmem
  have hlive : costOf nodes q.node = q.cost := by
    apply le_antisymm hqc
    have := hmin _ (inv.pending q.node hqn hS (lt_of_le_of_lt hqc hqi))
    simpa using this
  have hi : i < pq.length := by
    rcases List.getElem?_eq_some.1 hq with ⟨h, _⟩
    exact h
  -- a node whose cost is at most the popped cost is not changed
  have hkeep : ∀ x, costOf nodes x ≤ q.cost →
      costOf st1.1 x = costOf nodes x ∧ prevOf st1.1 x = prevOf nodes x := by
    intro x hx
    rcases hs.change x with h | ⟨hlt, _, ⟨e, he, hn, hv⟩, _⟩
    · exact h
    · exfalso
      have h0 := hnonneg _ e he
      simp only at hlt
      linarith
  have hkeepS : ∀ x ∈ S, costOf st1.1 x = costOf nodes x ∧ prevOf st1.1 x = prevOf nodes x :=
    fun x hx => hkeep x (le_trans (inv.settled x hx).2.1 hqm)
  have hkeepu := hkeep q.node (le_of_eq hlive)
  have hkeeps : costOf st1.1 s = costOf nodes s ∧ prevOf st1.1 s = prevOf nodes s := by
    apply hkeep
    rw [inv.start_cost]
    exact le_trans inv.m_nonneg hqm
  obtain ⟨added, hadd, haddlen, hprop⟩ := hs.queue
  simp only at hadd
  refine ⟨?_, ?_⟩
  · constructor
    · rw [hs.fixed]; exact inv.fixed
    · rw [hs.onp]; exact inv.onp
    · rw [length_eq_of_map_eq hs.fixed]; exact inv.len
    · rw [edgesOf_of_fixed_eq hs.fixed]; exact inv.edges
    · exact inv.start_lt
    · rw [hkeeps.1]; exact inv.start_cost
    · intro v
      exact le_trans (hs.le v) (inv.cost_le v)
    · intro q1 hq1
      rw [hadd] at hq1
      rcases List.mem_append.1 hq1 with h | h
      · have hm1 := List.mem_of_mem_eraseIdx h
        obtain ⟨a1, a2, a3, a4⟩ := inv.queue q1 hm1
        exact ⟨a1, le_trans (hs.le _) a2, hmin q1 hm1, a4⟩
      · obtain ⟨e, he, hn, hv, hle, hlt⟩ := hprop q1 h
        refine ⟨by rw [hn]; exact hvalid _ e he, hle, ?_, ?_⟩
        · have h0 := hnonneg _ e he
          linarith
        · simp only at hlt
          exact lt_of_lt_of_le hlt (inv.cost_le _)
    · exact le_trans inv.m_nonneg hqm
    · intro u hu
      rcases Finset.mem_insert.1 hu with rfl | hu
      · refine ⟨hqn, by rw [hkeepu.1, hlive], ?_⟩
        intro e he
        rw [hkeepu.1, hlive]
        exact hs.relaxed e he
      · obtain ⟨a1, a2, a3⟩ := inv.settled u hu
        refine ⟨a1, by rw [(hkeepS u hu).1]; exact le_trans a2 hqm, ?_⟩
        intro e he
        rw [(hkeepS u hu).1]
        exact le_trans (hs.le _) (a3 e he)
    · intro v hv hvS hfin
      have hvu : v ≠ q.node := fun h => hvS (by rw [h]; exact Finset.mem_insert_self _ _)
      have hvS0 : v ∉ S := fun h => hvS (Finset.mem_insert_of_mem h)
      rcases hs.change v with ⟨h1, _⟩ | ⟨_, _, _, hmem⟩
      · rw [h1] at hfin ⊢
        rw [hadd]
        apply List.mem_append_left
        refine mem_eraseIdx_of_ne (inv.pending v hv hvS0 hfin) hq ?_
        intro heq
        apply hvu
        rw [← heq]
      · exact hmem
    · intro v hv hvs hfin
      rcases hs.change v with ⟨h1, h2⟩ | ⟨hlt, hp, ⟨e, he, hn, hval⟩, _⟩
      · rw [h1] at hfin
        obtain ⟨u, e, b1, b2, b3, b4, b5, b6⟩ := inv.tree v hv hvs hfin
        refine ⟨u, e, by rw [h2]; exact b1, Finset.mem_insert_of_mem b2, b3, b4, ?_, ?_⟩
        · rw [h1, (hkeepS u b2).1]
          exact b5
        · intro hvS
          have hune : u ≠ q.node := fun h => hS (by rw [← h]; exact b2)
          rw [Function.update_noteq hune]
          rcases Finset.mem_insert.1 hvS with rfl | hvS
          · rw [Function.update_same]
            exact inv.rank_lt u b2
          · have hvne : v ≠ q.node := fun h => hS (by rw [← h]; exact hvS)
            rw [Function.update_noteq hvne]
            exact b6 hvS
      · refine ⟨q.node, e, hp, Finset.mem_insert_self _ _, he, hn, ?_, ?_⟩
        · rw [hkeepu.1, hlive]
          exact hval
        · intro hvS
          exfalso
          simp only at hlt
          rcases Finset.mem_insert.1 hvS with rfl | hvS
          · rw [hkeepu.1] at hlt
            exact lt_irrefl _ hlt
          · rw [(hkeepS v hvS).1] at hlt
            exact lt_irrefl _ hlt
    · intro u hu
      rcases Finset.mem_insert.1 hu with rfl | hu
      · rw [Function.update_same]
        exact Nat.lt_succ_self _
      · have hune : u ≠ q.node := fun h => hS (by rw [← h]; exact hu)
        rw [Function.update_noteq hune]
        exact Nat.lt_succ_of_lt (inv.rank_lt u hu)
    · intro v hne
      rcases hs.change v with ⟨h1, h2⟩ | ⟨hlt, _, _, _⟩
      · rw [h2] at hne
        rw [h1]
        exact inv.prov v hne
      · simp only at hlt
        refine ⟨lt_of_lt_of_le hlt (inv.cost_le v), ?_⟩
        intro hvs
        rw [hvs, hkeeps.1] at hlt
        exact lt_irrefl _ hlt
  · have h1 := openDegree_insert E hqn hS
    rw [hadd, List.length_append, List.length_eraseIdx_of_lt hi]
    omega

end Step

/-! ## Paths and their cost -/

section Paths

variable {α : Type} [LinearOrderedCommRing α]

theorem leastCost_spec : ∀ {l : List α} {m : α}, leastCost l = some m →
    m ∈ l ∧ ∀ a ∈ l, m ≤ a := by
  intro l
  induction l with
  | nil =>
    intro m h
    simp [leastCost] at h
  | cons a l ih =>
    intro m h
    unfold leastCost at h
    cases hl : leastCost l with
    | none =>
      rw [hl] at h
      simp only [Option.some.injEq] at h
      subst h
      have hnil : l = [] := by
        cases l with
        | nil => rfl
        | cons b l =>
          exfalso
          unfold leastCost at hl
          cases h2 : leastCost l <;> simp [h2] at hl
      subst hnil
      simp
    | some b =>
      rw [hl] at h
      simp only [Option.some.injEq] at h
      obtain ⟨hb, hmin⟩ := ih hl
      by_cases hab : a ≤ b
      · simp only [hab, if_true] at h
        subst h
        refine ⟨by simp, ?_⟩
        intro x hx
        rcases List.mem_cons.1 hx with rfl | hx
        · exact le_refl _
        · exact le_trans hab (hmin x hx)
      · simp only [hab, if_false] at h
        subst h
        refine ⟨List.mem_cons_of_mem _ hb, ?_⟩
        intro x hx
        rcases List.mem_cons.1 hx with rfl | hx
        · exact le_of_lt (not_le.1 hab)
        · exact hmin x hx

theorem leastCost_isSome {l : List α} (h : l ≠ []) : ∃ m, leastCost l = some m := by
  cases l with
  | nil => exact absurd rfl h
  | cons a l =>
    unfold leastCost
    cases leastCost l with
    | none => exact ⟨a, rfl⟩
    | some b => exact ⟨_, rfl⟩

theorem edgeCost?_some {nodes : List (Node α)} {u v : Nat} {w : α}
    (h : edgeCost? nodes u v = some w) : ∃ e ∈ edgesOf nodes u, e.n2 = v ∧ e.cost = w := by
  unfold edgeCost? at h
  obtain ⟨hm, _⟩ := leastCost_spec h
  obtain ⟨e, he, hc⟩ := List.mem_map.1 hm
  obtain ⟨he1, he2⟩ := List.mem_filter.1 he
  exact ⟨e, he1, by simpa using he2, hc⟩

theorem edgeCost?_le {nodes : List (Node α)} {u v : Nat} {e : Edge α}
    (he : e ∈ edgesOf nodes u) (hv : e.n2 = v) :
    ∃ w, edgeCost? nodes u v = some w ∧ w ≤ e.cost := by
  have hmem : e.cost ∈ ((edgesOf nodes u).filter (fun e => e.n2 = v)).map Edge.cost :=
    List.mem_map.2 ⟨e, List.mem_filter.2 ⟨he, by simpa using hv⟩, rfl⟩
  obtain ⟨w, hw⟩ := leastCost_isSome (List.ne_nil_of_mem hmem)
  exact ⟨w, hw, (leastCost_spec hw).2 _ hmem⟩

theorem pathCost_cons_cons {nodes : List (Node α)} {u v : Nat} {rest : List Nat} {L : α}
    (h : pathCost nodes (u :: v :: rest) = some L) :
    ∃ w c, edgeCost? nodes u v = some w ∧ pathCost nodes (v :: rest) = some c ∧ L = w + c := by
  unfold pathCost at h
  cases h1 : edgeCost? nodes u v with
  | none => simp [h1] at h
  | some w =>
    cases h2 : pathCost nodes (v :: rest) with
    | none => simp [h1, h2] at h
    | some c =>
      simp only [h1, h2, Option.some.injEq] at h
      exact ⟨w, c, rfl, rfl, h.symm⟩

theorem pathCost_nonneg {nodes : List (Node α)} (hnonneg : NonNegCosts nodes) :
    ∀ (p : List Nat) (L : α), pathCost nodes p = some L → 0 ≤ L := by
  intro p
  induction p with
  | nil =>
    intro L h
    simp only [pathCost, Option.some.injEq] at h
    rw [← h]
  | cons u rest ih =>
    cases rest with
    | nil =>
      intro L h
      simp only [pathCost, Option.some.injEq] at h
      rw [← h]
    | cons v rest =>
      intro L h
      obtain ⟨w, c, hw, hc, rfl⟩ := pathCost_cons_cons h
      obtain ⟨e, he, _, hcost⟩ := edgeCost?_some hw
      have h1 := hnonneg u e he
      have h2 := ih c hc
      rw [hcost] at h1
      linarith

/-- The cost of a path that is extended by one node at its end. -/
theorem pathCost_snoc {nodes : List (Node α)} {v : Nat} {w : α} :
    ∀ (p : List Nat) (u : Nat) (c : α), pathCost nodes (p ++ [u]) = some c →
      edgeCost? nodes u v = some w → pathCost nodes (p ++ [u] ++ [v]) = some (c + w) := by
  intro p
  induction p with
  | nil =>
    intro u c hc hw
    simp only [List.nil_append, pathCost, Option.some.injEq] at hc
    simp only [List.nil_append, List.singleton_append, pathCost, hw]
    rw [← hc]
    simp
  | cons a p ih =>
    intro u c hc hw
    cases p with
    | nil =>
      obtain ⟨w1, c1, hw1, hc1, rfl⟩ := @pathCost_cons_cons _ _ _ _ _ [] _ hc
      have h2 := ih u c1 hc1 hw
      simp only [List.nil_append, List.singleton_append] at h2
      simp only [List.cons_append, List.nil_append, pathCost, hw1, hw]
      simp only [pathCost, Option.some.injEq] at hc1
      rw [← hc1]
      simp [add_assoc]
    | cons b p =>
      obtain ⟨w1, c1, hw1, hc1, rfl⟩ := @pathCost_cons_cons _ _ _ _ _ (p ++ [u]) _ hc
      have h2 := ih u c1 hc1 hw
      simp only [List.cons_append] at h2 ⊢
      unfold pathCost
      simp only [hw1, h2]
      simp [add_assoc]

end Paths

/-! ## The relaxation loop -/

section Loop

variable {α : Type} [LinearOrderedCommRing α]

variable {E : Nat → List (Edge α)} {n s : Nat} {prev0 : Nat → Option Nat}
  {F : List (List (Edge α) × Int × α × α × Bool)} {O : List Bool}

/-- With more fuel than queue entries plus unrelaxed edge records the loop
returns, in a state that satisfies the invariant and in which the queue is
empty or the end node is an entry of least cost. -/
theorem relaxLoop_spec (hnonneg : ∀ u, ∀ e ∈ E u, 0 ≤ e.cost)
    (hvalid : ∀ u, ∀ e ∈ E u, e.n2 < n) (tie : Nat → Nat) (end_node : Nat) :
    ∀ (fuel k : Nat) (nodes : List (Node α)) (pq : List (QNode α)) (S : Finset Nat) (m : α)
      (rank : Nat → Nat) (B : Nat), DInv E n s prev0 F O S m rank B nodes pq →
      pq.length + openDegree E n S < fuel →
      ∃ nodes1 pq1 S1 m1 rank1 B1, relaxLoop tie end_node fuel k nodes pq = some nodes1 ∧
        DInv E n s prev0 F O S1 m1 rank1 B1 nodes1 pq1 ∧
        (pq1 = [] ∨ ∃ q ∈ pq1, q.node = end_node ∧ ∀ y ∈ pq1, q.cost ≤ y.cost) := by
  intro fuel
  induction fuel with
  | zero =>
    intro k nodes pq S m rank B _ hf
    exact absurd hf (Nat.not_lt_zero _)
  | succ fuel ih =>
    intro k nodes pq S m rank B inv hf
    unfold relaxLoop
    by_cases hpq : pq = []
    · subst hpq
      exact ⟨nodes, [], S, m, rank, B, by simp, inv, Or.inl rfl⟩
    · have hemp : pq.isEmpty = false := by
        cases pq with
        | nil => exact absurd rfl hpq
        | cons a l => rfl
      simp only [hemp, Bool.false_eq_true, if_false]
      obtain ⟨q, hq, hmin⟩ := topIdx_spec (tie k) pq hpq
      simp only [hq]
      by_cases hend : q.node = end_node
      · simp only [hend, if_true]
        exact ⟨nodes, pq, S, m, rank, B, rfl, inv, Or.inr ⟨q, List.getElem?_mem hq, hend, hmin⟩⟩
      · simp only [hend, if_false]
        have hqmem : q ∈ pq := List.getElem?_mem hq
        have hqn : q.node < nodes.length := by
          rw [inv.len]
          exact (inv.queue q hqmem).1
        have hget : nodes[q.node]? = some nodes[q.node] := List.getElem?_eq_getElem hqn
        have hE : (nodes[q.node]).edge_ = E q.node := by
          rw [← inv.edges, edgesOf_of_get hget]
        simp only [hget]
        obtain ⟨st1, hr, hs⟩ := @relaxEdges_spec _ _ q.node q.cost (nodes[q.node]).edge_
          (nodes, pq.eraseIdx (topIdx (tie k) pq)) (by
            intro e he
            rw [hE] at he
            simp only [inv.len]
            exact hvalid _ e he)
        simp only [hr]
        rw [hE] at hs
        by_cases hS : q.node ∈ S
        · obtain ⟨inv1, hlen⟩ := relax_step_settled inv hq hS hs
          exact ih (k + 1) st1.1 st1.2 S m rank B inv1 (by omega)
        · obtain ⟨inv1, hlen⟩ := relax_step_fresh hnonneg hvalid inv hq hmin hS hs
          exact ih (k + 1) st1.1 st1.2 _ _ _ _ inv1 (by omega)

variable {S : Finset Nat} {m : α} {rank : Nat → Nat} {B : Nat}
  {nodes : List (Node α)} {pq : List (QNode α)}

/-- In a state that satisfies the invariant, a path from `x` whose cost is
`L` leads to a node whose cost is at most that of `x` plus `L`, unless the
queue still holds an entry that is at most as expensive. -/
theorem DInv.lower (hnonneg : ∀ u, ∀ e ∈ E u, 0 ≤ e.cost)
    (inv : DInv E n s prev0 F O S m rank B nodes pq) :
    ∀ (p : List Nat) (x : Nat) (A L : α), p.head? = some x → pathCost nodes p = some L →
      costOf nodes x ≤ A →
      ∃ v, p.getLast? = some v ∧ (costOf nodes v ≤ A + L ∨ ∃ q ∈ pq, q.cost ≤ A + L) := by
  have hnn : NonNegCosts nodes := by
    intro u e he
    rw [inv.edges] at he
    exact hnonneg u e he
  intro p
  induction p with
  | nil =>
    intro x A L hh
    simp at hh
  | cons a rest ih =>
    intro x A L hh hL hA
    simp only [List.head?_cons, Option.some.injEq] at hh
    subst hh
    cases rest with
    | nil =>
      simp only [pathCost, Option.some.injEq] at hL
      subst hL
      exact ⟨a, rfl, Or.inl (by simpa using hA)⟩
    | cons y rest =>
      obtain ⟨w, c, hw, hc, rfl⟩ := pathCost_cons_cons hL
      obtain ⟨e, he, hn, hcost⟩ := edgeCost?_some hw
      have hw0 : 0 ≤ w := by
        rw [← hcost]
        exact hnn a e he
      have hc0 : 0 ≤ c := pathCost_nonneg hnn _ c hc
      have hlast : (a :: y :: rest).getLast? = (y :: rest).getLast? := by
        simp [List.getLast?_cons_cons]
      rw [hlast]
      have ha : a < n := by
        rw [← inv.len]
        by_contra hcon
        have : nodes[a]? = none := List.getElem?_eq_none (not_lt.1 hcon)
        simp [edgesOf, this] at he
      by_cases hfin : costOf nodes a < INT_MAX
      · by_cases hS : a ∈ S
        · have h1 := (inv.settled a hS).2.2 e (by rw [← inv.edges]; exact he)
          rw [hn, hcost] at h1
          obtain ⟨v, hv, hor⟩ := ih y (A + w) c rfl hc (by linarith)
          refine ⟨v, hv, ?_⟩
          rcases hor with h | ⟨q, hq, hle⟩
          · left
            linarith
          · right
            exact ⟨q, hq, by linarith⟩
        · have hmem := inv.pending a ha hS hfin
          obtain ⟨v, hv⟩ : ∃ v, (y :: rest).getLast? = some v := by
            cases h : (y :: rest).getLast? with
            | none => simp at h
            | some v => exact ⟨v, rfl⟩
          refine ⟨v, hv, Or.inr ⟨_, hmem, ?_⟩⟩
          simp only
          linarith
      · obtain ⟨v, hv⟩ : ∃ v, (y :: rest).getLast? = some v := by
          cases h : (y :: rest).getLast? with
          | none => simp at h
          | some v => exact ⟨v, rfl⟩
        refine ⟨v, hv, Or.inl ?_⟩
        have h1 := inv.cost_le v
        have h2 := not_lt.1 hfin
        linarith

/-- When the loop has stopped, the cost of the end node is at most the cost
of any path from the start node to it. -/
theorem DInv.optimal (hnonneg : ∀ u, ∀ e ∈ E u, 0 ≤ e.cost)
    (inv : DInv E n s prev0 F O S m rank B nodes pq) {end_node : Nat}
    (hfin : pq = [] ∨ ∃ q ∈ pq, q.node = end_node ∧ ∀ y ∈ pq, q.cost ≤ y.cost)
    {p : List Nat} {L : α} (hh : p.head? = some s) (hl : p.getLast? = some end_node)
    (hL : pathCost nodes p = some L) : costOf nodes end_node ≤ L := by
  obtain ⟨v, hv, hor⟩ := inv.lower hnonneg p s 0 L hh hL (le_of_eq inv.start_cost)
  rw [hl] at hv
  simp only [Option.some.injEq] at hv
  subst hv
  rcases hor with h | ⟨q1, hq1, hle⟩
  · simpa using h
  · rcases hfin with rfl | ⟨q, hq, hqn, hmin⟩
    · simp at hq1
    · have h1 := (inv.queue q hq).2.1
      rw [hqn] at h1
      have h2 := hmin q1 hq1
      linarith

end Loop

/-! ## The walk back along the `prev` pointers -/

section Backtrack

variable {α : Type} [LinearOrderedCommRing α]

theorem TreePath.ne_nil {prev : Nat → Option Nat} {s v : Nat} {p : List Nat}
    (h : TreePath prev s v p) : p ≠ [] := by
  cases h with
  | root => simp
  | step _ _ _ => simp

theorem TreePath.head {prev : Nat → Option Nat} {s v : Nat} {p : List Nat}
    (h : TreePath prev s v p) : p.head? = some s := by
  induction h with
  | root => rfl
  | step _ _ hp ih =>
    rw [List.head?_append_of_ne_nil _ hp.ne_nil]
    exact ih

theorem TreePath.last {prev : Nat → Option Nat} {s v : Nat} {p : List Nat}
    (h : TreePath prev s v p) : p.getLast? = some v := by
  cases h with
  | root => rfl
  | step _ _ _ => simp

theorem TreePath.congr_prev {prev prev1 : Nat → Option Nat} {s v : Nat} {p : List Nat}
    (h : TreePath prev s v p) (heq : prev1 = prev) : TreePath prev1 s v p := by
  subst heq
  exact h

variable {E : Nat → List (Edge α)} {n s : Nat} {prev0 : Nat → Option Nat}
  {F : List (List (Edge α) × Int × α × α × Bool)} {O : List Bool}
  {S : Finset Nat} {m : α} {rank : Nat → Nat} {B : Nat}
  {nodes : List (Node α)} {pq : List (QNode α)}

/-- In a state that satisfies the invariant every node with a cost below
`INT_MAX` is the end of a path from the start node along the `prev` pointers;
the path repeats no node, follows edges, and costs at most the cost of the
node. -/
theorem DInv.treePath (hnonneg : ∀ u, ∀ e ∈ E u, 0 ≤ e.cost)
    (inv : DInv E n s prev0 F O S m rank B nodes pq) :
    ∀ (k v : Nat), (if v ∈ S then rank v else B) < k → v < n → costOf nodes v < INT_MAX →
      ∃ p, TreePath (prevOf nodes) s v p ∧ p.Nodup ∧
        (∀ x ∈ p, x < n ∧ (if x ∈ S then rank x else B) ≤ (if v ∈ S then rank v else B)) ∧
        List.Chain' (Adj nodes) p ∧ ∃ c, pathCost nodes p = some c ∧ c ≤ costOf nodes v := by
  intro k
  induction k with
  | zero =>
    intro v hk
    exact absurd hk (Nat.not_lt_zero _)
  | succ k ih =>
    intro v hk hv hfin
    by_cases hvs : v = s
    · subst hvs
      refine ⟨[v], TreePath.root, by simp, ?_, by simp, 0, rfl, ?_⟩
      · intro x hx
        have : x = v := by simpa using hx
        subst this
        exact ⟨hv, le_refl _⟩
      · rw [inv.start_cost]
    · obtain ⟨u, e, hp, huS, he, hn, hc, hr⟩ := inv.tree v hv hvs hfin
      have he0 := hnonneg u e he
      obtain ⟨hun, _, _⟩ := inv.settled u huS
      have hmu : (if u ∈ S then rank u else B) < (if v ∈ S then rank v else B) := by
        simp only [huS, if_true]
        by_cases hvS : v ∈ S
        · simp only [hvS, if_true]
          exact hr hvS
        · simp only [hvS, if_false]
          exact inv.rank_lt u huS
      obtain ⟨p, htp, hnd, hmem, hch, c, hpc, hcle⟩ :=
        ih u (by omega) hun (by linarith)
      have hlast := htp.last
      have heu : e ∈ edgesOf nodes u := by rw [inv.edges]; exact he
      obtain ⟨w, hw, hwle⟩ := edgeCost?_le heu hn
      refine ⟨p ++ [v], TreePath.step hvs hp htp, ?_, ?_, ?_, c + w, ?_, by linarith⟩
      · rw [List.nodup_append]
        refine ⟨hnd, by simp, ?_⟩
        intro x hx1 hx2
        have hxv : x = v := by simpa using hx2
        subst hxv
        have := (hmem x hx1).2
        omega
      · intro x hx
        rcases List.mem_append.1 hx with hx | hx
        · exact ⟨(hmem x hx).1, by have := (hmem x hx).2; omega⟩
        · have hxv : x = v := by simpa using hx
          subst hxv
          exact ⟨hv, le_refl _⟩
      · rw [List.chain'_append]
        refine ⟨hch, by simp, ?_⟩
        intro x hx y hy
        rw [hlast] at hx
        simp only [Option.mem_def, Option.some.injEq] at hx
        simp only [List.head?_cons, Option.mem_def, Option.some.injEq] at hy
        subst hx
        subst hy
        exact ⟨e, heu, hn⟩
      · have hsplit : p = p.dropLast ++ [u] := by
          have := List.dropLast_append_getLast? u (by simpa using hlast)
          exact this.symm
        rw [hsplit] at hpc ⊢
        exact pathCost_snoc _ u c hpc hw

/-- The `on_path` flags written by the loop that walks back. -/
theorem backtrack_spec {prev : Nat → Option Nat} {s c : Nat} {p : List Nat}
    (h : TreePath prev s c p) :
    ∀ (fuel : Nat) (nodes : List (Node α)) (path : List (Option Nat)), prevOf nodes = prev →
      (∀ x ∈ p, x < nodes.length) → p.length ≤ fuel →
      ∃ nodes1 path1, backtrack s fuel (some c) nodes path = some (nodes1, path1, some s) ∧
        (path1 ++ [some s]).reverse = p.map some ++ path.reverse ∧
        nodes1.map Node.fixed = nodes.map Node.fixed ∧
        nodes1.map Node.cost_ = nodes.map Node.cost_ ∧
        nodes1.map Node.prev_ = nodes.map Node.prev_ ∧
        ∀ x, onPathOf nodes1 x = (onPathOf nodes x || decide (x ∈ p ∧ x ≠ s)) := by
  induction h with
  | root =>
    intro fuel nodes path _ _ hf
    cases fuel with
    | zero => simp at hf
    | succ fuel =>
      refine ⟨nodes, path, by simp [backtrack], by simp, rfl, rfl, rfl, ?_⟩
      intro x
      by_cases hx : x = s <;> simp [hx]
  | @step v u p hvs hprev htp ih =>
    intro fuel nodes path hp hval hf
    cases fuel with
    | zero => simp at hf
    | succ fuel =>
      have hv : v < nodes.length := hval v (by simp)
      have hget : nodes[v]? = some nodes[v] := List.getElem?_eq_getElem hv
      have hpv : (nodes[v]).prev_ = some u := by
        have : prevOf nodes v = some u := by rw [hp]; exact hprev
        simpa [prevOf, hget] using this
      obtain ⟨nodes1, path1, hb, hrev, hfix, hcost, hpr, hon⟩ :=
        ih fuel (nodes.set v { nodes[v] with on_path_ := true }) (path ++ [some v])
          (by
            rw [← hp]
            funext x
            rw [prevOf_set hv]
            by_cases hx : x = v
            · subst hx
              simp [prevOf, hget]
            · simp [hx])
          (by
            intro x hx
            rw [List.length_set]
            exact hval x (List.mem_append_left _ hx))
          (by
            simp only [List.length_append, List.length_singleton] at hf
            omega)
      refine ⟨nodes1, path1, ?_, ?_, ?_, ?_, ?_, ?_⟩
      · simp only [backtrack, hvs, if_false, hget]
        rw [← hpv] at hb
        exact hb
      · rw [hrev]
        simp
      · rw [hfix]
        exact map_set_of_eq Node.fixed hget rfl
      · rw [hcost]
        exact map_set_of_eq Node.cost_ hget rfl
      · rw [hpr]
        exact map_set_of_eq Node.prev_ hget rfl
      · intro x
        rw [hon x, onPathOf_set hv]
        by_cases hx : x = v
        · subst hx
          simp [hvs]
        · simp [hx]

end Backtrack

/-! ## What `FindPath` leaves unchanged -/

section Preserve

variable {α : Type} [LinearOrderedCommRing α]

theorem costOf_of_map_eq {nodes nodes1 : List (Node α)}
    (h : nodes1.map Node.cost_ = nodes.map Node.cost_) : costOf nodes1 = costOf nodes := by
  funext u
  have h1 : (nodes1.map Node.cost_)[u]? = (nodes.map Node.cost_)[u]? := by rw [h]
  simp only [List.getElem?_map] at h1
  unfold costOf
  cases h2 : nodes1[u]? <;> cases h3 : nodes[u]? <;> simp_all

theorem prevOf_of_map_eq {nodes nodes1 : List (Node α)}
    (h : nodes1.map Node.prev_ = nodes.map Node.prev_) : prevOf nodes1 = prevOf nodes := by
  funext u
  have h1 : (nodes1.map Node.prev_)[u]? = (nodes.map Node.prev_)[u]? := by rw [h]
  simp only [List.getElem?_map] at h1
  unfold prevOf
  cases h2 : nodes1[u]? <;> cases h3 : nodes[u]? <;> simp_all

theorem onPathOf_of_map_eq {nodes nodes1 : List (Node α)}
    (h : nodes1.map Node.on_path_ = nodes.map Node.on_path_) :
    onPathOf nodes1 = onPathOf nodes := by
  funext u
  have h1 : (nodes1.map Node.on_path_)[u]? = (nodes.map Node.on_path_)[u]? := by rw [h]
  simp only [List.getElem?_map] at h1
  unfold onPathOf
  cases h2 : nodes1[u]? <;> cases h3 : nodes[u]? <;> simp_all

theorem edgeCost?_congr {nodes nodes1 : List (Node α)} (h : edgesOf nodes1 = edgesOf nodes) :
    edgeCost? nodes1 = edgeCost? nodes := by
  funext u v
  unfold edgeCost?
  rw [h]

theorem pathCost_congr {nodes nodes1 : List (Node α)} (h : edgesOf nodes1 = edgesOf nodes) :
    pathCost nodes1 = pathCost nodes := by
  funext p
  induction p with
  | nil => rfl
  | cons u rest ih =>
    cases rest with
    | nil => rfl
    | cons v rest =>
      unfold pathCost
      rw [edgeCost?_congr h, ih]

theorem relaxEdge_fixed {u : Nat} {c : α} {st st1 : List (Node α) × List (QNode α)}
    {e : Edge α} (h : relaxEdge u c st e = some st1) :
    st1.1.map Node.fixed = st.1.map Node.fixed := by
  have hv : e.n2 < st.1.length := by
    by_contra hcon
    have hnone : st.1[e.n2]? = none := List.getElem?_eq_none (not_lt.1 hcon)
    simp [relaxEdge, hnone] at h
  obtain ⟨st2, h2, hs⟩ := @relaxEdge_spec _ _ u c st _ hv
  rw [h] at h2
  simp only [Option.some.injEq] at h2
  subst h2
  exact hs.fixed

theorem relaxEdges_fixed {u : Nat} {c : α} (es : List (Edge α)) :
    ∀ {st st1 : List (Node α) × List (QNode α)}, relaxEdges u c es st = some st1 →
      st1.1.map Node.fixed = st.1.map Node.fixed := by
  induction es with
  | nil =>
    intro st st1 h
    simp only [relaxEdges, Option.some.injEq] at h
    rw [h]
  | cons e es ih =>
    intro st st1 h
    unfold relaxEdges at h
    cases h1 : relaxEdge u c st e with
    | none => simp [h1] at h
    | some st2 =>
      simp only [h1] at h
      rw [ih h, relaxEdge_fixed h1]

theorem relaxLoop_fixed (tie : Nat → Nat) (end_node : Nat) :
    ∀ (fuel k : Nat) (nodes nodes1 : List (Node α)) (pq : List (QNode α)),
      relaxLoop tie end_node fuel k nodes pq = some nodes1 →
        nodes1.map Node.fixed = nodes.map Node.fixed := by
  intro fuel
  induction fuel with
  | zero =>
    intro k nodes nodes1 pq h
    simp [relaxLoop] at h
  | succ fuel ih =>
    intro k nodes nodes1 pq h
    unfold relaxLoop at h
    by_cases hemp : pq.isEmpty = true
    · simp only [hemp, if_true, Option.some.injEq] at h
      rw [h]
    · simp only [hemp, Bool.false_eq_true, if_false] at h
      cases hq : pq[topIdx (tie k) pq]? with
      | none => simp [hq] at h
      | some q =>
        simp only [hq] at h
        by_cases hend : q.node = end_node
        · simp only [hend, if_true, Option.some.injEq] at h
          rw [h]
        · simp only [hend, if_false] at h
          cases hn : nodes[q.node]? with
          | none => simp [hn] at h
          | some un =>
            simp only [hn] at h
            cases hr : relaxEdges q.node q.cost un.edge_
                (nodes, pq.eraseIdx (topIdx (tie k) pq)) with
            | none => simp [hr] at h
            | some st =>
              simp only [hr] at h
              rw [ih _ _ _ _ h, relaxEdges_fixed _ hr]

theorem backtrack_fixed (s : Nat) :
    ∀ (fuel : Nat) (cur : Option Nat) (nodes : List (Node α)) (path : List (Option Nat))
      (r : List (Node α) × List (Option Nat) × Option Nat),
      backtrack s fuel cur nodes path = some r → r.1.map Node.fixed = nodes.map Node.fixed := by
  intro fuel
  induction fuel with
  | zero =>
    intro cur nodes path r h
    simp [backtrack] at h
  | succ fuel ih =>
    intro cur nodes path r h
    cases cur with
    | none =>
      simp only [backtrack, Option.some.injEq] at h
      rw [← h]
    | some c =>
      unfold backtrack at h
      by_cases hc : c = s
      · simp only [hc, if_true, Option.some.injEq] at h
        rw [← h]
      · simp only [hc, if_false] at h
        cases hn : nodes[c]? with
        | none => simp [hn] at h
        | some nd =>
          simp only [hn] at h
          rw [ih _ _ _ _ h]
          exact map_set_of_eq Node.fixed hn rfl

theorem setOnPath_spec {nodes : List (Node α)} {i : Nat} (hi : i < nodes.length) :
    ∃ nodes1, setOnPath nodes i = some nodes1 ∧
      nodes1.map Node.fixed = nodes.map Node.fixed ∧
      nodes1.map Node.cost_ = nodes.map Node.cost_ ∧
      nodes1.map Node.prev_ = nodes.map Node.prev_ ∧
      ∀ x, onPathOf nodes1 x = (onPathOf nodes x || decide (x = i)) := by
  have hget : nodes[i]? = some nodes[i] := List.getElem?_eq_getElem hi
  refine ⟨nodes.set i { nodes[i] with on_path_ := true }, by simp [setOnPath, hget],
    map_set_of_eq Node.fixed hget rfl, map_set_of_eq Node.cost_ hget rfl,
    map_set_of_eq Node.prev_ hget rfl, ?_⟩
  intro x
  rw [onPathOf_set hi]
  by_cases hx : x = i <;> simp [hx]

theorem setOnPath_fixed {nodes nodes1 : List (Node α)} {i : Nat}
    (h : setOnPath nodes i = some nodes1) :
    nodes1.map Node.fixed = nodes.map Node.fixed := by
  have hi : i < nodes.length := by
    by_contra hcon
    have hnone : nodes[i]? = none := List.getElem?_eq_none (not_lt.1 hcon)
    simp [setOnPath, hnone] at h
  obtain ⟨nodes2, h2, hf, _⟩ := setOnPath_spec hi
  rw [h] at h2
  simp only [Option.some.injEq] at h2
  subst h2
  exact hf

theorem map_fixed_reset (nodes : List (Node α)) :
    (nodes.map (fun n => ({ n with cost_ := INT_MAX, on_path_ := false } : Node α))).map
      Node.fixed = nodes.map Node.fixed := by
  rw [List.map_map]
  rfl

/-- Whatever `FindPath` returns, it has written none of the fields of a node
but `cost`, `prev` and `on_path`, and none of the members of the graph but the
nodes and the path. -/
theorem FindPath_fixed {fuel : Nat} {tie : Nat → Nat} {g g1 : Graph α}
    (h : FindPath fuel tie g = some g1) :
    g1.node_.map Node.fixed = g.node_.map Node.fixed ∧ g1.start_node_ = g.start_node_ ∧
      g1.end_node_ = g.end_node_ ∧ g1.node_obj_ = g.node_obj_ ∧ g1.edge_obj_ = g.edge_obj_ ∧
      g1.hover_node_ = g.hover_node_ := by
  unfold FindPath at h
  cases hs : g.start_node_ with
  | none => simp [hs] at h
  | some s =>
    cases he : g.end_node_ with
    | none => simp [hs, he] at h
    | some e =>
      simp only [hs, he] at h
      cases h0 : (g.node_.map (fun n => ({ n with cost_ := INT_MAX, on_path_ := false } :
          Node α)))[s]? with
      | none => simp [h0] at h
      | some sn =>
        simp only [h0] at h
        cases h1 : relaxLoop tie e fuel 0
            ((g.node_.map (fun n => ({ n with cost_ := INT_MAX, on_path_ := false } :
              Node α))).set s { sn with cost_ := 0 }) [⟨s, 0⟩] with
        | none => simp [h1] at h
        | some nodes2 =>
          simp only [h1] at h
          cases h2 : nodes2[e]? with
          | none => simp [h2] at h
          | some en =>
            simp only [h2] at h
            cases h3 : backtrack s fuel en.prev_ nodes2 [some e] with
            | none => simp [h3] at h
            | some r =>
              obtain ⟨nodes3, path, cur⟩ := r
              simp only [h3] at h
              cases h4 : setOnPath nodes3 s with
              | none => simp [h4] at h
              | some nodes4 =>
                simp only [h4] at h
                cases h5 : setOnPath nodes4 e with
                | none => simp [h5] at h
                | some nodes5 =>
                  simp only [h5, Option.some.injEq] at h
                  subst h
                  refine ⟨?_, hs.symm ▸ rfl, he.symm ▸ rfl, rfl, rfl, rfl⟩
                  simp only
                  rw [setOnPath_fixed h5, setOnPath_fixed h4,
                    backtrack_fixed s fuel _ _ _ _ h3, relaxLoop_fixed tie e fuel 0 _ _ _ h1,
                    @map_set_of_eq _ _ _ Node.fixed _ _ _ { sn with cost_ := 0 } h0 rfl,
                    map_fixed_reset]

end Preserve

/-! ## `FindPath` as a whole -/

section Whole

variable {α : Type} [LinearOrderedCommRing α]

theorem length_le_of_nodup_lt {l : List Nat} {n : Nat} (hnd : l.Nodup)
    (h : ∀ x ∈ l, x < n) : l.length ≤ n := by
  have hsub : l.toFinset ⊆ Finset.range n := by
    intro x hx
    simp only [List.mem_toFinset] at hx
    exact Finset.mem_range.2 (h x hx)
  have hcard := Finset.card_le_card hsub
  rwa [List.toFinset_card_of_nodup hnd, Finset.card_range] at hcard

theorem costOf_reset (nodes : List (Node α)) (v : Nat) :
    costOf (nodes.map (fun n => ({ n with cost_ := INT_MAX, on_path_ := false } : Node α))) v
      = INT_MAX := by
  unfold costOf
  rw [List.getElem?_map]
  cases nodes[v]? <;> rfl

theorem prevOf_reset (nodes : List (Node α)) (v : Nat) :
    prevOf (nodes.map (fun n => ({ n with cost_ := INT_MAX, on_path_ := false } : Node α))) v
      = prevOf nodes v := by
  unfold prevOf
  rw [List.getElem?_map]
  cases nodes[v]? <;> rfl

theorem onPathOf_reset (nodes : List (Node α)) (v : Nat) :
    onPathOf (nodes.map (fun n => ({ n with cost_ := INT_MAX, on_path_ := false } : Node α))) v
      = false := by
  unfold onPathOf
  rw [List.getElem?_map]
  cases nodes[v]? <;> rfl

/-- The state in which the relaxation loop starts satisfies the invariant. -/
theorem DInv_init {nodes : List (Node α)} {s : Nat} {sn : Node α}
    (h0 : (nodes.map (fun n => ({ n with cost_ := INT_MAX, on_path_ := false } : Node α)))[s]?
      = some sn) :
    DInv (edgesOf nodes) nodes.length s (prevOf nodes) (nodes.map Node.fixed)
      (List.replicate nodes.length false) ∅ 0 (fun _ => 0) 0
      ((nodes.map (fun n => ({ n with cost_ := INT_MAX, on_path_ := false } : Node α))).set s
        { sn with cost_ := 0 }) [⟨s, 0⟩] := by
  have hs : s < (nodes.map (fun n =>
      ({ n with cost_ := INT_MAX, on_path_ := false } : Node α))).length := by
    rcases List.getElem?_eq_some.1 h0 with ⟨hlt, _⟩
    exact hlt
  have hfix := (@map_set_of_eq _ _ _ Node.fixed _ _ _ { sn with cost_ := 0 } h0 rfl).trans
    (map_fixed_reset nodes)
  have hcost : ∀ v, costOf ((nodes.map (fun n =>
      ({ n with cost_ := INT_MAX, on_path_ := false } : Node α))).set s { sn with cost_ := 0 }) v
      = if v = s then 0 else INT_MAX := by
    intro v
    rw [costOf_set hs, costOf_reset]
  have hprev : ∀ v, prevOf ((nodes.map (fun n =>
      ({ n with cost_ := INT_MAX, on_path_ := false } : Node α))).set s { sn with cost_ := 0 }) v
      = prevOf nodes v := by
    intro v
    rw [prevOf_set hs, prevOf_reset]
    by_cases hv : v = s
    · subst hv
      simp only [if_true]
      have := prevOf_reset nodes v
      simp only [prevOf, h0] at this
      simpa [prevOf] using this
    · simp [hv]
  constructor
  · exact hfix
  · apply List.ext_getElem?
    intro k
    have h1 := onPathOf_reset nodes k
    have h2 := onPathOf_set (n := ({ sn with cost_ := 0 } : Node α)) hs k
    have h3 : sn.on_path_ = false := by
      have := onPathOf_reset nodes s
      simpa [onPathOf, h0] using this
    simp only [List.getElem?_map, List.getElem?_set, List.getElem?_replicate]
    by_cases hk : s = k
    · subst hk
      simp only [List.length_map] at hs
      simp [hs, h3]
    · simp only [hk, if_false]
      by_cases hlt : k < nodes.length
      · simp [hlt]
      · simp [hlt, List.getElem?_eq_none (not_lt.1 hlt)]
  · simp
  · exact edgesOf_of_fixed_eq hfix
  · simpa using hs
  · rw [hcost]
    simp
  · intro v
    rw [hcost]
    by_cases hv : v = s
    · simp only [hv, if_true]
      exact le_of_lt INT_MAX_pos
    · simp [hv]
  · intro q hq
    have : q = ⟨s, 0⟩ := by simpa using hq
    subst this
    simp only
    refine ⟨by simpa using hs, ?_, le_refl _, INT_MAX_pos⟩
    rw [hcost]
    simp
  · exact le_refl _
  · intro u hu
    simp at hu
  · intro v _ _ hfin
    rw [hcost] at hfin ⊢
    by_cases hv : v = s
    · simp [hv]
    · simp [hv] at hfin
  · intro v _ hvs hfin
    rw [hcost] at hfin
    simp [hvs] at hfin
  · intro u hu
    simp at hu
  · intro v hv
    exact absurd (hprev v) hv

/-- The relaxation loop of `FindPath` returns when it is given `fuelBound`
iterations. -/
theorem FindPath_loop {nodes : List (Node α)} {s : Nat} {sn : Node α}
    (hval : TargetsValid nodes) (hnn : NonNegCosts nodes)
    (h0 : (nodes.map (fun n => ({ n with cost_ := INT_MAX, on_path_ := false } : Node α)))[s]?
      = some sn) (tie : Nat → Nat) (end_node : Nat) {fuel : Nat}
    (hf : fuelBound nodes ≤ fuel) :
    ∃ nodes2 pq S m rank B, relaxLoop tie end_node fuel 0
        ((nodes.map (fun n => ({ n with cost_ := INT_MAX, on_path_ := false } : Node α))).set s
          { sn with cost_ := 0 }) [⟨s, 0⟩] = some nodes2 ∧
      DInv (edgesOf nodes) nodes.length s (prevOf nodes) (nodes.map Node.fixed)
        (List.replicate nodes.length false) S m rank B nodes2 pq ∧
      (pq = [] ∨ ∃ q ∈ pq, q.node = end_node ∧ ∀ y ∈ pq, q.cost ≤ y.cost) := by
  apply relaxLoop_spec hnn hval tie end_node fuel 0 _ _ _ _ _ _ (DInv_init h0)
  unfold fuelBound at hf
  simp only [List.length_singleton]
  omega

end Whole

/-! ## The path that `FindPath` stores -/

section Stored

variable {α : Type} [LinearOrderedCommRing α]

variable {E : Nat → List (Edge α)} {n s : Nat} {prev0 : Nat → Option Nat}
  {F : List (List (Edge α) × Int × α × α × Bool)}
  {S : Finset Nat} {m : α} {rank : Nat → Nat} {B : Nat}
  {nodes : List (Node α)} {pq : List (QNode α)}

/-- The part of `FindPath` after the relaxation loop, when the end node is not
the start node and has a cost below `INT_MAX`. -/
theorem FindPath_tail (hnonneg : ∀ u, ∀ e ∈ E u, 0 ≤ e.cost)
    (inv : DInv E n s prev0 F (List.replicate n false) S m rank B nodes pq)
    {e : Nat} (hen : e < n) (hes : e ≠ s) (hfin : costOf nodes e < INT_MAX)
    {fuel : Nat} (hf : n + 1 ≤ fuel) :
    ∃ en nodes3 path cur nodes4 nodes5 p, nodes[e]? = some en ∧
      backtrack s fuel en.prev_ nodes [some e] = some (nodes3, path, cur) ∧
      setOnPath nodes3 s = some nodes4 ∧ setOnPath nodes4 e = some nodes5 ∧
      (path ++ [cur]).reverse = p.map some ∧
      TreePath (prevOf nodes) s e p ∧ p.Nodup ∧ (∀ x ∈ p, x < n) ∧
      List.Chain' (Adj nodes) p ∧ (∃ c, pathCost nodes p = some c ∧ c ≤ costOf nodes e) ∧
      nodes5.map Node.fixed = nodes.map Node.fixed ∧
      nodes5.map Node.cost_ = nodes.map Node.cost_ ∧
      nodes5.map Node.prev_ = nodes.map Node.prev_ ∧
      ∀ x, onPathOf nodes5 x = decide (x ∈ p) := by
  obtain ⟨p, htp, hnd, hmem, hch, hcost⟩ :=
    inv.treePath hnonneg ((if e ∈ S then rank e else B) + 1) e (Nat.lt_succ_self _) hen hfin
  have hlen : p.length ≤ n := length_le_of_nodup_lt hnd (fun x hx => (hmem x hx).1)
  have hen1 : e < nodes.length := by rw [inv.len]; exact hen
  have hget : nodes[e]? = some nodes[e] := List.getElem?_eq_getElem hen1
  have hall : ∀ x, onPathOf nodes x = false := by
    intro x
    unfold onPathOf
    have h1 : (nodes.map Node.on_path_)[x]? = (List.replicate n false)[x]? := by rw [inv.onp]
    simp only [List.getElem?_map, List.getElem?_replicate] at h1
    cases h2 : nodes[x]? with
    | none => rfl
    | some nd =>
      rw [h2] at h1
      by_cases hx : x < n
      · simpa [hx] using h1
      · simp [hx] at h1
  cases htp with
  | root => exact absurd rfl hes
  | @step _ u p1 _ hprev hu =>
    have hpe : (nodes[e]).prev_ = some u := by
      simpa [prevOf, hget] using hprev
    have hval1 : ∀ x ∈ p1, x < nodes.length := by
      intro x hx
      rw [inv.len]
      exact (hmem x (List.mem_append_left _ hx)).1
    have hlen1 : p1.length ≤ fuel := by
      simp only [List.length_append, List.length_singleton] at hlen
      omega
    obtain ⟨nodes3, path1, hb, hrev, hfix3, hcost3, hprev3, hon3⟩ :=
      backtrack_spec hu fuel nodes [some e] rfl hval1 hlen1
    have hs3 : s < nodes3.length := by
      rw [length_eq_of_map_eq hfix3, inv.len]
      exact inv.start_lt
    obtain ⟨nodes4, h4, hfix4, hcost4, hprev4, hon4⟩ := setOnPath_spec hs3
    have he4 : e < nodes4.length := by
      rw [length_eq_of_map_eq hfix4, length_eq_of_map_eq hfix3]
      exact hen1
    obtain ⟨nodes5, h5, hfix5, hcost5, hprev5, hon5⟩ := setOnPath_spec he4
    refine ⟨nodes[e], nodes3, path1, some s, nodes4, nodes5, p1 ++ [e], hget, ?_, h4, h5, ?_,
      TreePath.step hes hprev hu, hnd, fun x hx => (hmem x hx).1, hch, hcost,
      by rw [hfix5, hfix4, hfix3], by rw [hcost5, hcost4, hcost3],
      by rw [hprev5, hprev4, hprev3], ?_⟩
    · rw [hpe]
      exact hb
    · rw [hrev]
      simp
    · intro x
      rw [hon5, hon4, hon3, hall]
      have hsp : s ∈ p1 := by
        have := hu.head
        exact List.mem_of_mem_head? this
      by_cases hxs : x = s
      · subst hxs
        simp [hsp]
      · by_cases hxe : x = e
        · subst hxe
          simp
        · simp [hxs, hxe]

/-- The outcome of `FindPath` when the end node is not the start node and can
be reached from it over edges of non-negative cost at a total cost below
`INT_MAX`. -/
theorem FindPath_reach {g : Graph α} {s e : Nat} (hs : g.start_node_ = some s)
    (he : g.end_node_ = some e) (hsn : s < g.node_.length) (hen : e < g.node_.length)
    (hval : TargetsValid g.node_) (hnn : NonNegCosts g.node_) (hes : e ≠ s)
    (hreach : ∃ p L, p.head? = some s ∧ p.getLast? = some e ∧
      pathCost g.node_ p = some L ∧ L < INT_MAX)
    (tie : Nat → Nat) {fuel : Nat} (hf : fuelBound g.node_ ≤ fuel) :
    ∃ g1 p, FindPath fuel tie g = some g1 ∧ g1.path_node_ = p.map some ∧
      g1.node_.map Node.fixed = g.node_.map Node.fixed ∧
      TreePath (prevOf g1.node_) s e p ∧ p.Nodup ∧ (∀ x ∈ p, x < g.node_.length) ∧
      List.Chain' (Adj g1.node_) p ∧ pathCost g1.node_ p = some (costOf g1.node_ e) ∧
      (∀ p1 L1, p1.head? = some s → p1.getLast? = some e → pathCost g1.node_ p1 = some L1 →
        costOf g1.node_ e ≤ L1) ∧
      ∀ x, onPathOf g1.node_ x = decide (x ∈ p) := by
  have hlt0 : s < (g.node_.map (fun n =>
      ({ n with cost_ := INT_MAX, on_path_ := false } : Node α))).length := by simpa using hsn
  have h0 := List.getElem?_eq_getElem hlt0
  obtain ⟨nodes2, pq, S, m, rank, B, hloop, inv, hfinal⟩ := FindPath_loop hval hnn h0 tie e hf
  have hedges2 : edgesOf nodes2 = edgesOf g.node_ := inv.edges
  obtain ⟨p0, L0, hh0, hl0, hc0, hlt0⟩ := hreach
  have hopt : ∀ p1 L1, p1.head? = some s → p1.getLast? = some e →
      pathCost nodes2 p1 = some L1 → costOf nodes2 e ≤ L1 :=
    fun p1 L1 a b c => inv.optimal hnn hfinal a b c
  have hfin : costOf nodes2 e < INT_MAX :=
    lt_of_le_of_lt (hopt p0 L0 hh0 hl0 (by rw [pathCost_congr hedges2]; exact hc0)) hlt0
  have hfuel : g.node_.length + 1 ≤ fuel := by
    unfold fuelBound at hf
    omega
  obtain ⟨en, nodes3, path, cur, nodes4, nodes5, p, hget, hback, h4, h5, hrev, htp, hnd, hmem,
    hch, ⟨c, hpc, hcle⟩, hfix5, hcost5, hprev5, hon5⟩ :=
    FindPath_tail hnn inv hen hes hfin hfuel
  have hedges5 : edgesOf nodes5 = edgesOf nodes2 := edgesOf_of_fixed_eq hfix5
  have hcostOf5 : costOf nodes5 = costOf nodes2 := costOf_of_map_eq hcost5
  refine ⟨{ g with node_ := nodes5, path_node_ := (path ++ [cur]).reverse }, p, ?_, hrev, ?_,
    ?_, hnd, hmem, ?_, ?_, ?_, hon5⟩
  · unfold FindPath
    simp only [hs, he, h0, hloop, hget, hback, h4, h5]
  · simp only
    rw [hfix5]
    exact inv.fixed
  · simp only
    rw [prevOf_of_map_eq hprev5]
    exact htp
  · simp only
    unfold Adj
    rw [hedges5]
    exact hch
  · simp only
    rw [pathCost_congr hedges5, hcostOf5, hpc]
    congr 1
    apply le_antisymm hcle
    exact hopt p c htp.head htp.last hpc
  · intro p1 L1 a b c1
    simp only at c1 ⊢
    rw [hcostOf5]
    rw [pathCost_congr hedges5] at c1
    exact hopt p1 L1 a b c1

end Stored

/-! ## Termination of `FindPath` on a graph whose end node has no `prev` -/

section Fresh

variable {α : Type} [LinearOrderedCommRing α]

/-- When the `prev` pointer of the end node is null before the call, `FindPath`
returns when it is given `fuelBound` iterations. -/
theorem FindPath_isSome_of_prev_none {g : Graph α} {s e : Nat} (hs : g.start_node_ = some s)
    (he : g.end_node_ = some e) (hsn : s < g.node_.length) (hen : e < g.node_.length)
    (hval : TargetsValid g.node_) (hnn : NonNegCosts g.node_)
    (hprev : prevOf g.node_ e = none)
    (tie : Nat → Nat) {fuel : Nat} (hf : fuelBound g.node_ ≤ fuel) :
    ∃ g1, FindPath fuel tie g = some g1 := by
  have hlt0 : s < (g.node_.map (fun n =>
      ({ n with cost_ := INT_MAX, on_path_ := false } : Node α))).length := by simpa using hsn
  have h0 := List.getElem?_eq_getElem hlt0
  obtain ⟨nodes2, pq, S, m, rank, B, hloop, inv, hfinal⟩ := FindPath_loop hval hnn h0 tie e hf
  have hfuel : g.node_.length + 1 ≤ fuel := by
    unfold fuelBound at hf
    omega
  have hen2 : e < nodes2.length := by rw [inv.len]; exact hen
  have hget : nodes2[e]? = some nodes2[e] := List.getElem?_eq_getElem hen2
  by_cases hp : prevOf nodes2 e = none
  · have hpe : (nodes2[e]).prev_ = none := by simpa [prevOf, hget] using hp
    have hs2 : s < nodes2.length := by rw [inv.len]; exact hsn
    obtain ⟨nodes4, h4, hfix4, _⟩ := setOnPath_spec hs2
    have he4 : e < nodes4.length := by rw [length_eq_of_map_eq hfix4]; exact hen2
    obtain ⟨nodes5, h5, _⟩ := setOnPath_spec he4
    have hback : backtrack s fuel (nodes2[e]).prev_ nodes2 [some e] =
        some (nodes2, [some e], none) := by
      rw [hpe]
      cases fuel with
      | zero => omega
      | succ fuel => rfl
    refine ⟨{ g with node_ := nodes5, path_node_ := ([some e] ++ [none]).reverse }, ?_⟩
    unfold FindPath
    simp only [hs, he, h0, hloop, hget, hback, h4, h5]
  · have hne : prevOf nodes2 e ≠ prevOf g.node_ e := by rw [hprev]; exact hp
    obtain ⟨hfin, hes⟩ := inv.prov e hne
    obtain ⟨en, nodes3, path, cur, nodes4, nodes5, p, hget1, hback, h4, h5, _⟩ :=
      FindPath_tail hnn inv hen hes hfin hfuel
    refine ⟨{ g with node_ := nodes5, path_node_ := (path ++ [cur]).reverse }, ?_⟩
    unfold FindPath
    simp only [hs, he, h0, hloop, hget1, hback, h4, h5]

end Fresh

/-! ## Edge symmetry and `AddNeighbor` -/

section Sym

variable {α : Type} [LinearOrderedCommRing α]

theorem forLoop_inv {σ : Type} (body : Nat → σ → Option σ) (P : Nat → σ → Prop) :
    ∀ (cnt lo : Nat) (s : σ), P lo s →
      (∀ k s, lo ≤ k → k < lo + cnt → P k s → ∃ s1, body k s = some s1 ∧ P (k + 1) s1) →
      ∃ s1, forLoop body lo cnt s = some s1 ∧ P (lo + cnt) s1 := by
  intro cnt
  induction cnt with
  | zero =>
    intro lo s h0 _
    exact ⟨s, rfl, h0⟩
  | succ cnt ih =>
    intro lo s h0 hstep
    obtain ⟨s1, hb, hP⟩ := hstep lo s (le_refl _) (by omega) h0
    obtain ⟨s2, hl, hP2⟩ := ih (lo + 1) s1 hP (fun k s hk1 hk2 hPk =>
      hstep k s (by omega) (by omega) hPk)
    refine ⟨s2, ?_, ?_⟩
    · simp only [forLoop, hb, hl]
    · have : lo + (cnt + 1) = lo + 1 + cnt := by omega
      rw [this]
      exact hP2

theorem AddEdge_rest {nodes nodes1 : List (Node α)} {i : Nat} {e : Edge α}
    (h : AddEdge nodes i e = some nodes1) : nodes1.map Node.rest = nodes.map Node.rest := by
  obtain ⟨n, hn, rfl⟩ := AddEdge_eq_some_iff.1 h
  exact map_set_of_eq Node.rest hn rfl

theorem AddNeighbor_rest {nodes nodes2 : List (Node α)} {a b : Nat} {w : α}
    (h : AddNeighbor nodes a b w = some nodes2) :
    nodes2.map Node.rest = nodes.map Node.rest := by
  obtain ⟨nodes1, h1, h2⟩ := AddNeighbor_eq_some_iff.1 h
  rw [AddEdge_rest h2, AddEdge_rest h1]

theorem AddNeighbor_targetCount {nodes nodes2 : List (Node α)} {a b : Nat} {w : α}
    (h : AddNeighbor nodes a b w = some nodes2) (u v : Nat) :
    targetCount nodes2 u v = targetCount nodes u v + (if u = a ∧ v = b then 1 else 0) +
      (if u = b ∧ v = a then 1 else 0) := by
  unfold targetCount
  rw [AddNeighbor_edgesOf h, List.countP_append, List.countP_append]
  congr 1
  · congr 1
    by_cases hua : u = a
    · by_cases hvb : v = b
      · simp [hua, hvb]
      · have : ¬ b = v := fun h => hvb h.symm
        simp [hua, hvb, this]
    · simp [hua]
  · by_cases hub : u = b
    · by_cases hva : v = a
      · simp [hub, hva]
      · have : ¬ a = v := fun h => hva h.symm
        simp [hub, hva, this]
    · simp [hub]

theorem AddNeighbor_degree {nodes nodes2 : List (Node α)} {a b : Nat} {w : α}
    (h : AddNeighbor nodes a b w = some nodes2) (u : Nat) :
    (edgesOf nodes2 u).length = (edgesOf nodes u).length + (if u = a then 1 else 0) +
      (if u = b then 1 else 0) := by
  rw [AddNeighbor_edgesOf h, List.length_append, List.length_append]
  split_ifs <;> simp

theorem count_ite_singleton {β : Type} [DecidableEq β] (c : Prop) [Decidable c] (x y : β) :
    List.count x (if c then [y] else []) = if c ∧ x = y then 1 else 0 := by
  by_cases hc : c
  · by_cases hxy : x = y
    · simp [hc, hxy]
    · have : ¬ y = x := fun h => hxy h.symm
      simp [hc, hxy, List.count_singleton, this]
  · simp [hc]

/-- `AddNeighbor` preserves edge symmetry. -/
theorem AddNeighbor_EdgeSym {nodes nodes2 : List (Node α)} {a b : Nat} {w : α}
    (h : AddNeighbor nodes a b w = some nodes2) (hsym : EdgeSym nodes) : EdgeSym nodes2 := by
  obtain ⟨hsrc, hcnt⟩ := hsym
  constructor
  · intro u e he
    rw [AddNeighbor_edgesOf h] at he
    rcases List.mem_append.1 he with he | he
    · rcases List.mem_append.1 he with he | he
      · exact hsrc u e he
      · by_cases hua : u = a
        · simp only [hua, if_true, List.mem_singleton] at he
          rw [he, hua]
        · simp [hua] at he
    · by_cases hub : u = b
      · simp only [hub, if_true, List.mem_singleton] at he
        rw [he, hub]
      · simp [hub] at he
  · intro u v w1
    rw [AddNeighbor_edgesOf h, AddNeighbor_edgesOf h]
    simp only [List.count_append]
    have h0 := hcnt u v w1
    have e1 : List.count (⟨u, v, w1⟩ : Edge α) (if u = a then [⟨a, b, w⟩] else []) =
        List.count (⟨v, u, w1⟩ : Edge α) (if v = b then [⟨b, a, w⟩] else []) := by
      have hiff : (u = a ∧ (⟨u, v, w1⟩ : Edge α) = ⟨a, b, w⟩) ↔
          (v = b ∧ (⟨v, u, w1⟩ : Edge α) = ⟨b, a, w⟩) := by
        simp only [Edge.mk.injEq]
        tauto
      rw [count_ite_singleton, count_ite_singleton]
      exact if_congr hiff rfl rfl
    have e2 : List.count (⟨u, v, w1⟩ : Edge α) (if u = b then [⟨b, a, w⟩] else []) =
        List.count (⟨v, u, w1⟩ : Edge α) (if v = a then [⟨a, b, w⟩] else []) := by
      have hiff : (u = b ∧ (⟨u, v, w1⟩ : Edge α) = ⟨b, a, w⟩) ↔
          (v = a ∧ (⟨v, u, w1⟩ : Edge α) = ⟨a, b, w⟩) := by
        simp only [Edge.mk.injEq]
        tauto
      rw [count_ite_singleton, count_ite_singleton]
      exact if_congr hiff rfl rfl
    omega

theorem EdgeSym_targets {nodes : List (Node α)} (hsym : EdgeSym nodes) : TargetsValid nodes := by
  intro u e he
  have h1 := hsym.1 u e he
  have hcount : 0 < (edgesOf nodes u).count e := List.count_pos_iff.2 he
  have heq : e = ⟨u, e.n2, e.cost⟩ := by
    cases e
    simp only at h1
    simp [h1]
  rw [heq, hsym.2 u e.n2 e.cost] at hcount
  have hmem := List.count_pos_iff.1 hcount
  by_contra hcon
  have : nodes[e.n2]? = none := List.getElem?_eq_none (not_lt.1 hcon)
  simp [edgesOf, this] at hmem

theorem EdgeSym_of_no_edges {nodes : List (Node α)} (h : ∀ u, edgesOf nodes u = []) :
    EdgeSym nodes := by
  constructor
  · intro u e he
    rw [h u] at he
    simp at he
  · intro u v w
    rw [h u, h v]
    simp

theorem EdgeSym_congr {nodes nodes1 : List (Node α)} (h : edgesOf nodes1 = edgesOf nodes)
    (hsym : EdgeSym nodes) : EdgeSym nodes1 := by
  unfold EdgeSym
  rw [h]
  exact hsym

end Sym

/-! ## `BuildGrid`: the nodes -/

section GridNodes

variable {α : Type} [LinearOrderedCommRing α]

theorem cell_mod {cols i j : Nat} (hj : j < cols) : (i * cols + j) % cols = j := by
  rw [Nat.add_comm, Nat.add_mul_mod_self_right, Nat.mod_eq_of_lt hj]

theorem cell_div {cols i j : Nat} (hj : j < cols) : (i * cols + j) / cols = i := by
  have hpos : 0 < cols := by omega
  rw [Nat.add_comm, Nat.add_mul_div_right _ _ hpos, Nat.div_eq_of_lt hj, Nat.zero_add]

theorem cell_lt {cols rows i j : Nat} (hi : i < rows) (hj : j < cols) :
    i * cols + j < rows * cols := by
  have h1 : (i + 1) * cols ≤ rows * cols := Nat.mul_le_mul_right _ hi
  rw [Nat.succ_mul] at h1
  omega

theorem gridAddRow_get (disp_x y : α) :
    ∀ (cnt : Nat) (st : List (Node α) × Int × α),
      (gridAddRow disp_x y cnt st).1.length = st.1.length + cnt ∧
      (gridAddRow disp_x y cnt st).2.1 = st.2.1 + cnt ∧
      (∀ k, k < st.1.length → (gridAddRow disp_x y cnt st).1[k]? = st.1[k]?) ∧
      ∀ j, j < cnt → (gridAddRow disp_x y cnt st).1[st.1.length + j]? =
        some (Node.new (st.2.1 + j) (st.2.2 + j * disp_x) y) := by
  intro cnt
  induction cnt with
  | zero =>
    intro st
    simp [gridAddRow]
  | succ cnt ih =>
    intro st
    obtain ⟨h1, h2, h3, h4⟩ := ih (AddNode st.1 st.2.1 st.2.2 y, st.2.1 + 1, st.2.2 + disp_x)
    simp only [AddNode, List.length_append, List.length_singleton] at h1 h2 h3 h4
    unfold gridAddRow
    simp only [AddNode]
    refine ⟨by rw [h1]; omega, by rw [h2]; push_cast; ring, ?_, ?_⟩
    · intro k hk
      rw [h3 k (by omega), List.getElem?_append_left hk]
    · intro j hj
      cases j with
      | zero =>
        rw [Nat.add_zero, h3 _ (by omega), List.getElem?_append_right (le_refl _)]
        simp
      | succ j =>
        have := h4 j (by omega)
        have hidx : st.1.length + (j + 1) = st.1.length + 1 + j := by omega
        rw [hidx, this]
        congr 2
        · push_cast
          ring
        · push_cast
          ring

theorem gridAddRows_get (cols : Nat) (disp_x disp_y start_x : α) :
    ∀ (cnt : Nat) (st : List (Node α) × Int × α × α), st.2.2.1 = start_x →
      (gridAddRows cols disp_x disp_y start_x cnt st).1.length = st.1.length + cnt * cols ∧
      (∀ k, k < st.1.length →
        (gridAddRows cols disp_x disp_y start_x cnt st).1[k]? = st.1[k]?) ∧
      ∀ i j, i < cnt → j < cols →
        (gridAddRows cols disp_x disp_y start_x cnt st).1[st.1.length + (i * cols + j)]? =
          some (Node.new (st.2.1 + (i * cols + j : Nat)) (start_x + j * disp_x)
            (st.2.2.2 - i * disp_y)) := by
  intro cnt
  induction cnt with
  | zero =>
    intro st _
    simp [gridAddRows]
  | succ cnt ih =>
    intro st hx
    obtain ⟨a1, a2, a3, a4⟩ := gridAddRow_get disp_x st.2.2.2 cols (st.1, st.2.1, st.2.2.1)
    simp only at a1 a2 a3 a4
    obtain ⟨b1, b2, b3⟩ := ih ((gridAddRow disp_x st.2.2.2 cols (st.1, st.2.1, st.2.2.1)).1,
      (gridAddRow disp_x st.2.2.2 cols (st.1, st.2.1, st.2.2.1)).2.1, start_x,
      st.2.2.2 - disp_y) rfl
    simp only at b1 b2 b3
    unfold gridAddRows
    simp only
    refine ⟨?_, ?_, ?_⟩
    · rw [b1, a1, Nat.succ_mul]
      omega
    · intro k hk
      rw [b2 k (by rw [a1]; omega), a3 k hk]
    · intro i j hi hj
      cases i with
      | zero =>
        simp only [Nat.zero_mul, Nat.zero_add]
        rw [b2 _ (by rw [a1]; omega), a4 j hj, hx]
        simp
      | succ i =>
        have := b3 i j (by omega) hj
        rw [a1] at this
        have hidx : st.1.length + ((i + 1) * cols + j) = st.1.length + cols + (i * cols + j) := by
          rw [Nat.succ_mul]
          omega
        rw [hidx, this, a2]
        congr 2
        · rw [Nat.succ_mul]
          push_cast
          ring
        · push_cast
          ring

end GridNodes

/-! ## `BuildGrid`: the edges -/

section GridEdges

variable {α : Type} [LinearOrderedCommRing α]

/-- One cell of the second loop nest: at most two calls of `AddNeighbor`, with
weights of the form `10 + r % 6`. -/
theorem gridConnectCell_spec (rand : Nat → Nat) {cols rows i j : Nat} (hi : i < rows)
    (hj : j < cols) {nodes : List (Node α)} (r : Nat) (hlen : nodes.length = rows * cols) :
    ∃ nodes1 nodes2 r2,
      gridConnectCell rand cols rows i j (nodes, i * cols + j, r)
        = some (nodes2, i * cols + j + 1, r2) ∧
      (if j + 1 < cols then ∃ r1 : Nat, AddNeighbor nodes (i * cols + j) (i * cols + j + 1)
          (randWeight r1) = some nodes1 else nodes1 = nodes) ∧
      (if i + 1 < rows then ∃ r1 : Nat, AddNeighbor nodes1 (i * cols + j) (i * cols + j + cols)
          (randWeight r1) = some nodes2 else nodes2 = nodes1) := by
  have hidx : i * cols + j < rows * cols := cell_lt hi hj
  have hb : (i + 1) * cols + j = i * cols + j + cols := by
    rw [Nat.succ_mul]
    omega
  have hright : ∃ nodes1 r1, gridAddWeighted rand (j < cols - 1) (i * cols + j)
        (i * cols + j + 1) (nodes, r) = some (nodes1, r1) ∧ nodes1.length = rows * cols ∧
      (if j + 1 < cols then ∃ r1 : Nat, AddNeighbor nodes (i * cols + j) (i * cols + j + 1)
          (randWeight r1) = some nodes1 else nodes1 = nodes) := by
    unfold gridAddWeighted
    by_cases hc : j + 1 < cols
    · have hc1 : j < cols - 1 := by omega
      have hlt : i * cols + j + 1 < nodes.length := by
        rw [hlen]
        have := cell_lt hi hc
        omega
      obtain ⟨nodes1, h1⟩ := AddNeighbor_isSome (randWeight (rand r) : α)
        (by rw [hlen]; exact hidx) hlt
      refine ⟨nodes1, r + 1, by simp only [hc1, if_true, h1], ?_, ?_⟩
      · rw [AddNeighbor_length h1, hlen]
      · simp only [hc, if_true]
        exact ⟨rand r, h1⟩
    · have hc1 : ¬ j < cols - 1 := by omega
      exact ⟨nodes, r, by simp only [hc1, if_false], hlen, by simp only [hc, if_false]⟩
  obtain ⟨nodes1, r1, hr1, hlen1, hspec1⟩ := hright
  have hbottom : ∃ nodes2 r2, gridAddWeighted rand (i < rows - 1) (i * cols + j)
        ((i + 1) * cols + j) (nodes1, r1) = some (nodes2, r2) ∧
      (if i + 1 < rows then ∃ r1 : Nat, AddNeighbor nodes1 (i * cols + j) (i * cols + j + cols)
          (randWeight r1) = some nodes2 else nodes2 = nodes1) := by
    unfold gridAddWeighted
    by_cases hc : i + 1 < rows
    · have hc1 : i < rows - 1 := by omega
      have hlt : (i + 1) * cols + j < nodes1.length := by
        rw [hlen1]
        exact cell_lt hc hj
      obtain ⟨nodes2, h2⟩ := AddNeighbor_isSome (randWeight (rand r1) : α)
        (by rw [hlen1]; exact hidx) hlt
      refine ⟨nodes2, r1 + 1, by simp only [hc1, if_true, h2], ?_⟩
      simp only [hc, if_true]
      rw [← hb]
      exact ⟨rand r1, h2⟩
    · have hc1 : ¬ i < rows - 1 := by omega
      exact ⟨nodes1, r1, by simp only [hc1, if_false], by simp only [hc, if_false]⟩
  obtain ⟨nodes2, r2, hr2, hspec2⟩ := hbottom
  refine ⟨nodes1, nodes2, r2, ?_, hspec1, hspec2⟩
  unfold gridConnectCell
  simp only [hr1, hr2]

theorem randWeight_range (r : Nat) : (10 : α) ≤ randWeight r ∧ (randWeight r : α) ≤ 15 := by
  unfold randWeight
  constructor
  · have : 10 ≤ 10 + r % 6 := by omega
    exact_mod_cast this
  · have : 10 + r % 6 ≤ 15 := by omega
    exact_mod_cast this

/-- What an optional call of `AddNeighbor` with a grid weight does to the
parts of the graph that the grid invariant speaks about. -/
theorem optAdd_effect {c : Prop} [Decidable c] {a b : Nat} {nodes nodes1 : List (Node α)}
    (h : if c then ∃ r1 : Nat, AddNeighbor nodes a b (randWeight r1) = some nodes1
      else nodes1 = nodes) :
    nodes1.length = nodes.length ∧ nodes1.map Node.rest = nodes.map Node.rest ∧
      (EdgeSym nodes → EdgeSym nodes1) ∧
      ((∀ u, ∀ e ∈ edgesOf nodes u, ∃ r : Nat, e.cost = randWeight r) →
        ∀ u, ∀ e ∈ edgesOf nodes1 u, ∃ r : Nat, e.cost = randWeight r) ∧
      (∀ u v, targetCount nodes1 u v = targetCount nodes u v +
        (if c ∧ u = a ∧ v = b then 1 else 0) + (if c ∧ u = b ∧ v = a then 1 else 0)) ∧
      ∀ u, (edgesOf nodes1 u).length = (edgesOf nodes u).length +
        (if c ∧ u = a then 1 else 0) + (if c ∧ u = b then 1 else 0) := by
  by_cases hc : c
  · simp only [hc, if_true] at h
    obtain ⟨r1, h1⟩ := h
    refine ⟨AddNeighbor_length h1, AddNeighbor_rest h1, AddNeighbor_EdgeSym h1, ?_, ?_, ?_⟩
    · intro hw u e he
      rw [AddNeighbor_edgesOf h1] at he
      rcases List.mem_append.1 he with he | he
      · rcases List.mem_append.1 he with he | he
        · exact hw u e he
        · by_cases hua : u = a
          · simp only [hua, if_true, List.mem_singleton] at he
            exact ⟨r1, by rw [he]⟩
          · simp [hua] at he
      · by_cases hub : u = b
        · simp only [hub, if_true, List.mem_singleton] at he
          exact ⟨r1, by rw [he]⟩
        · simp [hub] at he
    · intro u v
      rw [AddNeighbor_targetCount h1]
      simp only [hc, true_and]
    · intro u
      rw [AddNeighbor_degree h1]
      simp only [hc, true_and]
  · simp only [hc, if_false] at h
    subst h
    refine ⟨rfl, rfl, id, id, ?_, ?_⟩
    · intro u v
      simp [hc]
    · intro u
      simp [hc]

end GridEdges

/-! ## `BuildGrid`: the invariant of the second loop nest -/

section GridLoop

variable {α : Type} [LinearOrderedCommRing α]

theorem ite_succ_split (P : Nat → Prop) [DecidablePred P] (x t : Nat) :
    (if x < t + 1 ∧ P x then 1 else 0) =
      (if x < t ∧ P x then 1 else 0) + (if x = t ∧ P t then 1 else 0) := by
  by_cases hx : x = t
  · subst hx
    by_cases hp : P x <;> simp [hp]
  · have h1 : x < t + 1 ↔ x < t := by omega
    simp [h1, hx]

theorem isRB_cell {cols rows i j : Nat} (hj : j < cols) (v : Nat) :
    (if isRB cols rows (i * cols + j) v then 1 else 0) =
      (if j + 1 < cols ∧ v = i * cols + j + 1 then 1 else 0) +
      (if i + 1 < rows ∧ v = i * cols + j + cols then 1 else 0) := by
  unfold isRB
  simp only [cell_mod hj, cell_div hj]
  generalize i * cols + j = t
  by_cases h1 : j + 1 < cols <;> by_cases h2 : i + 1 < rows <;>
    by_cases h3 : v = t + 1 <;> by_cases h4 : v = t + cols <;> simp [h1, h2, h3, h4]
  all_goals omega

/-- Processing one cell re-establishes the grid invariant. -/
theorem GridInv_step {cols rows i j : Nat} (hi : i < rows) (hj : j < cols)
    {nodes0 nodes nodes1 nodes2 : List (Node α)}
    (inv : GridInv cols rows nodes0 (i * cols + j) nodes)
    (h1 : if j + 1 < cols then ∃ r1 : Nat, AddNeighbor nodes (i * cols + j) (i * cols + j + 1)
          (randWeight r1) = some nodes1 else nodes1 = nodes)
    (h2 : if i + 1 < rows then ∃ r1 : Nat, AddNeighbor nodes1 (i * cols + j)
          (i * cols + j + cols) (randWeight r1) = some nodes2 else nodes2 = nodes1) :
    GridInv cols rows nodes0 (i * cols + j + 1) nodes2 := by
  obtain ⟨a1, a2, a3, a4, a5, a6⟩ := optAdd_effect h1
  obtain ⟨b1, b2, b3, b4, b5, b6⟩ := optAdd_effect h2
  have hmod := @cell_mod cols i _ hj
  have hdiv := @cell_div cols i _ hj
  constructor
  · rw [b1, a1]
    exact inv.len
  · rw [b2, a2]
    exact inv.rest
  · exact b3 (a3 inv.sym)
  · exact b4 (a4 inv.weights)
  · intro u v
    rw [b5, a5, inv.count]
    rw [ite_succ_split (fun x => isRB cols rows x v) u (i * cols + j),
      ite_succ_split (fun x => isRB cols rows x u) v (i * cols + j)]
    have e1 : (if u = i * cols + j ∧ isRB cols rows (i * cols + j) v then 1 else 0) =
        (if j + 1 < cols ∧ u = i * cols + j ∧ v = i * cols + j + 1 then 1 else 0) +
        (if i + 1 < rows ∧ u = i * cols + j ∧ v = i * cols + j + cols then 1 else 0) := by
      by_cases hu : u = i * cols + j
      · simp only [hu, true_and]
        exact isRB_cell hj v
      · simp [hu]
    have e2 : (if v = i * cols + j ∧ isRB cols rows (i * cols + j) u then 1 else 0) =
        (if j + 1 < cols ∧ u = i * cols + j + 1 ∧ v = i * cols + j then 1 else 0) +
        (if i + 1 < rows ∧ u = i * cols + j + cols ∧ v = i * cols + j then 1 else 0) := by
      by_cases hv : v = i * cols + j
      · simp only [hv, true_and, and_true]
        exact isRB_cell hj u
      · simp [hv]
    simp only at e1 e2 ⊢
    rw [e1, e2]
    omega
  · intro u
    rw [b6, a6, inv.degree]
    rw [ite_succ_split (fun x => x % cols + 1 < cols) u (i * cols + j),
      ite_succ_split (fun x => x / cols + 1 < rows) u (i * cols + j)]
    simp only [hmod, hdiv]
    have e3 : (if 1 ≤ u ∧ u - 1 < i * cols + j + 1 ∧ (u - 1) % cols + 1 < cols then 1 else 0) =
        (if 1 ≤ u ∧ u - 1 < i * cols + j ∧ (u - 1) % cols + 1 < cols then 1 else 0) +
        (if j + 1 < cols ∧ u = i * cols + j + 1 then 1 else 0) := by
      by_cases hu : u = i * cols + j + 1
      · have hu1 : u - 1 = i * cols + j := by omega
        rw [hu1, hmod]
        by_cases hR : j + 1 < cols <;> simp [hu, hR]
      · have h3 : (1 ≤ u ∧ u - 1 < i * cols + j + 1 ∧ (u - 1) % cols + 1 < cols) ↔
            (1 ≤ u ∧ u - 1 < i * cols + j ∧ (u - 1) % cols + 1 < cols) := by
          constructor
          · rintro ⟨p1, p2, p3⟩
            exact ⟨p1, by omega, p3⟩
          · rintro ⟨p1, p2, p3⟩
            exact ⟨p1, by omega, p3⟩
        rw [if_congr h3 rfl rfl]
        simp [hu]
    have e4 : (if cols ≤ u ∧ u - cols < i * cols + j + 1 ∧ (u - cols) / cols + 1 < rows
          then 1 else 0) =
        (if cols ≤ u ∧ u - cols < i * cols + j ∧ (u - cols) / cols + 1 < rows then 1 else 0) +
        (if i + 1 < rows ∧ u = i * cols + j + cols then 1 else 0) := by
      by_cases hu : u = i * cols + j + cols
      · have hu1 : u - cols = i * cols + j := by omega
        have hu2 : cols ≤ u := by omega
        rw [hu1, hdiv]
        by_cases hB : i + 1 < rows <;> simp [hu, hB]
      · have h4 : (cols ≤ u ∧ u - cols < i * cols + j + 1 ∧ (u - cols) / cols + 1 < rows) ↔
            (cols ≤ u ∧ u - cols < i * cols + j ∧ (u - cols) / cols + 1 < rows) := by
          constructor
          · rintro ⟨p1, p2, p3⟩
            exact ⟨p1, by omega, p3⟩
          · rintro ⟨p1, p2, p3⟩
            exact ⟨p1, by omega, p3⟩
        rw [if_congr h4 rfl rfl]
        simp [hu]
    rw [e3, e4]
    have e5 : (if u = i * cols + j ∧ j + 1 < cols then 1 else 0) =
        (if j + 1 < cols ∧ u = i * cols + j then 1 else 0) := if_congr and_comm rfl rfl
    have e6 : (if u = i * cols + j ∧ i + 1 < rows then 1 else 0) =
        (if i + 1 < rows ∧ u = i * cols + j then 1 else 0) := if_congr and_comm rfl rfl
    rw [e5, e6]
    omega

end GridLoop

/-! ## `BuildGrid` as a whole -/

section GridWhole

variable {α : Type} [LinearOrderedCommRing α]

theorem GridInv_init {cols rows : Nat} {nodes0 : List (Node α)}
    (hlen : nodes0.length = rows * cols) (hno : ∀ u, edgesOf nodes0 u = []) :
    GridInv cols rows nodes0 0 nodes0 := by
  constructor
  · exact hlen
  · rfl
  · exact EdgeSym_of_no_edges hno
  · intro u e he
    rw [hno u] at he
    simp at he
  · intro u v
    unfold targetCount
    rw [hno u]
    simp
  · intro u
    rw [hno u]
    simp

/-- The second loop nest of `BuildGrid` returns and establishes the grid
invariant for all cells. -/
theorem gridConnect_spec (rand : Nat → Nat) {cols rows : Nat} {nodes0 : List (Node α)}
    (hlen : nodes0.length = rows * cols) (hno : ∀ u, edgesOf nodes0 u = []) :
    ∃ st, gridConnect rand cols rows nodes0 = some st ∧
      GridInv cols rows nodes0 (rows * cols) st.1 := by
  unfold gridConnect
  obtain ⟨st, hst, hidx, hinv⟩ := forLoop_inv
    (fun i st => forLoop (gridConnectCell rand cols rows i) 0 cols st)
    (fun i (st : List (Node α) × Nat × Nat) =>
      st.2.1 = i * cols ∧ GridInv cols rows nodes0 (i * cols) st.1)
    rows 0 (nodes0, 0, 0) ⟨by simp, by simpa using GridInv_init hlen hno⟩
    (by
      intro i st _ hi ⟨hidx, hinv⟩
      have hi1 : i < rows := by omega
      obtain ⟨st1, hst1, hidx1, hinv1⟩ := forLoop_inv (gridConnectCell rand cols rows i)
        (fun j (st : List (Node α) × Nat × Nat) =>
          st.2.1 = i * cols + j ∧ GridInv cols rows nodes0 (i * cols + j) st.1)
        cols 0 st ⟨by simpa using hidx, by simpa using hinv⟩
        (by
          intro j s _ hj ⟨hidxj, hinvj⟩
          have hj1 : j < cols := by omega
          obtain ⟨nodes, idx, r⟩ := s
          simp only at hidxj hinvj
          subst hidxj
          obtain ⟨nodes1, nodes2, r2, hc, hs1, hs2⟩ :=
            gridConnectCell_spec rand hi1 hj1 r hinvj.len
          exact ⟨_, hc, rfl, GridInv_step hi1 hj1 hinvj hs1 hs2⟩)
      refine ⟨st1, hst1, ?_, ?_⟩
      · rw [hidx1, Nat.succ_mul]
        omega
      · have : (i + 1) * cols = i * cols + (0 + cols) := by
          rw [Nat.succ_mul]
          omega
        rw [this]
        exact hinv1)
  refine ⟨st, hst, ?_⟩
  simpa using hinv

theorem edgesOf_of_all_new {nodes : List (Node α)}
    (h : ∀ (k : Nat) (n : Node α), nodes[k]? = some n → n.edge_ = []) :
    ∀ u, edgesOf nodes u = [] := by
  intro u
  unfold edgesOf
  cases hn : nodes[u]? with
  | none => rfl
  | some n => exact h u n hn

/-- The nodes that the first loop nest of `BuildGrid` puts into a graph without
nodes. -/
theorem gridAddRows_fresh (cols rows : Nat) (disp_x disp_y start_x y0 : α) :
    (gridAddRows cols disp_x disp_y start_x rows ([], 0, start_x, y0)).1.length = rows * cols ∧
    (∀ i j, i < rows → j < cols →
      (gridAddRows cols disp_x disp_y start_x rows ([], 0, start_x, y0)).1[i * cols + j]? =
        some (Node.new ((i * cols + j : Nat) : Int) (start_x + j * disp_x) (y0 - i * disp_y))) ∧
    ∀ u, edgesOf (gridAddRows cols disp_x disp_y start_x rows ([], 0, start_x, y0)).1 u = [] := by
  obtain ⟨h1, _, h3⟩ := gridAddRows_get cols disp_x disp_y start_x rows ([], 0, start_x, y0) rfl
  simp only [List.length_nil, Nat.zero_add, Int.zero_add] at h1 h3
  refine ⟨h1, h3, ?_⟩
  apply edgesOf_of_all_new
  intro k n hk
  have hlt : k < rows * cols := by
    rcases List.getElem?_eq_some.1 hk with ⟨hlt, _⟩
    rw [h1] at hlt
    exact hlt
  have hcols : 0 < cols := by
    by_contra hc
    have : cols = 0 := by omega
    subst this
    simp at hlt
  have hk2 : k = (k / cols) * cols + k % cols := by
    have := Nat.div_add_mod k cols
    rw [Nat.mul_comm] at this
    omega
  have hdiv : k / cols < rows := by
    rw [Nat.div_lt_iff_lt_mul hcols]
    exact hlt
  have := h3 (k / cols) (k % cols) hdiv (Nat.mod_lt _ hcols)
  rw [← hk2, hk] at this
  simp only [Option.some.injEq] at this
  rw [this]
  rfl

end GridWhole

/-! ## The graph that `BuildGrid` builds -/

section GridGraph

variable {α : Type} [LinearOrderedCommRing α]

theorem get_of_map_eq {β : Type} {f : Node α → β} {nodes nodes1 : List (Node α)}
    (h : nodes1.map f = nodes.map f) (k : Nat) : (nodes1[k]?).map f = (nodes[k]?).map f := by
  have h1 : (nodes1.map f)[k]? = (nodes.map f)[k]? := by rw [h]
  simpa only [List.getElem?_map] using h1

theorem prevOf_of_rest_eq {nodes nodes1 : List (Node α)}
    (h : nodes1.map Node.rest = nodes.map Node.rest) : prevOf nodes1 = prevOf nodes := by
  apply prevOf_of_map_eq
  have := congrArg (List.map (fun r : Int × α × α × Bool × α × Bool × Option Nat =>
    r.2.2.2.2.2.2)) h
  simpa [List.map_map, Function.comp_def, Node.rest] using this

theorem gridAddRows_fresh_new (cols rows : Nat) (disp_x disp_y start_x y0 : α) (k : Nat)
    (n : Node α)
    (hk : (gridAddRows cols disp_x disp_y start_x rows ([], 0, start_x, y0)).1[k]? = some n) :
    ∃ id x y, n = Node.new id x y := by
  obtain ⟨h1, h3, _⟩ := gridAddRows_fresh cols rows disp_x disp_y start_x y0
  have hlt : k < rows * cols := by
    rcases List.getElem?_eq_some.1 hk with ⟨hlt, _⟩
    rw [h1] at hlt
    exact hlt
  have hcols : 0 < cols := by
    by_contra hc
    have : cols = 0 := by omega
    subst this
    simp at hlt
  have hk2 : k = (k / cols) * cols + k % cols := by
    have := Nat.div_add_mod k cols
    rw [Nat.mul_comm] at this
    omega
  have hdiv : k / cols < rows := by
    rw [Nat.div_lt_iff_lt_mul hcols]
    exact hlt
  have := h3 (k / cols) (k % cols) hdiv (Nat.mod_lt _ hcols)
  rw [← hk2, hk] at this
  simp only [Option.some.injEq] at this
  exact ⟨_, _, _, this⟩

/-- On a graph without nodes `BuildGrid` is `FindPath` on the grid that the
two loop nests build; that grid satisfies the grid invariant for all cells,
has valid edge targets and edge costs that are not negative, and no node of
it has a `prev` pointer. -/
theorem BuildGrid_spec {cols rows : Nat} (hc : 1 ≤ cols) (hr : 1 ≤ rows) {g : Graph α}
    (hg : g.node_ = []) (rand : Nat → Nat) (disp_x disp_y start_x start_y viewport_height : α)
    (node_sprite edge_sprite : Option (GameObject α)) :
    ∃ nodesG : List (Node α),
      GridInv cols rows
        (gridAddRows cols disp_x disp_y start_x rows
          ([], 0, start_x, viewport_height - start_y)).1 (rows * cols) nodesG ∧
      (∀ fuel tie, BuildGrid fuel tie rand cols rows disp_x disp_y start_x start_y
          viewport_height node_sprite edge_sprite g =
        FindPath fuel tie
          { g with node_obj_ := node_sprite, edge_obj_ := edge_sprite, node_ := nodesG,
                   start_node_ := some 0, end_node_ := some (rows * cols - 1) }) ∧
      TargetsValid nodesG ∧ NonNegCosts nodesG ∧ ∀ v, prevOf nodesG v = none := by
  obtain ⟨h1, h2, h3⟩ := gridAddRows_fresh cols rows disp_x disp_y start_x
    (viewport_height - start_y)
  obtain ⟨st, hst, hinv⟩ := gridConnect_spec rand h1 h3
  have hpos : 0 < rows * cols := Nat.mul_pos hr hc
  refine ⟨st.1, hinv, ?_, EdgeSym_targets hinv.sym, ?_, ?_⟩
  · intro fuel tie
    unfold BuildGrid
    simp only [hg, hst]
    have hl := hinv.len
    have c1 : 0 < st.1.length := by rw [hl]; exact hpos
    have c2 : rows * cols - 1 < st.1.length ∧ 0 < rows * cols := by
      rw [hl]
      exact ⟨by omega, hpos⟩
    simp only [c1, c2, if_true, and_self]
  · intro u e he
    obtain ⟨r, hr1⟩ := hinv.weights u e he
    rw [hr1]
    have := (randWeight_range (α := α) r).1
    linarith
  · intro v
    rw [prevOf_of_rest_eq hinv.rest]
    unfold prevOf
    cases hn : (gridAddRows cols disp_x disp_y start_x rows
        ([], 0, start_x, viewport_height - start_y)).1[v]? with
    | none => rfl
    | some n =>
      obtain ⟨id, x, y, rfl⟩ := gridAddRows_fresh_new cols rows disp_x disp_y start_x _ v n hn
      rfl

end GridGraph

/-! ## What a caller of `BuildGrid` gets -/

section GridResult

variable {α : Type} [LinearOrderedCommRing α]

theorem cell_inj {cols i j i2 j2 : Nat} (hj : j < cols) (hj2 : j2 < cols) :
    i * cols + j = i2 * cols + j2 ↔ i = i2 ∧ j = j2 := by
  constructor
  · intro h
    have h1 := congrArg (fun x => x / cols) h
    have h2 := congrArg (fun x => x % cols) h
    simp only [cell_div hj, cell_div hj2, cell_mod hj, cell_mod hj2] at h1 h2
    exact ⟨h1, h2⟩
  · rintro ⟨rfl, rfl⟩
    rfl

/-- The graph that `BuildGrid` returns for a graph without nodes: it has the
edges of a grid that satisfies the grid invariant, the nodes are laid out in
row-major order, and the call returns when `FindPath` is given enough
iterations. -/
theorem BuildGrid_full {cols rows : Nat} (hc : 1 ≤ cols) (hr : 1 ≤ rows) {g : Graph α}
    (hg : g.node_ = []) (rand : Nat → Nat) (disp_x disp_y start_x start_y viewport_height : α)
    (node_sprite edge_sprite : Option (GameObject α)) :
    ∃ nodesG : List (Node α),
      GridInv cols rows
        (gridAddRows cols disp_x disp_y start_x rows
          ([], 0, start_x, viewport_height - start_y)).1 (rows * cols) nodesG ∧
      (∀ fuel tie g1, BuildGrid fuel tie rand cols rows disp_x disp_y start_x start_y
          viewport_height node_sprite edge_sprite g = some g1 →
        g1.node_.length = rows * cols ∧ edgesOf g1.node_ = edgesOf nodesG ∧
        g1.start_node_ = some 0 ∧ g1.end_node_ = some (rows * cols - 1) ∧
        ∀ i j, i < rows → j < cols → ∃ n, g1.node_[i * cols + j]? = some n ∧
          n.id_ = ((i * cols + j : Nat) : Int) ∧ n.x_ = start_x + j * disp_x ∧
          n.y_ = viewport_height - start_y - i * disp_y) ∧
      ∀ fuel, fuelBound nodesG ≤ fuel → ∀ tie, ∃ g1,
        BuildGrid fuel tie rand cols rows disp_x disp_y start_x start_y
          viewport_height node_sprite edge_sprite g = some g1 := by
  obtain ⟨nodesG, hinv, hbuild, hval, hnn, hprev⟩ := BuildGrid_spec hc hr hg rand disp_x disp_y
    start_x start_y viewport_height node_sprite edge_sprite
  obtain ⟨h1, h2, h3⟩ := gridAddRows_fresh cols rows disp_x disp_y start_x
    (viewport_height - start_y)
  have hpos : 0 < rows * cols := Nat.mul_pos hr hc
  refine ⟨nodesG, hinv, ?_, ?_⟩
  · intro fuel tie g1 hb
    rw [hbuild] at hb
    obtain ⟨hfix, hs, he, _⟩ := FindPath_fixed hb
    simp only at hfix hs he
    refine ⟨?_, edgesOf_of_fixed_eq hfix, hs, he, ?_⟩
    · rw [length_eq_of_map_eq hfix]
      exact hinv.len
    · intro i j hi hj
      have hlt : i * cols + j < g1.node_.length := by
        rw [length_eq_of_map_eq hfix, hinv.len]
        exact cell_lt hi hj
      have hltG : i * cols + j < nodesG.length := by
        rw [hinv.len]
        exact cell_lt hi hj
      refine ⟨g1.node_[i * cols + j], List.getElem?_eq_getElem hlt, ?_⟩
      have e1 := get_of_map_eq hfix (i * cols + j)
      have e2 := get_of_map_eq hinv.rest (i * cols + j)
      rw [List.getElem?_eq_getElem hlt, List.getElem?_eq_getElem hltG] at e1
      rw [List.getElem?_eq_getElem hltG, h2 i j hi hj] at e2
      simp only [Option.map_some', Option.some.injEq, Node.fixed, Node.rest, Node.new,
        Prod.mk.injEq] at e1 e2
      obtain ⟨_, f1, f2, f3, _⟩ := e1
      obtain ⟨k1, k2, k3, _⟩ := e2
      exact ⟨f1.trans k1, f2.trans k2, f3.trans k3⟩
  · intro fuel hf tie
    rw [hbuild]
    exact FindPath_isSome_of_prev_none (s := 0) (e := rows * cols - 1) rfl rfl
      (by simp only; rw [hinv.len]; exact hpos) (by simp only; rw [hinv.len]; omega)
      hval hnn (hprev _) tie hf

/-- The number of edges of a grid cell: one for each of the four directions in
which the grid continues. -/
theorem GridInv_degree {cols rows : Nat} {nodes0 nodes : List (Node α)}
    (inv : GridInv cols rows nodes0 (rows * cols) nodes) {i j : Nat} (hi : i < rows)
    (hj : j < cols) :
    (edgesOf nodes (i * cols + j)).length =
      (if j + 1 < cols then 1 else 0) + (if i + 1 < rows then 1 else 0) +
      (if 1 ≤ j then 1 else 0) + (if 1 ≤ i then 1 else 0) := by
  rw [inv.degree]
  have hlt := cell_lt hi hj
  have t1 : (if i * cols + j < rows * cols ∧ (i * cols + j) % cols + 1 < cols then 1 else 0) =
      (if j + 1 < cols then 1 else 0) := by
    simp only [cell_mod hj, hlt, true_and]
  have t2 : (if i * cols + j < rows * cols ∧ (i * cols + j) / cols + 1 < rows then 1 else 0) =
      (if i + 1 < rows then 1 else 0) := by
    simp only [cell_div hj, hlt, true_and]
  have t3 : (if 1 ≤ i * cols + j ∧ i * cols + j - 1 < rows * cols ∧
      (i * cols + j - 1) % cols + 1 < cols then 1 else 0) = (if 1 ≤ j then 1 else 0) := by
    apply if_congr _ rfl rfl
    constructor
    · rintro ⟨p1, _, p3⟩
      by_contra hj1
      have hj0 : j = 0 := by omega
      subst hj0
      cases i with
      | zero =>
        simp only [Nat.zero_mul, Nat.add_zero] at p1
        omega
      | succ i =>
        have e : (i + 1) * cols + 0 - 1 = i * cols + (cols - 1) := by
          rw [Nat.succ_mul]
          omega
        have hm := @cell_mod cols i (cols - 1) (by omega)
        rw [e, hm] at p3
        omega
    · intro hj1
      have e : i * cols + j - 1 = i * cols + (j - 1) := by omega
      have hm := @cell_mod cols i (j - 1) (by omega)
      refine ⟨by omega, by omega, ?_⟩
      rw [e, hm]
      omega
  have t4 : (if cols ≤ i * cols + j ∧ i * cols + j - cols < rows * cols ∧
      (i * cols + j - cols) / cols + 1 < rows then 1 else 0) = (if 1 ≤ i then 1 else 0) := by
    apply if_congr _ rfl rfl
    constructor
    · rintro ⟨p1, _, _⟩
      by_contra hi1
      have hi0 : i = 0 := by omega
      subst hi0
      simp only [Nat.zero_mul, Nat.zero_add] at p1
      omega
    · intro hi1
      obtain ⟨i1, rfl⟩ : ∃ i1, i = i1 + 1 := ⟨i - 1, by omega⟩
      have e : (i1 + 1) * cols + j - cols = i1 * cols + j := by
        rw [Nat.succ_mul]
        omega
      have hd := @cell_div cols i1 j hj
      refine ⟨?_, by omega, ?_⟩
      · rw [Nat.succ_mul]
        omega
      · rw [e, hd]
        omega
  rw [t1, t2, t3, t4]

/-- The number of edges from one grid cell to another: one when the cells are
horizontal or vertical neighbours, none otherwise. -/
theorem GridInv_count {cols rows : Nat} {nodes0 nodes : List (Node α)}
    (inv : GridInv cols rows nodes0 (rows * cols) nodes) {i j i2 j2 : Nat} (hi : i < rows)
    (hj : j < cols) (hi2 : i2 < rows) (hj2 : j2 < cols) :
    targetCount nodes (i * cols + j) (i2 * cols + j2) =
      if (i2 = i ∧ (j2 = j + 1 ∨ j2 + 1 = j)) ∨ (j2 = j ∧ (i2 = i + 1 ∨ i2 + 1 = i))
      then 1 else 0 := by
  rw [inv.count]
  have hlt := cell_lt hi hj
  have hlt2 := cell_lt hi2 hj2
  simp only [hlt, hlt2, true_and]
  rw [isRB_cell hj, isRB_cell hj2]
  have q1 : (j + 1 < cols ∧ i2 * cols + j2 = i * cols + j + 1) ↔ (i2 = i ∧ j2 = j + 1) := by
    constructor
    · rintro ⟨p1, p2⟩
      have : i2 * cols + j2 = i * cols + (j + 1) := by omega
      exact (cell_inj hj2 p1).1 this
    · rintro ⟨rfl, rfl⟩
      exact ⟨hj2, by omega⟩
  have q2 : (i + 1 < rows ∧ i2 * cols + j2 = i * cols + j + cols) ↔ (i2 = i + 1 ∧ j2 = j) := by
    constructor
    · rintro ⟨p1, p2⟩
      have : i2 * cols + j2 = (i + 1) * cols + j := by
        rw [Nat.succ_mul]
        omega
      exact (cell_inj hj2 hj).1 this
    · rintro ⟨rfl, rfl⟩
      refine ⟨hi2, ?_⟩
      rw [Nat.succ_mul]
      omega
  have q3 : (j2 + 1 < cols ∧ i * cols + j = i2 * cols + j2 + 1) ↔ (i2 = i ∧ j2 + 1 = j) := by
    constructor
    · rintro ⟨p1, p2⟩
      have : i * cols + j = i2 * cols + (j2 + 1) := by omega
      have := (cell_inj hj p1).1 this
      exact ⟨this.1.symm, this.2.symm⟩
    · rintro ⟨rfl, rfl⟩
      exact ⟨hj, by omega⟩
  have q4 : (i2 + 1 < rows ∧ i * cols + j = i2 * cols + j2 + cols) ↔ (j2 = j ∧ i2 + 1 = i) := by
    constructor
    · rintro ⟨p1, p2⟩
      have : i * cols + j = (i2 + 1) * cols + j2 := by
        rw [Nat.succ_mul]
        omega
      have := (cell_inj hj hj2).1 this
      exact ⟨this.2.symm, this.1.symm⟩
    · rintro ⟨rfl, rfl⟩
      refine ⟨hi, ?_⟩
      rw [Nat.succ_mul]
      omega
  rw [if_congr q1 rfl rfl, if_congr q2 rfl rfl, if_congr q3 rfl rfl, if_congr q4 rfl rfl]
  split_ifs <;> omega

end GridResult

/-! ## `BuildMaze`: the scan for an unvisited neighbour -/

section Scan

variable {α : Type} [LinearOrderedCommRing α]

theorem visitedOf_of_get {nodes : List (Node α)} {v : Nat} {n : Node α}
    (h : nodes[v]? = some n) : visitedOf nodes v = n.visited_ := by
  simp [visitedOf, h]

/-- When the scan returns, every index it looked at is an index of an edge
whose target is a node; it returns the first edge among them whose target is
not visited, if there is one. -/
theorem scanUnvisited_some {src : List (Node α)} {edges : List (Edge α)} :
    ∀ {l : List Nat} {r : Option (Edge α)}, scanUnvisited src edges l = some r →
      (r = none → ∀ i ∈ l, ∃ e, edges[i]? = some e ∧ visitedOf src e.n2 = true) ∧
      (∀ e, r = some e → e ∈ edges ∧ e.n2 < src.length ∧ visitedOf src e.n2 = false) := by
  intro l
  induction l with
  | nil =>
    intro r h
    simp only [scanUnvisited, Option.some.injEq] at h
    subst h
    simp
  | cons i rest ih =>
    intro r h
    unfold scanUnvisited at h
    cases he : edges[i]? with
    | none => simp [he] at h
    | some e =>
      simp only [he] at h
      cases hn : src[e.n2]? with
      | none => simp [hn] at h
      | some nb =>
        simp only [hn] at h
        by_cases hv : nb.visited_ = true
        · simp only [hv, Bool.not_true, Bool.false_eq_true, if_false] at h
          obtain ⟨h1, h2⟩ := ih h
          refine ⟨?_, h2⟩
          intro hr j hj
          rcases List.mem_cons.1 hj with rfl | hj
          · exact ⟨e, he, by rw [visitedOf_of_get hn]; exact hv⟩
          · exact h1 hr j hj
        · have hv1 : nb.visited_ = false := by simpa using hv
          simp only [hv1, Bool.not_false, if_true, Option.some.injEq] at h
          subst h
          refine ⟨by simp, ?_⟩
          intro e1 he1
          simp only [Option.some.injEq] at he1
          subst he1
          refine ⟨List.getElem?_mem he, ?_, by rw [visitedOf_of_get hn]; exact hv1⟩
          rcases List.getElem?_eq_some.1 hn with ⟨hlt, _⟩
          exact hlt

/-- The scan returns when every index is an index of an edge and every edge
target is a node. -/
theorem scanUnvisited_isSome {src : List (Node α)} {edges : List (Edge α)}
    (hval : ∀ e ∈ edges, e.n2 < src.length) :
    ∀ {l : List Nat}, (∀ i ∈ l, i < edges.length) → ∃ r, scanUnvisited src edges l = some r := by
  intro l
  induction l with
  | nil =>
    intro _
    exact ⟨none, rfl⟩
  | cons i rest ih =>
    intro hl
    have hi : i < edges.length := hl i (by simp)
    have he : edges[i]? = some edges[i] := List.getElem?_eq_getElem hi
    have hn : edges[i].n2 < src.length := hval _ (List.getElem_mem _)
    have hs : src[edges[i].n2]? = some src[edges[i].n2] := List.getElem?_eq_getElem hn
    obtain ⟨r, hr⟩ := ih (fun j hj => hl j (List.mem_cons_of_mem _ hj))
    unfold scanUnvisited
    simp only [he, hs]
    by_cases hv : (src[edges[i].n2]).visited_ = true
    · simp only [hv, Bool.not_true, Bool.false_eq_true, if_false]
      exact ⟨r, hr⟩
    · have hv1 : (src[edges[i].n2]).visited_ = false := by simpa using hv
      simp only [hv1, Bool.not_false, if_true]
      exact ⟨_, rfl⟩

theorem copy_nodes (src : List (Node α)) :
    ∀ out : List (Node α), src.foldl (fun o n => AddNode o n.id_ n.x_ n.y_) out =
      out ++ src.map (fun n => Node.new n.id_ n.x_ n.y_) := by
  induction src with
  | nil =>
    intro out
    simp
  | cons a l ih =>
    intro out
    rw [List.foldl_cons, ih]
    simp [AddNode]

theorem sum_set_add {l : List Nat} {i : Nat} (hi : i < l.length) (b : Nat) :
    (l.set i b).sum + l[i] = l.sum + b := by
  induction l generalizing i with
  | nil => simp at hi
  | cons a l ih =>
    cases i with
    | zero =>
      simp only [List.set_cons_zero, List.sum_cons, List.getElem_cons_zero]
      omega
    | succ i =>
      simp only [List.length_cons, Nat.add_lt_add_iff_right] at hi
      have := ih hi
      simp only [List.set_cons_succ, List.sum_cons, List.getElem_cons_succ]
      omega

theorem AddEdge_totalEdges {nodes nodes1 : List (Node α)} {i : Nat} {e : Edge α}
    (h : AddEdge nodes i e = some nodes1) : totalEdges nodes1 = totalEdges nodes + 1 := by
  obtain ⟨n, hn, rfl⟩ := AddEdge_eq_some_iff.1 h
  rcases List.getElem?_eq_some.1 hn with ⟨hlt, hget⟩
  unfold totalEdges
  rw [List.map_set]
  have hlt1 : i < (nodes.map (fun n => n.edge_.length)).length := by simpa using hlt
  have := sum_set_add hlt1 (n.edge_ ++ [e]).length
  simp only [List.getElem_map, hget, List.length_append, List.length_singleton] at this ⊢
  omega

theorem AddNeighbor_totalEdges {nodes nodes2 : List (Node α)} {a b : Nat} {w : α}
    (h : AddNeighbor nodes a b w = some nodes2) : totalEdges nodes2 = totalEdges nodes + 2 := by
  obtain ⟨nodes1, h1, h2⟩ := AddNeighbor_eq_some_iff.1 h
  rw [AddEdge_totalEdges h2, AddEdge_totalEdges h1]

theorem Adj_AddNeighbor {nodes nodes2 : List (Node α)} {a b : Nat} {w : α}
    (h : AddNeighbor nodes a b w = some nodes2) (u v : Nat) :
    Adj nodes2 u v ↔ Adj nodes u v ∨ (u = a ∧ v = b) ∨ (u = b ∧ v = a) := by
  unfold Adj
  rw [AddNeighbor_edgesOf h]
  constructor
  · rintro ⟨e, he, hv⟩
    rcases List.mem_append.1 he with he | he
    · rcases List.mem_append.1 he with he | he
      · exact Or.inl ⟨e, he, hv⟩
      · by_cases hua : u = a
        · simp only [hua, if_true, List.mem_singleton] at he
          subst he
          exact Or.inr (Or.inl ⟨hua, hv.symm⟩)
        · simp [hua] at he
    · by_cases hub : u = b
      · simp only [hub, if_true, List.mem_singleton] at he
        subst he
        exact Or.inr (Or.inr ⟨hub, hv.symm⟩)
      · simp [hub] at he
  · rintro (⟨e, he, hv⟩ | ⟨rfl, rfl⟩ | ⟨rfl, rfl⟩)
    · exact ⟨e, List.mem_append_left _ (List.mem_append_left _ he), hv⟩
    · exact ⟨⟨u, v, w⟩, List.mem_append_left _ (List.mem_append_right _ (by simp)), rfl⟩
    · exact ⟨⟨u, v, w⟩, List.mem_append_right _ (by simp), rfl⟩

end Scan

/-! ## Simple paths in a tree that grows by a leaf -/

section Leaf

variable {R R1 : Nat → Nat → Prop} {V : Finset Nat} {n x : Nat}

/-- A path over `R1` between nodes of `V` does not pass through the leaf. -/
theorem leaf_not_mem (hR : ∀ u v, R u v → u ∈ V ∧ v ∈ V)
    (hR1 : ∀ u v, R1 u v ↔ R u v ∨ (u = n ∧ v = x) ∨ (u = x ∧ v = n)) (hx : x ∉ V) :
    ∀ (p : List Nat) (a b : Nat), p.head? = some a → p.getLast? = some b → a ∈ V → b ∈ V →
      p.Nodup → List.Chain' R1 p → x ∉ p := by
  intro p
  induction p with
  | nil =>
    intro a b _ _ _ _ _ _
    simp
  | cons c rest ih =>
    intro a b hh hl ha hb hnd hch
    simp only [List.head?_cons, Option.some.injEq] at hh
    subst hh
    have hcx : c ≠ x := fun h => hx (h ▸ ha)
    cases rest with
    | nil =>
      simp only [List.mem_singleton]
      exact fun h => hcx h.symm
    | cons y rest =>
      rw [List.chain'_cons] at hch
      obtain ⟨hcy, hch1⟩ := hch
      have hl1 : (y :: rest).getLast? = some b := by
        rw [← hl, List.getLast?_cons_cons]
      have hnd1 : (y :: rest).Nodup := (List.nodup_cons.1 hnd).2
      rcases (hR1 c y).1 hcy with h | ⟨hcn, hyx⟩ | ⟨hcx1, _⟩
      · have hy : y ∈ V := (hR c y h).2
        have := ih y b rfl hl1 hy hb hnd1 hch1
        intro hmem
        rcases List.mem_cons.1 hmem with h1 | h1
        · exact hcx h1.symm
        · exact this h1
      · exfalso
        subst hyx
        cases rest with
        | nil =>
          simp only [List.getLast?_singleton, Option.some.injEq] at hl1
          exact hx (hl1 ▸ hb)
        | cons z rest =>
          rw [List.chain'_cons] at hch1
          rcases (hR1 y z).1 hch1.1 with h | ⟨h1, _⟩ | ⟨_, h2⟩
          · exact hx (hR y z h).1
          · rw [← hcn] at h1
            exact hcx h1.symm
          · have : c = z := by rw [hcn, h2]
            subst this
            have := (List.nodup_cons.1 hnd).1
            exact this (by simp)
      · exact absurd hcx1 hcx

/-- A path over `R1` that avoids the leaf is a path over `R`. -/
theorem chain_of_not_mem
    (hR1 : ∀ u v, R1 u v ↔ R u v ∨ (u = n ∧ v = x) ∨ (u = x ∧ v = n)) :
    ∀ (p : List Nat), x ∉ p → List.Chain' R1 p → List.Chain' R p := by
  intro p
  induction p with
  | nil =>
    intro _ _
    exact List.chain'_nil
  | cons c rest ih =>
    intro hx hch
    cases rest with
    | nil => exact List.chain'_singleton c
    | cons y rest =>
      rw [List.chain'_cons] at hch ⊢
      have hc : c ≠ x := fun h => hx (by simp [h])
      have hy : y ≠ x := fun h => hx (by simp [h])
      refine ⟨?_, ih (fun h => hx (List.mem_cons_of_mem _ h)) hch.2⟩
      rcases (hR1 c y).1 hch.1 with h | ⟨_, h2⟩ | ⟨h1, _⟩
      · exact h
      · exact absurd h2 hy
      · exact absurd h1 hc

theorem chain_mono (hR1 : ∀ u v, R1 u v ↔ R u v ∨ (u = n ∧ v = x) ∨ (u = x ∧ v = n))
    {p : List Nat} (h : List.Chain' R p) : List.Chain' R1 p :=
  List.Chain'.imp (fun u v huv => (hR1 u v).2 (Or.inl huv)) h

/-- The nodes of a path over `R` that starts in `V` are in `V`. -/
theorem chain_subset (hR : ∀ u v, R u v → u ∈ V ∧ v ∈ V) :
    ∀ (p : List Nat) (a : Nat), p.head? = some a → a ∈ V → List.Chain' R p → ∀ y ∈ p, y ∈ V := by
  intro p
  induction p with
  | nil =>
    intro a _ _ _ y hy
    simp at hy
  | cons c rest ih =>
    intro a hh ha hch y hy
    simp only [List.head?_cons, Option.some.injEq] at hh
    subst hh
    cases rest with
    | nil =>
      have : y = c := by simpa using hy
      rw [this]
      exact ha
    | cons z rest =>
      rw [List.chain'_cons] at hch
      rcases List.mem_cons.1 hy with h | h
      · rw [h]
        exact ha
      · exact ih z rfl (hR c z hch.1).2 hch.2 y h

/-- Paths to the nodes of `V` stay unique when the leaf is added. -/
theorem unique_path_old (hR : ∀ u v, R u v → u ∈ V ∧ v ∈ V)
    (hR1 : ∀ u v, R1 u v ↔ R u v ∨ (u = n ∧ v = x) ∨ (u = x ∧ v = n)) (hx : x ∉ V)
    {a v : Nat} (ha : a ∈ V) (hv : v ∈ V)
    (h : ∃! p : List Nat, p.head? = some a ∧ p.getLast? = some v ∧ p.Nodup ∧ List.Chain' R p) :
    ∃! p : List Nat, p.head? = some a ∧ p.getLast? = some v ∧ p.Nodup ∧ List.Chain' R1 p := by
  obtain ⟨p, ⟨h1, h2, h3, h4⟩, huniq⟩ := h
  refine ⟨p, ⟨h1, h2, h3, chain_mono hR1 h4⟩, ?_⟩
  rintro q ⟨q1, q2, q3, q4⟩
  have hxq := leaf_not_mem hR hR1 hx q a v q1 q2 ha hv q3 q4
  exact huniq q ⟨q1, q2, q3, chain_of_not_mem hR1 q hxq q4⟩

/-- The leaf has exactly one path: the path to the node it hangs on, followed
by the leaf. -/
theorem unique_path_leaf (hR : ∀ u v, R u v → u ∈ V ∧ v ∈ V)
    (hR1 : ∀ u v, R1 u v ↔ R u v ∨ (u = n ∧ v = x) ∨ (u = x ∧ v = n)) (hx : x ∉ V)
    {a : Nat} (ha : a ∈ V) (hn : n ∈ V)
    (h : ∃! p : List Nat, p.head? = some a ∧ p.getLast? = some n ∧ p.Nodup ∧ List.Chain' R p) :
    ∃! p : List Nat, p.head? = some a ∧ p.getLast? = some x ∧ p.Nodup ∧ List.Chain' R1 p := by
  obtain ⟨q, ⟨h1, h2, h3, h4⟩, huniq⟩ := h
  have hqne : q ≠ [] := by
    intro hq
    rw [hq] at h1
    simp at h1
  have hsub := chain_subset hR q a h1 ha h4
  have hxq : x ∉ q := fun hmem => hx (hsub x hmem)
  refine ⟨q ++ [x], ⟨?_, by simp, ?_, ?_⟩, ?_⟩
  · rw [List.head?_append_of_ne_nil _ hqne]
    exact h1
  · rw [List.nodup_append]
    refine ⟨h3, by simp, ?_⟩
    intro y hy1 hy2
    have : y = x := by simpa using hy2
    exact hxq (this ▸ hy1)
  · rw [List.chain'_append]
    refine ⟨chain_mono hR1 h4, by simp, ?_⟩
    intro y hy z hz
    rw [h2] at hy
    simp only [Option.mem_def, Option.some.injEq] at hy
    simp only [List.head?_cons, Option.mem_def, Option.some.injEq] at hz
    subst hy
    subst hz
    exact (hR1 _ _).2 (Or.inr (Or.inl ⟨rfl, rfl⟩))
  · rintro p ⟨p1, p2, p3, p4⟩
    have hsplit : p = p.dropLast ++ [x] :=
      (List.dropLast_append_getLast? x (by simpa using p2)).symm
    have hax : a ≠ x := fun h => hx (h ▸ ha)
    have hdne : p.dropLast ≠ [] := by
      intro hd
      rw [hd] at hsplit
      rw [hsplit] at p1
      simp only [List.nil_append, List.head?_cons, Option.some.injEq] at p1
      exact hax p1.symm
    rw [hsplit] at p1 p3 p4
    rw [List.head?_append_of_ne_nil _ hdne] at p1
    rw [List.nodup_append] at p3
    rw [List.chain'_append] at p4
    obtain ⟨c1, _, c3⟩ := p4
    have hxd : x ∉ p.dropLast := fun hmem => p3.2.2 hmem (by simp)
    obtain ⟨y, hy⟩ : ∃ y, p.dropLast.getLast? = some y := by
      cases hl : p.dropLast.getLast? with
      | none => exact absurd (List.getLast?_eq_none_iff.1 hl) hdne
      | some y => exact ⟨y, rfl⟩
    have hyx := c3 y (by simp [hy]) x (by simp)
    have hyn : y = n := by
      rcases (hR1 y x).1 hyx with h | ⟨h, _⟩ | ⟨_, h⟩
      · exact absurd (hR y x h).2 hx
      · exact h
      · exact absurd (h ▸ hn) hx
    rw [hyn] at hy
    have := huniq p.dropLast ⟨p1, hy, p3.1, chain_of_not_mem hR1 _ hxd c1⟩
    rw [hsplit, this]

end Leaf

/-! ## `BuildMaze`: one iteration of the depth-first loop -/

section CarveStep

variable {α : Type} [LinearOrderedCommRing α]

theorem visitedOf_set {nodes : List (Node α)} {i : Nat} {n : Node α} (hi : i < nodes.length)
    (x : Nat) : visitedOf (nodes.set i n) x = if x = i then n.visited_ else visitedOf nodes x := by
  unfold visitedOf
  by_cases hx : x = i
  · subst hx
    simp [hi]
  · have hne : i ≠ x := fun h => hx h.symm
    simp [List.getElem?_set_ne hne, hx]

theorem GetNode_nat {nodes : List (Node α)} {k : Nat} (hk : k < nodes.length) :
    GetNode nodes (k : Int) = some k := by
  unfold GetNode
  simp [hk]

theorem GetNode_some {nodes : List (Node α)} {i : Int} {k : Nat}
    (h : GetNode nodes i = some k) : i = (k : Int) ∧ k < nodes.length := by
  unfold GetNode at h
  by_cases hc : 0 ≤ i ∧ i.toNat < nodes.length
  · simp only [hc, and_self, if_true, Option.some.injEq] at h
    subst h
    exact ⟨(Int.toNat_of_nonneg hc.1).symm, hc.2⟩
  · simp [hc] at h

theorem Adj_congr {nodes nodes1 : List (Node α)} (h : edgesOf nodes1 = edgesOf nodes) :
    Adj nodes1 = Adj nodes := by
  funext u v
  unfold Adj
  rw [h]

theorem Reach_congr {nodes nodes1 : List (Node α)} (h : edgesOf nodes1 = edgesOf nodes) :
    Reach nodes1 = Reach nodes := by
  unfold Reach
  rw [Adj_congr h]

theorem visited_lt {nodes : List (Node α)} {v : Nat} (h : visitedOf nodes v = true) :
    v < nodes.length := by
  by_contra hcon
  have : nodes[v]? = none := List.getElem?_eq_none (not_lt.1 hcon)
  simp [visitedOf, this] at h

variable {srcE : List (List (Edge α))}
  {outR : List (Int × α × α × Bool × α × Bool × Option Nat)} {V : Finset Nat}
  {src out : List (Node α)} {n : Nat} {st : List Nat}

theorem CInv.card_le {stack : List Nat} (inv : CInv srcE outR V src out stack) :
    V.card ≤ src.length := by
  have hsub : V ⊆ Finset.range src.length := by
    intro v hv
    exact Finset.mem_range.2 (visited_lt ((inv.visited v).1 hv))
  simpa using Finset.card_le_card hsub

/-- An iteration of the depth-first loop that returns re-establishes the
invariant and brings the loop closer to its end. -/
theorem carveStep_inv {shuffle : Nat → List Nat → List Nat}
    (hperm : ∀ k l, (shuffle k l).Perm l) (k : Nat)
    (inv : CInv srcE outR V src out (n :: st))
    {r : List (Node α) × List (Node α) × List Nat}
    (h : carveStep shuffle k src out n st = some r) :
    ∃ V1, CInv srcE outR V1 r.1 r.2.1 r.2.2 ∧ r.1.length = src.length ∧
      2 * (src.length - V1.card) + r.2.2.length < 2 * (src.length - V.card) + (st.length + 1) := by
  unfold carveStep at h
  cases hn : src[n]? with
  | none => simp [hn] at h
  | some nd =>
    simp only [hn] at h
    have hEn : edgesOf src n = nd.edge_ := edgesOf_of_get hn
    have hnV : n ∈ V := inv.stack_sub n (by simp)
    cases hscan : scanUnvisited src nd.edge_ (shuffle k (List.range nd.edge_.length)) with
    | none => simp [hscan] at h
    | some res =>
      obtain ⟨hnone, hsome⟩ := scanUnvisited_some hscan
      cases res with
      | none =>
        simp only [hscan, Option.some.injEq] at h
        subst h
        refine ⟨V, ?_, rfl, by simp⟩
        constructor
        · exact inv.src_edges
        · exact inv.src_ids
        · exact inv.out_rest
        · exact inv.out_len
        · exact inv.visited
        · exact inv.root
        · intro x hx
          exact inv.stack_sub x (List.mem_cons_of_mem _ hx)
        · intro u hu hust e he
          by_cases hun : u = n
          · subst hun
            rw [hEn] at he
            obtain ⟨i, hi, hget⟩ := List.mem_iff_getElem.1 he
            have hmem : i ∈ shuffle k (List.range nd.edge_.length) :=
              (hperm k _).mem_iff.2 (List.mem_range.2 hi)
            obtain ⟨e1, he1, hv1⟩ := hnone rfl i hmem
            rw [List.getElem?_eq_getElem hi] at he1
            simp only [Option.some.injEq] at he1
            rw [← hget, he1]
            exact (inv.visited _).2 hv1
          · exact inv.closed u hu (by simp [hun, hust]) e he
        · exact inv.reach
        · exact inv.sym
        · exact inv.outside
        · exact inv.inside
        · exact inv.total
        · exact inv.tree
      | some edge =>
        obtain ⟨hedge, hxlt, hxv⟩ := hsome edge rfl
        simp only [hscan] at h
        have hgx : src[edge.n2]? = some src[edge.n2] := List.getElem?_eq_getElem hxlt
        simp only [hgx] at h
        have hnlt : n < src.length := by
          rcases List.getElem?_eq_some.1 hn with ⟨hlt, _⟩
          exact hlt
        have hid1 : nd.id_ = (n : Int) := inv.src_ids n nd hn
        have hid2 : (src[edge.n2]).id_ = (edge.n2 : Int) := inv.src_ids _ _ hgx
        have hg1 : GetNode out nd.id_ = some n := by
          rw [hid1]
          exact GetNode_nat (by rw [inv.out_len]; exact hnlt)
        have hg2 : GetNode out (src[edge.n2]).id_ = some edge.n2 := by
          rw [hid2]
          exact GetNode_nat (by rw [inv.out_len]; exact hxlt)
        simp only [hg1, hg2] at h
        cases hadd : AddNeighbor out n edge.n2 edge.cost with
        | none => simp [hadd] at h
        | some out1 =>
          simp only [hadd, Option.some.injEq] at h
          subst h
          simp only
          have hxV : edge.n2 ∉ V := by
            intro hmem
            have := (inv.visited _).1 hmem
            rw [hxv] at this
            exact absurd this (by simp)
          have hfix : (src.set edge.n2 { src[edge.n2] with visited_ := true }).map
              Node.edge_ = src.map Node.edge_ := map_set_of_eq Node.edge_ hgx rfl
          have hE1 : edgesOf (src.set edge.n2 { src[edge.n2] with visited_ := true }) =
              edgesOf src := edgesOf_of_map_eq hfix
          have hRout : ∀ u v, Adj out u v → u ∈ V ∧ v ∈ V := by
            rintro u v ⟨e, he, hv⟩
            refine ⟨?_, hv ▸ (inv.inside u e he).1⟩
            by_contra hu
            rw [inv.outside u hu] at he
            simp at he
          have hcard := inv.card_le
          have hcard1 : (insert edge.n2 V).card = V.card + 1 :=
            Finset.card_insert_of_not_mem hxV
          have hsub1 : insert edge.n2 V ⊆ Finset.range src.length := by
            intro v hv
            rcases Finset.mem_insert.1 hv with rfl | hv
            · exact Finset.mem_range.2 hxlt
            · exact Finset.mem_range.2 (visited_lt ((inv.visited v).1 hv))
          have hcard2 : V.card + 1 ≤ src.length := by
            rw [← hcard1]
            simpa using Finset.card_le_card hsub1
          refine ⟨insert edge.n2 V, ?_, by simp, ?_⟩
          · constructor
            · rw [hfix]
              exact inv.src_edges
            · intro i nd1 hi
              rw [List.getElem?_set] at hi
              by_cases hix : edge.n2 = i
              · subst hix
                simp only [hxlt, if_true, Option.some.injEq] at hi
                rw [← hi]
                exact hid2
              · simp only [hix, if_false] at hi
                exact inv.src_ids i nd1 hi
            · rw [AddNeighbor_rest hadd]
              exact inv.out_rest
            · rw [AddNeighbor_length hadd, List.length_set]
              exact inv.out_len
            · intro v
              rw [visitedOf_set hxlt, Finset.mem_insert]
              by_cases hvx : v = edge.n2
              · simp [hvx]
              · simp only [hvx, false_or, if_false]
                exact inv.visited v
            · exact Finset.mem_insert_of_mem inv.root
            · intro y hy
              rcases List.mem_cons.1 hy with rfl | hy
              · exact Finset.mem_insert_self _ _
              · exact Finset.mem_insert_of_mem (inv.stack_sub y hy)
            · intro u hu hust e he
              rw [hE1] at he
              have hux : u ≠ edge.n2 := fun h => hust (by simp [h])
              have huV : u ∈ V := by
                rcases Finset.mem_insert.1 hu with h | h
                · exact absurd h hux
                · exact h
              exact Finset.mem_insert_of_mem
                (inv.closed u huV (fun h => hust (List.mem_cons_of_mem _ h)) e he)
            · intro v hv
              rw [Reach_congr hE1]
              rcases Finset.mem_insert.1 hv with rfl | hv
              · exact Relation.ReflTransGen.tail (inv.reach n hnV)
                  ⟨edge, by rw [hEn]; exact hedge, rfl⟩
              · exact inv.reach v hv
            · exact AddNeighbor_EdgeSym hadd inv.sym
            · intro u hu
              have hux : u ≠ edge.n2 := fun h => hu (by rw [h]; exact Finset.mem_insert_self _ _)
              have hun : u ≠ n := fun h => hu (by rw [h]; exact Finset.mem_insert_of_mem hnV)
              have huV : u ∉ V := fun h => hu (Finset.mem_insert_of_mem h)
              rw [AddNeighbor_edgesOf hadd, inv.outside u huV]
              simp [hux, hun]
            · intro u e he
              rw [AddNeighbor_edgesOf hadd] at he
              unfold FromSource
              rw [hE1]
              rcases List.mem_append.1 he with he | he
              · rcases List.mem_append.1 he with he | he
                · obtain ⟨a1, a2⟩ := inv.inside u e he
                  exact ⟨Finset.mem_insert_of_mem a1, a2⟩
                · by_cases hun : u = n
                  · simp only [hun, if_true, List.mem_singleton] at he
                    subst he
                    subst hun
                    refine ⟨Finset.mem_insert_self _ _, Or.inl ⟨edge, ?_, rfl, rfl⟩⟩
                    rw [hEn]
                    exact hedge
                  · simp [hun] at he
              · by_cases hux : u = edge.n2
                · simp only [hux, if_true, List.mem_singleton] at he
                  subst he
                  refine ⟨Finset.mem_insert_of_mem hnV, Or.inr ⟨edge, ?_, hux.symm, rfl⟩⟩
                  simp only
                  rw [hEn]
                  exact hedge
                · simp [hux] at he
            · rw [AddNeighbor_totalEdges hadd, hcard1]
              have := inv.total
              omega
            · intro v hv
              have hR1 := Adj_AddNeighbor hadd
              rcases Finset.mem_insert.1 hv with rfl | hv
              · exact unique_path_leaf hRout hR1 hxV inv.root hnV (inv.tree n hnV)
              · exact unique_path_old hRout hR1 hxV inv.root hv (inv.tree v hv)
          · simp only [List.length_cons]
            rw [hcard1]
            omega

end CarveStep

/-! ## `BuildMaze`: the depth-first loop -/

section CarveLoop

variable {α : Type} [LinearOrderedCommRing α]

variable {srcE : List (List (Edge α))}
  {outR : List (Int × α × α × Bool × α × Bool × Option Nat)}

/-- Whenever the depth-first loop returns, the invariant holds with an empty
stack. -/
theorem carveLoop_inv {shuffle : Nat → List Nat → List Nat}
    (hperm : ∀ k l, (shuffle k l).Perm l) :
    ∀ (fuel k : Nat) (src out : List (Node α)) (stack : List Nat) (V : Finset Nat)
      (r : List (Node α) × List (Node α)), CInv srcE outR V src out stack →
      carveLoop shuffle fuel k src out stack = some r →
      ∃ V1, CInv srcE outR V1 r.1 r.2 [] ∧ r.1.length = src.length := by
  intro fuel
  induction fuel with
  | zero =>
    intro k src out stack V r _ h
    simp [carveLoop] at h
  | succ fuel ih =>
    intro k src out stack V r inv h
    cases stack with
    | nil =>
      simp only [carveLoop, Option.some.injEq] at h
      subst h
      exact ⟨V, inv, rfl⟩
    | cons n st =>
      unfold carveLoop at h
      cases hstep : carveStep shuffle k src out n st with
      | none => simp [hstep] at h
      | some r1 =>
        simp only [hstep] at h
        obtain ⟨V1, inv1, hlen1, _⟩ := carveStep_inv hperm k inv hstep
        obtain ⟨V2, inv2, hlen2⟩ := ih (k + 1) r1.1 r1.2.1 r1.2.2 V1 r inv1 h
        exact ⟨V2, inv2, hlen2.trans hlen1⟩

/-- An iteration of the depth-first loop returns when every edge target of the
source is a node. -/
theorem carveStep_isSome {shuffle : Nat → List Nat → List Nat}
    (hperm : ∀ k l, (shuffle k l).Perm l) (k : Nat) {V : Finset Nat}
    {src out : List (Node α)} {n : Nat} {st : List Nat}
    (inv : CInv srcE outR V src out (n :: st)) (hval : TargetsValid src) :
    ∃ r, carveStep shuffle k src out n st = some r := by
  have hnV : n ∈ V := inv.stack_sub n (by simp)
  have hnlt : n < src.length := visited_lt ((inv.visited n).1 hnV)
  have hn : src[n]? = some src[n] := List.getElem?_eq_getElem hnlt
  have hEn : edgesOf src n = (src[n]).edge_ := edgesOf_of_get hn
  obtain ⟨res, hscan⟩ := @scanUnvisited_isSome _ _ src (src[n]).edge_
    (fun e he => hval n e (by rw [hEn]; exact he))
    (shuffle k (List.range (src[n]).edge_.length))
    (fun i hi => List.mem_range.1 ((hperm k _).mem_iff.1 hi))
  unfold carveStep
  simp only [hn, hscan]
  cases res with
  | none => exact ⟨_, rfl⟩
  | some edge =>
    obtain ⟨_, hxlt, _⟩ := (scanUnvisited_some hscan).2 edge rfl
    have hgx : src[edge.n2]? = some src[edge.n2] := List.getElem?_eq_getElem hxlt
    have hg1 : GetNode out (src[n]).id_ = some n := by
      rw [inv.src_ids n _ hn]
      exact GetNode_nat (by rw [inv.out_len]; exact hnlt)
    have hg2 : GetNode out (src[edge.n2]).id_ = some edge.n2 := by
      rw [inv.src_ids _ _ hgx]
      exact GetNode_nat (by rw [inv.out_len]; exact hxlt)
    obtain ⟨out1, hadd⟩ := AddNeighbor_isSome edge.cost
      (show n < out.length by rw [inv.out_len]; exact hnlt)
      (show edge.n2 < out.length by rw [inv.out_len]; exact hxlt)
    simp only [hgx, hg1, hg2, hadd]
    exact ⟨_, rfl⟩

/-- The depth-first loop returns when it is given more iterations than twice
the number of unvisited nodes plus the height of the stack. -/
theorem carveLoop_isSome {shuffle : Nat → List Nat → List Nat}
    (hperm : ∀ k l, (shuffle k l).Perm l) (hE : ∀ u, ∀ e ∈ srcE.getD u [], e.n2 < srcE.length) :
    ∀ (fuel k : Nat) (src out : List (Node α)) (stack : List Nat) (V : Finset Nat),
      CInv srcE outR V src out stack →
      2 * (src.length - V.card) + stack.length < fuel →
      ∃ r, carveLoop shuffle fuel k src out stack = some r := by
  intro fuel
  induction fuel with
  | zero =>
    intro k src out stack V _ hf
    exact absurd hf (Nat.not_lt_zero _)
  | succ fuel ih =>
    intro k src out stack V inv hf
    cases stack with
    | nil => exact ⟨_, rfl⟩
    | cons n st =>
      have hval : TargetsValid src := by
        intro u e he
        have hlen : src.length = srcE.length := by
          rw [← inv.src_edges, List.length_map]
        rw [hlen]
        apply hE u
        have : srcE.getD u [] = edgesOf src u := by
          rw [← inv.src_edges]
          unfold edgesOf
          simp only [List.getD_eq_getElem?_getD, List.getElem?_map]
          cases src[u]? <;> rfl
        rw [this]
        exact he
      obtain ⟨r1, hstep⟩ := carveStep_isSome hperm k inv hval
      obtain ⟨V1, inv1, hlen1, hm⟩ := carveStep_inv hperm k inv hstep
      obtain ⟨r, hr⟩ := ih (k + 1) r1.1 r1.2.1 r1.2.2 V1 inv1 (by
        rw [hlen1]
        simp only [List.length_cons] at hf
        omega)
      refine ⟨r, ?_⟩
      unfold carveLoop
      simp only [hstep]
      exact hr

end CarveLoop

/-! ## `BuildMaze`: the carving as a whole -/

section Carve

variable {α : Type} [LinearOrderedCommRing α]

theorem path_self {a : Nat} {p : List Nat} (hh : p.head? = some a) (hl : p.getLast? = some a)
    (hnd : p.Nodup) : p = [a] := by
  cases p with
  | nil => simp at hh
  | cons c rest =>
    simp only [List.head?_cons, Option.some.injEq] at hh
    subst hh
    cases rest with
    | nil => rfl
    | cons y rest =>
      exfalso
      rw [List.getLast?_cons_cons] at hl
      have hmem : c ∈ y :: rest := List.mem_of_getLast?_eq_some hl
      exact (List.nodup_cons.1 hnd).1 hmem

theorem totalEdges_of_no_edges {nodes : List (Node α)}
    (h : ∀ n ∈ nodes, n.edge_ = []) : totalEdges nodes = 0 := by
  unfold totalEdges
  induction nodes with
  | nil => rfl
  | cons a l ih =>
    simp only [List.map_cons, List.sum_cons]
    rw [ih (fun n hn => h n (List.mem_cons_of_mem _ hn)), h a (by simp)]
    rfl

/-- The state in which the depth-first loop starts satisfies the invariant. -/
theorem CInv_init {src : List (Node α)} (hids : IdsAreIndices src) {first : Node α}
    (h0 : (src.map (fun n => ({ n with visited_ := false } : Node α)))[0]? = some first) :
    CInv (src.map Node.edge_) ((src.map (fun n => Node.new n.id_ n.x_ n.y_)).map Node.rest) {0}
      ((src.map (fun n => ({ n with visited_ := false } : Node α))).set 0
        { first with visited_ := true })
      (src.map (fun n => Node.new n.id_ n.x_ n.y_)) [0] := by
  have hlt : 0 < (src.map (fun n => ({ n with visited_ := false } : Node α))).length := by
    rcases List.getElem?_eq_some.1 h0 with ⟨hlt, _⟩
    exact hlt
  have hvis : ∀ v, visitedOf (src.map (fun n => ({ n with visited_ := false } : Node α))) v
      = false := by
    intro v
    unfold visitedOf
    rw [List.getElem?_map]
    cases src[v]? <;> rfl
  have hnoE : ∀ u, edgesOf (src.map (fun n => Node.new n.id_ n.x_ n.y_)) u = [] := by
    apply edgesOf_of_all_new
    intro k n hk
    rw [List.getElem?_map] at hk
    cases hs : src[k]? with
    | none => simp [hs] at hk
    | some m =>
      simp only [hs, Option.map_some', Option.some.injEq] at hk
      rw [← hk]
      rfl
  constructor
  · rw [@map_set_of_eq _ _ _ Node.edge_ _ _ _ { first with visited_ := true } h0 rfl, List.map_map]
    rfl
  · intro k n hk
    rw [List.getElem?_set] at hk
    by_cases hk0 : 0 = k
    · subst hk0
      simp only [hlt, if_true, Option.some.injEq] at hk
      rw [← hk]
      simp only
      rw [List.getElem?_map] at h0
      cases hs : src[0]? with
      | none => simp [hs] at h0
      | some m =>
        simp only [hs, Option.map_some', Option.some.injEq] at h0
        rw [← h0]
        exact hids 0 m hs
    · simp only [hk0, if_false] at hk
      rw [List.getElem?_map] at hk
      cases hs : src[k]? with
      | none => simp [hs] at hk
      | some m =>
        simp only [hs, Option.map_some', Option.some.injEq] at hk
        rw [← hk]
        exact hids k m hs
  · rfl
  · simp
  · intro v
    rw [visitedOf_set hlt, hvis]
    simp
  · simp
  · intro x hx
    simpa using hx
  · intro u hu hust
    simp only [Finset.mem_singleton] at hu
    simp [hu] at hust
  · intro v hv
    simp only [Finset.mem_singleton] at hv
    rw [hv]
    exact Relation.ReflTransGen.refl
  · exact EdgeSym_of_no_edges hnoE
  · intro u _
    exact hnoE u
  · intro u e he
    rw [hnoE u] at he
    simp at he
  · rw [totalEdges_of_no_edges]
    · simp
    · intro n hn
      obtain ⟨m, _, rfl⟩ := List.mem_map.1 hn
      rfl
  · intro v hv
    simp only [Finset.mem_singleton] at hv
    subst hv
    refine ⟨[0], ⟨rfl, rfl, by simp, by simp⟩, ?_⟩
    rintro p ⟨p1, p2, p3, _⟩
    exact path_self p1 p2 p3

/-- Whenever the carving returns, the output is a tree of source edges on the
nodes that can be reached from node 0, and these are the nodes marked
visited. -/
theorem carveMaze_result {shuffle : Nat → List Nat → List Nat}
    (hperm : ∀ k l, (shuffle k l).Perm l) {src : List (Node α)} (hids : IdsAreIndices src)
    {fuel : Nat} {r : List (Node α) × List (Node α)}
    (h : carveMaze fuel shuffle src [] = some r) :
    ∃ V, MazeResult src r.1 r.2 V ∧
      r.2.map Node.rest = (src.map (fun n => Node.new n.id_ n.x_ n.y_)).map Node.rest := by
  unfold carveMaze at h
  rw [copy_nodes] at h
  simp only [List.nil_append] at h
  cases h0 : (src.map (fun n => ({ n with visited_ := false } : Node α)))[0]? with
  | none => simp [h0] at h
  | some first =>
    simp only [h0] at h
    obtain ⟨V, inv, hlen⟩ := carveLoop_inv hperm fuel 0 _ _ _ _ r (CInv_init hids h0) h
    have hE : edgesOf r.1 = edgesOf src := edgesOf_of_map_eq inv.src_edges
    refine ⟨V, ?_, inv.out_rest⟩
    constructor
    · intro v
      constructor
      · intro hv
        rw [← Reach_congr hE]
        exact inv.reach v hv
      · intro hv
        rw [← Reach_congr hE] at hv
        unfold Reach at hv
        induction hv with
        | refl => exact inv.root
        | tail _ hbc ih =>
          obtain ⟨e, he, hn⟩ := hbc
          rw [← hn]
          exact inv.closed _ ih (by simp) e he
    · exact inv.visited
    · exact inv.src_edges
    · rw [inv.out_len, hlen]
      simp
    · have := congrArg (List.map (fun r : Int × α × α × Bool × α × Bool × Option Nat =>
        (r.1, r.2.1, r.2.2.1))) inv.out_rest
      simpa [List.map_map, Function.comp_def, Node.rest, Node.place, Node.new] using this
    · exact inv.sym
    · exact inv.outside
    · intro u e he
      obtain ⟨a1, a2⟩ := inv.inside u e he
      unfold FromSource at a2 ⊢
      rw [hE] at a2
      exact ⟨a1, a2⟩
    · exact inv.total
    · exact inv.tree

/-- The carving returns when every edge target of the source is a node and it
is given more iterations than twice the number of nodes. -/
theorem carveMaze_isSome {shuffle : Nat → List Nat → List Nat}
    (hperm : ∀ k l, (shuffle k l).Perm l) {src : List (Node α)} (hne : 0 < src.length)
    (hids : IdsAreIndices src) (hval : TargetsValid src) {fuel : Nat}
    (hf : 2 * src.length < fuel) :
    ∃ r, carveMaze fuel shuffle src [] = some r := by
  unfold carveMaze
  rw [copy_nodes]
  simp only [List.nil_append]
  have hlt0 : 0 < (src.map (fun n => ({ n with visited_ := false } : Node α))).length := by
    simpa using hne
  have h0 := List.getElem?_eq_getElem hlt0
  simp only [h0]
  apply carveLoop_isSome hperm _ fuel 0 _ _ _ _ (CInv_init hids h0)
  · simp only [List.length_set, List.length_map, Finset.card_singleton, List.length_singleton]
    omega
  · intro u e he
    rw [List.length_map]
    apply hval u
    have : (src.map Node.edge_).getD u [] = edgesOf src u := by
      unfold edgesOf
      simp only [List.getD_eq_getElem?_getD, List.getElem?_map]
      cases src[u]? <;> rfl
    rw [← this]
    exact he

end Carve

/-! ## `BuildMaze` as a whole -/

section Maze

variable {α : Type} [LinearOrderedCommRing α]

theorem openDegree_eq_totalEdges (nodes : List (Node α)) :
    openDegree (edgesOf nodes) nodes.length ∅ = totalEdges nodes := by
  unfold openDegree totalEdges
  simp only [Finset.not_mem_empty, if_false]
  induction nodes using List.reverseRecOn with
  | nil => simp
  | append_singleton l a ih =>
    rw [List.length_append, List.length_singleton, Finset.sum_range_succ, List.map_append,
      List.sum_append]
    have h1 : ∀ u ∈ Finset.range l.length,
        (edgesOf (l ++ [a]) u).length = (edgesOf l u).length := by
      intro u hu
      have hlt : u < l.length := Finset.mem_range.1 hu
      unfold edgesOf
      rw [List.getElem?_append_left hlt]
    rw [Finset.sum_congr rfl h1, ih]
    have h2 : edgesOf (l ++ [a]) l.length = a.edge_ := by
      unfold edgesOf
      rw [List.getElem?_append_right (le_refl _)]
      simp
    rw [h2]
    simp

theorem totalEdges_of_fixed_eq {nodes nodes1 : List (Node α)}
    (h : nodes1.map Node.fixed = nodes.map Node.fixed) : totalEdges nodes1 = totalEdges nodes := by
  unfold totalEdges
  have := congrArg (List.map (fun r : List (Edge α) × Int × α × α × Bool => r.1.length)) h
  simp only [List.map_map, Function.comp_def, Node.fixed] at this
  rw [this]

theorem SimplePath_congr {nodes nodes1 : List (Node α)} (h : edgesOf nodes1 = edgesOf nodes) :
    SimplePath nodes1 = SimplePath nodes := by
  funext a b p
  unfold SimplePath
  rw [Adj_congr h]

theorem MazeResult.transfer {src0 src out out1 : List (Node α)} {V : Finset Nat}
    (h : out1.map Node.fixed = out.map Node.fixed) (res : MazeResult src0 src out V) :
    MazeResult src0 src out1 V := by
  have hE : edgesOf out1 = edgesOf out := edgesOf_of_fixed_eq h
  constructor
  · exact res.reach
  · exact res.visited
  · exact res.src_edges
  · rw [length_eq_of_map_eq h]
    exact res.out_len
  · rw [← res.out_place]
    have := congrArg (List.map (fun r : List (Edge α) × Int × α × α × Bool =>
      (r.2.1, r.2.2.1, r.2.2.2.1))) h
    simpa [List.map_map, Function.comp_def, Node.fixed, Node.place] using this
  · exact EdgeSym_congr hE res.sym
  · rw [hE]
    exact res.outside
  · rw [hE]
    exact res.inside
  · rw [totalEdges_of_fixed_eq h]
    exact res.total
  · rw [SimplePath_congr hE]
    exact res.tree

/-- Whatever `BuildMaze` returns for an output graph without nodes, the output
is a tree of source edges on the nodes that can be reached from node 0 in the
source; and `BuildMaze` does return when the source has valid edge targets and
no negative edge cost and the loops are given `3 * n + 2` iterations. -/
theorem BuildMaze_spec {g output : Graph α} (hne : 0 < g.node_.length)
    (hids : IdsAreIndices g.node_) (hout : output.node_ = [])
    {shuffle : Nat → List Nat → List Nat} (hperm : ∀ k l, (shuffle k l).Perm l) :
    (∀ fuel tie r, BuildMaze fuel tie shuffle g output = some r →
      ∃ V, MazeResult g.node_ r.1.node_ r.2.node_ V) ∧
    (TargetsValid g.node_ → NonNegCosts g.node_ → ∀ fuel, 3 * g.node_.length + 2 ≤ fuel →
      ∀ tie, ∃ r, BuildMaze fuel tie shuffle g output = some r) := by
  constructor
  · intro fuel tie r h
    unfold BuildMaze at h
    rw [hout] at h
    cases hc : carveMaze fuel shuffle g.node_ [] with
    | none => simp [hc] at h
    | some r0 =>
      simp only [hc] at h
      obtain ⟨V, res, _⟩ := carveMaze_result hperm hids hc
      cases hs : GetNode r0.2 0 with
      | none => simp [hs] at h
      | some s =>
        cases he : GetNode r0.2 ((r0.2.length : Int) - 1) with
        | none => simp [hs, he] at h
        | some e =>
          simp only [hs, he] at h
          cases hf : FindPath fuel tie { output with node_ := r0.2, start_node_ := some s,
                                                      end_node_ := some e } with
          | none => simp [hf] at h
          | some output1 =>
            simp only [hf, Option.some.injEq] at h
            subst h
            obtain ⟨hfix, _⟩ := FindPath_fixed hf
            exact ⟨V, res.transfer hfix⟩
  · intro hval hnn fuel hfuel tie
    obtain ⟨r0, hc⟩ := @carveMaze_isSome _ _ _ hperm _ hne hids hval fuel (by omega)
    obtain ⟨V, res, hrest⟩ := carveMaze_result hperm hids hc
    have hlen2 : r0.2.length = g.node_.length := res.out_len
    have hlen1 : r0.1.length = g.node_.length := by
      have := congrArg List.length res.src_edges
      simpa using this
    have hs : GetNode r0.2 0 = some 0 := by
      have := @GetNode_nat _ _ r0.2 0 (by rw [hlen2]; exact hne)
      simpa using this
    have he : GetNode r0.2 ((r0.2.length : Int) - 1) = some (r0.2.length - 1) := by
      have := @GetNode_nat _ _ r0.2 (r0.2.length - 1) (by rw [hlen2]; omega)
      rw [← this]
      congr 1
      have : 1 ≤ r0.2.length := by rw [hlen2]; exact hne
      omega
    have hcard : V.card ≤ g.node_.length := by
      have hsub : V ⊆ Finset.range r0.1.length := by
        intro v hv
        exact Finset.mem_range.2 (visited_lt ((res.visited v).1 hv))
      have := Finset.card_le_card hsub
      rw [Finset.card_range, hlen1] at this
      exact this
    have hbound : fuelBound r0.2 ≤ fuel := by
      unfold fuelBound
      rw [openDegree_eq_totalEdges, hlen2]
      have := res.total
      omega
    have hnn2 : NonNegCosts r0.2 := by
      intro u e he1
      rcases (res.inside u e he1).2 with ⟨e1, hmem, _, hcost⟩ | ⟨e1, hmem, _, hcost⟩
      · rw [← hcost]
        exact hnn _ e1 hmem
      · rw [← hcost]
        exact hnn _ e1 hmem
    have hprev : prevOf r0.2 (r0.2.length - 1) = none := by
      rw [prevOf_of_rest_eq hrest]
      unfold prevOf
      rw [List.getElem?_map]
      cases g.node_[r0.2.length - 1]? <;> rfl
    obtain ⟨output1, hf⟩ := FindPath_isSome_of_prev_none
      (g := { output with node_ := r0.2, start_node_ := some 0,
                          end_node_ := some (r0.2.length - 1) })
      (s := 0) (e := r0.2.length - 1) rfl rfl
      (by simp only; rw [hlen2]; exact hne) (by simp only; rw [hlen2]; omega)
      (EdgeSym_targets res.sym) hnn2 hprev tie hbound
    refine ⟨({ g with node_ := r0.1 }, output1), ?_⟩
    unfold BuildMaze
    rw [hout]
    simp only [hc, hs, he, hf]

end Maze

/-! ## Checks of the hypotheses on a concrete graph -/

section Checks

variable {α : Type} [LinearOrderedCommRing α]

theorem mem_of_mem_edgesOf {nodes : List (Node α)} {u : Nat} {e : Edge α}
    (he : e ∈ edgesOf nodes u) : ∃ n ∈ nodes, e ∈ n.edge_ := by
  unfold edgesOf at he
  cases hn : nodes[u]? with
  | none => simp [hn] at he
  | some n =>
    simp only [hn] at he
    exact ⟨n, List.getElem?_mem hn, he⟩

theorem TargetsValid_of_forall {nodes : List (Node α)}
    (h : ∀ n ∈ nodes, ∀ e ∈ n.edge_, e.n2 < nodes.length) : TargetsValid nodes := by
  intro u e he
  obtain ⟨n, hn, hmem⟩ := mem_of_mem_edgesOf he
  exact h n hn e hmem

theorem NonNegCosts_of_forall {nodes : List (Node α)}
    (h : ∀ n ∈ nodes, ∀ e ∈ n.edge_, 0 ≤ e.cost) : NonNegCosts nodes := by
  intro u e he
  obtain ⟨n, hn, hmem⟩ := mem_of_mem_edgesOf he
  exact h n hn e hmem

theorem IdsAreIndices_of_forall {nodes : List (Node α)}
    (h : ∀ k, k < nodes.length → (nodes[k]?).map Node.id_ = some (k : Int)) :
    IdsAreIndices nodes := by
  intro k n hk
  rcases List.getElem?_eq_some.1 hk with ⟨hlt, _⟩
  have := h k hlt
  rw [hk] at this
  simpa using this

end Checks

/-! ## Edge symmetry of the graphs that the builders return -/

section BuilderSym

variable {α : Type} [LinearOrderedCommRing α]

theorem carveStep_EdgeSym {shuffle : Nat → List Nat → List Nat} {k : Nat}
    {src out : List (Node α)} {n : Nat} {st : List Nat}
    {r : List (Node α) × List (Node α) × List Nat}
    (h : carveStep shuffle k src out n st = some r) (hsym : EdgeSym out) : EdgeSym r.2.1 := by
  unfold carveStep at h
  cases hn : src[n]? with
  | none => simp [hn] at h
  | some nd =>
    simp only [hn] at h
    cases hscan : scanUnvisited src nd.edge_ (shuffle k (List.range nd.edge_.length)) with
    | none => simp [hscan] at h
    | some res =>
      cases res with
      | none =>
        simp only [hscan, Option.some.injEq] at h
        subst h
        exact hsym
      | some edge =>
        simp only [hscan] at h
        cases hx : src[edge.n2]? with
        | none => simp [hx] at h
        | some neigh =>
          simp only [hx] at h
          cases hg1 : GetNode out nd.id_ with
          | none => simp [hg1] at h
          | some n1 =>
            cases hg2 : GetNode out neigh.id_ with
            | none => simp [hg1, hg2] at h
            | some n2 =>
              simp only [hg1, hg2] at h
              cases hadd : AddNeighbor out n1 n2 edge.cost with
              | none => simp [hadd] at h
              | some out1 =>
                simp only [hadd, Option.some.injEq] at h
                subst h
                exact AddNeighbor_EdgeSym hadd hsym

theorem carveLoop_EdgeSym {shuffle : Nat → List Nat → List Nat} :
    ∀ (fuel k : Nat) (src out : List (Node α)) (stack : List Nat)
      (r : List (Node α) × List (Node α)),
      carveLoop shuffle fuel k src out stack = some r → EdgeSym out → EdgeSym r.2 := by
  intro fuel
  induction fuel with
  | zero =>
    intro k src out stack r h
    simp [carveLoop] at h
  | succ fuel ih =>
    intro k src out stack r h hsym
    cases stack with
    | nil =>
      simp only [carveLoop, Option.some.injEq] at h
      subst h
      exact hsym
    | cons n st =>
      unfold carveLoop at h
      cases hstep : carveStep shuffle k src out n st with
      | none => simp [hstep] at h
      | some r1 =>
        simp only [hstep] at h
        exact ih _ _ _ _ _ h (carveStep_EdgeSym hstep hsym)

/-- The output graph of `BuildMaze` is edge-symmetric, whatever the shuffles
do. -/
theorem BuildMaze_EdgeSym {fuel : Nat} {tie : Nat → Nat} {shuffle : Nat → List Nat → List Nat}
    {g output : Graph α} {r : Graph α × Graph α} (hout : output.node_ = [])
    (h : BuildMaze fuel tie shuffle g output = some r) : EdgeSym r.2.node_ := by
  unfold BuildMaze at h
  rw [hout] at h
  cases hc : carveMaze fuel shuffle g.node_ [] with
  | none => simp [hc] at h
  | some r0 =>
    simp only [hc] at h
    have hsym0 : EdgeSym r0.2 := by
      unfold carveMaze at hc
      rw [copy_nodes] at hc
      simp only [List.nil_append] at hc
      cases h0 : (g.node_.map (fun n => ({ n with visited_ := false } : Node α)))[0]? with
      | none => simp [h0] at hc
      | some first =>
        simp only [h0] at hc
        apply carveLoop_EdgeSym _ _ _ _ _ _ hc
        apply EdgeSym_of_no_edges
        apply edgesOf_of_all_new
        intro k n hk
        rw [List.getElem?_map] at hk
        cases hs : g.node_[k]? with
        | none => simp [hs] at hk
        | some m =>
          simp only [hs, Option.map_some', Option.some.injEq] at hk
          rw [← hk]
          rfl
    cases hs : GetNode r0.2 0 with
    | none => simp [hs] at h
    | some s =>
      cases he : GetNode r0.2 ((r0.2.length : Int) - 1) with
      | none => simp [hs, he] at h
      | some e =>
        simp only [hs, he] at h
        cases hf : FindPath fuel tie { output with node_ := r0.2, start_node_ := some s,
                                                    end_node_ := some e } with
        | none => simp [hf] at h
        | some output1 =>
          simp only [hf, Option.some.injEq] at h
          subst h
          obtain ⟨hfix, _⟩ := FindPath_fixed hf
          exact EdgeSym_congr (edgesOf_of_fixed_eq hfix) hsym0

/-- The graph that `BuildGrid` returns for a graph without nodes is
edge-symmetric. -/
theorem BuildGrid_EdgeSym {fuel : Nat} {tie : Nat → Nat} {rand : Nat → Nat} {cols rows : Nat}
    {disp_x disp_y start_x start_y viewport_height : α}
    {node_sprite edge_sprite : Option (GameObject α)} {g g1 : Graph α} (hg : g.node_ = [])
    (h : BuildGrid fuel tie rand cols rows disp_x disp_y start_x start_y viewport_height
      node_sprite edge_sprite g = some g1) : EdgeSym g1.node_ := by
  by_cases hcr : 1 ≤ cols ∧ 1 ≤ rows
  · obtain ⟨nodesG, hinv, hres, _⟩ := BuildGrid_full hcr.1 hcr.2 hg rand disp_x disp_y start_x
      start_y viewport_height node_sprite edge_sprite
    obtain ⟨_, hE, _⟩ := hres fuel tie g1 h
    exact EdgeSym_congr hE hinv.sym
  · exfalso
    have hzero : rows * cols = 0 := by
      rcases Nat.lt_or_ge cols 1 with hc | hc
      · have : cols = 0 := by omega
        simp [this]
      · have : rows = 0 := by omega
        simp [this]
    obtain ⟨h1, _, h3⟩ := gridAddRows_fresh cols rows disp_x disp_y start_x
      (viewport_height - start_y)
    obtain ⟨st, hst, hinv⟩ := gridConnect_spec rand h1 h3
    unfold BuildGrid at h
    simp only [hg, hst] at h
    have hl : ¬ 0 < st.1.length := by
      rw [hinv.len, hzero]
      exact Nat.lt_irrefl 0
    simp only [hl, if_false] at h
    exact absurd h (by simp)

/-- The graph that `BuildSimpleGraph` returns for a graph without nodes is
edge-symmetric. -/
theorem BuildSimpleGraph_EdgeSym {fuel : Nat} {tie : Nat → Nat}
    {node_sprite edge_sprite : Option (GameObject α)} {g g1 : Graph α} (hg : g.node_ = [])
    (h : BuildSimpleGraph fuel tie node_sprite edge_sprite g = some g1) : EdgeSym g1.node_ := by
  unfold BuildSimpleGraph at h
  simp only [hg] at h
  have hsym0 : EdgeSym (AddNode (AddNode (AddNode (AddNode (AddNode ([] : List (Node α))
      0 (-2) 0) 1 (-1) 0) 2 0 0) 3 1 0) 4 2 0) := by
    apply EdgeSym_of_no_edges
    apply edgesOf_of_all_new
    intro k n hk
    have hmem := List.getElem?_mem hk
    simp only [AddNode, List.nil_append, List.cons_append, List.mem_cons, List.mem_singleton,
      List.not_mem_nil, or_false] at hmem
    rcases hmem with rfl | rfl | rfl | rfl | rfl <;> rfl
  split at h
  · exact absurd h (by simp)
  · rename_i nodes1 h1
    split at h
    · exact absurd h (by simp)
    · rename_i nodes2 h2
      split at h
      · exact absurd h (by simp)
      · rename_i nodes3 h3
        split at h
        · exact absurd h (by simp)
        · rename_i nodes4 h4
          obtain ⟨hfix, _⟩ := FindPath_fixed h
          simp only at hfix
          apply EdgeSym_congr (edgesOf_of_fixed_eq hfix)
          exact AddNeighbor_EdgeSym h4 (AddNeighbor_EdgeSym h3 (AddNeighbor_EdgeSym h2
            (AddNeighbor_EdgeSym h1 hsym0)))

end BuilderSym

/-! ## A check of edge symmetry on a concrete graph -/

section SymCheck

variable {α : Type} [LinearOrderedCommRing α]

theorem lt_of_mem_edgesOf {nodes : List (Node α)} {u : Nat} {e : Edge α}
    (he : e ∈ edgesOf nodes u) : u < nodes.length := by
  by_contra hcon
  have : nodes[u]? = none := List.getElem?_eq_none (not_lt.1 hcon)
  simp [edgesOf, this] at he

theorem EdgeSym_of_forall {nodes : List (Node α)}
    (h : ∀ u, u < nodes.length → ∀ e ∈ edgesOf nodes u, e.n1 = u ∧
      (edgesOf nodes u).count e = (edgesOf nodes e.n2).count ⟨e.n2, u, e.cost⟩) :
    EdgeSym nodes := by
  constructor
  · intro u e he
    exact (h u (lt_of_mem_edgesOf he) e he).1
  · intro u v w
    by_cases hmem : (⟨u, v, w⟩ : Edge α) ∈ edgesOf nodes u
    · exact (h u (lt_of_mem_edgesOf hmem) _ hmem).2
    · rw [List.count_eq_zero_of_not_mem hmem]
      by_contra hne
      have hmem2 : (⟨v, u, w⟩ : Edge α) ∈ edgesOf nodes v := by
        by_contra hcon
        exact hne (List.count_eq_zero_of_not_mem hcon).symm
      have := (h v (lt_of_mem_edgesOf hmem2) _ hmem2).2
      simp only at this
      rw [List.count_eq_zero_of_not_mem hmem] at this
      exact hne this.symm

end SymCheck

/-! ## What every call of `FindPath` that returns has done -/

section Returned

variable {α : Type} [LinearOrderedCommRing α]

theorem relaxEdge_keep {β : Type} (f : Node α → β)
    (hf : ∀ (n : Node α) (c : α) (p : Option Nat), f { n with cost_ := c, prev_ := p } = f n)
    {u : Nat} {c : α} {st st1 : List (Node α) × List (QNode α)} {e : Edge α}
    (h : relaxEdge u c st e = some st1) : st1.1.map f = st.1.map f := by
  unfold relaxEdge at h
  cases hn : st.1[e.n2]? with
  | none => simp [hn] at h
  | some n =>
    simp only [hn] at h
    by_cases hlt : c + e.cost < n.cost_
    · simp only [hlt, if_true, Option.some.injEq] at h
      rw [← h]
      exact map_set_of_eq f hn (hf n _ _)
    · simp only [hlt, if_false, Option.some.injEq] at h
      rw [h]

theorem relaxEdges_keep {β : Type} (f : Node α → β)
    (hf : ∀ (n : Node α) (c : α) (p : Option Nat), f { n with cost_ := c, prev_ := p } = f n)
    {u : Nat} {c : α} (es : List (Edge α)) :
    ∀ {st st1 : List (Node α) × List (QNode α)}, relaxEdges u c es st = some st1 →
      st1.1.map f = st.1.map f := by
  induction es with
  | nil =>
    intro st st1 h
    simp only [relaxEdges, Option.some.injEq] at h
    rw [h]
  | cons e es ih =>
    intro st st1 h
    unfold relaxEdges at h
    cases h1 : relaxEdge u c st e with
    | none => simp [h1] at h
    | some st2 =>
      simp only [h1] at h
      rw [ih h, relaxEdge_keep f hf h1]

theorem relaxLoop_keep {β : Type} (f : Node α → β)
    (hf : ∀ (n : Node α) (c : α) (p : Option Nat), f { n with cost_ := c, prev_ := p } = f n)
    (tie : Nat → Nat) (end_node : Nat) :
    ∀ (fuel k : Nat) (nodes nodes1 : List (Node α)) (pq : List (QNode α)),
      relaxLoop tie end_node fuel k nodes pq = some nodes1 → nodes1.map f = nodes.map f := by
  intro fuel
  induction fuel with
  | zero =>
    intro k nodes nodes1 pq h
    simp [relaxLoop] at h
  | succ fuel ih =>
    intro k nodes nodes1 pq h
    unfold relaxLoop at h
    by_cases hemp : pq.isEmpty = true
    · simp only [hemp, if_true, Option.some.injEq] at h
      rw [h]
    · simp only [hemp, Bool.false_eq_true, if_false] at h
      cases hq : pq[topIdx (tie k) pq]? with
      | none => simp [hq] at h
      | some q =>
        simp only [hq] at h
        by_cases hend : q.node = end_node
        · simp only [hend, if_true, Option.some.injEq] at h
          rw [h]
        · simp only [hend, if_false] at h
          cases hn : nodes[q.node]? with
          | none => simp [hn] at h
          | some un =>
            simp only [hn] at h
            cases hr : relaxEdges q.node q.cost un.edge_
                (nodes, pq.eraseIdx (topIdx (tie k) pq)) with
            | none => simp [hr] at h
            | some st =>
              simp only [hr] at h
              rw [ih _ _ _ _ h, relaxEdges_keep f hf _ hr]

/-- What the walk back along the `prev` pointers has done when it returns: it
has appended the nodes `extra` it went through, none of them the start node,
to the path, has marked exactly these, and has stopped at a null pointer or at
the start node. -/
theorem backtrack_returned (s : Nat) :
    ∀ (fuel : Nat) (cur : Option Nat) (nodes : List (Node α)) (path : List (Option Nat))
      (r : List (Node α) × List (Option Nat) × Option Nat),
      backtrack s fuel cur nodes path = some r →
      ∃ extra : List Nat, r.2.1 = path ++ extra.map some ∧ (r.2.2 = none ∨ r.2.2 = some s) ∧
        s ∉ extra ∧ (∀ x ∈ extra, x < nodes.length) ∧
        r.1.map Node.cost_ = nodes.map Node.cost_ ∧
        r.1.map Node.prev_ = nodes.map Node.prev_ ∧
        ∀ x, onPathOf r.1 x = (onPathOf nodes x || decide (x ∈ extra)) := by
  intro fuel
  induction fuel with
  | zero =>
    intro cur nodes path r h
    simp [backtrack] at h
  | succ fuel ih =>
    intro cur nodes path r h
    cases cur with
    | none =>
      simp only [backtrack, Option.some.injEq] at h
      subst h
      exact ⟨[], by simp, Or.inl rfl, by simp, by simp, rfl, rfl, by simp⟩
    | some c =>
      unfold backtrack at h
      by_cases hc : c = s
      · simp only [hc, if_true, Option.some.injEq] at h
        subst h
        exact ⟨[], by simp, Or.inr rfl, by simp, by simp, rfl, rfl, by simp⟩
      · simp only [hc, if_false] at h
        cases hn : nodes[c]? with
        | none => simp [hn] at h
        | some nd =>
          simp only [hn] at h
          have hclt : c < nodes.length := (List.getElem?_eq_some.1 hn).1
          obtain ⟨extra, hpath, hcur, hs, hlt, hcost, hprev, hon⟩ := ih _ _ _ _ h
          refine ⟨c :: extra, ?_, hcur, ?_, ?_, ?_, ?_, ?_⟩
          · rw [hpath]
            simp
          · simp only [List.mem_cons, not_or]
            exact ⟨fun hsc => hc hsc.symm, hs⟩
          · intro x hx
            rcases List.mem_cons.1 hx with hx | hx
            · rw [hx]
              exact hclt
            · have := hlt x hx
              rwa [List.length_set] at this
          · rw [hcost]
            exact map_set_of_eq Node.cost_ hn rfl
          · rw [hprev]
            exact map_set_of_eq Node.prev_ hn rfl
          · intro x
            rw [hon x, onPathOf_set hclt]
            by_cases hx : x = c
            · subst hx
              simp
            · simp [hx]

theorem setOnPath_returned {nodes nodes1 : List (Node α)} {i : Nat}
    (h : setOnPath nodes i = some nodes1) :
    i < nodes.length ∧ nodes1.map Node.fixed = nodes.map Node.fixed ∧
      nodes1.map Node.cost_ = nodes.map Node.cost_ ∧
      nodes1.map Node.prev_ = nodes.map Node.prev_ ∧
      ∀ x, onPathOf nodes1 x = (onPathOf nodes x || decide (x = i)) := by
  have hi : i < nodes.length := by
    by_contra hcon
    have hnone : nodes[i]? = none := List.getElem?_eq_none (not_lt.1 hcon)
    simp [setOnPath, hnone] at h
  obtain ⟨nodes2, h2, hrest⟩ := setOnPath_spec hi
  rw [h] at h2
  simp only [Option.some.injEq] at h2
  subst h2
  exact ⟨hi, hrest⟩

/-- The steps of a call of `FindPath` that returns. -/
theorem FindPath_returned {fuel : Nat} {tie : Nat → Nat} {g g1 : Graph α}
    (h : FindPath fuel tie g = some g1) :
    ∃ s e sn nodes2 en nodes3 path cur nodes4 nodes5,
      g.start_node_ = some s ∧ g.end_node_ = some e ∧
      (g.node_.map (fun n => ({ n with cost_ := INT_MAX, on_path_ := false } : Node α)))[s]?
        = some sn ∧
      relaxLoop tie e fuel 0
        ((g.node_.map (fun n => ({ n with cost_ := INT_MAX, on_path_ := false } : Node α))).set s
          { sn with cost_ := 0 }) [⟨s, 0⟩] = some nodes2 ∧
      nodes2[e]? = some en ∧
      backtrack s fuel en.prev_ nodes2 [some e] = some (nodes3, path, cur) ∧
      setOnPath nodes3 s = some nodes4 ∧ setOnPath nodes4 e = some nodes5 ∧
      g1 = { g with node_ := nodes5, path_node_ := (path ++ [cur]).reverse } := by
  unfold FindPath at h
  cases hs : g.start_node_ with
  | none => simp [hs] at h
  | some s =>
    cases he : g.end_node_ with
    | none => simp [hs, he] at h
    | some e =>
      simp only [hs, he] at h
      cases h0 : (g.node_.map (fun n => ({ n with cost_ := INT_MAX, on_path_ := false } :
          Node α)))[s]? with
      | none => simp [h0] at h
      | some sn =>
        simp only [h0] at h
        cases h1 : relaxLoop tie e fuel 0
            ((g.node_.map (fun n => ({ n with cost_ := INT_MAX, on_path_ := false } :
              Node α))).set s { sn with cost_ := 0 }) [⟨s, 0⟩] with
        | none => simp [h1] at h
        | some nodes2 =>
          simp only [h1] at h
          cases h2 : nodes2[e]? with
          | none => simp [h2] at h
          | some en =>
            simp only [h2] at h
            cases h3 : backtrack s fuel en.prev_ nodes2 [some e] with
            | none => simp [h3] at h
            | some r =>
              obtain ⟨nodes3, path, cur⟩ := r
              simp only [h3] at h
              cases h4 : setOnPath nodes3 s with
              | none => simp [h4] at h
              | some nodes4 =>
                simp only [h4] at h
                cases h5 : setOnPath nodes4 e with
                | none => simp [h5] at h
                | some nodes5 =>
                  simp only [h5, Option.some.injEq] at h
                  exact ⟨s, e, sn, nodes2, en, nodes3, path, cur, nodes4, nodes5, rfl, rfl, h0,
                    h1, h2, h3, h4, h5, h.symm⟩

end Returned

/-! ## The flags and the path after `FindPath` -/

section Marks

variable {α : Type} [LinearOrderedCommRing α]

theorem reach_of_chain {R : Nat → Nat → Prop} :
    ∀ (p : List Nat) (a b : Nat), p.head? = some a → p.getLast? = some b → List.Chain' R p →
      Relation.ReflTransGen R a b := by
  intro p
  induction p with
  | nil =>
    intro a b hh
    simp at hh
  | cons x rest ih =>
    intro a b hh hl hc
    have hxa : x = a := by simpa using hh
    subst hxa
    cases rest with
    | nil =>
      have : x = b := by simpa using hl
      subst this
      exact Relation.ReflTransGen.refl
    | cons y rest =>
      have hxy : R x y := (List.chain'_cons.1 hc).1
      have hrest : List.Chain' R (y :: rest) := (List.chain'_cons.1 hc).2
      have hl2 : (y :: rest).getLast? = some b := by
        rw [List.getLast?_cons_cons] at hl
        exact hl
      exact Relation.ReflTransGen.head hxy (ih y b rfl hl2 hrest)

theorem onPathOf_after_loop {nodes : List (Node α)} {s : Nat} {sn : Node α}
    (h0 : (nodes.map (fun n => ({ n with cost_ := INT_MAX, on_path_ := false } : Node α)))[s]?
      = some sn) {tie : Nat → Nat} {e fuel k : Nat} {pq : List (QNode α)}
    {nodes2 : List (Node α)}
    (h1 : relaxLoop tie e fuel k
      ((nodes.map (fun n => ({ n with cost_ := INT_MAX, on_path_ := false } : Node α))).set s
        { sn with cost_ := 0 }) pq = some nodes2) :
    ∀ x, onPathOf nodes2 x = false := by
  intro x
  have hk := relaxLoop_keep Node.on_path_ (fun _ _ _ => rfl) tie e fuel k _ _ _ h1
  rw [@map_set_of_eq _ _ _ Node.on_path_ _ _ _ { sn with cost_ := 0 } h0 rfl] at hk
  rw [onPathOf_of_map_eq hk]
  exact onPathOf_reset nodes x

/-- After every call of `FindPath` that returns, a node is marked as on the
path exactly when it is the start node or an entry of `path_node_`. -/
theorem FindPath_marks {fuel : Nat} {tie : Nat → Nat} {g g1 : Graph α} {s : Nat}
    (hs : g.start_node_ = some s) (h : FindPath fuel tie g = some g1) :
    ∀ v, onPathOf g1.node_ v = true ↔ (some v ∈ g1.path_node_ ∨ v = s) := by
  obtain ⟨s1, e, sn, nodes2, en, nodes3, path, cur, nodes4, nodes5, hs1, he, h0, h1, h2, h3, h4,
    h5, hg1⟩ := FindPath_returned h
  have hss : s1 = s := by
    rw [hs1] at hs
    exact Option.some.inj hs
  subst hss
  have hoff := onPathOf_after_loop h0 h1
  obtain ⟨extra, hpath, hcur, hsx, hlt, _, _, hon3⟩ := backtrack_returned s1 _ _ _ _ _ h3
  obtain ⟨_, _, _, _, hon4⟩ := setOnPath_returned h4
  obtain ⟨_, _, _, _, hon5⟩ := setOnPath_returned h5
  simp only at hpath hcur hon3
  intro v
  subst hg1
  simp only
  rw [hon5, hon4, hon3, hoff, hpath]
  simp only [Bool.false_or, Bool.or_eq_true, decide_eq_true_eq, List.mem_reverse, List.mem_append,
    List.mem_singleton, List.mem_map, Option.some.injEq, exists_eq_right, List.mem_cons,
    List.not_mem_nil, or_false]
  rcases hcur with hc | hc
  · rw [hc]
    simp only [reduceCtorEq, or_false]
    tauto
  · rw [hc]
    simp only [Option.some.injEq]
    tauto

end Marks
/-! ## `FindPath` when the end node is not reached, or is the start node -/

section Degenerate

variable {α : Type} [LinearOrderedCommRing α]

/-- When the end node cannot be reached from the start node and its `prev`
pointer is null before the call, `FindPath` stores a null pointer followed by
the end node and marks the start node and the end node only. -/
theorem FindPath_unreached {g : Graph α} {s e : Nat} (hs : g.start_node_ = some s)
    (he : g.end_node_ = some e) (hsn : s < g.node_.length) (hen : e < g.node_.length)
    (hval : TargetsValid g.node_) (hnn : NonNegCosts g.node_)
    (hun : ¬ Reach g.node_ s e) (hprev : prevOf g.node_ e = none)
    (tie : Nat → Nat) {fuel : Nat} (hf : fuelBound g.node_ ≤ fuel) :
    ∃ g1, FindPath fuel tie g = some g1 ∧ g1.path_node_ = [none, some e] ∧
      (∀ v, onPathOf g1.node_ v = true ↔ (v = s ∨ v = e)) ∧
      costOf g1.node_ e = INT_MAX := by
  have hlt0 : s < (g.node_.map (fun n =>
      ({ n with cost_ := INT_MAX, on_path_ := false } : Node α))).length := by simpa using hsn
  have h0 := List.getElem?_eq_getElem hlt0
  obtain ⟨nodes2, pq, S, m, rank, B, hloop, inv, hfinal⟩ := FindPath_loop hval hnn h0 tie e hf
  have hoff := onPathOf_after_loop h0 hloop
  have hfuel : 1 ≤ fuel := by
    unfold fuelBound at hf
    omega
  have hen2 : e < nodes2.length := by rw [inv.len]; exact hen
  have hget : nodes2[e]? = some nodes2[e] := List.getElem?_eq_getElem hen2
  have hcost : costOf nodes2 e = INT_MAX := by
    apply le_antisymm (inv.cost_le e)
    by_contra hcon
    have hfin : costOf nodes2 e < INT_MAX := lt_of_not_le hcon
    obtain ⟨p, htp, _, _, hch, _⟩ :=
      inv.treePath hnn ((if e ∈ S then rank e else B) + 1) e (Nat.lt_succ_self _) hen hfin
    have hr : Reach nodes2 s e := reach_of_chain p s e htp.head htp.last hch
    rw [Reach_congr inv.edges] at hr
    exact hun hr
  have hp : prevOf nodes2 e = none := by
    by_contra hne
    have hne2 : prevOf nodes2 e ≠ prevOf g.node_ e := by rw [hprev]; exact hne
    have := (inv.prov e hne2).1
    rw [hcost] at this
    exact lt_irrefl _ this
  have hpe : (nodes2[e]).prev_ = none := by simpa [prevOf, hget] using hp
  have hs2 : s < nodes2.length := by rw [inv.len]; exact hsn
  obtain ⟨nodes4, h4, hfix4, hcost4, _, hon4⟩ := setOnPath_spec hs2
  have he4 : e < nodes4.length := by rw [length_eq_of_map_eq hfix4]; exact hen2
  obtain ⟨nodes5, h5, _, hcost5, _, hon5⟩ := setOnPath_spec he4
  have hback : backtrack s fuel (nodes2[e]).prev_ nodes2 [some e] =
      some (nodes2, [some e], none) := by
    rw [hpe]
    cases fuel with
    | zero => omega
    | succ fuel => rfl
  refine ⟨{ g with node_ := nodes5, path_node_ := ([some e] ++ [none]).reverse }, ?_, rfl, ?_, ?_⟩
  · unfold FindPath
    simp only [hs, he, h0, hloop, hget, hback, h4, h5]
  · intro v
    simp only
    rw [hon5, hon4, hoff]
    simp
  · simp only
    rw [costOf_of_map_eq hcost5, costOf_of_map_eq hcost4]
    exact hcost

theorem relaxLoop_at_end (tie : Nat → Nat) (s fuel k : Nat) (nodes : List (Node α)) (c : α) :
    relaxLoop tie s (fuel + 1) k nodes [⟨s, c⟩] = some nodes := by
  obtain ⟨x, hx, _⟩ := topIdx_spec (tie k) [(⟨s, c⟩ : QNode α)] (by simp)
  have hx2 : x = ⟨s, c⟩ := by simpa using List.getElem?_mem hx
  subst hx2
  unfold relaxLoop
  simp [hx]

/-- Every call of `FindPath` with the start node as end node that returns
leaves the node with cost 0 and stores a path of at least two entries, the
last of which is the node. -/
theorem FindPath_same_returned {g g1 : Graph α} {s : Nat} (hs : g.start_node_ = some s)
    (he : g.end_node_ = some s) {fuel : Nat} {tie : Nat → Nat}
    (h : FindPath fuel tie g = some g1) :
    costOf g1.node_ s = 0 ∧ 2 ≤ g1.path_node_.length ∧
      g1.path_node_.getLast? = some (some s) := by
  obtain ⟨s1, e, sn, nodes2, en, nodes3, path, cur, nodes4, nodes5, hs1, he1, h0, h1, h2, h3, h4,
    h5, hg1⟩ := FindPath_returned h
  have hss : s1 = s := by
    rw [hs1] at hs
    exact Option.some.inj hs
  have hee : e = s := by
    rw [he1] at he
    exact Option.some.inj he
  subst hss
  subst hee
  have hlt0 : e < (g.node_.map (fun n =>
      ({ n with cost_ := INT_MAX, on_path_ := false } : Node α))).length :=
    (List.getElem?_eq_some.1 h0).1
  cases fuel with
  | zero => simp [relaxLoop] at h1
  | succ fuel =>
    rw [relaxLoop_at_end] at h1
    simp only [Option.some.injEq] at h1
    obtain ⟨extra, hpath, _, _, _, hcost3, _, _⟩ := backtrack_returned e _ _ _ _ _ h3
    obtain ⟨_, _, hcost4, _, _⟩ := setOnPath_returned h4
    obtain ⟨_, _, hcost5, _, _⟩ := setOnPath_returned h5
    simp only at hpath hcost3
    subst hg1
    simp only
    refine ⟨?_, ?_, ?_⟩
    · rw [costOf_of_map_eq hcost5, costOf_of_map_eq hcost4, costOf_of_map_eq hcost3, ← h1,
        costOf_set hlt0]
      simp
    · rw [hpath]
      simp
    · rw [hpath, List.getLast?_reverse]
      simp

/-- When the start node is the end node and its `prev` pointer is null before
the call, `FindPath` returns after one iteration, with a null pointer followed
by the node as path, the node at cost 0 and no other node marked. -/
theorem FindPath_same_fresh {g : Graph α} {s : Nat} (hs : g.start_node_ = some s)
    (he : g.end_node_ = some s) (hsn : s < g.node_.length) (hprev : prevOf g.node_ s = none)
    (tie : Nat → Nat) {fuel : Nat} (hf : 1 ≤ fuel) :
    ∃ g1, FindPath fuel tie g = some g1 ∧ g1.path_node_ = [none, some s] ∧
      costOf g1.node_ s = 0 ∧ ∀ v, onPathOf g1.node_ v = true ↔ v = s := by
  have hlt0 : s < (g.node_.map (fun n =>
      ({ n with cost_ := INT_MAX, on_path_ := false } : Node α))).length := by simpa using hsn
  have h0 := List.getElem?_eq_getElem hlt0
  obtain ⟨fuel, rfl⟩ : ∃ f, fuel = f + 1 := ⟨fuel - 1, by omega⟩
  have hloop := relaxLoop_at_end tie s fuel 0
    ((g.node_.map (fun n => ({ n with cost_ := INT_MAX, on_path_ := false } : Node α))).set s
      { (g.node_.map (fun n => ({ n with cost_ := INT_MAX, on_path_ := false } : Node α)))[s]
          with cost_ := 0 }) 0
  have hoff := onPathOf_after_loop h0 hloop
  have hs2 : s < ((g.node_.map (fun n =>
      ({ n with cost_ := INT_MAX, on_path_ := false } : Node α))).set s
      { (g.node_.map (fun n => ({ n with cost_ := INT_MAX, on_path_ := false } : Node α)))[s]
          with cost_ := 0 }).length := by
    rw [List.length_set]
    exact hlt0
  have hget := List.getElem?_eq_getElem hs2
  have hpe : (((g.node_.map (fun n =>
      ({ n with cost_ := INT_MAX, on_path_ := false } : Node α))).set s
      { (g.node_.map (fun n => ({ n with cost_ := INT_MAX, on_path_ := false } : Node α)))[s]
          with cost_ := 0 })[s]).prev_ = none := by
    have : prevOf g.node_ s = none := hprev
    simp only [prevOf, List.getElem?_eq_getElem hsn] at this
    simpa using this
  obtain ⟨nodes4, h4, hfix4, hcost4, _, hon4⟩ := setOnPath_spec hs2
  have he4 : s < nodes4.length := by rw [length_eq_of_map_eq hfix4]; exact hs2
  obtain ⟨nodes5, h5, _, hcost5, _, hon5⟩ := setOnPath_spec he4
  refine ⟨{ g with node_ := nodes5, path_node_ := ([some s] ++ [none]).reverse }, ?_, rfl, ?_, ?_⟩
  · unfold FindPath
    simp only [hs, he, h0, hloop, hget, hpe, backtrack, h4, h5]
  · simp only
    rw [costOf_of_map_eq hcost5, costOf_of_map_eq hcost4, costOf_set hlt0]
    simp
  · intro v
    simp only
    rw [hon5, hon4, hoff]
    simp

end Degenerate

section Single

variable {α : Type} [LinearOrderedCommRing α]

theorem topIdx_singleton (t : Nat) (q : QNode α) : topIdx t [q] = 0 := by
  obtain ⟨x, hx, _⟩ := topIdx_spec t [q] (by simp)
  have hlt : topIdx t [q] < 1 := by
    rcases List.getElem?_eq_some.1 hx with ⟨hlt, _⟩
    simpa using hlt
  omega

theorem not_reach_of_no_edges {nodes : List (Node α)} {a b : Nat}
    (h : edgesOf nodes a = []) (hab : a ≠ b) : ¬ Reach nodes a b := by
  intro hr
  rcases Relation.ReflTransGen.cases_head hr with heq | ⟨c, ⟨e, he, _⟩, _⟩
  · exact hab heq
  · rw [h] at he
    simp at he

end Single


/-! ## `Graph::SelectNode` -/

section Select

variable {β : Type} [LinearOrderedField β]

theorem hitsNode_iff (cursor : Option β × Option β) (node_scale : β) (n : Node β) :
    hitsNode cursor node_scale n = true ↔ InRadius cursor node_scale n := by
  obtain ⟨c1, c2⟩ := cursor
  unfold hitsNode InRadius lengthLt
  cases c1 with
  | none => simp
  | some cx =>
    cases c2 with
    | none => simp
    | some cy =>
      simp only [decide_eq_true_eq, Prod.mk.injEq, Option.some.injEq]
      constructor
      · rintro ⟨h1, h2⟩
        refine ⟨cx, cy, ⟨rfl, rfl⟩, h1, ?_⟩
        rw [pow_two, pow_two, pow_two]
        exact h2
      · rintro ⟨a, b, ⟨rfl, rfl⟩, h1, h2⟩
        rw [pow_two, pow_two, pow_two] at h2
        exact ⟨h1, h2⟩

/-- The loop over the nodes returns the first node that passes the test, and
returns none exactly when no node passes it. -/
theorem pickLoop_spec (cursor : Option β × Option β) (node_scale : β) :
    ∀ (nodes : List (Node β)) (i : Nat),
      (∀ k, pickLoop cursor node_scale nodes i = some k ↔
        ∃ (j : Nat) (n : Node β), k = i + j ∧ nodes[j]? = some n ∧
          hitsNode cursor node_scale n = true ∧
          ∀ (j1 : Nat) (m : Node β), j1 < j → nodes[j1]? = some m →
            hitsNode cursor node_scale m = false) ∧
      (pickLoop cursor node_scale nodes i = none ↔
        ∀ (j : Nat) (n : Node β), nodes[j]? = some n → hitsNode cursor node_scale n = false) := by
  intro nodes
  induction nodes with
  | nil =>
    intro i
    simp [pickLoop]
  | cons a rest ih =>
    intro i
    obtain ⟨ih1, ih2⟩ := ih (i + 1)
    by_cases ha : hitsNode cursor node_scale a = true
    · constructor
      · intro k
        simp only [pickLoop, ha, if_true, Option.some.injEq]
        constructor
        · intro hk
          refine ⟨0, a, by omega, by simp, ha, ?_⟩
          intro j1 m hj1
          omega
        · rintro ⟨j, n, hk, hn, hhit, hfirst⟩
          cases j with
          | zero => omega
          | succ j =>
            have := hfirst 0 a (Nat.succ_pos j) (by simp)
            rw [ha] at this
            exact absurd this (by decide)
      · simp only [pickLoop, ha, if_true, reduceCtorEq, false_iff]
        intro hall
        have := hall 0 a (by simp)
        rw [ha] at this
        exact absurd this (by decide)
    · have ha2 : hitsNode cursor node_scale a = false := by
        cases h : hitsNode cursor node_scale a with
        | false => rfl
        | true => exact absurd h ha
      constructor
      · intro k
        simp only [pickLoop, ha2, Bool.false_eq_true, if_false]
        rw [ih1 k]
        constructor
        · rintro ⟨j, n, hk, hn, hhit, hfirst⟩
          refine ⟨j + 1, n, by omega, by simpa using hn, hhit, ?_⟩
          intro j1 m hj1 hm
          cases j1 with
          | zero =>
            have : m = a := by simpa using hm.symm
            rw [this]
            exact ha2
          | succ j1 =>
            exact hfirst j1 m (by omega) (by simpa using hm)
        · rintro ⟨j, n, hk, hn, hhit, hfirst⟩
          cases j with
          | zero =>
            have : n = a := by simpa using hn.symm
            rw [this, ha2] at hhit
            exact absurd hhit (by decide)
          | succ j =>
            refine ⟨j, n, by omega, by simpa using hn, hhit, ?_⟩
            intro j1 m hj1 hm
            exact hfirst (j1 + 1) m (by omega) (by simpa using hm)
      · simp only [pickLoop, ha2, Bool.false_eq_true, if_false]
        rw [ih2]
        constructor
        · intro hall j n hn
          cases j with
          | zero =>
            have : n = a := by simpa using hn.symm
            rw [this]
            exact ha2
          | succ j => exact hall j n (by simpa using hn)
        · intro hall j n hn
          exact hall (j + 1) n (by simpa using hn)

theorem not_outsideWindow {x y : β} {window_width window_height : Int} (hx0 : 0 ≤ x)
    (hx1 : x ≤ (window_width : β)) (hy0 : 0 ≤ y) (hy1 : y ≤ (window_height : β)) :
    ¬ outsideWindow x y window_width window_height := by
  unfold outsideWindow
  rintro (h | h | h | h)
  · exact absurd h (not_lt.2 hx0)
  · exact absurd h (not_lt.2 hx1)
  · exact absurd h (not_lt.2 hy0)
  · exact absurd h (not_lt.2 hy1)

theorem SelectNode_inside {g : Graph β} {x y : β} {window_width window_height : Int}
    (h : ¬ outsideWindow x y window_width window_height) (camera_zoom : β) :
    SelectNode g x y window_width window_height camera_zoom =
      g.node_obj_.map (fun node_obj =>
        pickLoop (cursorPos x y window_width window_height camera_zoom) node_obj.scale_
          g.node_ 0) := by
  unfold SelectNode
  simp only [h, if_false]
  cases g.node_obj_ <;> rfl

/-- Over the real numbers, the test of the loop compares the Euclidean
distance between the node and the cursor with the pick radius. -/
theorem InRadius_iff_sqrt (cx cy node_scale : ℝ) (n : Node ℝ) :
    InRadius (some cx, some cy) node_scale n ↔
      Real.sqrt ((cx - n.x_) ^ 2 + (cy - n.y_) ^ 2) < node_scale * node_scale := by
  unfold InRadius
  constructor
  · rintro ⟨a, b, hab, hpos, hlt⟩
    simp only [Prod.mk.injEq, Option.some.injEq] at hab
    obtain ⟨rfl, rfl⟩ := hab
    exact (Real.sqrt_lt' hpos).2 hlt
  · intro h
    have hpos : 0 < node_scale * node_scale := lt_of_le_of_lt (Real.sqrt_nonneg _) h
    exact ⟨cx, cy, rfl, hpos, (Real.sqrt_lt' hpos).1 h⟩

end Select

/-! ## The pixel-to-world mapping of `SelectNode` -/

section Mapping

variable {β : Type} [LinearOrderedField β]

/-- For a window of positive size and a zoom other than zero both coordinates
of the cursor are finite: the pixel offset from the centre of the window,
doubled, over the shorter side of the window times the zoom, with the `y` axis
inverted. -/
theorem cursorPos_eq {window_width window_height : Int} {camera_zoom : β}
    (hw : 0 < window_width) (hh : 0 < window_height) (hz : camera_zoom ≠ 0) (x y : β) :
    cursorPos x y window_width window_height camera_zoom =
      (some ((2 * x - (window_width : β)) /
          (((if window_height < window_width then window_height else window_width : Int) : β)
            * camera_zoom)),
       some (((window_height : β) - 2 * y) /
          (((if window_height < window_width then window_height else window_width : Int) : β)
            * camera_zoom))) := by
  have hw1 : (window_width : β) ≠ 0 := by exact_mod_cast (ne_of_gt hw)
  have hh1 : (window_height : β) ≠ 0 := by exact_mod_cast (ne_of_gt hh)
  have hwz : (window_width : β) * camera_zoom ≠ 0 := mul_ne_zero hw1 hz
  have hhz : (window_height : β) * camera_zoom ≠ 0 := mul_ne_zero hh1 hz
  unfold cursorPos fdiv
  by_cases hlt : window_height < window_width
  · have hlt1 : (window_width : β) > (window_height : β) := by exact_mod_cast hlt
    simp only [hlt1, hlt, if_true, hh1, hhz, hwz, if_false, Option.some_bind, Prod.mk.injEq,
      Option.some.injEq]
    constructor
    · field_simp
      ring
    · congr 1
      ring
  · have hlt1 : ¬ (window_width : β) > (window_height : β) := by
      intro hcon
      exact hlt (by exact_mod_cast hcon)
    simp only [hlt1, hlt, if_false, hw1, hhz, hwz, Option.some_bind, Prod.mk.injEq,
      Option.some.injEq]
    constructor
    · trivial
    · field_simp
      ring

/-- The rectangle onto which the mapping sends the window. -/
theorem MapsOnto_of_pos {window_width window_height : Int} {camera_zoom : β}
    (hw : 0 < window_width) (hh : 0 < window_height) (hz : 0 < camera_zoom) {d : β}
    (hd : d = (((if window_height < window_width then window_height else window_width : Int) : β)
      * camera_zoom)) :
    MapsOnto window_width window_height camera_zoom (-((window_width : β) / d))
      ((window_width : β) / d) (-((window_height : β) / d)) ((window_height : β) / d) := by
  have hk : 0 < d := by
    rw [hd]
    apply mul_pos _ hz
    by_cases hlt : window_height < window_width
    · simp only [hlt, if_true]
      exact_mod_cast hh
    · simp only [hlt, if_false]
      exact_mod_cast hw
  have heq := fun x y => @cursorPos_eq β _ window_width window_height camera_zoom hw hh
    (ne_of_gt hz) x y
  rw [← hd] at heq
  refine ⟨?_, ?_, ?_, ?_, ?_, ?_⟩
  · intro y
    rw [heq]
    simp only [Option.some.injEq]
    rw [← neg_div]
    congr 1
    ring
  · intro y
    rw [heq]
    simp only [Option.some.injEq]
    congr 1
    ring
  · intro x
    rw [heq]
    simp only [Option.some.injEq]
    congr 1
    ring
  · intro x
    rw [heq]
    simp only [Option.some.injEq]
    rw [← neg_div]
    congr 1
    ring
  · intro x y hx0 hx1 hy0 hy1
    refine ⟨_, _, heq x y, ?_, ?_, ?_, ?_⟩
    · rw [← neg_div, div_le_div_iff_of_pos_right hk]
      linarith
    · rw [div_le_div_iff_of_pos_right hk]
      linarith
    · rw [← neg_div, div_le_div_iff_of_pos_right hk]
      linarith
    · rw [div_le_div_iff_of_pos_right hk]
      linarith
  · intro cx cy hx0 hx1 hy0 hy1
    rw [← neg_div, div_le_iff₀ hk] at hx0 hy0
    rw [le_div_iff₀ hk] at hx1 hy1
    refine ⟨(cx * d + (window_width : β)) / 2, ((window_height : β) - cy * d) / 2, ?_, ?_, ?_,
      ?_, ?_⟩
    · apply div_nonneg _ (by norm_num)
      linarith
    · rw [div_le_iff₀ (by norm_num : (0 : β) < 2)]
      linarith
    · apply div_nonneg _ (by norm_num)
      linarith
    · rw [div_le_iff₀ (by norm_num : (0 : β) < 2)]
      linarith
    · rw [heq]
      simp only [Prod.mk.injEq, Option.some.injEq]
      constructor
      · field_simp
      · field_simp

end Mapping

/-! ## Evaluation of `BuildSimpleGraph` -/

section Simple

variable {α : Type} [LinearOrderedCommRing α]

/-- The graph that `BuildSimpleGraph` returns for a graph without nodes when
the loops of `FindPath` are given at least five iterations. -/
theorem BuildSimpleGraph_eval (node_sprite edge_sprite : Option (GameObject α)) {g : Graph α}
    (hg : g.node_ = []) (tie : Nat → Nat) (f : Nat) :
    ∃ g1, BuildSimpleGraph (f + 1 + 1 + 1 + 1 + 1) tie node_sprite edge_sprite g = some g1 ∧
      g1.node_.map Node.place = [(0, -2, 0), (1, -1, 0), (2, 0, 0), (3, 1, 0), (4, 2, 0)] ∧
      g1.node_.map Node.edge_ = [[⟨0, 1, 1⟩], [⟨1, 0, 1⟩, ⟨1, 2, 1⟩], [⟨2, 1, 1⟩, ⟨2, 3, 1⟩],
        [⟨3, 2, 1⟩, ⟨3, 4, 1⟩], [⟨4, 3, 1⟩]] ∧
      g1.start_node_ = some 0 ∧ g1.end_node_ = some 4 ∧
      g1.path_node_ = [some 0, some 1, some 2, some 3, some 4] ∧
      g1.node_.map Node.cost_ = [0, 1, 2, 3, 4] ∧ costOf g1.node_ 4 = 4 ∧
      g1.node_.map Node.on_path_ = [true, true, true, true, true] ∧
      g1.node_obj_ = node_sprite ∧ g1.edge_obj_ = edge_sprite := by
  norm_num [BuildSimpleGraph, hg, AddNode, AddNeighbor, AddEdge, FindPath, relaxLoop,
    topIdx_singleton, relaxEdges, relaxEdge, backtrack, setOnPath, Node.new, INT_MAX, Node.place,
    costOf]

end Simple

/-! ## Runs of the relaxation loop with any number of iterations -/

section AnyFuel

variable {α : Type} [LinearOrderedCommRing α]

/-- A run of the relaxation loop that returns, returns the same with more
iterations allowed. -/
theorem relaxLoop_mono (tie : Nat → Nat) (end_node : Nat) :
    ∀ (fuel k : Nat) (nodes : List (Node α)) (pq : List (QNode α)) (r : List (Node α)),
      relaxLoop tie end_node fuel k nodes pq = some r →
      ∀ fuel1, fuel ≤ fuel1 → relaxLoop tie end_node fuel1 k nodes pq = some r := by
  intro fuel
  induction fuel with
  | zero =>
    intro k nodes pq r h
    simp [relaxLoop] at h
  | succ fuel ih =>
    intro k nodes pq r h fuel1 hle
    obtain ⟨f1, rfl⟩ : ∃ f1, fuel1 = f1 + 1 := ⟨fuel1 - 1, by omega⟩
    unfold relaxLoop at h ⊢
    by_cases hemp : pq.isEmpty = true
    · simp only [hemp, if_true] at h ⊢
      exact h
    · simp only [hemp, Bool.false_eq_true, if_false] at h ⊢
      cases hq : pq[topIdx (tie k) pq]? with
      | none => simp [hq] at h
      | some q =>
        simp only [hq] at h ⊢
        by_cases hend : q.node = end_node
        · simp only [hend, if_true] at h ⊢
          exact h
        · simp only [hend, if_false] at h ⊢
          cases hn : nodes[q.node]? with
          | none => simp [hn] at h
          | some un =>
            simp only [hn] at h ⊢
            cases hr : relaxEdges q.node q.cost un.edge_
                (nodes, pq.eraseIdx (topIdx (tie k) pq)) with
            | none => simp [hr] at h
            | some st =>
              simp only [hr] at h ⊢
              exact ih _ _ _ _ h f1 (by omega)

variable {E : Nat → List (Edge α)} {n s : Nat} {prev0 : Nat → Option Nat}
  {F : List (List (Edge α) × Int × α × α × Bool)} {O : List Bool}

/-- Every run of the relaxation loop that returns, with whatever number of
iterations, ends in a state that satisfies the invariant and in which the
queue is empty or the end node is an entry of least cost. -/
theorem relaxLoop_returned (hnonneg : ∀ u, ∀ e ∈ E u, 0 ≤ e.cost)
    (hvalid : ∀ u, ∀ e ∈ E u, e.n2 < n) {tie : Nat → Nat} {end_node fuel k : Nat}
    {nodes nodes1 : List (Node α)} {pq : List (QNode α)} {S : Finset Nat} {m : α}
    {rank : Nat → Nat} {B : Nat} (inv : DInv E n s prev0 F O S m rank B nodes pq)
    (h : relaxLoop tie end_node fuel k nodes pq = some nodes1) :
    ∃ pq1 S1 m1 rank1 B1, DInv E n s prev0 F O S1 m1 rank1 B1 nodes1 pq1 ∧
      (pq1 = [] ∨ ∃ q ∈ pq1, q.node = end_node ∧ ∀ y ∈ pq1, q.cost ≤ y.cost) := by
  obtain ⟨nodes2, pq1, S1, m1, rank1, B1, h2, inv1, hfinal⟩ :=
    relaxLoop_spec hnonneg hvalid tie end_node (fuel + (pq.length + openDegree E n S + 1)) k
      nodes pq S m rank B inv (by omega)
  have h3 := relaxLoop_mono tie end_node fuel k nodes pq nodes1 h
    (fuel + (pq.length + openDegree E n S + 1)) (by omega)
  rw [h3] at h2
  have heq : nodes1 = nodes2 := Option.some.inj h2
  subst heq
  exact ⟨pq1, S1, m1, rank1, B1, inv1, hfinal⟩

end AnyFuel

/-! ## Nodes that the sentinel hides -/

section Far

variable {α : Type} [LinearOrderedCommRing α]

variable {E : Nat → List (Edge α)} {n s : Nat} {prev0 : Nat → Option Nat}
  {F : List (List (Edge α) × Int × α × α × Bool)} {O : List Bool}
  {S : Finset Nat} {m : α} {rank : Nat → Nat} {B : Nat}
  {nodes : List (Node α)} {pq : List (QNode α)}

/-- In a state that satisfies the invariant, a node to which every path from
the start node costs `INT_MAX` or more has the cost `INT_MAX` and the `prev`
pointer with which the loop started. -/
theorem DInv.far (hnonneg : ∀ u, ∀ e ∈ E u, 0 ≤ e.cost)
    (inv : DInv E n s prev0 F O S m rank B nodes pq) {v : Nat}
    (hfar : ∀ (p : List Nat) (L : α), p.head? = some s → p.getLast? = some v →
      pathCost nodes p = some L → INT_MAX ≤ L) :
    costOf nodes v = INT_MAX ∧ prevOf nodes v = prev0 v := by
  have hcost : costOf nodes v = INT_MAX := by
    apply le_antisymm (inv.cost_le v)
    by_contra hcon
    have hfin : costOf nodes v < INT_MAX := lt_of_not_le hcon
    have hv : v < n := by
      by_contra hvn
      have hnone : nodes[v]? = none := by
        apply List.getElem?_eq_none
        rw [inv.len]
        exact not_lt.1 hvn
      simp only [costOf, hnone] at hfin
      exact lt_irrefl _ hfin
    obtain ⟨p, htp, _, _, _, c, hc, hle⟩ :=
      inv.treePath hnonneg ((if v ∈ S then rank v else B) + 1) v (Nat.lt_succ_self _) hv hfin
    have := hfar p c htp.head htp.last hc
    exact absurd (lt_of_le_of_lt (le_trans this hle) hfin) (lt_irrefl _)
  refine ⟨hcost, ?_⟩
  by_contra hne
  have := (inv.prov v hne).1
  rw [hcost] at this
  exact lt_irrefl _ this

/-- Every call of `FindPath` that returns leaves a node to which every path
from the start node costs `INT_MAX` or more with the cost `INT_MAX` and with
the `prev` pointer it had before the call. -/
theorem FindPath_far_returned {g g1 : Graph α} {s : Nat} (hs : g.start_node_ = some s)
    (hval : TargetsValid g.node_) (hnn : NonNegCosts g.node_) {fuel : Nat} {tie : Nat → Nat}
    (h : FindPath fuel tie g = some g1) {v : Nat}
    (hfar : ∀ (p : List Nat) (L : α), p.head? = some s → p.getLast? = some v →
      pathCost g.node_ p = some L → INT_MAX ≤ L) :
    costOf g1.node_ v = INT_MAX ∧ prevOf g1.node_ v = prevOf g.node_ v := by
  obtain ⟨s1, e, sn, nodes2, en, nodes3, path, cur, nodes4, nodes5, hs1, he, h0, h1, h2, h3, h4,
    h5, hg1⟩ := FindPath_returned h
  have hss : s1 = s := by
    rw [hs1] at hs
    exact Option.some.inj hs
  subst hss
  obtain ⟨pq1, S1, m1, rank1, B1, inv, _⟩ := relaxLoop_returned hnn hval (DInv_init h0) h1
  obtain ⟨_, _, _, _, _, hcost3, hprev3, _⟩ := backtrack_returned s1 _ _ _ _ _ h3
  obtain ⟨_, _, hcost4, hprev4, _⟩ := setOnPath_returned h4
  obtain ⟨_, _, hcost5, hprev5, _⟩ := setOnPath_returned h5
  simp only at hcost3 hprev3
  have hfar2 : ∀ (p : List Nat) (L : α), p.head? = some s1 → p.getLast? = some v →
      pathCost nodes2 p = some L → INT_MAX ≤ L := by
    intro p L hh hl hc
    rw [pathCost_congr inv.edges] at hc
    exact hfar p L hh hl hc
  obtain ⟨hc, hp⟩ := inv.far hnn hfar2
  subst hg1
  simp only
  rw [costOf_of_map_eq hcost5, costOf_of_map_eq hcost4, costOf_of_map_eq hcost3,
    prevOf_of_map_eq hprev5, prevOf_of_map_eq hprev4, prevOf_of_map_eq hprev3]
  exact ⟨hc, hp⟩

/-- When every path from the start node to the end node costs `INT_MAX` or
more and the `prev` pointer of the end node is null before the call,
`FindPath` stores a null pointer followed by the end node and marks the start
node and the end node only. -/
theorem FindPath_far_end {g : Graph α} {s e : Nat} (hs : g.start_node_ = some s)
    (he : g.end_node_ = some e) (hsn : s < g.node_.length) (hen : e < g.node_.length)
    (hval : TargetsValid g.node_) (hnn : NonNegCosts g.node_)
    (hfar : ∀ (p : List Nat) (L : α), p.head? = some s → p.getLast? = some e →
      pathCost g.node_ p = some L → INT_MAX ≤ L)
    (hprev : prevOf g.node_ e = none)
    (tie : Nat → Nat) {fuel : Nat} (hf : fuelBound g.node_ ≤ fuel) :
    ∃ g1, FindPath fuel tie g = some g1 ∧ g1.path_node_ = [none, some e] ∧
      (∀ v, onPathOf g1.node_ v = true ↔ (v = s ∨ v = e)) ∧
      costOf g1.node_ e = INT_MAX := by
  have hlt0 : s < (g.node_.map (fun n =>
      ({ n with cost_ := INT_MAX, on_path_ := false } : Node α))).length := by simpa using hsn
  have h0 := List.getElem?_eq_getElem hlt0
  obtain ⟨nodes2, pq, S, m, rank, B, hloop, inv, hfinal⟩ := FindPath_loop hval hnn h0 tie e hf
  have hoff := onPathOf_after_loop h0 hloop
  have hfuel : 1 ≤ fuel := by
    unfold fuelBound at hf
    omega
  have hen2 : e < nodes2.length := by rw [inv.len]; exact hen
  have hget : nodes2[e]? = some nodes2[e] := List.getElem?_eq_getElem hen2
  have hfar2 : ∀ (p : List Nat) (L : α), p.head? = some s → p.getLast? = some e →
      pathCost nodes2 p = some L → INT_MAX ≤ L := by
    intro p L hh hl hc
    rw [pathCost_congr inv.edges] at hc
    exact hfar p L hh hl hc
  obtain ⟨hcost, hp⟩ := inv.far hnn hfar2
  rw [hprev] at hp
  have hpe : (nodes2[e]).prev_ = none := by simpa [prevOf, hget] using hp
  have hs2 : s < nodes2.length := by rw [inv.len]; exact hsn
  obtain ⟨nodes4, h4, hfix4, hcost4, _, hon4⟩ := setOnPath_spec hs2
  have he4 : e < nodes4.length := by rw [length_eq_of_map_eq hfix4]; exact hen2
  obtain ⟨nodes5, h5, _, hcost5, _, hon5⟩ := setOnPath_spec he4
  have hback : backtrack s fuel (nodes2[e]).prev_ nodes2 [some e] =
      some (nodes2, [some e], none) := by
    rw [hpe]
    cases fuel with
    | zero => omega
    | succ fuel => rfl
  refine ⟨{ g with node_ := nodes5, path_node_ := ([some e] ++ [none]).reverse }, ?_, rfl, ?_, ?_⟩
  · unfold FindPath
    simp only [hs, he, h0, hloop, hget, hback, h4, h5]
  · intro v
    simp only
    rw [hon5, hon4, hoff]
    simp
  · simp only
    rw [costOf_of_map_eq hcost5, costOf_of_map_eq hcost4]
    exact hcost

end Far

/-! ## A walk back that never ends -/

section Diverge

variable {α : Type} [LinearOrderedCommRing α]

/-- When the `prev` pointers lead from the current node through nodes of a set
that holds neither the start node nor a node with a null `prev` pointer, the
walk back returns with no number of iterations. -/
theorem backtrack_diverges (s : Nat) (C : Nat → Prop) :
    ∀ (fuel c : Nat) (nodes : List (Node α)) (path : List (Option Nat)), C c →
      (∀ x, C x → x ≠ s ∧ ∃ d, prevOf nodes x = some d ∧ C d) →
      backtrack s fuel (some c) nodes path = none := by
  intro fuel
  induction fuel with
  | zero =>
    intro c nodes path _ _
    rfl
  | succ fuel ih =>
    intro c nodes path hc hC
    obtain ⟨hcs, d, hd, hCd⟩ := hC c hc
    unfold backtrack
    simp only [hcs, if_false]
    cases hn : nodes[c]? with
    | none => rfl
    | some n =>
      simp only
      have hclt : c < nodes.length := (List.getElem?_eq_some.1 hn).1
      have hnp : n.prev_ = some d := by
        simpa [prevOf, hn] using hd
      rw [hnp]
      apply ih d _ _ hCd
      intro x hx
      obtain ⟨hxs, d1, hd1, hCd1⟩ := hC x hx
      refine ⟨hxs, d1, ?_, hCd1⟩
      rw [prevOf_set hclt]
      by_cases hxc : x = c
      · subst hxc
        simp only [if_true]
        rw [hd] at hd1
        rw [← hd1]
      · simp only [hxc, if_false]
        exact hd1

end Diverge


/-! ## The indices that `BuildGrid` uses -/

section GridIndices

variable {α : Type} [LinearOrderedCommRing α]

/-- Two loop bodies that agree on the states of an invariant give the same
loop. -/
theorem forLoop_congr_inv {σ : Type} (body body1 : Nat → σ → Option σ) (P : Nat → σ → Prop) :
    ∀ (cnt lo : Nat) (s : σ), P lo s →
      (∀ k s, lo ≤ k → k < lo + cnt → P k s →
        body1 k s = body k s ∧ ∀ s1, body k s = some s1 → P (k + 1) s1) →
      forLoop body1 lo cnt s = forLoop body lo cnt s ∧
        ∀ s1, forLoop body lo cnt s = some s1 → P (lo + cnt) s1 := by
  intro cnt
  induction cnt with
  | zero =>
    intro lo s h0 _
    refine ⟨rfl, ?_⟩
    intro s1 h1
    simp only [forLoop, Option.some.injEq] at h1
    rw [← h1]
    exact h0
  | succ cnt ih =>
    intro lo s h0 hstep
    obtain ⟨hb, hP⟩ := hstep lo s (le_refl _) (by omega) h0
    unfold forLoop
    rw [hb]
    cases hbody : body lo s with
    | none => simp
    | some s1 =>
      simp only
      have := ih (lo + 1) s1 (hP s1 hbody) (fun k s hk1 hk2 hPk =>
        hstep k s (by omega) (by omega) hPk)
      have hlo : lo + (cnt + 1) = lo + 1 + cnt := by omega
      rw [hlo]
      exact this

/-- On a node vector with `rows * cols` nodes the checks of
`gridConnectChecked` never fail, and the loop nest ends with the running index
`rows * cols`. -/
theorem gridConnectChecked_eq (rand : Nat → Nat) {cols rows : Nat} {nodes0 : List (Node α)}
    (hlen : nodes0.length = rows * cols) :
    gridConnectChecked rand cols rows nodes0 = gridConnect rand cols rows nodes0 ∧
      ∀ st, gridConnect rand cols rows nodes0 = some st →
        st.2.1 = rows * cols ∧ st.1.length = rows * cols := by
  unfold gridConnectChecked gridConnect
  have h := forLoop_congr_inv
    (fun i st => forLoop (gridConnectCell rand cols rows i) 0 cols st)
    (fun i st => forLoop (fun j st =>
      if st.2.1 = i * cols + j ∧ (j < cols - 1 → st.2.1 + 1 < st.1.length) ∧
          (i < rows - 1 → (i + 1) * cols + j < st.1.length) then
        gridConnectCell rand cols rows i j st
      else none) 0 cols st)
    (fun i (st : List (Node α) × Nat × Nat) => st.2.1 = i * cols ∧ st.1.length = rows * cols)
    rows 0 (nodes0, 0, 0) ⟨by simp, hlen⟩
    (by
      intro i st _ hi ⟨hidx, hl⟩
      have hi1 : i < rows := by omega
      have h2 := forLoop_congr_inv (gridConnectCell rand cols rows i)
        (fun j st =>
          if st.2.1 = i * cols + j ∧ (j < cols - 1 → st.2.1 + 1 < st.1.length) ∧
              (i < rows - 1 → (i + 1) * cols + j < st.1.length) then
            gridConnectCell rand cols rows i j st
          else none)
        (fun j (st : List (Node α) × Nat × Nat) =>
          st.2.1 = i * cols + j ∧ st.1.length = rows * cols)
        cols 0 st ⟨by simpa using hidx, hl⟩
        (by
          intro j s _ hj ⟨hidxj, hlj⟩
          have hj1 : j < cols := by omega
          have hcell : i * cols + j < rows * cols := cell_lt hi1 hj1
          have hbelow : (i + 1) * cols ≤ rows * cols := Nat.mul_le_mul_right _ hi1
          have hcond : s.2.1 = i * cols + j ∧ (j < cols - 1 → s.2.1 + 1 < s.1.length) ∧
              (i < rows - 1 → (i + 1) * cols + j < s.1.length) := by
            refine ⟨hidxj, ?_, ?_⟩
            · intro hjc
              rw [hidxj, hlj]
              rw [Nat.succ_mul] at hbelow
              omega
            · intro hir
              rw [hlj]
              have h3 : (i + 1 + 1) * cols ≤ rows * cols := Nat.mul_le_mul_right _ (by omega)
              rw [Nat.succ_mul] at h3
              omega
          refine ⟨by simp only; rw [if_pos hcond], ?_⟩
          intro s1 hs1
          obtain ⟨nodes, idx, r⟩ := s
          simp only at hidxj hlj
          subst hidxj
          obtain ⟨nodes1, nodes2, r2, hc, hs1a, hs2a⟩ :=
            gridConnectCell_spec rand hi1 hj1 r hlj
          rw [hc] at hs1
          simp only [Option.some.injEq] at hs1
          subst hs1
          refine ⟨rfl, ?_⟩
          simp only
          have hl1 : nodes1.length = nodes.length := by
            by_cases hjc : j + 1 < cols
            · simp only [hjc, if_true] at hs1a
              obtain ⟨r1, hr1⟩ := hs1a
              exact AddNeighbor_length hr1
            · simp only [hjc, if_false] at hs1a
              rw [hs1a]
          have hl2 : nodes2.length = nodes1.length := by
            by_cases hir : i + 1 < rows
            · simp only [hir, if_true] at hs2a
              obtain ⟨r1, hr1⟩ := hs2a
              exact AddNeighbor_length hr1
            · simp only [hir, if_false] at hs2a
              rw [hs2a]
          rw [hl2, hl1, hlj])
      refine ⟨h2.1, ?_⟩
      intro s1 hs1
      obtain ⟨a, b⟩ := h2.2 s1 hs1
      refine ⟨?_, b⟩
      rw [a, Nat.succ_mul]
      omega)
  refine ⟨h.1, ?_⟩
  intro st hst
  have := h.2 st hst
  simpa using this

end GridIndices


/-! ## The iterations of the depth-first loop of `BuildMaze` -/

section CarveLog

variable {α : Type} [LinearOrderedCommRing α]

/-- An iteration of the depth-first loop that returns has popped the stack and
changed nothing else, or it has pushed a node that was not visited and has
marked this node, and no other, as visited. -/
theorem carveStep_cases {shuffle : Nat → List Nat → List Nat} {k : Nat}
    {src out : List (Node α)} {n : Nat} {st : List Nat}
    {r : List (Node α) × List (Node α) × List Nat}
    (h : carveStep shuffle k src out n st = some r) :
    (carvePushed shuffle k src n = none ∧ r.1 = src ∧ r.2.1 = out ∧ r.2.2 = st) ∨
    (∃ x, carvePushed shuffle k src n = some x ∧ visitedOf src x = false ∧
      r.2.2 = x :: n :: st ∧ visitedOf r.1 x = true ∧
      (∀ y, y ≠ x → visitedOf r.1 y = visitedOf src y) ∧ r.1.length = src.length) := by
  unfold carveStep at h
  unfold carvePushed
  cases hn : src[n]? with
  | none => simp [hn] at h
  | some nd =>
    simp only [hn] at h ⊢
    cases hscan : scanUnvisited src nd.edge_ (shuffle k (List.range nd.edge_.length)) with
    | none => simp [hscan] at h
    | some res =>
      obtain ⟨_, hsome⟩ := scanUnvisited_some hscan
      cases res with
      | none =>
        simp only [hscan, Option.some.injEq] at h
        subst h
        exact Or.inl ⟨rfl, rfl, rfl, rfl⟩
      | some edge =>
        obtain ⟨_, hlt, hunv⟩ := hsome edge rfl
        simp only [hscan] at h
        cases hnb : src[edge.n2]? with
        | none => simp [hnb] at h
        | some neigh =>
          simp only [hnb] at h
          cases h1 : GetNode out nd.id_ with
          | none => simp [h1] at h
          | some n1 =>
            cases h2 : GetNode out neigh.id_ with
            | none => simp [h1, h2] at h
            | some n2 =>
              simp only [h1, h2] at h
              cases h3 : AddNeighbor out n1 n2 edge.cost with
              | none => simp [h3] at h
              | some out1 =>
                simp only [h3, Option.some.injEq] at h
                subst h
                refine Or.inr ⟨edge.n2, rfl, hunv, rfl, ?_, ?_, ?_⟩
                · simp only
                  rw [visitedOf_set hlt]
                  simp
                · intro y hy
                  simp only
                  rw [visitedOf_set hlt]
                  simp [hy]
                · simp

/-- The loop with the log does what the loop does. -/
theorem carveLoopLog_fst (shuffle : Nat → List Nat → List Nat) :
    ∀ (fuel k : Nat) (src out : List (Node α)) (stack log : List Nat),
      (carveLoopLog shuffle fuel k src out stack log).map (fun r => (r.1, r.2.1)) =
        carveLoop shuffle fuel k src out stack := by
  intro fuel
  induction fuel with
  | zero =>
    intro k src out stack log
    rfl
  | succ fuel ih =>
    intro k src out stack log
    cases stack with
    | nil => rfl
    | cons n st =>
      unfold carveLoopLog carveLoop
      cases hstep : carveStep shuffle k src out n st with
      | none => rfl
      | some r =>
        simp only
        exact ih _ _ _ _ _

/-- When the loop with the log returns, from a state in which the visited
nodes are node 0 and the nodes of the log, the log repeats no node and does not
hold node 0, the visited nodes are node 0 and the nodes of the log, and the
number of iterations is the number of pushes plus the number of pops. -/
theorem carveLoopLog_spec (shuffle : Nat → List Nat → List Nat) :
    ∀ (fuel k : Nat) (src out : List (Node α)) (stack log : List Nat)
      (r : List (Node α) × List (Node α) × List Nat × Nat),
      carveLoopLog shuffle fuel k src out stack log = some r →
      (∀ x, visitedOf src x = true ↔ (x = 0 ∨ x ∈ log)) → log.Nodup → 0 ∉ log →
      k + stack.length = 2 * log.length + 1 →
      (∀ x, visitedOf r.1 x = true ↔ (x = 0 ∨ x ∈ r.2.2.1)) ∧ r.2.2.1.Nodup ∧ 0 ∉ r.2.2.1 ∧
        r.2.2.2 = 2 * r.2.2.1.length + 1 ∧ r.1.length = src.length := by
  intro fuel
  induction fuel with
  | zero =>
    intro k src out stack log r h
    simp [carveLoopLog] at h
  | succ fuel ih =>
    intro k src out stack log r h hvis hnd h0 hk
    cases stack with
    | nil =>
      simp only [carveLoopLog, Option.some.injEq] at h
      subst h
      simp only [List.length_nil, Nat.add_zero] at hk
      exact ⟨hvis, hnd, h0, hk, rfl⟩
    | cons n st =>
      unfold carveLoopLog at h
      cases hstep : carveStep shuffle k src out n st with
      | none => simp [hstep] at h
      | some r1 =>
        simp only [hstep] at h
        rcases carveStep_cases hstep with ⟨hp, hsrc, _, hst⟩ | ⟨x, hp, hunv, hst, hx, hother, hlen⟩
        · rw [hp, hsrc, hst] at h
          simp only [Option.toList, List.append_nil] at h
          apply ih _ _ _ _ _ _ h hvis hnd h0
          simp only [List.length_cons] at hk
          omega
        · rw [hp, hst] at h
          simp only [Option.toList] at h
          have hxlog : x ∉ log := by
            intro hmem
            have := (hvis x).2 (Or.inr hmem)
            rw [hunv] at this
            exact absurd this (by decide)
          have hx0 : x ≠ 0 := by
            intro hx0
            have := (hvis x).2 (Or.inl hx0)
            rw [hunv] at this
            exact absurd this (by decide)
          have hres := ih _ _ _ _ _ _ h (by
              intro y
              by_cases hy : y = x
              · subst hy
                simp [hx]
              · rw [hother y hy, hvis y]
                simp [hy])
            (by
              rw [List.nodup_append]
              refine ⟨hnd, by simp, ?_⟩
              intro a ha hb
              have : a = x := by simpa using hb
              exact hxlog (this ▸ ha))
            (by
              simp only [List.mem_append, List.mem_singleton, not_or]
              exact ⟨h0, fun hcon => hx0 hcon.symm⟩)
            (by
              simp only [List.length_cons, List.length_append, List.length_singleton,
                List.length_nil] at hk ⊢
              omega)
          obtain ⟨a1, a2, a3, a4, a5⟩ := hres
          exact ⟨a1, a2, a3, a4, a5.trans hlen⟩

theorem length_le_of_nodup_pos {l : List Nat} {n : Nat} (hn : 0 < n) (hnd : l.Nodup)
    (h : ∀ x ∈ l, x < n) (h0 : 0 ∉ l) : l.length + 1 ≤ n := by
  have := @length_le_of_nodup_lt (0 :: l) n
    (List.nodup_cons.2 ⟨h0, hnd⟩) (by
      intro x hx
      rcases List.mem_cons.1 hx with rfl | hx
      · exact hn
      · exact h x hx)
  simpa using this

end CarveLog


/-! ## One iteration of the relaxation loop, in any state of the loop -/

section StepAny

variable {α : Type} [LinearOrderedCommRing α]

/-- The method `FindPath` is `FindPathWith` for its own relaxation loop. -/
theorem FindPath_eq_With (fuel : Nat) (tie : Nat → Nat) (g : Graph α) :
    FindPath fuel tie g =
      FindPathWith (fun e nodes pq => relaxLoop tie e fuel 0 nodes pq) fuel g :=
  rfl

/-- Two loops that do the same in the state in which `FindPath` starts its
loop give the same `FindPathWith`. -/
theorem FindPathWith_congr
    {loop loop1 : Nat → List (Node α) → List (QNode α) → Option (List (Node α))}
    {g : Graph α} (fuel : Nat)
    (h : ∀ s e sn, g.start_node_ = some s → g.end_node_ = some e →
      (g.node_.map (fun n => ({ n with cost_ := INT_MAX, on_path_ := false } : Node α)))[s]?
        = some sn →
      loop1 e ((g.node_.map (fun n =>
          ({ n with cost_ := INT_MAX, on_path_ := false } : Node α))).set s
          { sn with cost_ := 0 }) [⟨s, 0⟩] =
        loop e ((g.node_.map (fun n =>
          ({ n with cost_ := INT_MAX, on_path_ := false } : Node α))).set s
          { sn with cost_ := 0 }) [⟨s, 0⟩]) :
    FindPathWith loop1 fuel g = FindPathWith loop fuel g := by
  unfold FindPathWith
  cases hs : g.start_node_ with
  | none => rfl
  | some s =>
    cases he : g.end_node_ with
    | none => rfl
    | some e =>
      simp only
      cases h0 : (g.node_.map (fun n => ({ n with cost_ := INT_MAX, on_path_ := false } :
          Node α)))[s]? with
      | none => rfl
      | some sn =>
        simp only
        rw [h s e sn hs he h0]

/-- Edges whose candidate cost is not below the cost of their target leave
the nodes and the queue as they are. -/
theorem relaxEdges_noop {u : Nat} {c : α} :
    ∀ (es : List (Edge α)) (st : List (Node α) × List (QNode α)),
      (∀ e ∈ es, ∃ n, st.1[e.n2]? = some n ∧ ¬ (c + e.cost < n.cost_)) →
      relaxEdges u c es st = some st := by
  intro es
  induction es with
  | nil =>
    intro st _
    rfl
  | cons e es ih =>
    intro st h
    obtain ⟨n, hn, hlt⟩ := h e (by simp)
    have h1 : relaxEdge u c st e = some st := by
      unfold relaxEdge
      simp only [hn, hlt, if_false]
    unfold relaxEdges
    simp only [h1]
    exact ih st (fun e1 he1 => h e1 (by simp [he1]))

variable {E : Nat → List (Edge α)} {n s : Nat} {prev0 : Nat → Option Nat}
  {F : List (List (Edge α) × Int × α × α × Bool)} {O : List Bool}
  {S : Finset Nat} {m : α} {rank : Nat → Nat} {B : Nat}
  {nodes : List (Node α)} {pq : List (QNode α)}

/-- In a state that satisfies the invariant, the relaxation of the edges of
the node of an entry of least cost returns and keeps the invariant; and when
the entry is stale, that is, dearer than its node, it changes nothing but the
queue, which loses the entry. -/
theorem relax_step (hnonneg : ∀ u, ∀ e ∈ E u, 0 ≤ e.cost)
    (hvalid : ∀ u, ∀ e ∈ E u, e.n2 < n)
    (inv : DInv E n s prev0 F O S m rank B nodes pq)
    {i : Nat} {q : QNode α} (hq : pq[i]? = some q) (hmin : ∀ y ∈ pq, q.cost ≤ y.cost) :
    ∃ un st1 S1 m1 rank1 B1, nodes[q.node]? = some un ∧
      relaxEdges q.node q.cost un.edge_ (nodes, pq.eraseIdx i) = some st1 ∧
      DInv E n s prev0 F O S1 m1 rank1 B1 st1.1 st1.2 ∧
      st1.2.length + openDegree E n S1 < pq.length + openDegree E n S ∧
      (un.cost_ < q.cost → st1 = (nodes, pq.eraseIdx i)) := by
  have hqmem : q ∈ pq := List.getElem?_mem hq
  obtain ⟨hqn0, hqc, hqm, hqi⟩ := inv.queue q hqmem
  have hqn : q.node < nodes.length := by
    rw [inv.len]
    exact hqn0
  have hget : nodes[q.node]? = some nodes[q.node] := List.getElem?_eq_getElem hqn
  have hE : (nodes[q.node]).edge_ = E q.node := by
    rw [← inv.edges, edgesOf_of_get hget]
  have hcu : costOf nodes q.node = (nodes[q.node]).cost_ := by simp [costOf, hget]
  obtain ⟨st1, hr, hs⟩ := @relaxEdges_spec _ _ q.node q.cost (nodes[q.node]).edge_
    (nodes, pq.eraseIdx i) (by
      intro e he
      rw [hE] at he
      simp only [inv.len]
      exact hvalid _ e he)
  rw [hE] at hs
  by_cases hS : q.node ∈ S
  · obtain ⟨inv1, hlen⟩ := relax_step_settled inv hq hS hs
    refine ⟨nodes[q.node], st1, S, m, rank, B, hget, hr, inv1, by omega, ?_⟩
    intro hstale
    obtain ⟨_, _, hclosed⟩ := inv.settled q.node hS
    have hno := @relaxEdges_noop _ _ q.node q.cost (nodes[q.node]).edge_ (nodes, pq.eraseIdx i)
      (by
        intro e he
        rw [hE] at he
        have hlt : e.n2 < nodes.length := by
          rw [inv.len]
          exact hvalid _ e he
        have hg2 : nodes[e.n2]? = some nodes[e.n2] := List.getElem?_eq_getElem hlt
        refine ⟨nodes[e.n2], hg2, ?_⟩
        have h1 := hclosed e he
        have h2 : costOf nodes e.n2 = (nodes[e.n2]).cost_ := by simp [costOf, hg2]
        rw [h2, hcu] at h1
        intro hcon
        linarith)
    rw [hno] at hr
    exact (Option.some.inj hr).symm
  · obtain ⟨inv1, hlen⟩ := relax_step_fresh hnonneg hvalid inv hq hmin hS hs
    refine ⟨nodes[q.node], st1, _, _, _, _, hget, hr, inv1, hlen, ?_⟩
    intro hstale
    exfalso
    have h1 := hmin _ (inv.pending q.node hqn0 hS (lt_of_le_of_lt hqc hqi))
    simp only at h1
    rw [hcu] at h1
    exact absurd hstale (not_lt.2 h1)

/-- Every state of the loop satisfies the invariant when the first does. -/
theorem LoopState_inv (hnonneg : ∀ u, ∀ e ∈ E u, 0 ≤ e.cost)
    (hvalid : ∀ u, ∀ e ∈ E u, e.n2 < n) {tie : Nat → Nat} {end_node : Nat}
    {nodes0 : List (Node α)} {pq0 : List (QNode α)}
    (inv0 : DInv E n s prev0 F O S m rank B nodes0 pq0)
    {k : Nat} {nodes1 : List (Node α)} {pq1 : List (QNode α)}
    (h : LoopState tie end_node nodes0 pq0 k nodes1 pq1) :
    ∃ S1 m1 rank1 B1, DInv E n s prev0 F O S1 m1 rank1 B1 nodes1 pq1 := by
  induction h with
  | start => exact ⟨S, m, rank, B, inv0⟩
  | @next k nodes2 pq2 lowest un st _ hq _ hun hrel ih =>
    obtain ⟨S1, m1, rank1, B1, inv1⟩ := ih
    have hne : pq2 ≠ [] := by
      intro hnil
      rw [hnil] at hq
      simp at hq
    obtain ⟨x, hx, hmin⟩ := topIdx_spec (tie k) pq2 hne
    rw [hq] at hx
    have hxl : lowest = x := Option.some.inj hx
    subst hxl
    obtain ⟨un1, st1, S2, m2, rank2, B2, hget, hr, inv2, _, _⟩ :=
      relax_step hnonneg hvalid inv1 hq hmin
    rw [hun] at hget
    have hu : un = un1 := Option.some.inj hget
    subst hu
    rw [hrel] at hr
    have hst : st = st1 := Option.some.inj hr
    subst hst
    exact ⟨S2, m2, rank2, B2, inv2⟩

/-- In a state that satisfies the invariant the loop that skips stale entries
does what the loop of `FindPath` does. -/
theorem relaxLoopSkip_eq (hnonneg : ∀ u, ∀ e ∈ E u, 0 ≤ e.cost)
    (hvalid : ∀ u, ∀ e ∈ E u, e.n2 < n) (tie : Nat → Nat) (end_node : Nat) :
    ∀ (fuel k : Nat) (nodes : List (Node α)) (pq : List (QNode α)) (S : Finset Nat) (m : α)
      (rank : Nat → Nat) (B : Nat), DInv E n s prev0 F O S m rank B nodes pq →
      relaxLoopSkip tie end_node fuel k nodes pq = relaxLoop tie end_node fuel k nodes pq := by
  intro fuel
  induction fuel with
  | zero =>
    intro k nodes pq S m rank B _
    rfl
  | succ fuel ih =>
    intro k nodes pq S m rank B inv
    unfold relaxLoopSkip relaxLoop
    by_cases hpq : pq = []
    · subst hpq
      rfl
    · have hemp : pq.isEmpty = false := by
        cases pq with
        | nil => exact absurd rfl hpq
        | cons a l => rfl
      simp only [hemp, Bool.false_eq_true, if_false]
      obtain ⟨q, hq, hmin⟩ := topIdx_spec (tie k) pq hpq
      simp only [hq]
      by_cases hend : q.node = end_node
      · simp only [hend, if_true]
      · simp only [hend, if_false]
        obtain ⟨un, st1, S1, m1, rank1, B1, hget, hr, inv1, _, hstale⟩ :=
          relax_step hnonneg hvalid inv hq hmin
        simp only [hget, hr]
        by_cases hlt : un.cost_ < q.cost
        · simp only [hlt, if_true]
          have := hstale hlt
          rw [this] at inv1 ⊢
          exact ih _ _ _ _ _ _ _ inv1
        · simp only [hlt, if_false]
          exact ih _ _ _ _ _ _ _ inv1

end StepAny

/-! ## The relaxation loop without the early exit -/

section FullLoop

variable {α : Type} [LinearOrderedCommRing α]

variable {E : Nat → List (Edge α)} {n s : Nat} {prev0 : Nat → Option Nat}
  {F : List (List (Edge α) × Int × α × α × Bool)} {O : List Bool}
  {S : Finset Nat} {m : α} {rank : Nat → Nat} {B : Nat}
  {nodes : List (Node α)} {pq : List (QNode α)}

/-- The step of `relax_step` together with what the loop over the edges does
to the nodes and the queue. -/
theorem relax_step_spec (hnonneg : ∀ u, ∀ e ∈ E u, 0 ≤ e.cost)
    (hvalid : ∀ u, ∀ e ∈ E u, e.n2 < n)
    (inv : DInv E n s prev0 F O S m rank B nodes pq)
    {i : Nat} {q : QNode α} (hq : pq[i]? = some q) (hmin : ∀ y ∈ pq, q.cost ≤ y.cost) :
    ∃ un st1 S1 m1 rank1 B1, nodes[q.node]? = some un ∧
      relaxEdges q.node q.cost un.edge_ (nodes, pq.eraseIdx i) = some st1 ∧
      DInv E n s prev0 F O S1 m1 rank1 B1 st1.1 st1.2 ∧
      st1.2.length + openDegree E n S1 < pq.length + openDegree E n S ∧
      RelaxSpec q.node q.cost (E q.node) (nodes, pq.eraseIdx i) st1 := by
  obtain ⟨un, st1, S1, m1, rank1, B1, hget, hr, inv1, hlen, _⟩ :=
    relax_step hnonneg hvalid inv hq hmin
  have hE : un.edge_ = E q.node := by
    rw [← inv.edges, edgesOf_of_get hget]
  obtain ⟨st2, hr2, hs⟩ := @relaxEdges_spec _ _ q.node q.cost un.edge_
    (nodes, pq.eraseIdx i) (by
      intro e he
      rw [hE] at he
      simp only [inv.len]
      exact hvalid _ e he)
  rw [hr] at hr2
  have h12 : st1 = st2 := Option.some.inj hr2
  subst h12
  rw [hE] at hs
  exact ⟨un, st1, S1, m1, rank1, B1, hget, hr, inv1, hlen, hs⟩

/-- The loop without the early exit returns, and when no entry of the queue
costs less than `b`, it leaves the cost and the `prev` pointer of every node
that costs `b` or less as they are. -/
theorem relaxLoopFull_stable (hnonneg : ∀ u, ∀ e ∈ E u, 0 ≤ e.cost)
    (hvalid : ∀ u, ∀ e ∈ E u, e.n2 < n) (tie : Nat → Nat) :
    ∀ (fuel k : Nat) (nodes : List (Node α)) (pq : List (QNode α)) (S : Finset Nat) (m : α)
      (rank : Nat → Nat) (B : Nat), DInv E n s prev0 F O S m rank B nodes pq →
      pq.length + openDegree E n S < fuel → ∀ b : α, (∀ y ∈ pq, b ≤ y.cost) →
      ∃ nodesF, relaxLoopFull tie fuel k nodes pq = some nodesF ∧
        nodesF.length = nodes.length ∧
        ∀ x, costOf nodes x ≤ b →
          costOf nodesF x = costOf nodes x ∧ prevOf nodesF x = prevOf nodes x := by
  intro fuel
  induction fuel with
  | zero =>
    intro k nodes pq S m rank B _ hf
    exact absurd hf (Nat.not_lt_zero _)
  | succ fuel ih =>
    intro k nodes pq S m rank B inv hf b hb
    unfold relaxLoopFull
    by_cases hpq : pq = []
    · subst hpq
      exact ⟨nodes, by simp, rfl, fun x _ => ⟨rfl, rfl⟩⟩
    · have hemp : pq.isEmpty = false := by
        cases pq with
        | nil => exact absurd rfl hpq
        | cons a l => rfl
      simp only [hemp, Bool.false_eq_true, if_false]
      obtain ⟨q, hq, hmin⟩ := topIdx_spec (tie k) pq hpq
      obtain ⟨un, st1, S1, m1, rank1, B1, hget, hr, inv1, hlen, hs⟩ :=
        relax_step_spec hnonneg hvalid inv hq hmin
      simp only [hq, hget, hr]
      have hbq : b ≤ q.cost := hb q (List.getElem?_mem hq)
      have hb1 : ∀ y ∈ st1.2, b ≤ y.cost := by
        obtain ⟨added, hadd, _, hq2⟩ := hs.queue
        intro y hy
        rw [hadd] at hy
        rcases List.mem_append.1 hy with hy | hy
        · exact hb y (List.mem_of_mem_eraseIdx hy)
        · obtain ⟨e, he, _, hc, _, _⟩ := hq2 y hy
          have := hnonneg _ e he
          rw [hc]
          linarith
      have hstep : ∀ x, costOf nodes x ≤ b →
          costOf st1.1 x = costOf nodes x ∧ prevOf st1.1 x = prevOf nodes x := by
        intro x hx
        rcases hs.change x with h | ⟨hlt, _, ⟨e, he, _, hv⟩, _⟩
        · exact h
        · exfalso
          have := hnonneg _ e he
          simp only at hlt
          linarith
      obtain ⟨nodesF, hF, hlenF, hst⟩ := ih (k + 1) st1.1 st1.2 S1 m1 rank1 B1 inv1 (by omega) b hb1
      refine ⟨nodesF, hF, ?_, ?_⟩
      · rw [hlenF]
        exact length_eq_of_map_eq hs.fixed
      · intro x hx
        obtain ⟨h1, h2⟩ := hstep x hx
        obtain ⟨h3, h4⟩ := hst x (by rw [h1]; exact hx)
        exact ⟨h3.trans h1, h4.trans h2⟩

/-- The loop of `FindPath` and the loop without the early exit, run from the
same state: both return, and either they return the same nodes, or the end
node has a cost below `INT_MAX` after the loop of `FindPath` and the loop
without the early exit differs from it only at nodes that cost more than the
end node. -/
theorem relaxLoop_full (hnonneg : ∀ u, ∀ e ∈ E u, 0 ≤ e.cost)
    (hvalid : ∀ u, ∀ e ∈ E u, e.n2 < n) (tie : Nat → Nat) (end_node : Nat) :
    ∀ (fuel k : Nat) (nodes : List (Node α)) (pq : List (QNode α)) (S : Finset Nat) (m : α)
      (rank : Nat → Nat) (B : Nat), DInv E n s prev0 F O S m rank B nodes pq →
      pq.length + openDegree E n S < fuel →
      ∃ nodes1 pq1 S1 m1 rank1 B1 nodesF,
        relaxLoop tie end_node fuel k nodes pq = some nodes1 ∧
        DInv E n s prev0 F O S1 m1 rank1 B1 nodes1 pq1 ∧
        relaxLoopFull tie fuel k nodes pq = some nodesF ∧
        (nodesF = nodes1 ∨
          (end_node < n ∧ costOf nodes1 end_node < INT_MAX ∧ nodesF.length = nodes1.length ∧
            ∀ x, costOf nodes1 x ≤ costOf nodes1 end_node →
              costOf nodesF x = costOf nodes1 x ∧ prevOf nodesF x = prevOf nodes1 x)) := by
  intro fuel
  induction fuel with
  | zero =>
    intro k nodes pq S m rank B _ hf
    exact absurd hf (Nat.not_lt_zero _)
  | succ fuel ih =>
    intro k nodes pq S m rank B inv hf
    by_cases hpq : pq = []
    · subst hpq
      exact ⟨nodes, [], S, m, rank, B, nodes, by simp [relaxLoop], inv,
        by simp [relaxLoopFull], Or.inl rfl⟩
    · have hemp : pq.isEmpty = false := by
        cases pq with
        | nil => exact absurd rfl hpq
        | cons a l => rfl
      obtain ⟨q, hq, hmin⟩ := topIdx_spec (tie k) pq hpq
      by_cases hend : q.node = end_node
      · obtain ⟨nodesF, hF, hlenF, hst⟩ :=
          relaxLoopFull_stable hnonneg hvalid tie (fuel + 1) k nodes pq S m rank B inv hf
            q.cost hmin
        obtain ⟨hqn, hqc, _, hqi⟩ := inv.queue q (List.getElem?_mem hq)
        rw [hend] at hqn hqc
        refine ⟨nodes, pq, S, m, rank, B, nodesF, ?_, inv, hF, Or.inr ⟨hqn,
          lt_of_le_of_lt hqc hqi, hlenF, fun x hx => hst x (le_trans hx hqc)⟩⟩
        unfold relaxLoop
        simp only [hemp, Bool.false_eq_true, if_false, hq, hend, if_true]
      · obtain ⟨un, st1, S1, m1, rank1, B1, hget, hr, inv1, hlen, _⟩ :=
          relax_step hnonneg hvalid inv hq hmin
        obtain ⟨nodes1, pq1, S2, m2, rank2, B2, nodesF, h1, inv2, hF, hcase⟩ :=
          ih (k + 1) st1.1 st1.2 S1 m1 rank1 B1 inv1 (by omega)
        refine ⟨nodes1, pq1, S2, m2, rank2, B2, nodesF, ?_, inv2, ?_, hcase⟩
        · unfold relaxLoop
          simp only [hemp, Bool.false_eq_true, if_false, hq, hend, hget, hr]
          exact h1
        · unfold relaxLoopFull
          simp only [hemp, Bool.false_eq_true, if_false, hq, hget, hr]
          exact hF

/-- The path along the `prev` pointers to a node stays the path to it when
the cost and the `prev` pointer of every node that costs no more are kept;
and no node of the path costs more than the node. -/
theorem TreePath.stable (hnonneg : ∀ u, ∀ e ∈ E u, 0 ≤ e.cost)
    (inv : DInv E n s prev0 F O S m rank B nodes pq) {nodesF : List (Node α)} {b : α}
    (hst : ∀ x, costOf nodes x ≤ b → prevOf nodesF x = prevOf nodes x) {v : Nat}
    {p : List Nat} (h : TreePath (prevOf nodes) s v p) :
    v < n → costOf nodes v ≤ b → costOf nodes v < INT_MAX →
      TreePath (prevOf nodesF) s v p ∧ ∀ x ∈ p, x < n ∧ costOf nodes x ≤ b := by
  induction h with
  | root =>
    intro hv hb _
    refine ⟨TreePath.root, ?_⟩
    intro x hx
    have : x = s := by simpa using hx
    subst this
    exact ⟨hv, hb⟩
  | @step v u p1 hvs hprev _ ih =>
    intro hv hb hfin
    obtain ⟨u1, e, hp, huS, he, _, hc, _⟩ := inv.tree v hv hvs hfin
    rw [hprev] at hp
    have hu : u = u1 := Option.some.inj hp
    subst hu
    have he0 := hnonneg u e he
    obtain ⟨hun, _, _⟩ := inv.settled u huS
    obtain ⟨htp, hall⟩ := ih hun (by linarith) (by linarith)
    refine ⟨TreePath.step hvs ((hst v hb).trans hprev) htp, ?_⟩
    intro x hx
    rcases List.mem_append.1 hx with hx | hx
    · exact hall x hx
    · have : x = v := by simpa using hx
      subst this
      exact ⟨hv, hb⟩

end FullLoop

/-! ## `FindPath` and the variant without the early exit -/

section EarlyExit

variable {α : Type} [LinearOrderedCommRing α]

/-- The result of `FindPathWith` from the results of its steps. -/
theorem FindPathWith_of_tail
    {loop : Nat → List (Node α) → List (QNode α) → Option (List (Node α))}
    {g : Graph α} {fuel s e : Nat} {sn en : Node α} {nodes2 nodes3 nodes4 nodes5 : List (Node α)}
    {path : List (Option Nat)} {cur : Option Nat}
    (hs : g.start_node_ = some s) (he : g.end_node_ = some e)
    (h0 : (g.node_.map (fun n => ({ n with cost_ := INT_MAX, on_path_ := false } : Node α)))[s]?
      = some sn)
    (hloop : loop e ((g.node_.map (fun n =>
        ({ n with cost_ := INT_MAX, on_path_ := false } : Node α))).set s
        { sn with cost_ := 0 }) [⟨s, 0⟩] = some nodes2)
    (hget : nodes2[e]? = some en)
    (hback : backtrack s fuel en.prev_ nodes2 [some e] = some (nodes3, path, cur))
    (h4 : setOnPath nodes3 s = some nodes4) (h5 : setOnPath nodes4 e = some nodes5) :
    FindPathWith loop fuel g
      = some { g with node_ := nodes5, path_node_ := (path ++ [cur]).reverse } := by
  unfold FindPathWith
  simp only [hs, he, h0, hloop, hget, hback, h4, h5]

/-- The part of `FindPath` after the relaxation loop when the `prev` pointers
lead from the end node back to the start node. -/
theorem tail_of_treePath {nodes : List (Node α)} {s e : Nat} {p : List Nat}
    (htp : TreePath (prevOf nodes) s e p) (hes : e ≠ s) (hmem : ∀ x ∈ p, x < nodes.length)
    {fuel : Nat} (hf : p.length ≤ fuel) :
    ∃ en nodes3 path cur nodes4 nodes5, nodes[e]? = some en ∧
      backtrack s fuel en.prev_ nodes [some e] = some (nodes3, path, cur) ∧
      setOnPath nodes3 s = some nodes4 ∧ setOnPath nodes4 e = some nodes5 ∧
      (path ++ [cur]).reverse = p.map some ∧
      nodes5.map Node.cost_ = nodes.map Node.cost_ ∧
      nodes5.map Node.prev_ = nodes.map Node.prev_ := by
  have hsl : s < nodes.length := hmem s (List.mem_of_mem_head? htp.head)
  cases htp with
  | root => exact absurd rfl hes
  | @step _ u p1 _ hprev hu =>
    have hen1 : e < nodes.length := hmem e (by simp)
    have hget : nodes[e]? = some nodes[e] := List.getElem?_eq_getElem hen1
    have hpe : (nodes[e]).prev_ = some u := by
      simpa [prevOf, hget] using hprev
    have hlen1 : p1.length ≤ fuel := by
      simp only [List.length_append, List.length_singleton] at hf
      omega
    obtain ⟨nodes3, path1, hb, hrev, hfix3, hcost3, hprev3, _⟩ :=
      backtrack_spec hu fuel nodes [some e] rfl
        (fun x hx => hmem x (List.mem_append_left _ hx)) hlen1
    have hs3 : s < nodes3.length := by
      rw [length_eq_of_map_eq hfix3]
      exact hsl
    obtain ⟨nodes4, h4, hfix4, hcost4, hprev4, _⟩ := setOnPath_spec hs3
    have he4 : e < nodes4.length := by
      rw [length_eq_of_map_eq hfix4, length_eq_of_map_eq hfix3]
      exact hen1
    obtain ⟨nodes5, h5, _, hcost5, hprev5, _⟩ := setOnPath_spec he4
    refine ⟨nodes[e], nodes3, path1, some s, nodes4, nodes5, hget, ?_, h4, h5, ?_,
      by rw [hcost5, hcost4, hcost3], by rw [hprev5, hprev4, hprev3]⟩
    · rw [hpe]
      exact hb
    · rw [hrev]
      simp

/-- The part of `FindPath` after the relaxation loop when the `prev` pointer
of the end node is null. -/
theorem tail_of_null {nodes : List (Node α)} {s e : Nat} (hprev : prevOf nodes e = none)
    (hsl : s < nodes.length) (hel : e < nodes.length) {fuel : Nat} (hf : 1 ≤ fuel) :
    ∃ en nodes4 nodes5, nodes[e]? = some en ∧
      backtrack s fuel en.prev_ nodes [some e] = some (nodes, [some e], none) ∧
      setOnPath nodes s = some nodes4 ∧ setOnPath nodes4 e = some nodes5 ∧
      nodes5.map Node.cost_ = nodes.map Node.cost_ ∧
      nodes5.map Node.prev_ = nodes.map Node.prev_ := by
  have hget : nodes[e]? = some nodes[e] := List.getElem?_eq_getElem hel
  have hpe : (nodes[e]).prev_ = none := by
    simpa [prevOf, hget] using hprev
  obtain ⟨fuel, rfl⟩ : ∃ f, fuel = f + 1 := ⟨fuel - 1, by omega⟩
  obtain ⟨nodes4, h4, hfix4, hcost4, hprev4, _⟩ := setOnPath_spec hsl
  have he4 : e < nodes4.length := by
    rw [length_eq_of_map_eq hfix4]
    exact hel
  obtain ⟨nodes5, h5, _, hcost5, hprev5, _⟩ := setOnPath_spec he4
  refine ⟨nodes[e], nodes4, nodes5, hget, ?_, h4, h5, by rw [hcost5, hcost4],
    by rw [hprev5, hprev4]⟩
  rw [hpe]
  simp [backtrack]

/-- With enough iterations, and with an end node that is not the start node or
a start node whose `prev` pointer is null, `FindPath` and the variant without
the early exit both return nothing or both return a graph, and then they give
the same answer. -/
theorem FindPath_vs_full {g : Graph α} {s e : Nat} (hs : g.start_node_ = some s)
    (he : g.end_node_ = some e) (hsn : s < g.node_.length)
    (hval : TargetsValid g.node_) (hnn : NonNegCosts g.node_)
    (hse : e ≠ s ∨ prevOf g.node_ s = none)
    (tie : Nat → Nat) {fuel : Nat} (hf : fuelBound g.node_ ≤ fuel) :
    (FindPath fuel tie g = none ∧ FindPathFull fuel tie g = none) ∨
      ∃ g1 g2, FindPath fuel tie g = some g1 ∧ FindPathFull fuel tie g = some g2 ∧
        SameAnswer e g1 g2 := by
  have hlt0 : s < (g.node_.map (fun n =>
      ({ n with cost_ := INT_MAX, on_path_ := false } : Node α))).length := by simpa using hsn
  have h0 := List.getElem?_eq_getElem hlt0
  have hfuel : g.node_.length + 1 ≤ fuel := by
    unfold fuelBound at hf
    omega
  obtain ⟨nodes1, pq1, S1, m1, rank1, B1, nodesF, hloop, inv, hF, hcase⟩ :=
    relaxLoop_full hnn hval tie e fuel 0 _ _ _ _ _ _ (DInv_init h0) (by
      unfold fuelBound at hf
      simp only [List.length_singleton]
      omega)
  rcases hcase with hsame | ⟨hen, hfin, hlenF, hst⟩
  · have heq : FindPathFull fuel tie g = FindPath fuel tie g := by
      rw [FindPath_eq_With]
      unfold FindPathFull
      apply FindPathWith_congr
      intro s1 e1 sn1 hs1 he1 h1
      rw [hs] at hs1
      rw [he] at he1
      have hss : s = s1 := Option.some.inj hs1
      have hee : e = e1 := Option.some.inj he1
      subst hss
      subst hee
      rw [h0] at h1
      have hsn1 := Option.some.inj h1
      subst hsn1
      rw [hF, hloop, hsame]
    rw [heq]
    cases hfp : FindPath fuel tie g with
    | none => exact Or.inl ⟨rfl, rfl⟩
    | some g1 => exact Or.inr ⟨g1, g1, rfl, rfl, rfl, rfl, fun _ _ => rfl⟩
  · right
    have hlen1 : nodes1.length = g.node_.length := inv.len
    by_cases hes : e = s
    · subst hes
      have hprev0 : prevOf g.node_ e = none := by
        rcases hse with h | h
        · exact absurd rfl h
        · exact h
      have hp1 : prevOf nodes1 e = none := by
        by_contra hne
        have : prevOf nodes1 e ≠ prevOf g.node_ e := by
          rw [hprev0]
          exact hne
        exact (inv.prov e this).2 rfl
      have hpF : prevOf nodesF e = none := ((hst e (le_refl _)).2).trans hp1
      obtain ⟨en, nodes4, nodes5, hget, hback, h4, h5, hcost5, hprev5⟩ :=
        @tail_of_null _ _ nodes1 e e hp1 (by omega) (by omega) fuel (by omega)
      obtain ⟨enF, nodes4F, nodes5F, hgetF, hbackF, h4F, h5F, hcost5F, hprev5F⟩ :=
        @tail_of_null _ _ nodesF e e hpF (by omega) (by omega) fuel (by omega)
      refine ⟨_, _, (FindPath_eq_With fuel tie g).trans
        (FindPathWith_of_tail hs he h0 hloop hget hback h4 h5),
        FindPathWith_of_tail hs he h0 hF hgetF hbackF h4F h5F, rfl, ?_, ?_⟩
      · simp only
        rw [costOf_of_map_eq hcost5, costOf_of_map_eq hcost5F]
        exact ((hst e (le_refl _)).1).symm
      · intro x _
        simp only
        rw [prevOf_of_map_eq hprev5, prevOf_of_map_eq hprev5F]
        by_cases hx : costOf nodes1 x ≤ costOf nodes1 e
        · exact ((hst x hx).2).symm
        · exfalso
          rename_i hmem
          simp only [List.reverse_append, List.reverse_cons, List.reverse_nil, List.nil_append,
            List.singleton_append, List.mem_cons, List.mem_singleton, reduceCtorEq,
            Option.some.injEq, false_or, List.not_mem_nil, or_false] at hmem
          subst hmem
          exact hx (le_refl _)
    · obtain ⟨en, nodes3, path, cur, nodes4, nodes5, p, hget, hback, h4, h5, hrev, htp, hnd,
        hmem, _, _, _, hcost5, hprev5, _⟩ := FindPath_tail hnn inv hen hes hfin hfuel
      obtain ⟨htpF, hall⟩ := TreePath.stable hnn inv (fun x hx => (hst x hx).2) htp hen
        (le_refl _) hfin
      have hplen : p.length ≤ g.node_.length := length_le_of_nodup_lt hnd hmem
      obtain ⟨enF, nodes3F, pathF, curF, nodes4F, nodes5F, hgetF, hbackF, h4F, h5F, hrevF,
        hcost5F, hprev5F⟩ :=
        @tail_of_treePath _ _ nodesF s e p htpF hes (by
          intro x hx
          rw [hlenF, hlen1]
          exact hmem x hx) fuel (by omega)
      refine ⟨_, _, (FindPath_eq_With fuel tie g).trans
        (FindPathWith_of_tail hs he h0 hloop hget hback h4 h5),
        FindPathWith_of_tail hs he h0 hF hgetF hbackF h4F h5F, ?_, ?_, ?_⟩
      · simp only
        rw [hrev, hrevF]
      · simp only
        rw [costOf_of_map_eq hcost5, costOf_of_map_eq hcost5F]
        exact ((hst e (le_refl _)).1).symm
      · intro x hx
        simp only at hx ⊢
        rw [hrev] at hx
        have hxp : x ∈ p := by
          obtain ⟨y, hy, hyx⟩ := List.mem_map.1 hx
          have := Option.some.inj hyx
          subst this
          exact hy
        rw [prevOf_of_map_eq hprev5, prevOf_of_map_eq hprev5F]
        exact ((hst x (hall x hxp).2).2).symm

end EarlyExit


/-! ## The grid of 3 columns and 3 rows with every weight 1 -/

section UnitGrid

variable {α : Type} [LinearOrderedCommRing α]

/-- The method `BuildGrid` is `BuildGridWith` for the weight expression of the
source, `10 + (rand() % 6)`. -/
theorem BuildGrid_eq_With (fuel : Nat) (tie : Nat → Nat) (rand : Nat → Nat) (cols rows : Nat)
    (disp_x disp_y start_x start_y viewport_height : α)
    (node_sprite edge_sprite : Option (GameObject α)) (g : Graph α) :
    BuildGrid fuel tie rand cols rows disp_x disp_y start_x start_y viewport_height
        node_sprite edge_sprite g =
      BuildGridWith (fun k => randWeight (rand k)) fuel tie cols rows disp_x disp_y start_x
        start_y viewport_height node_sprite edge_sprite g :=
  rfl

/-- The adjacency lists that the two loop nests of `BuildGrid` make for 3
columns and 3 rows when every weight is 1. -/
theorem gridConnectWith_unit3 (disp_x disp_y start_x y0 : α) :
    ∃ st, gridConnectWith (fun _ => (1 : α)) 3 3
        (gridAddRows 3 disp_x disp_y start_x 3 ([], 0, start_x, y0)).1 = some st ∧
      st.1.map Node.edge_ = unitGrid3Edges := by
  simp [gridConnectWith, forLoop, gridConnectCellWith, gridAddWith, AddNeighbor, AddEdge,
    gridAddRows, gridAddRow, AddNode, Node.new, unitGrid3Edges]

end UnitGrid

section UnitGridFacts

variable {α : Type} [LinearOrderedCommRing α]

theorem edgesOf_eq_getD (nodes : List (Node α)) (u : Nat) :
    edgesOf nodes u = ((nodes.map Node.edge_)[u]?).getD [] := by
  unfold edgesOf
  rw [List.getElem?_map]
  cases nodes[u]? <;> rfl

/-- Every edge of the unit grid has cost 1 and joins two cells that lie side
by side; its target is at most one step further from cell 0 than its
source. -/
theorem unitGrid3_edge {u : Nat} {e : Edge α}
    (he : e ∈ ((unitGrid3Edges : List (List (Edge α)))[u]?).getD []) :
    u < 9 ∧ e.cost = 1 ∧ e.n2 < 9 ∧ GridAdj 3 3 u e.n2 ∧
      ((e.n2 / 3 + e.n2 % 3 : Nat) : α) ≤ ((u / 3 + u % 3 : Nat) : α) + 1 := by
  have hu : u < 9 := by
    by_contra h
    have hnone : (unitGrid3Edges : List (List (Edge α)))[u]? = none := by
      apply List.getElem?_eq_none
      simp only [unitGrid3Edges, List.length_cons, List.length_nil]
      omega
    rw [hnone] at he
    simp at he
  interval_cases u <;> simp [unitGrid3Edges] at he <;> rcases he with rfl | rfl | rfl | rfl <;>
    exact ⟨by omega, rfl, by simp, by simp [GridAdj, isRB], by norm_num⟩

/-- Facts about a node vector with the adjacency lists of the unit grid. -/
theorem unitGrid3_facts {nodes : List (Node α)}
    (hmap : nodes.map Node.edge_ = unitGrid3Edges) :
    nodes.length = 9 ∧ TargetsValid nodes ∧ NonNegCosts nodes ∧
      (∀ u, ∀ e ∈ edgesOf nodes u, e.cost = 1 ∧ GridAdj 3 3 u e.n2 ∧
        ((e.n2 / 3 + e.n2 % 3 : Nat) : α) ≤ ((u / 3 + u % 3 : Nat) : α) + 1) ∧
      pathCost nodes [0, 1, 2, 5, 8] = some 4 ∧ fuelBound nodes = 35 := by
  have hlen : nodes.length = 9 := by
    have := congrArg List.length hmap
    simpa [unitGrid3Edges] using this
  have hE : ∀ u, edgesOf nodes u = ((unitGrid3Edges : List (List (Edge α)))[u]?).getD [] := by
    intro u
    rw [edgesOf_eq_getD, hmap]
  refine ⟨hlen, ?_, ?_, ?_, ?_, ?_⟩
  · intro u e he
    rw [hE] at he
    rw [hlen]
    exact (unitGrid3_edge he).2.2.1
  · intro u e he
    rw [hE] at he
    rw [(unitGrid3_edge he).2.1]
    exact zero_le_one
  · intro u e he
    rw [hE] at he
    obtain ⟨_, h1, _, h2, h3⟩ := unitGrid3_edge he
    exact ⟨h1, h2, h3⟩
  · simp [pathCost, edgeCost?, hE, unitGrid3Edges, leastCost]
    norm_num
  · simp [fuelBound, openDegree, Finset.sum_range_succ, hE, hlen, unitGrid3Edges]

end UnitGridFacts

section Potential

variable {α : Type} [LinearOrderedCommRing α]

/-- A potential that grows over no edge by more than the cost of the edge
grows along no path by more than the cost of the path. -/
theorem pathCost_potential {nodes : List (Node α)} (d : Nat → α)
    (hd : ∀ u, ∀ e ∈ edgesOf nodes u, d e.n2 ≤ d u + e.cost) :
    ∀ (p : List Nat) (a b : Nat) (L : α), p.head? = some a → p.getLast? = some b →
      pathCost nodes p = some L → d b ≤ d a + L := by
  intro p
  induction p with
  | nil =>
    intro a b L hh
    simp at hh
  | cons u rest ih =>
    intro a b L hh hl hc
    have hua : u = a := by simpa using hh
    subst hua
    cases rest with
    | nil =>
      have hub : u = b := by simpa using hl
      subst hub
      simp only [pathCost, Option.some.injEq] at hc
      rw [← hc]
      simp
    | cons v rest =>
      obtain ⟨w, c, hw, hc1, hL⟩ := pathCost_cons_cons hc
      obtain ⟨e, he, hn, hcost⟩ := edgeCost?_some hw
      have h1 := ih v b c rfl (by simpa using hl) hc1
      have h2 := hd u e he
      rw [hn, hcost] at h2
      rw [hL]
      linarith

/-- When every edge costs 1, the cost of a path is the number of its steps. -/
theorem pathCost_unit {nodes : List (Node α)}
    (h1 : ∀ u, ∀ e ∈ edgesOf nodes u, e.cost = 1) :
    ∀ (p : List Nat) (L : α), pathCost nodes p = some L → p ≠ [] →
      L + 1 = ((p.length : Nat) : α) := by
  intro p
  induction p with
  | nil =>
    intro L _ hne
    exact absurd rfl hne
  | cons u rest ih =>
    intro L hc _
    cases rest with
    | nil =>
      simp only [pathCost, Option.some.injEq] at hc
      rw [← hc]
      simp
    | cons v rest =>
      obtain ⟨w, c, hw, hc1, hL⟩ := pathCost_cons_cons hc
      obtain ⟨e, he, _, hcost⟩ := edgeCost?_some hw
      have h2 := ih c hc1 (by simp)
      rw [h1 u e he] at hcost
      rw [hL, ← hcost]
      simp only [List.length_cons, Nat.cast_add, Nat.cast_one] at h2 ⊢
      linarith

end Potential


section FloatBasics

variable {α : Type} [LinearOrderedCommRing α]

/-- Where nothing rounds, `FindPathF` is `FindPath`. -/
theorem FindPathF_id (fuel : Nat) (tie : Nat → Nat) (g : Graph α) :
    FindPathF id fuel tie g = FindPath fuel tie g := by
  have h1 : ∀ (u : Nat) (c : α) (st : List (Node α) × List (QNode α)) (e : Edge α),
      relaxEdgeF id u c st e = relaxEdge u c st e := fun _ _ _ _ => rfl
  have h2 : ∀ (u : Nat) (c : α) (es : List (Edge α)) (st : List (Node α) × List (QNode α)),
      relaxEdgesF id u c es st = relaxEdges u c es st := by
    intro u c es
    induction es with
    | nil => intro st; rfl
    | cons e es ih =>
      intro st
      unfold relaxEdgesF relaxEdges
      rw [h1]
      cases relaxEdge u c st e with
      | none => rfl
      | some st1 => exact ih st1
  have h3 : ∀ (e fuel k : Nat) (nodes : List (Node α)) (pq : List (QNode α)),
      relaxLoopF id tie e fuel k nodes pq = relaxLoop tie e fuel k nodes pq := by
    intro e fuel
    induction fuel with
    | zero => intro k nodes pq; rfl
    | succ fuel ih =>
      intro k nodes pq
      unfold relaxLoopF relaxLoop
      simp only [h2, ih]
  unfold FindPathF FindPath
  simp only [h3, id]

theorem roundF32_INT_MAX : roundF32 2147483647 = 2147483648 := by decide


end FloatBasics

/-! ## Runs of `FindPath` in which no sum rounds -/

section Simulation

variable {α : Type} [LinearOrderedCommRing α] {rnd : α → α}

theorem pow24_lt_INT_MAX : (((2 ^ 24 : Nat) : Nat) : α) < INT_MAX := by
  unfold INT_MAX
  norm_num

theorem stored_set {n : Node α} {c : α} {j : Nat} (hc : c = (j : α)) (hj : j ≤ 2 ^ 24)
    (p : Option Nat) :
    Node.stored rnd { n with cost_ := c, prev_ := p }
      = { Node.stored rnd n with cost_ := c, prev_ := p } := by
  have hne : c ≠ INT_MAX := by
    intro h
    have h1 : ((j : Nat) : α) ≤ ((2 ^ 24 : Nat) : α) := Nat.cast_le.2 hj
    have h2 := @pow24_lt_INT_MAX α _
    rw [← hc, h] at h1
    exact absurd h2 (not_lt.2 h1)
  simp [Node.stored, hne]

/-- The queue entries after the loop over the edges: those before it and
entries with the cost of the popped node plus the cost of an edge. -/
theorem relaxEdges_queue {u : Nat} {c : α} (es : List (Edge α)) :
    ∀ {st st1 : List (Node α) × List (QNode α)}, relaxEdges u c es st = some st1 →
      ∀ q ∈ st1.2, q ∈ st.2 ∨ ∃ e ∈ es, q.cost = c + e.cost := by
  induction es with
  | nil =>
    intro st st1 h q hq
    simp only [relaxEdges, Option.some.injEq] at h
    rw [← h] at hq
    exact Or.inl hq
  | cons e es ih =>
    intro st st1 h q hq
    unfold relaxEdges at h
    cases h1 : relaxEdge u c st e with
    | none => simp [h1] at h
    | some st2 =>
      simp only [h1] at h
      rcases ih h q hq with h2 | ⟨e2, he2, hc2⟩
      · unfold relaxEdge at h1
        cases hn : st.1[e.n2]? with
        | none => simp [hn] at h1
        | some n =>
          simp only [hn] at h1
          by_cases hlt : c + e.cost < n.cost_
          · simp only [hlt, if_true, Option.some.injEq] at h1
            rw [← h1] at h2
            rcases List.mem_append.1 h2 with h3 | h3
            · exact Or.inl h3
            · have : q = ⟨e.n2, c + e.cost⟩ := by simpa using h3
              exact Or.inr ⟨e, by simp, by rw [this]⟩
          · simp only [hlt, if_false, Option.some.injEq] at h1
            rw [← h1] at h2
            exact Or.inl h2
      · exact Or.inr ⟨e2, List.mem_cons_of_mem _ he2, hc2⟩

theorem CostsUpTo_of_fixed {W : Nat} {nodes nodes1 : List (Node α)}
    (h : nodes1.map Node.fixed = nodes.map Node.fixed) (hW : CostsUpTo W nodes) :
    CostsUpTo W nodes1 := by
  have hmap : nodes1.map Node.edge_ = nodes.map Node.edge_ := by
    have := congrArg (List.map Prod.fst) h
    simpa [List.map_map, Function.comp_def, Node.fixed] using this
  intro n hn e he
  have h1 : n.edge_ ∈ nodes1.map Node.edge_ := List.mem_map_of_mem _ hn
  rw [hmap] at h1
  obtain ⟨n0, hn0, heq⟩ := List.mem_map.1 h1
  rw [← heq] at he
  exact hW n0 hn0 e he

variable (hrnd : ∀ j : Nat, j ≤ 2 ^ 24 → rnd (j : α) = (j : α))
  (hinf : (((2 ^ 24 : Nat) : Nat) : α) < rnd INT_MAX)

include hrnd hinf

/-- A pass over an edge whose sum is a natural number up to `2 ^ 24` does in
`float` arithmetic what it does in exact arithmetic. -/
theorem relaxEdgeF_stored {u : Nat} {c : α} {st : List (Node α) × List (QNode α)}
    {e : Edge α} {j : Nat} (hj : c + e.cost = (j : α)) (hjle : j ≤ 2 ^ 24) :
    relaxEdgeF rnd u c (st.1.map (Node.stored rnd), st.2) e
      = (relaxEdge u c st e).map (fun st1 => (st1.1.map (Node.stored rnd), st1.2)) := by
  unfold relaxEdgeF relaxEdge
  simp only [List.getElem?_map]
  cases hn : st.1[e.n2]? with
  | none => rfl
  | some n =>
    simp only [Option.map_some']
    rw [hj, hrnd j hjle]
    have hjc : ((j : Nat) : α) ≤ ((2 ^ 24 : Nat) : α) := Nat.cast_le.2 hjle
    have hiff : ((j : α) < (Node.stored rnd n).cost_) ↔ ((j : α) < n.cost_) := by
      unfold Node.stored
      by_cases hc : n.cost_ = INT_MAX
      · simp only [hc, if_true]
        constructor
        · intro _
          exact lt_of_le_of_lt hjc pow24_lt_INT_MAX
        · intro _
          exact lt_of_le_of_lt hjc hinf
      · simp only [hc, if_false]
    by_cases hlt : (j : α) < n.cost_
    · simp only [hiff.2 hlt, hlt, if_true, Option.map_some', List.map_set]
      rw [@stored_set α _ rnd n _ j rfl hjle]
    · have hlt2 : ¬ ((j : α) < (Node.stored rnd n).cost_) := fun h => hlt (hiff.1 h)
      simp only [hlt2, hlt, if_false, Option.map_some']

theorem relaxEdgesF_stored {u : Nat} {c : α} (es : List (Edge α))
    (hes : ∀ e ∈ es, ∃ j : Nat, c + e.cost = (j : α) ∧ j ≤ 2 ^ 24) :
    ∀ (st : List (Node α) × List (QNode α)),
      relaxEdgesF rnd u c es (st.1.map (Node.stored rnd), st.2)
        = (relaxEdges u c es st).map (fun st1 => (st1.1.map (Node.stored rnd), st1.2)) := by
  induction es with
  | nil =>
    intro st
    rfl
  | cons e es ih =>
    intro st
    obtain ⟨j, hj, hjle⟩ := hes e (by simp)
    unfold relaxEdgesF relaxEdges
    rw [relaxEdgeF_stored hrnd hinf hj hjle]
    cases relaxEdge u c st e with
    | none => rfl
    | some st1 =>
      simp only [Option.map_some']
      exact ih (fun e1 he1 => hes e1 (List.mem_cons_of_mem _ he1)) st1

/-- The relaxation loop on a graph whose edge costs are natural numbers up to
`W`, with `fuel` iterations and a queue of natural costs up to `b`: when
`b + fuel * W` is at most `2 ^ 24`, the loop does in `float` arithmetic what
it does in exact arithmetic. -/
theorem relaxLoopF_stored {W : Nat} (tie : Nat → Nat) (end_node : Nat) :
    ∀ (fuel k : Nat) (nodes : List (Node α)) (pq : List (QNode α)) (b : Nat),
      CostsUpTo W nodes → (∀ q ∈ pq, ∃ j : Nat, q.cost = (j : α) ∧ j ≤ b) →
      b + fuel * W ≤ 2 ^ 24 →
      relaxLoopF rnd tie end_node fuel k (nodes.map (Node.stored rnd)) pq
        = (relaxLoop tie end_node fuel k nodes pq).map (List.map (Node.stored rnd)) := by
  intro fuel
  induction fuel with
  | zero =>
    intro k nodes pq b _ _ _
    rfl
  | succ fuel ih =>
    intro k nodes pq b hW hpq hb
    unfold relaxLoopF relaxLoop
    by_cases hemp : pq.isEmpty = true
    · simp only [hemp, if_true, Option.map_some']
    · simp only [hemp, Bool.false_eq_true, if_false]
      cases hq : pq[topIdx (tie k) pq]? with
      | none => rfl
      | some q =>
        simp only
        by_cases hend : q.node = end_node
        · simp only [hend, if_true, Option.map_some']
        · simp only [hend, if_false, List.getElem?_map]
          cases hun : nodes[q.node]? with
          | none => rfl
          | some un =>
            simp only [Option.map_some']
            obtain ⟨j, hj, hjb⟩ := hpq q (List.getElem?_mem hq)
            have hbW : b + W + fuel * W ≤ 2 ^ 24 := by
              have : (fuel + 1) * W = fuel * W + W := Nat.succ_mul fuel W
              omega
            have hes : ∀ e ∈ un.edge_, ∃ i : Nat, q.cost + e.cost = (i : α) ∧ i ≤ 2 ^ 24 := by
              intro e he
              obtain ⟨je, hje, hjW⟩ := hW un (List.getElem?_mem hun) e he
              refine ⟨j + je, ?_, by omega⟩
              rw [hj, hje]
              push_cast
              rfl
            have hst : (Node.stored rnd un).edge_ = un.edge_ := rfl
            rw [hst]
            have hsim := relaxEdgesF_stored hrnd hinf (u := q.node) un.edge_ hes
              (nodes, pq.eraseIdx (topIdx (tie k) pq))
            simp only at hsim
            rw [hsim]
            cases hr : relaxEdges q.node q.cost un.edge_
                (nodes, pq.eraseIdx (topIdx (tie k) pq)) with
            | none => rfl
            | some st1 =>
              simp only [Option.map_some']
              apply ih (k + 1) st1.1 st1.2 (b + W)
              · exact CostsUpTo_of_fixed (relaxEdges_fixed _ hr) hW
              · intro q1 hq1
                rcases relaxEdges_queue _ hr q1 hq1 with h1 | ⟨e, he, hc⟩
                · obtain ⟨j1, hj1, hj1b⟩ := hpq q1 (List.mem_of_mem_eraseIdx h1)
                  exact ⟨j1, hj1, by omega⟩
                · obtain ⟨je, hje, hjW⟩ := hW un (List.getElem?_mem hun) e he
                  refine ⟨j + je, ?_, by omega⟩
                  rw [hc, hj, hje]
                  push_cast
                  rfl
              · exact hbW

end Simulation

section SimulationGraph

variable {α : Type} [LinearOrderedCommRing α] {rnd : α → α}

theorem backtrack_stored (s : Nat) :
    ∀ (fuel : Nat) (cur : Option Nat) (nodes : List (Node α)) (path : List (Option Nat)),
      backtrack s fuel cur (nodes.map (Node.stored rnd)) path
        = (backtrack s fuel cur nodes path).map
            (fun r => (r.1.map (Node.stored rnd), r.2.1, r.2.2)) := by
  intro fuel
  induction fuel with
  | zero =>
    intro cur nodes path
    rfl
  | succ fuel ih =>
    intro cur nodes path
    cases cur with
    | none => rfl
    | some c =>
      unfold backtrack
      by_cases hc : c = s
      · simp only [hc, if_true, Option.map_some']
      · simp only [hc, if_false, List.getElem?_map]
        cases hn : nodes[c]? with
        | none => rfl
        | some n =>
          simp only [Option.map_some']
          have h := ih n.prev_ (nodes.set c { n with on_path_ := true }) (path ++ [some c])
          rw [List.map_set] at h
          exact h

theorem setOnPath_stored (nodes : List (Node α)) (i : Nat) :
    setOnPath (nodes.map (Node.stored rnd)) i
      = (setOnPath nodes i).map (List.map (Node.stored rnd)) := by
  unfold setOnPath
  simp only [List.getElem?_map]
  cases hn : nodes[i]? with
  | none => rfl
  | some n =>
    simp only [Option.map_some', List.map_set]
    rfl

/-- On a graph whose edge costs are natural numbers up to `W`, with `fuel`
iterations for each loop and `fuel * W` at most `2 ^ 24`, no sum rounds:
`FindPath` in `float` arithmetic gives what `FindPath` in exact arithmetic
gives, with the cost `INT_MAX` stored as `rnd INT_MAX`. -/
theorem FindPathF_stored (hrnd : ∀ j : Nat, j ≤ 2 ^ 24 → rnd (j : α) = (j : α))
    (hinf : (((2 ^ 24 : Nat) : Nat) : α) < rnd INT_MAX) {W : Nat} {g : Graph α}
    (hW : CostsUpTo W g.node_) {fuel : Nat} (hf : fuel * W ≤ 2 ^ 24) (tie : Nat → Nat) :
    FindPathF rnd fuel tie g = (FindPath fuel tie g).map (Graph.stored rnd) := by
  unfold FindPathF FindPath
  cases hs : g.start_node_ with
  | none => rfl
  | some s =>
    cases he : g.end_node_ with
    | none => rfl
    | some e =>
      simp only
      have hmap : g.node_.map (fun n => ({ n with cost_ := rnd INT_MAX, on_path_ := false } :
          Node α)) = (g.node_.map (fun n => ({ n with cost_ := INT_MAX, on_path_ := false } :
          Node α))).map (Node.stored rnd) := by
        rw [List.map_map]
        apply List.map_congr_left
        intro n _
        simp [Node.stored]
      rw [hmap, List.getElem?_map]
      cases h0 : (g.node_.map (fun n => ({ n with cost_ := INT_MAX, on_path_ := false } :
          Node α)))[s]? with
      | none => rfl
      | some sn =>
        simp only [Option.map_some']
        have hset : ((g.node_.map (fun n => ({ n with cost_ := INT_MAX, on_path_ := false } :
            Node α))).map (Node.stored rnd)).set s { Node.stored rnd sn with cost_ := 0 }
            = ((g.node_.map (fun n => ({ n with cost_ := INT_MAX, on_path_ := false } :
            Node α))).set s { sn with cost_ := 0 }).map (Node.stored rnd) := by
          rw [List.map_set]
          congr 1
          have hne : (0 : α) ≠ INT_MAX := by
            unfold INT_MAX
            norm_num
          simp [Node.stored, hne]
        rw [hset]
        have hW0 : CostsUpTo W ((g.node_.map (fun n =>
            ({ n with cost_ := INT_MAX, on_path_ := false } : Node α))).set s
            { sn with cost_ := 0 }) := by
          apply CostsUpTo_of_fixed _ hW
          rw [@map_set_of_eq _ _ _ Node.fixed _ _ _ { sn with cost_ := 0 } h0 rfl]
          exact map_fixed_reset g.node_
        rw [relaxLoopF_stored hrnd hinf tie e fuel 0 _ [⟨s, 0⟩] 0 hW0 (by
          intro q hq
          have : q = ⟨s, 0⟩ := by simpa using hq
          exact ⟨0, by rw [this]; simp, le_refl _⟩) (by omega)]
        cases h1 : relaxLoop tie e fuel 0 ((g.node_.map (fun n =>
            ({ n with cost_ := INT_MAX, on_path_ := false } : Node α))).set s
            { sn with cost_ := 0 }) [⟨s, 0⟩] with
        | none => rfl
        | some nodes2 =>
          simp only [Option.map_some', List.getElem?_map]
          cases h2 : nodes2[e]? with
          | none => rfl
          | some en =>
            simp only [Option.map_some']
            have hp : (Node.stored rnd en).prev_ = en.prev_ := rfl
            rw [hp, backtrack_stored]
            cases h3 : backtrack s fuel en.prev_ nodes2 [some e] with
            | none => rfl
            | some r =>
              obtain ⟨nodes3, path, cur⟩ := r
              simp only [Option.map_some']
              rw [setOnPath_stored]
              cases h4 : setOnPath nodes3 s with
              | none => rfl
              | some nodes4 =>
                simp only [Option.map_some']
                rw [setOnPath_stored]
                cases h5 : setOnPath nodes4 e with
                | none => rfl
                | some nodes5 =>
                  simp only [Option.map_some']
                  rfl

end SimulationGraph

/-! ## Every call of `FindPath` in `float` arithmetic that returns -/

section ReturnedF

variable {α : Type} [LinearOrderedCommRing α] {rnd : α → α}

theorem relaxEdgeF_keep {β : Type} (f : Node α → β)
    (hf : ∀ (n : Node α) (c : α) (p : Option Nat), f { n with cost_ := c, prev_ := p } = f n)
    {u : Nat} {c : α} {st st1 : List (Node α) × List (QNode α)} {e : Edge α}
    (h : relaxEdgeF rnd u c st e = some st1) : st1.1.map f = st.1.map f := by
  unfold relaxEdgeF at h
  cases hn : st.1[e.n2]? with
  | none => simp [hn] at h
  | some n =>
    simp only [hn] at h
    by_cases hlt : rnd (c + e.cost) < n.cost_
    · simp only [hlt, if_true, Option.some.injEq] at h
      rw [← h]
      exact map_set_of_eq f hn (hf n _ _)
    · simp only [hlt, if_false, Option.some.injEq] at h
      rw [h]

theorem relaxEdgesF_keep {β : Type} (f : Node α → β)
    (hf : ∀ (n : Node α) (c : α) (p : Option Nat), f { n with cost_ := c, prev_ := p } = f n)
    {u : Nat} {c : α} (es : List (Edge α)) :
    ∀ {st st1 : List (Node α) × List (QNode α)}, relaxEdgesF rnd u c es st = some st1 →
      st1.1.map f = st.1.map f := by
  induction es with
  | nil =>
    intro st st1 h
    simp only [relaxEdgesF, Option.some.injEq] at h
    rw [h]
  | cons e es ih =>
    intro st st1 h
    unfold relaxEdgesF at h
    cases h1 : relaxEdgeF rnd u c st e with
    | none => simp [h1] at h
    | some st2 =>
      simp only [h1] at h
      rw [ih h, relaxEdgeF_keep f hf h1]

theorem relaxLoopF_keep {β : Type} (f : Node α → β)
    (hf : ∀ (n : Node α) (c : α) (p : Option Nat), f { n with cost_ := c, prev_ := p } = f n)
    (tie : Nat → Nat) (end_node : Nat) :
    ∀ (fuel k : Nat) (nodes nodes1 : List (Node α)) (pq : List (QNode α)),
      relaxLoopF rnd tie end_node fuel k nodes pq = some nodes1 →
        nodes1.map f = nodes.map f := by
  intro fuel
  induction fuel with
  | zero =>
    intro k nodes nodes1 pq h
    simp [relaxLoopF] at h
  | succ fuel ih =>
    intro k nodes nodes1 pq h
    unfold relaxLoopF at h
    by_cases hemp : pq.isEmpty = true
    · simp only [hemp, if_true, Option.some.injEq] at h
      rw [h]
    · simp only [hemp, Bool.false_eq_true, if_false] at h
      cases hq : pq[topIdx (tie k) pq]? with
      | none => simp [hq] at h
      | some q =>
        simp only [hq] at h
        by_cases hend : q.node = end_node
        · simp only [hend, if_true, Option.some.injEq] at h
          rw [h]
        · simp only [hend, if_false] at h
          cases hn : nodes[q.node]? with
          | none => simp [hn] at h
          | some un =>
            simp only [hn] at h
            cases hr : relaxEdgesF rnd q.node q.cost un.edge_
                (nodes, pq.eraseIdx (topIdx (tie k) pq)) with
            | none => simp [hr] at h
            | some st =>
              simp only [hr] at h
              rw [ih _ _ _ _ h, relaxEdgesF_keep f hf _ hr]

/-- The steps of a call of `FindPath` in `float` arithmetic that returns. -/
theorem FindPathF_returned {fuel : Nat} {tie : Nat → Nat} {g g1 : Graph α}
    (h : FindPathF rnd fuel tie g = some g1) :
    ∃ s e sn nodes2 en nodes3 path cur nodes4 nodes5,
      g.start_node_ = some s ∧ g.end_node_ = some e ∧
      (g.node_.map (fun n => ({ n with cost_ := rnd INT_MAX, on_path_ := false } : Node α)))[s]?
        = some sn ∧
      relaxLoopF rnd tie e fuel 0
        ((g.node_.map (fun n =>
          ({ n with cost_ := rnd INT_MAX, on_path_ := false } : Node α))).set s
          { sn with cost_ := 0 }) [⟨s, 0⟩] = some nodes2 ∧
      nodes2[e]? = some en ∧
      backtrack s fuel en.prev_ nodes2 [some e] = some (nodes3, path, cur) ∧
      setOnPath nodes3 s = some nodes4 ∧ setOnPath nodes4 e = some nodes5 ∧
      g1 = { g with node_ := nodes5, path_node_ := (path ++ [cur]).reverse } := by
  unfold FindPathF at h
  cases hs : g.start_node_ with
  | none => simp [hs] at h
  | some s =>
    cases he : g.end_node_ with
    | none => simp [hs, he] at h
    | some e =>
      simp only [hs, he] at h
      cases h0 : (g.node_.map (fun n => ({ n with cost_ := rnd INT_MAX, on_path_ := false } :
          Node α)))[s]? with
      | none => simp [h0] at h
      | some sn =>
        simp only [h0] at h
        cases h1 : relaxLoopF rnd tie e fuel 0
            ((g.node_.map (fun n => ({ n with cost_ := rnd INT_MAX, on_path_ := false } :
              Node α))).set s { sn with cost_ := 0 }) [⟨s, 0⟩] with
        | none => simp [h1] at h
        | some nodes2 =>
          simp only [h1] at h
          cases h2 : nodes2[e]? with
          | none => simp [h2] at h
          | some en =>
            simp only [h2] at h
            cases h3 : backtrack s fuel en.prev_ nodes2 [some e] with
            | none => simp [h3] at h
            | some r =>
              obtain ⟨nodes3, path, cur⟩ := r
              simp only [h3] at h
              cases h4 : setOnPath nodes3 s with
              | none => simp [h4] at h
              | some nodes4 =>
                simp only [h4] at h
                cases h5 : setOnPath nodes4 e with
                | none => simp [h5] at h
                | some nodes5 =>
                  simp only [h5, Option.some.injEq] at h
                  exact ⟨s, e, sn, nodes2, en, nodes3, path, cur, nodes4, nodes5, rfl, rfl, h0,
                    h1, h2, h3, h4, h5, h.symm⟩

theorem resetF_get {nodes : List (Node α)} {s : Nat} {sn : Node α} {inf : α}
    (h0 : (nodes.map (fun n => ({ n with cost_ := inf, on_path_ := false } : Node α)))[s]?
      = some sn) :
    s < nodes.length ∧ sn.on_path_ = false ∧ sn.prev_ = prevOf nodes s ∧
      sn.edge_ = edgesOf nodes s := by
  rw [List.getElem?_map] at h0
  cases hn : nodes[s]? with
  | none => simp [hn] at h0
  | some n =>
    simp only [hn, Option.map_some', Option.some.injEq] at h0
    subst h0
    exact ⟨(List.getElem?_eq_some.1 hn).1, rfl, by simp [prevOf, hn], by simp [edgesOf, hn]⟩

/-- After every call of `FindPath` in `float` arithmetic that returns, a node
is marked as on the path exactly when it is the start node or an entry of
`path_node_`. -/
theorem FindPathF_marks {fuel : Nat} {tie : Nat → Nat} {g g1 : Graph α} {s : Nat}
    (hs : g.start_node_ = some s) (h : FindPathF rnd fuel tie g = some g1) :
    ∀ v, onPathOf g1.node_ v = true ↔ (some v ∈ g1.path_node_ ∨ v = s) := by
  obtain ⟨s1, e, sn, nodes2, en, nodes3, path, cur, nodes4, nodes5, hs1, he, h0, h1, h2, h3, h4,
    h5, hg1⟩ := FindPathF_returned h
  have hss : s1 = s := by
    rw [hs1] at hs
    exact Option.some.inj hs
  subst hss
  have hoff : ∀ x, onPathOf nodes2 x = false := by
    intro x
    have hk := relaxLoopF_keep Node.on_path_ (fun _ _ _ => rfl) tie e fuel 0 _ _ _ h1
    rw [@map_set_of_eq _ _ _ Node.on_path_ _ _ _ { sn with cost_ := 0 } h0 rfl] at hk
    rw [onPathOf_of_map_eq hk]
    unfold onPathOf
    rw [List.getElem?_map]
    cases g.node_[x]? <;> rfl
  obtain ⟨extra, hpath, hcur, hsx, hlt, _, _, hon3⟩ := backtrack_returned s1 _ _ _ _ _ h3
  obtain ⟨_, _, _, _, hon4⟩ := setOnPath_returned h4
  obtain ⟨_, _, _, _, hon5⟩ := setOnPath_returned h5
  simp only at hpath hcur hon3
  intro v
  subst hg1
  simp only
  rw [hon5, hon4, hon3, hoff, hpath]
  simp only [Bool.false_or, Bool.or_eq_true, decide_eq_true_eq, List.mem_reverse, List.mem_append,
    List.mem_singleton, List.mem_map, Option.some.injEq, exists_eq_right, List.mem_cons,
    List.not_mem_nil, or_false]
  rcases hcur with hc | hc
  · rw [hc]
    simp only [reduceCtorEq, or_false]
    tauto
  · rw [hc]
    simp only [Option.some.injEq]
    tauto

end ReturnedF

/-! ## Nodes that no walk reaches below the stored sentinel -/

section Far

variable {α : Type} [LinearOrderedCommRing α] {rnd : α → α}

theorem relaxEdgeF_far {G : List (Node α)} {s u : Nat} {c : α}
    {st st1 : List (Node α) × List (QNode α)} {e : Edge α}
    (h : relaxEdgeF rnd u c st e = some st1) (hu : FCost rnd G s u c) (he : e ∈ edgesOf G u)
    {v : Nat} {inf : α} (hfar : ∀ c, FCost rnd G s v c → inf ≤ c) (hv : costOf st.1 v = inf) :
    costOf st1.1 v = inf ∧ prevOf st1.1 v = prevOf st.1 v ∧
      ∀ q ∈ st1.2, q ∈ st.2 ∨ FCost rnd G s q.node q.cost := by
  unfold relaxEdgeF at h
  cases hn : st.1[e.n2]? with
  | none => simp [hn] at h
  | some n =>
    simp only [hn] at h
    have hlt2 : e.n2 < st.1.length := (List.getElem?_eq_some.1 hn).1
    by_cases hlt : rnd (c + e.cost) < n.cost_
    · simp only [hlt, if_true, Option.some.injEq] at h
      rw [← h]
      simp only
      have hne : v ≠ e.n2 := by
        intro hve
        have hcv : costOf st.1 v = n.cost_ := by
          rw [hve]
          simp [costOf, hn]
        rw [hv] at hcv
        have hge := hfar _ (hve ▸ FCost.step hu he)
        rw [hcv] at hge
        exact absurd hlt (not_lt.2 hge)
      refine ⟨?_, ?_, ?_⟩
      · rw [costOf_set hlt2]
        simp only [hne, if_false]
        exact hv
      · rw [prevOf_set hlt2]
        simp only [hne, if_false]
      · intro q hq
        rcases List.mem_append.1 hq with hq | hq
        · exact Or.inl hq
        · have hqe : q = ⟨e.n2, rnd (c + e.cost)⟩ := by simpa using hq
          rw [hqe]
          exact Or.inr (FCost.step hu he)
    · simp only [hlt, if_false, Option.some.injEq] at h
      rw [← h]
      exact ⟨hv, rfl, fun q hq => Or.inl hq⟩

theorem relaxEdgesF_far {G : List (Node α)} {s u : Nat} {c : α} (hu : FCost rnd G s u c)
    {v : Nat} {inf : α} (hfar : ∀ c, FCost rnd G s v c → inf ≤ c) (es : List (Edge α)) :
    ∀ {st st1 : List (Node α) × List (QNode α)}, relaxEdgesF rnd u c es st = some st1 →
      (∀ e ∈ es, e ∈ edgesOf G u) → costOf st.1 v = inf →
      costOf st1.1 v = inf ∧ prevOf st1.1 v = prevOf st.1 v ∧
        ∀ q ∈ st1.2, q ∈ st.2 ∨ FCost rnd G s q.node q.cost := by
  induction es with
  | nil =>
    intro st st1 h _ hv
    simp only [relaxEdgesF, Option.some.injEq] at h
    rw [← h]
    exact ⟨hv, rfl, fun q hq => Or.inl hq⟩
  | cons e es ih =>
    intro st st1 h hes hv
    unfold relaxEdgesF at h
    cases h1 : relaxEdgeF rnd u c st e with
    | none => simp [h1] at h
    | some st2 =>
      simp only [h1] at h
      obtain ⟨hc2, hp2, hq2⟩ := relaxEdgeF_far h1 hu (hes e (by simp)) hfar hv
      obtain ⟨hc1, hp1, hq1⟩ := ih h (fun e1 he1 => hes e1 (List.mem_cons_of_mem _ he1)) hc2
      refine ⟨hc1, hp1.trans hp2, ?_⟩
      intro q hq
      rcases hq1 q hq with h3 | h3
      · exact hq2 q h3
      · exact Or.inr h3

/-- A node for which every walk from the start node costs, summed in `float`
arithmetic, `inf` or more, and which has the cost `inf`, keeps its cost and
its `prev` pointer in the relaxation loop. -/
theorem relaxLoopF_far {G : List (Node α)} {s : Nat} {v : Nat} {inf : α}
    (hfar : ∀ c, FCost rnd G s v c → inf ≤ c) (tie : Nat → Nat) (end_node : Nat) :
    ∀ (fuel k : Nat) (nodes nodes1 : List (Node α)) (pq : List (QNode α)),
      relaxLoopF rnd tie end_node fuel k nodes pq = some nodes1 →
      edgesOf nodes = edgesOf G → (∀ q ∈ pq, FCost rnd G s q.node q.cost) →
      costOf nodes v = inf →
      costOf nodes1 v = inf ∧ prevOf nodes1 v = prevOf nodes v := by
  intro fuel
  induction fuel with
  | zero =>
    intro k nodes nodes1 pq h
    simp [relaxLoopF] at h
  | succ fuel ih =>
    intro k nodes nodes1 pq h hE hpq hv
    unfold relaxLoopF at h
    by_cases hemp : pq.isEmpty = true
    · simp only [hemp, if_true, Option.some.injEq] at h
      rw [← h]
      exact ⟨hv, rfl⟩
    · simp only [hemp, Bool.false_eq_true, if_false] at h
      cases hq : pq[topIdx (tie k) pq]? with
      | none => simp [hq] at h
      | some q =>
        simp only [hq] at h
        by_cases hend : q.node = end_node
        · simp only [hend, if_true, Option.some.injEq] at h
          rw [← h]
          exact ⟨hv, rfl⟩
        · simp only [hend, if_false] at h
          cases hn : nodes[q.node]? with
          | none => simp [hn] at h
          | some un =>
            simp only [hn] at h
            cases hr : relaxEdgesF rnd q.node q.cost un.edge_
                (nodes, pq.eraseIdx (topIdx (tie k) pq)) with
            | none => simp [hr] at h
            | some st =>
              simp only [hr] at h
              have hue : un.edge_ = edgesOf G q.node := by
                rw [← hE, edgesOf_of_get hn]
              obtain ⟨hc1, hp1, hq1⟩ := relaxEdgesF_far (hpq q (List.getElem?_mem hq)) hfar
                un.edge_ hr (fun e he => hue ▸ he) hv
              have hE1 : edgesOf st.1 = edgesOf G := by
                rw [← hE]
                exact edgesOf_of_map_eq (relaxEdgesF_keep Node.edge_ (fun _ _ _ => rfl) _ hr)
              obtain ⟨hc2, hp2⟩ := ih (k + 1) st.1 nodes1 st.2 h hE1 (by
                intro q1 hq1m
                rcases hq1 q1 hq1m with h3 | h3
                · exact hpq q1 (List.mem_of_mem_eraseIdx h3)
                · exact h3) hc1
              exact ⟨hc2, hp2.trans hp1⟩

/-- After every call of `FindPath` in `float` arithmetic that returns, a node
for which every walk from the start node costs, summed in `float` arithmetic,
the stored sentinel or more has the stored sentinel as cost and the `prev`
pointer it had before the call. -/
theorem FindPathF_far (hpos : 0 < rnd INT_MAX) {fuel : Nat} {tie : Nat → Nat} {g g1 : Graph α}
    {s : Nat} (hs : g.start_node_ = some s) (h : FindPathF rnd fuel tie g = some g1)
    {v : Nat} (hv : v < g.node_.length)
    (hfar : ∀ c, FCost rnd g.node_ s v c → rnd INT_MAX ≤ c) :
    costOf g1.node_ v = rnd INT_MAX ∧ prevOf g1.node_ v = prevOf g.node_ v := by
  obtain ⟨s1, e, sn, nodes2, en, nodes3, path, cur, nodes4, nodes5, hs1, he, h0, h1, h2, h3, h4,
    h5, hg1⟩ := FindPathF_returned h
  have hss : s1 = s := by
    rw [hs1] at hs
    exact Option.some.inj hs
  subst hss
  have hvs : v ≠ s1 := by
    intro hvs
    have := hfar 0 (hvs ▸ FCost.start)
    exact absurd hpos (not_lt.2 this)
  have hs0 : s1 < (g.node_.map (fun n =>
      ({ n with cost_ := rnd INT_MAX, on_path_ := false } : Node α))).length :=
    (List.getElem?_eq_some.1 h0).1
  have hE0 : edgesOf ((g.node_.map (fun n =>
      ({ n with cost_ := rnd INT_MAX, on_path_ := false } : Node α))).set s1
      { sn with cost_ := 0 }) = edgesOf g.node_ := by
    apply edgesOf_of_map_eq
    rw [@map_set_of_eq _ _ _ Node.edge_ _ _ _ { sn with cost_ := 0 } h0 rfl, List.map_map]
    rfl
  have hc0 : costOf ((g.node_.map (fun n =>
      ({ n with cost_ := rnd INT_MAX, on_path_ := false } : Node α))).set s1
      { sn with cost_ := 0 }) v = rnd INT_MAX := by
    rw [costOf_set hs0]
    simp only [hvs, if_false]
    unfold costOf
    rw [List.getElem?_map, List.getElem?_eq_getElem hv]
    rfl
  have hp0 : prevOf ((g.node_.map (fun n =>
      ({ n with cost_ := rnd INT_MAX, on_path_ := false } : Node α))).set s1
      { sn with cost_ := 0 }) v = prevOf g.node_ v := by
    rw [prevOf_set hs0]
    simp only [hvs, if_false]
    unfold prevOf
    rw [List.getElem?_map]
    cases g.node_[v]? <;> rfl
  obtain ⟨hc2, hp2⟩ := relaxLoopF_far hfar tie e fuel 0 _ _ _ h1 hE0 (by
    intro q hq
    have : q = ⟨s1, 0⟩ := by simpa using hq
    rw [this]
    exact FCost.start) hc0
  obtain ⟨_, _, _, _, _, hcost3, hprev3, _⟩ := backtrack_returned s1 _ _ _ _ _ h3
  obtain ⟨_, _, hcost4, hprev4, _⟩ := setOnPath_returned h4
  obtain ⟨_, _, hcost5, hprev5, _⟩ := setOnPath_returned h5
  simp only at hcost3 hprev3
  subst hg1
  simp only
  constructor
  · rw [costOf_of_map_eq hcost5, costOf_of_map_eq hcost4, costOf_of_map_eq hcost3]
    exact hc2
  · rw [prevOf_of_map_eq hprev5, prevOf_of_map_eq hprev4, prevOf_of_map_eq hprev3, hp2, hp0]

/-- An end node for which every walk from the start node costs, summed in
`float` arithmetic, the stored sentinel or more, and whose `prev` pointer is
null before the call: every call that returns stores a null pointer followed
by the end node and marks the start node and the end node only. -/
theorem FindPathF_far_end (hpos : 0 < rnd INT_MAX) {fuel : Nat} {tie : Nat → Nat}
    {g g1 : Graph α} {s e : Nat} (hs : g.start_node_ = some s) (he : g.end_node_ = some e)
    (h : FindPathF rnd fuel tie g = some g1) (hen : e < g.node_.length)
    (hfar : ∀ c, FCost rnd g.node_ s e c → rnd INT_MAX ≤ c)
    (hprev : prevOf g.node_ e = none) :
    g1.path_node_ = [none, some e] ∧ ∀ v, onPathOf g1.node_ v = true ↔ (v = s ∨ v = e) := by
  have hmarks := FindPathF_marks hs h
  obtain ⟨s1, e1, sn, nodes2, en, nodes3, path, cur, nodes4, nodes5, hs1, he1, h0, h1, h2, h3,
    h4, h5, hg1⟩ := FindPathF_returned h
  have hss : s1 = s := by
    rw [hs1] at hs
    exact Option.some.inj hs
  have hee : e1 = e := by
    rw [he1] at he
    exact Option.some.inj he
  subst hss
  subst hee
  have hs0 : s1 < (g.node_.map (fun n =>
      ({ n with cost_ := rnd INT_MAX, on_path_ := false } : Node α))).length :=
    (List.getElem?_eq_some.1 h0).1
  have hvs : e1 ≠ s1 := by
    intro hvs
    have := hfar 0 (hvs ▸ FCost.start)
    exact absurd hpos (not_lt.2 this)
  have hE0 : edgesOf ((g.node_.map (fun n =>
      ({ n with cost_ := rnd INT_MAX, on_path_ := false } : Node α))).set s1
      { sn with cost_ := 0 }) = edgesOf g.node_ := by
    apply edgesOf_of_map_eq
    rw [@map_set_of_eq _ _ _ Node.edge_ _ _ _ { sn with cost_ := 0 } h0 rfl, List.map_map]
    rfl
  have hc0 : costOf ((g.node_.map (fun n =>
      ({ n with cost_ := rnd INT_MAX, on_path_ := false } : Node α))).set s1
      { sn with cost_ := 0 }) e1 = rnd INT_MAX := by
    rw [costOf_set hs0]
    simp only [hvs, if_false]
    unfold costOf
    rw [List.getElem?_map, List.getElem?_eq_getElem hen]
    rfl
  have hp0 : prevOf ((g.node_.map (fun n =>
      ({ n with cost_ := rnd INT_MAX, on_path_ := false } : Node α))).set s1
      { sn with cost_ := 0 }) e1 = prevOf g.node_ e1 := by
    rw [prevOf_set hs0]
    simp only [hvs, if_false]
    unfold prevOf
    rw [List.getElem?_map]
    cases g.node_[e1]? <;> rfl
  obtain ⟨_, hp2⟩ := relaxLoopF_far hfar tie e1 fuel 0 _ _ _ h1 hE0 (by
    intro q hq
    have : q = ⟨s1, 0⟩ := by simpa using hq
    rw [this]
    exact FCost.start) hc0
  have hen0 : en.prev_ = none := by
    have : prevOf nodes2 e1 = en.prev_ := by simp [prevOf, h2]
    rw [← this, hp2, hp0, hprev]
  rw [hen0] at h3
  have hpath : g1.path_node_ = [none, some e1] := by
    cases fuel with
    | zero => simp [backtrack] at h3
    | succ fuel =>
      simp only [backtrack, Option.some.injEq, Prod.mk.injEq] at h3
      obtain ⟨_, hp, hc⟩ := h3
      rw [hg1, ← hp, ← hc]
      rfl
  refine ⟨hpath, ?_⟩
  intro v
  rw [hmarks v, hpath]
  simp only [List.mem_cons, reduceCtorEq, Option.some.injEq, List.mem_singleton, List.not_mem_nil,
    or_false, false_or]
  tauto

end Far

/-! ## Facts about the rounding to `float` -/

section Rounding

theorem quantum_small {m : Nat} (h : m < 2 ^ 24) : quantum m m 1 = 1 := by
  cases m with
  | zero => rfl
  | succ n =>
    unfold quantum
    rw [Nat.div_one, if_pos h]

theorem roundMag_small {m : Nat} (h : m ≤ 2 ^ 24) : roundMag m = m := by
  rcases Nat.lt_or_ge m (2 ^ 24) with hlt | hge
  · unfold roundMag
    simp only [quantum_small hlt, Nat.div_one, Nat.mod_one, Nat.mul_zero, Nat.lt_one_iff,
      if_true, Nat.mul_one, Nat.zero_lt_one]
    have : ¬ (2 ^ 128 ≤ m) := by
      have h2 : (2 : Nat) ^ 24 < 2 ^ 128 := by norm_num
      omega
    rw [if_neg this]
  · have : m = 2 ^ 24 := Nat.le_antisymm h hge
    subst this
    decide

/-- Every natural number up to `2 ^ 24` is a `float` value. -/
theorem roundF32_small (j : Nat) (h : j ≤ 2 ^ 24) : roundF32 (j : Int) = (j : Int) := by
  unfold roundF32
  rw [if_pos (Int.natCast_nonneg j), Int.toNat_natCast, roundMag_small h]

theorem roundF32_sentinel : ((2 ^ 24 : Nat) : Int) < roundF32 INT_MAX := by decide

theorem roundF32_sentinel_pos : (0 : Int) < roundF32 INT_MAX := by decide

/-- The result of `quantum` is `q` times a power of two, and when it is not
`q` itself, the half of it was too small. -/
theorem quantum_spec (m : Nat) :
    ∀ (fuel q : Nat), 0 < q → ∃ j, quantum m fuel q = q * 2 ^ j ∧
      (0 < j → 2 ^ 24 ≤ m / (q * 2 ^ (j - 1))) := by
  intro fuel
  induction fuel with
  | zero =>
    intro q _
    exact ⟨0, by simp [quantum], fun h => absurd h (Nat.lt_irrefl 0)⟩
  | succ fuel ih =>
    intro q hq
    unfold quantum
    by_cases hlt : m / q < 2 ^ 24
    · rw [if_pos hlt]
      exact ⟨0, by simp, fun h => absurd h (Nat.lt_irrefl 0)⟩
    · rw [if_neg hlt]
      obtain ⟨j, hj, hmin⟩ := ih (2 * q) (by omega)
      refine ⟨j + 1, ?_, ?_⟩
      · rw [hj, pow_succ]
        ring
      · intro _
        simp only [Nat.add_sub_cancel]
        cases j with
        | zero =>
          simp only [pow_zero, Nat.mul_one]
          omega
        | succ i =>
          have := hmin (Nat.succ_pos i)
          simp only [Nat.add_sub_cancel] at this
          have he : q * 2 ^ (i + 1) = 2 * q * 2 ^ i := by
            rw [pow_succ]
            ring
          rw [he]
          exact this

/-- Rounding a natural number that is `2 ^ 31` at least gives `2 ^ 31` at
least. -/
theorem roundMag_ge {m : Nat} (h : 2 ^ 31 ≤ m) : 2 ^ 31 ≤ roundMag m := by
  obtain ⟨j, hj, hmin⟩ := quantum_spec m m 1 Nat.one_pos
  simp only [Nat.one_mul] at hj hmin
  have hk : 2 ^ 31 ≤ m / 2 ^ j * 2 ^ j := by
    rcases Nat.lt_or_ge 31 j with hbig | hsmall
    · have h1 := hmin (by omega)
      have h2 : 2 ^ 24 * 2 ^ (j - 1) ≤ m := by
        have := (Nat.le_div_iff_mul_le (Nat.two_pow_pos _)).1 h1
        exact this
      have h3 : 2 ^ j = 2 * 2 ^ (j - 1) := by
        have : j = (j - 1) + 1 := by omega
        conv_lhs => rw [this, pow_succ]
        ring
      have h4 : 2 ^ 23 * 2 ^ j ≤ m := by
        rw [h3]
        have : 2 ^ 23 * (2 * 2 ^ (j - 1)) = 2 ^ 24 * 2 ^ (j - 1) := by ring
        rw [this]
        exact h2
      have h5 : 2 ^ 23 ≤ m / 2 ^ j :=
        (Nat.le_div_iff_mul_le (Nat.two_pow_pos _)).2 h4
      have h6 : (2 : Nat) ^ 8 ≤ 2 ^ j := Nat.pow_le_pow_right (by decide) (by omega)
      calc 2 ^ 31 = 2 ^ 23 * 2 ^ 8 := by norm_num
        _ ≤ 2 ^ 23 * 2 ^ j := Nat.mul_le_mul_left _ h6
        _ ≤ m / 2 ^ j * 2 ^ j := Nat.mul_le_mul_right _ h5
    · have hdiv : 2 ^ 31 = 2 ^ (31 - j) * 2 ^ j := by
        rw [← pow_add]
        congr 1
        omega
      have h1 : 2 ^ (31 - j) * 2 ^ j ≤ m := by
        rw [← hdiv]
        exact h
      have h2 : 2 ^ (31 - j) ≤ m / 2 ^ j :=
        (Nat.le_div_iff_mul_le (Nat.two_pow_pos _)).2 h1
      rw [hdiv]
      exact Nat.mul_le_mul_right _ h2
  have key : ∀ K : Nat, m / 2 ^ j ≤ K →
      2 ^ 31 ≤ (if 2 ^ 128 ≤ K * 2 ^ j then 2 ^ 128 else K * 2 ^ j) := by
    intro K hK
    split_ifs
    · norm_num
    · exact le_trans hk (Nat.mul_le_mul_right _ hK)
  unfold roundMag
  simp only [hj]
  apply key
  split_ifs <;> omega

/-- Rounding an integer that is `2 ^ 31` at least gives `2 ^ 31` at least. -/
theorem roundF32_ge {x : Int} (h : 2147483648 ≤ x) : 2147483648 ≤ roundF32 x := by
  unfold roundF32
  have h0 : 0 ≤ x := by omega
  rw [if_pos h0]
  have hm : 2 ^ 31 ≤ x.toNat := by
    have : (2147483648 : Int) = ((2 ^ 31 : Nat) : Int) := by norm_num
    omega
  have := roundMag_ge hm
  have h2 : ((2 ^ 31 : Nat) : Int) ≤ (roundMag x.toNat : Int) := Int.ofNat_le.2 this
  exact_mod_cast h2

end Rounding

section StoredFacts

variable {α : Type} [LinearOrderedCommRing α] {rnd : α → α}

theorem edgesOf_stored (nodes : List (Node α)) :
    edgesOf (nodes.map (Node.stored rnd)) = edgesOf nodes := by
  apply edgesOf_of_map_eq
  rw [List.map_map]
  rfl

theorem prevOf_stored (nodes : List (Node α)) :
    prevOf (nodes.map (Node.stored rnd)) = prevOf nodes := by
  apply prevOf_of_map_eq
  rw [List.map_map]
  rfl

theorem onPathOf_stored (nodes : List (Node α)) :
    onPathOf (nodes.map (Node.stored rnd)) = onPathOf nodes := by
  apply onPathOf_of_map_eq
  rw [List.map_map]
  rfl

theorem costOf_stored {nodes : List (Node α)} {v : Nat} (h : costOf nodes v ≠ INT_MAX) :
    costOf (nodes.map (Node.stored rnd)) v = costOf nodes v := by
  unfold costOf at h ⊢
  rw [List.getElem?_map]
  cases hn : nodes[v]? with
  | none => rfl
  | some n =>
    simp only [hn] at h
    simp only [Option.map_some', Node.stored, h, if_false]

theorem NonNegCosts_of_CostsUpTo {W : Nat} {nodes : List (Node α)} (h : CostsUpTo W nodes) :
    NonNegCosts nodes := by
  intro u e he
  obtain ⟨n, hn, hmem⟩ := mem_of_mem_edgesOf he
  obtain ⟨j, hj, _⟩ := h n hn e hmem
  rw [hj]
  exact Nat.cast_nonneg j

theorem CostsUpTo_of_forall {W : Nat} {nodes : List (Node Int)}
    (h : ∀ n ∈ nodes, ∀ e ∈ n.edge_, 0 ≤ e.cost ∧ e.cost ≤ (W : Int)) : CostsUpTo W nodes := by
  intro n hn e he
  obtain ⟨h0, hW⟩ := h n hn e he
  refine ⟨e.cost.toNat, ?_, ?_⟩
  · rw [Int.toNat_of_nonneg h0]
  · omega

end StoredFacts

section FarGraph

/-- In `farGraph` every walk from the first node to the second costs, summed
in `float` arithmetic, `2 ^ 31` or more. -/
theorem farGraph_far :
    ∀ c, FCost roundF32 farGraph.node_ 0 1 c → roundF32 INT_MAX ≤ c := by
  have key : ∀ v c, FCost roundF32 farGraph.node_ 0 v c →
      0 ≤ c ∧ (v = 1 → (2147483648 : Int) ≤ c) := by
    intro v c h
    induction h with
    | start => exact ⟨le_refl _, fun h => absurd h (by decide)⟩
    | @step u c e _ he ih =>
      have hcost : e.cost = 2147483648 := by
        obtain ⟨n, hn, hmem⟩ := mem_of_mem_edgesOf he
        simp [farGraph, Node.new, Graph.new] at hn
        rcases hn with rfl | rfl <;> simp at hmem <;> rw [hmem]
      have hge : (2147483648 : Int) ≤ roundF32 (c + e.cost) := by
        apply roundF32_ge
        rw [hcost]
        omega
      exact ⟨by omega, fun _ => hge⟩
  intro c h
  have h1 := (key 1 c h).2 rfl
  have h2 : roundF32 INT_MAX = 2147483648 := by decide
  rw [h2]
  exact h1

end FarGraph

/-! ## The carving loop and the output graph -/

section CarveOut

variable {α : Type} [LinearOrderedCommRing α]

/-- An iteration of the carving loop that returns with one output graph
returns with every output graph in which the ids of the source nodes are
indices, and with the same source nodes and the same stack. -/
theorem carveStep_other_out {shuffle : Nat → List Nat → List Nat} {k : Nat}
    {src out out1 : List (Node α)} {n : Nat} {st : List Nat}
    {r1 : List (Node α) × List (Node α) × List Nat}
    (h : carveStep shuffle k src out1 n st = some r1)
    (hI : ∀ nd ∈ src, 0 ≤ nd.id_ ∧ nd.id_.toNat < out.length) :
    ∃ o, carveStep shuffle k src out n st = some (r1.1, o, r1.2.2) ∧ o.length = out.length ∧
      ∀ nd ∈ r1.1, ∃ nd0 ∈ src, nd.id_ = nd0.id_ := by
  unfold carveStep at h ⊢
  cases hn : src[n]? with
  | none => simp [hn] at h
  | some nd =>
    simp only [hn] at h ⊢
    cases hscan : scanUnvisited src nd.edge_ (shuffle k (List.range nd.edge_.length)) with
    | none => simp [hscan] at h
    | some res =>
      simp only [hscan] at h ⊢
      cases res with
      | none =>
        simp only [Option.some.injEq] at h
        subst h
        exact ⟨out, rfl, rfl, fun nd1 h1 => ⟨nd1, h1, rfl⟩⟩
      | some edge =>
        simp only at h ⊢
        cases hneigh : src[edge.n2]? with
        | none => simp [hneigh] at h
        | some neigh =>
          simp only [hneigh] at h ⊢
          obtain ⟨ha0, ha1⟩ := hI nd (List.getElem?_mem hn)
          obtain ⟨hb0, hb1⟩ := hI neigh (List.getElem?_mem hneigh)
          have hg1 : GetNode out nd.id_ = some nd.id_.toNat := by
            unfold GetNode
            simp [ha0, ha1]
          have hg2 : GetNode out neigh.id_ = some neigh.id_.toNat := by
            unfold GetNode
            simp [hb0, hb1]
          obtain ⟨o, ho⟩ := AddNeighbor_isSome edge.cost ha1 hb1
          rw [hg1, hg2]
          simp only [ho]
          cases hx1 : GetNode out1 nd.id_ with
          | none => simp [hx1] at h
          | some a =>
            cases hx2 : GetNode out1 neigh.id_ with
            | none => simp [hx1, hx2] at h
            | some b =>
              simp only [hx1, hx2] at h
              cases hadd : AddNeighbor out1 a b edge.cost with
              | none => simp [hadd] at h
              | some o1 =>
                simp only [hadd, Option.some.injEq] at h
                subst h
                refine ⟨o, rfl, AddNeighbor_length ho, ?_⟩
                intro nd1 h1
                simp only at h1
                rcases List.mem_or_eq_of_mem_set h1 with h2 | h2
                · exact ⟨nd1, h2, rfl⟩
                · exact ⟨neigh, List.getElem?_mem hneigh, by rw [h2]⟩

/-- A run of the carving loop that returns with one output graph returns
with every output graph in which the ids of the source nodes are indices,
with the same source nodes, the same log and the same number of iterations. -/
theorem carveLoopLog_other_out (shuffle : Nat → List Nat → List Nat) :
    ∀ (fuel k : Nat) (src out out1 : List (Node α)) (stack log : List Nat)
      (r1 : List (Node α) × List (Node α) × List Nat × Nat),
      carveLoopLog shuffle fuel k src out1 stack log = some r1 →
      (∀ nd ∈ src, 0 ≤ nd.id_ ∧ nd.id_.toNat < out.length) →
      ∃ o, carveLoopLog shuffle fuel k src out stack log = some (r1.1, o, r1.2.2) := by
  intro fuel
  induction fuel with
  | zero =>
    intro k src out out1 stack log r1 h
    simp [carveLoopLog] at h
  | succ fuel ih =>
    intro k src out out1 stack log r1 h hI
    cases stack with
    | nil =>
      simp only [carveLoopLog, Option.some.injEq] at h
      subst h
      exact ⟨out, rfl⟩
    | cons n st =>
      unfold carveLoopLog at h ⊢
      cases hstep : carveStep shuffle k src out1 n st with
      | none => simp [hstep] at h
      | some r =>
        simp only [hstep] at h
        obtain ⟨o, ho, hlen, hids⟩ := carveStep_other_out hstep hI
        simp only [ho]
        apply ih (k + 1) r.1 o r.2.1 r.2.2 _ r1 h
        intro nd hnd
        obtain ⟨nd0, hnd0, hid⟩ := hids nd hnd
        rw [hid, hlen]
        exact hI nd0 hnd0

end CarveOut

set_option exponentiation.threshold 3000

/-- The loop over the nodes returns the first node that passes the test, and
returns none exactly when no node passes it. -/
theorem pickLoopF_spec (cursor : Fp × Fp) (node_scale : Fp) :
    ∀ (nodes : List (Node Fp)) (i : Nat),
      (∀ k, pickLoopF cursor node_scale nodes i = some k ↔
        ∃ (j : Nat) (n : Node Fp), k = i + j ∧ nodes[j]? = some n ∧
          hitsNodeF cursor node_scale n = true ∧
          ∀ (j1 : Nat) (m : Node Fp), j1 < j → nodes[j1]? = some m →
            hitsNodeF cursor node_scale m = false) ∧
      (pickLoopF cursor node_scale nodes i = none ↔
        ∀ (j : Nat) (n : Node Fp), nodes[j]? = some n → hitsNodeF cursor node_scale n = false) := by
  intro nodes
  induction nodes with
  | nil =>
    intro i
    simp [pickLoopF]
  | cons a rest ih =>
    intro i
    obtain ⟨ih1, ih2⟩ := ih (i + 1)
    by_cases ha : hitsNodeF cursor node_scale a = true
    · constructor
      · intro k
        simp only [pickLoopF, ha, if_true, Option.some.injEq]
        constructor
        · intro hk
          refine ⟨0, a, by omega, by simp, ha, ?_⟩
          intro j1 m hj1
          omega
        · rintro ⟨j, n, hk, hn, hhit, hfirst⟩
          cases j with
          | zero => omega
          | succ j =>
            have := hfirst 0 a (Nat.succ_pos j) (by simp)
            rw [ha] at this
            exact absurd this (by decide)
      · simp only [pickLoopF, ha, if_true, reduceCtorEq, false_iff]
        intro hall
        have := hall 0 a (by simp)
        rw [ha] at this
        exact absurd this (by decide)
    · have ha2 : hitsNodeF cursor node_scale a = false := by
        cases h : hitsNodeF cursor node_scale a with
        | false => rfl
        | true => exact absurd h ha
      constructor
      · intro k
        simp only [pickLoopF, ha2, Bool.false_eq_true, if_false]
        rw [ih1 k]
        constructor
        · rintro ⟨j, n, hk, hn, hhit, hfirst⟩
          refine ⟨j + 1, n, by omega, by simpa using hn, hhit, ?_⟩
          intro j1 m hj1 hm
          cases j1 with
          | zero =>
            have : m = a := by simpa using hm.symm
            rw [this]
            exact ha2
          | succ j1 =>
            exact hfirst j1 m (by omega) (by simpa using hm)
        · rintro ⟨j, n, hk, hn, hhit, hfirst⟩
          cases j with
          | zero =>
            have : n = a := by simpa using hn.symm
            rw [this, ha2] at hhit
            exact absurd hhit (by decide)
          | succ j =>
            refine ⟨j, n, by omega, by simpa using hn, hhit, ?_⟩
            intro j1 m hj1 hm
            exact hfirst (j1 + 1) m (by omega) (by simpa using hm)
      · simp only [pickLoopF, ha2, Bool.false_eq_true, if_false]
        rw [ih2]
        constructor
        · intro hall j n hn
          cases j with
          | zero =>
            have : n = a := by simpa using hn.symm
            rw [this]
            exact ha2
          | succ j => exact hall j n (by simpa using hn)
        · intro hall j n hn
          exact hall (j + 1) n (by simpa using hn)

theorem SelectNodeF_inside {g : Graph Fp} {x y : Fp} {window_width window_height : Int}
    (h : outsideWindowF x y window_width window_height = false) (camera_zoom : Fp) :
    SelectNodeF g x y window_width window_height camera_zoom =
      g.node_obj_.map (fun node_obj =>
        pickLoopF (cursorPosF x y window_width window_height camera_zoom) node_obj.scale_
          g.node_ 0) := by
  unfold SelectNodeF
  simp only [h, Bool.false_eq_true, if_false]
  cases g.node_obj_ <;> rfl

/-- Two finite values that stand for the same number have the same magnitude,
and the same sign unless they are zero. -/
theorem Fp.toRat_fin_eq {s t : Bool} {a b : Nat}
    (h : Fp.toRat (Fp.fin s a) = Fp.toRat (Fp.fin t b)) : a = b ∧ (s = t ∨ a = 0) := by
  simp only [Fp.toRat, Option.some.injEq] at h
  have hp : (0 : ℚ) < 2 ^ 1074 := by positivity
  rw [div_left_inj' hp.ne'] at h
  have ha : (0 : ℚ) ≤ a := Nat.cast_nonneg a
  have hb : (0 : ℚ) ≤ b := Nat.cast_nonneg b
  cases s <;> cases t <;> simp only [Bool.false_eq_true, if_false, if_true, one_mul, neg_mul] at h
  · exact ⟨by exact_mod_cast h, Or.inl rfl⟩
  · have h0 : (a : ℚ) = 0 := by linarith
    have h1 : (b : ℚ) = 0 := by linarith
    exact ⟨by exact_mod_cast h0.trans h1.symm, Or.inr (by exact_mod_cast h0)⟩
  · have h0 : (a : ℚ) = 0 := by linarith
    have h1 : (b : ℚ) = 0 := by linarith
    exact ⟨by exact_mod_cast h0.trans h1.symm, Or.inr (by exact_mod_cast h0)⟩
  · exact ⟨by exact_mod_cast neg_injective h, Or.inl rfl⟩

/-- The `float` difference of two finite values that stand for the same number
is a zero. -/
theorem Fp.sub_same {a b : Fp} (ha : (Fp.toRat a).isSome = true)
    (h : Fp.toRat a = Fp.toRat b) : ∃ u, Fp.sub binary32 a b = Fp.fin u 0 := by
  cases a with
  | nan => simp [Fp.toRat] at ha
  | inf s => simp [Fp.toRat] at ha
  | fin s x =>
    cases b with
    | nan => simp [Fp.toRat] at h
    | inf t => simp [Fp.toRat] at h
    | fin t y =>
      obtain ⟨hxy, hst⟩ := Fp.toRat_fin_eq h
      subst hxy
      rcases hst with rfl | rfl
      · exact ⟨false, by cases s <;> simp [Fp.sub, Fp.add, Fp.neg]⟩
      · cases s <;> cases t <;> decide

/-- The length of a vector of two zeros is the positive zero. -/
theorem lengthF_zero (u v : Bool) : lengthF (Fp.fin u 0) (Fp.fin v 0) = Fp.fin false 0 := by
  cases u <;> cases v <;> decide

/-- A node passes the pick test at its own position when the `float` square
of the scale is above zero. -/
theorem hitsNodeF_same {cursor : Fp × Fp} {node_scale : Fp} {n : Node Fp}
    (hscale : Fp.lt (Fp.fin false 0) (Fp.mul binary32 node_scale node_scale) = true)
    (hx : Fp.toRat cursor.1 = Fp.toRat n.x_) (hy : Fp.toRat cursor.2 = Fp.toRat n.y_)
    (hfx : (Fp.toRat cursor.1).isSome = true) (hfy : (Fp.toRat cursor.2).isSome = true) :
    hitsNodeF cursor node_scale n = true := by
  obtain ⟨u, hu⟩ := Fp.sub_same hfx hx
  obtain ⟨v, hv⟩ := Fp.sub_same hfy hy
  unfold hitsNodeF
  rw [hu, hv, lengthF_zero]
  exact hscale

/-- The finite value of magnitude `z * 2 ^ 1074` units stands for the whole
number `z`. -/
theorem Fp.toRat_nat (z : Nat) : Fp.toRat (Fp.fin false (z * 2 ^ 1074)) = some (z : ℚ) := by
  show some ((if false = true then -1 else 1) * ((z * 2 ^ 1074 : Nat) : ℚ) / 2 ^ 1074) = _
  rw [if_neg (by decide), one_mul, Nat.cast_mul, Nat.cast_pow, Nat.cast_ofNat]
  exact congrArg some (mul_div_cancel_right₀ _ (by positivity))

/-- The finite value of magnitude `2 ^ 999` units stands for `2 ^ (-75)`. -/
theorem Fp.toRat_tiny : Fp.toRat (Fp.fin false (2 ^ 999)) = some (1 / 2 ^ 75) := by
  show some ((if false = true then -1 else 1) * ((2 ^ 999 : Nat) : ℚ) / 2 ^ 1074) = _
  rw [if_neg (by decide), one_mul, Nat.cast_pow, Nat.cast_ofNat]
  refine congrArg some ?_
  rw [div_eq_div_iff (by positivity) (by positivity), one_mul, ← pow_add]

section FloatFuel

variable {α : Type} [LinearOrderedCommRing α]

/-- A run of the relaxation loop in `float` arithmetic that returns, returns
the same with more iterations allowed. -/
theorem relaxLoopF_mono (rnd : α → α) (tie : Nat → Nat) (end_node : Nat) :
    ∀ (fuel k : Nat) (nodes : List (Node α)) (pq : List (QNode α)) (r : List (Node α)),
      relaxLoopF rnd tie end_node fuel k nodes pq = some r →
      ∀ fuel1, fuel ≤ fuel1 → relaxLoopF rnd tie end_node fuel1 k nodes pq = some r := by
  intro fuel
  induction fuel with
  | zero =>
    intro k nodes pq r h
    simp [relaxLoopF] at h
  | succ fuel ih =>
    intro k nodes pq r h fuel1 hle
    obtain ⟨f1, rfl⟩ : ∃ f1, fuel1 = f1 + 1 := ⟨fuel1 - 1, by omega⟩
    unfold relaxLoopF at h ⊢
    by_cases hemp : pq.isEmpty = true
    · simp only [hemp, if_true] at h ⊢
      exact h
    · simp only [hemp, Bool.false_eq_true, if_false] at h ⊢
      cases hq : pq[topIdx (tie k) pq]? with
      | none => simp [hq] at h
      | some q =>
        simp only [hq] at h ⊢
        by_cases hend : q.node = end_node
        · simp only [hend, if_true] at h ⊢
          exact h
        · simp only [hend, if_false] at h ⊢
          cases hn : nodes[q.node]? with
          | none => simp [hn] at h
          | some un =>
            simp only [hn] at h ⊢
            cases hr : relaxEdgesF rnd q.node q.cost un.edge_
                (nodes, pq.eraseIdx (topIdx (tie k) pq)) with
            | none => simp [hr] at h
            | some st =>
              simp only [hr] at h ⊢
              exact ih _ _ _ _ h f1 (by omega)

/-- A walk back along the `prev` links that returns, returns the same with
more iterations allowed. -/
theorem backtrack_mono (start_node : Nat) :
    ∀ (fuel : Nat) (cur : Option Nat) (nodes : List (Node α)) (path : List (Option Nat))
      (r : List (Node α) × List (Option Nat) × Option Nat),
      backtrack start_node fuel cur nodes path = some r →
      ∀ fuel1, fuel ≤ fuel1 → backtrack start_node fuel1 cur nodes path = some r := by
  intro fuel
  induction fuel with
  | zero =>
    intro cur nodes path r h
    simp [backtrack] at h
  | succ fuel ih =>
    intro cur nodes path r h fuel1 hle
    obtain ⟨f1, rfl⟩ : ∃ f1, fuel1 = f1 + 1 := ⟨fuel1 - 1, by omega⟩
    cases cur with
    | none =>
      simp only [backtrack] at h ⊢
      exact h
    | some c =>
      simp only [backtrack] at h ⊢
      by_cases hc : c = start_node
      · simp only [hc, if_true] at h ⊢
        exact h
      · simp only [hc, if_false] at h ⊢
        cases hn : nodes[c]? with
        | none => simp [hn] at h
        | some n =>
          simp only [hn] at h ⊢
          exact ih _ _ _ _ h f1 (by omega)

/-- A call of `FindPath` in `float` arithmetic that returns, returns the same
with more iterations allowed. -/
theorem FindPathF_mono {rnd : α → α} {fuel : Nat} {tie : Nat → Nat} {g g1 : Graph α}
    (h : FindPathF rnd fuel tie g = some g1) {fuel1 : Nat} (hle : fuel ≤ fuel1) :
    FindPathF rnd fuel1 tie g = some g1 := by
  unfold FindPathF at h ⊢
  cases hs : g.start_node_ with
  | none => simp [hs] at h
  | some s =>
    cases he : g.end_node_ with
    | none => simp [hs, he] at h
    | some e =>
      simp only [hs, he] at h ⊢
      cases h0 : (g.node_.map
          (fun n => { n with cost_ := rnd INT_MAX, on_path_ := false }))[s]? with
      | none => simp [h0] at h
      | some sn =>
        simp only [h0] at h ⊢
        cases h1 : relaxLoopF rnd tie e fuel 0
            ((g.node_.map (fun n => { n with cost_ := rnd INT_MAX, on_path_ := false })).set s
              { sn with cost_ := 0 }) [⟨s, 0⟩] with
        | none => simp [h1] at h
        | some nodes2 =>
          simp only [h1, relaxLoopF_mono rnd tie e _ _ _ _ _ h1 fuel1 hle] at h ⊢
          cases h2 : nodes2[e]? with
          | none => simp [h2] at h
          | some en =>
            simp only [h2] at h ⊢
            cases h3 : backtrack s fuel en.prev_ nodes2 [some e] with
            | none => simp [h3] at h
            | some r =>
              simp only [h3, backtrack_mono s _ _ _ _ _ h3 fuel1 hle] at h ⊢
              exact h

/-- Where no sum rounds, a call of `FindPath` in `float` arithmetic with
`fuelBound` iterations or more returns what the call in exact arithmetic
returns, with the sentinel as the `float` code stores it. -/
theorem FindPathF_of_bound {rnd : α → α}
    (hrnd : ∀ j : Nat, j ≤ 2 ^ 24 → rnd (j : α) = (j : α))
    (hinf : (((2 ^ 24 : Nat) : Nat) : α) < rnd INT_MAX) {W : Nat} {g : Graph α}
    (hW : CostsUpTo W g.node_) (hfW : fuelBound g.node_ * W ≤ 2 ^ 24) (tie : Nat → Nat)
    {fuel : Nat} (hf : fuelBound g.node_ ≤ fuel) {g1 : Graph α}
    (h : FindPath (fuelBound g.node_) tie g = some g1) :
    FindPathF rnd fuel tie g = some (Graph.stored rnd g1) := by
  have h1 := FindPathF_stored hrnd hinf hW hfW tie
  rw [h] at h1
  exact FindPathF_mono h1 hf

end FloatFuel

/-! ## Shortest paths (`Graph::FindPath`) -/

section ClaimsPath

variable {α : Type} [LinearOrderedCommRing α]

/-- C1, counterexample, in the `float` arithmetic of the code. On the graph
with one node that is both start and end node (the end node is reachable, at
cost 0) `FindPath` stores a null pointer followed by the node: not a node
sequence with a cumulative edge cost. On the line of three nodes with the edge
costs 16777216 and 1 no edge cost is negative and the path from the start node
to the end node costs 16777217, below the sentinel; `FindPath` stores that
path, but the sum of 16777216 and 1 is rounded to 16777216 as it is stored, so
the cost field of the end node is 16777216 and not the cumulative edge cost of
the stored path. Both for every tie-breaking and every number of iterations
that lets `FindPath` return. -/
theorem FindPath_rounding_counterexample :
    (singleNodeGraph.start_node_ = some 0 ∧ singleNodeGraph.end_node_ = some 0 ∧
      pathCost singleNodeGraph.node_ [0] = some 0 ∧
      ∀ (tie : Nat → Nat) (fuel : Nat), 1 ≤ fuel →
        ∃ g1, FindPathF roundF32 fuel tie singleNodeGraph = some g1 ∧
          g1.path_node_ = [none, some 0] ∧ ¬ StoresCheapestPath g1 0 0) ∧
    (roundingGraph.start_node_ = some 0 ∧ roundingGraph.end_node_ = some 2 ∧
      TargetsValid roundingGraph.node_ ∧ NonNegCosts roundingGraph.node_ ∧
      pathCost roundingGraph.node_ [0, 1, 2] = some 16777217 ∧ (16777217 : Int) < INT_MAX ∧
      ∀ (tie : Nat → Nat) (fuel : Nat), 3 ≤ fuel →
        ∃ g1, FindPathF roundF32 fuel tie roundingGraph = some g1 ∧
          g1.path_node_ = [some 0, some 1, some 2] ∧ costOf g1.node_ 2 = 16777216 ∧
          pathCost g1.node_ [0, 1, 2] = some 16777217 ∧ ¬ StoresCheapestPath g1 0 2) := by
  have r0 : roundF32 2147483647 = 2147483648 := by decide
  have r1 : roundF32 16777216 = 16777216 := by decide
  have r2 : roundF32 33554432 = 33554432 := by decide
  have r3 : roundF32 16777217 = 16777216 := by decide
  refine ⟨⟨rfl, rfl, rfl, ?_⟩, rfl, rfl, TargetsValid_of_forall (by decide),
    NonNegCosts_of_forall (by decide), by decide, by decide, ?_⟩
  · intro tie fuel hf
    obtain ⟨f, rfl⟩ : ∃ f, fuel = f + 1 := ⟨fuel - 1, by omega⟩
    have hrun : (FindPathF roundF32 (f + 1) tie singleNodeGraph).map Graph.path_node_
        = some [none, some 0] := by
      simp [FindPathF, singleNodeGraph, relaxLoopF, topIdx_singleton, Node.new, INT_MAX,
        backtrack, setOnPath, Graph.new, r0]
    obtain ⟨g1, hg1, hpath⟩ := Option.map_eq_some'.1 hrun
    refine ⟨g1, hg1, hpath, ?_⟩
    rintro ⟨p, hp, _⟩
    rw [hpath] at hp
    cases p with
    | nil => simp at hp
    | cons a rest => simp at hp
  · intro tie fuel hf
    obtain ⟨f, rfl⟩ : ∃ f, fuel = f + 3 := ⟨fuel - 3, by omega⟩
    have hrun : (FindPathF roundF32 (f + 3) tie roundingGraph).map
        (fun g => (g.path_node_, costOf g.node_ 2, pathCost g.node_ [0, 1, 2]))
        = some ([some 0, some 1, some 2], 16777216, some 16777217) := by
      simp [FindPathF, roundingGraph, relaxLoopF, topIdx_singleton, relaxEdgesF, relaxEdgeF,
        Node.new, INT_MAX, backtrack, setOnPath, Graph.new, costOf, pathCost, edgeCost?,
        edgesOf, leastCost, r0, r1, r2, r3]
    obtain ⟨g1, hg1, hres⟩ := Option.map_eq_some'.1 hrun
    simp only [Prod.mk.injEq] at hres
    obtain ⟨hpath, hcost, hpc⟩ := hres
    refine ⟨g1, hg1, hpath, hcost, hpc, ?_⟩
    rintro ⟨p, hp, _, _, hc, _⟩
    have hp2 : p = [0, 1, 2] := by
      apply List.map_injective_iff.2 (Option.some_injective Nat)
      rw [← hp, hpath]
      rfl
    rw [hp2, hpc, hcost] at hc
    simp at hc

/-- C1, as amended, in the `float` arithmetic of the code, where `rnd` is the
rounding to `float`: it keeps every natural number up to `2 ^ 24`, and the
sentinel it makes of `INT_MAX` is above `2 ^ 24`. For every graph whose edge
costs are natural numbers up to `W` with `fuelBound * W` at most `2 ^ 24`, so
that no sum rounds, every start node `s` and end node `e` with `s ≠ e` such
that some path from `s` to `e` costs less than `INT_MAX`, however the priority
queue breaks ties, and for every number of iterations from `fuelBound` on:
`FindPath` returns; afterwards `path_node_` is a sequence of nodes
from `s` to `e` whose cumulative edge cost is the cost field of `e`, and no
path from `s` to `e` in the graph costs less. -/
theorem FindPath_stores_cheapest_path {rnd : α → α}
    (hrnd : ∀ j : Nat, j ≤ 2 ^ 24 → rnd (j : α) = (j : α))
    (hinf : (((2 ^ 24 : Nat) : Nat) : α) < rnd INT_MAX) {g : Graph α} {s e : Nat}
    (hs : g.start_node_ = some s) (he : g.end_node_ = some e)
    (hsn : s < g.node_.length) (hen : e < g.node_.length)
    (hval : TargetsValid g.node_) {W : Nat} (hW : CostsUpTo W g.node_)
    (hfW : fuelBound g.node_ * W ≤ 2 ^ 24) (hse : s ≠ e)
    (hreach : ∃ p L, p.head? = some s ∧ p.getLast? = some e ∧
      pathCost g.node_ p = some L ∧ L < INT_MAX)
    (tie : Nat → Nat) (fuel : Nat) (hf : fuelBound g.node_ ≤ fuel) :
    ∃ g1, FindPathF rnd fuel tie g = some g1 ∧ edgesOf g1.node_ = edgesOf g.node_ ∧
      StoresCheapestPath g1 s e := by
  obtain ⟨p0, L0, hh0, hl0, hc0, hlt0⟩ := hreach
  obtain ⟨g1, p, hfp, hpath, hfix, htp, _, _, _, hcost, hopt, _⟩ :=
    FindPath_reach hs he hsn hen hval (NonNegCosts_of_CostsUpTo hW) (fun h => hse h.symm)
      ⟨p0, L0, hh0, hl0, hc0, hlt0⟩ tie (le_refl (fuelBound g.node_))
  have hE : edgesOf g1.node_ = edgesOf g.node_ := edgesOf_of_fixed_eq hfix
  have hne : costOf g1.node_ e ≠ INT_MAX := by
    have := hopt p0 L0 hh0 hl0 (by rw [pathCost_congr hE]; exact hc0)
    exact ne_of_lt (lt_of_le_of_lt this hlt0)
  refine ⟨Graph.stored rnd g1, FindPathF_of_bound hrnd hinf hW hfW tie hf hfp, ?_, p, hpath,
    htp.head, htp.last, ?_, ?_⟩
  · simp only [Graph.stored]
    rw [edgesOf_stored, hE]
  · simp only [Graph.stored]
    rw [pathCost_congr (edgesOf_stored g1.node_), costOf_stored hne]
    exact hcost
  · intro p1 L1 h1 h2 h3
    simp only [Graph.stored] at h3 ⊢
    rw [pathCost_congr (edgesOf_stored g1.node_)] at h3
    rw [costOf_stored hne]
    exact hopt p1 L1 h1 h2 h3

/-- C1, witness: the triangle with edge costs 2, 3 and 7, with the rounding
to `float`. -/
theorem FindPath_stores_cheapest_path_witness :
    ∃ g1, FindPathF roundF32 11 (fun _ => 0) triangleGraph = some g1 ∧
      edgesOf g1.node_ = edgesOf triangleGraph.node_ ∧ StoresCheapestPath g1 0 2 :=
  @FindPath_stores_cheapest_path Int _ roundF32 roundF32_small roundF32_sentinel triangleGraph
    0 2 rfl rfl (by decide) (by decide) (TargetsValid_of_forall (by decide)) 7
    (CostsUpTo_of_forall (by decide)) (by decide) (by decide)
    ⟨[0, 1, 2], 5, rfl, rfl, by decide, by decide⟩ (fun _ => 0) 11 (by decide)

/-- C2, counterexample, in the `float` arithmetic of the code. On the line of
three nodes with the edge costs 2147483520 and 64 no edge cost is negative and
the end node can be reached from the start node, over a path that costs
2147483584, less than `INT_MAX`. The sum of 2147483520 and 64 is rounded to
`2 ^ 31`, which is what `FindPath` stores for `INT_MAX`, so the end node is
never relaxed: for every tie-breaking and every number of iterations that lets
`FindPath` return, `path_node_` is a null pointer followed by the end node;
it does not start with the start node and holds a null entry. -/
theorem FindPath_sentinel_counterexample :
    nearSentinelGraph.start_node_ = some 0 ∧ nearSentinelGraph.end_node_ = some 2 ∧
    TargetsValid nearSentinelGraph.node_ ∧ NonNegCosts nearSentinelGraph.node_ ∧
    Reach nearSentinelGraph.node_ 0 2 ∧
    pathCost nearSentinelGraph.node_ [0, 1, 2] = some 2147483584 ∧
    (2147483584 : Int) < INT_MAX ∧
    ∀ (tie : Nat → Nat) (fuel : Nat), 3 ≤ fuel →
      ∃ g1, FindPathF roundF32 fuel tie nearSentinelGraph = some g1 ∧
        g1.path_node_ = [none, some 2] ∧ ¬ StoresSimplePath g1 0 2 := by
  have r0 : roundF32 2147483647 = 2147483648 := by decide
  have r1 : roundF32 2147483520 = 2147483520 := by decide
  have r2 : roundF32 4294967040 = 4294967040 := by decide
  have r3 : roundF32 2147483584 = 2147483648 := by decide
  refine ⟨rfl, rfl, TargetsValid_of_forall (by decide), NonNegCosts_of_forall (by decide), ?_,
    by decide, by decide, ?_⟩
  · exact Relation.ReflTransGen.trans
      (Relation.ReflTransGen.single
        ⟨⟨0, 1, 2147483520⟩, by simp [edgesOf, nearSentinelGraph], rfl⟩)
      (Relation.ReflTransGen.single ⟨⟨1, 2, 64⟩, by simp [edgesOf, nearSentinelGraph], rfl⟩)
  · intro tie fuel hf
    obtain ⟨f, rfl⟩ : ∃ f, fuel = f + 3 := ⟨fuel - 3, by omega⟩
    have hrun : (FindPathF roundF32 (f + 3) tie nearSentinelGraph).map Graph.path_node_
        = some [none, some 2] := by
      simp [FindPathF, nearSentinelGraph, relaxLoopF, topIdx_singleton, relaxEdgesF, relaxEdgeF,
        Node.new, INT_MAX, backtrack, setOnPath, Graph.new, r0, r1, r2, r3]
    obtain ⟨g1, hg1, hpath⟩ := Option.map_eq_some'.1 hrun
    refine ⟨g1, hg1, hpath, ?_⟩
    rintro ⟨p, hp, _⟩
    rw [hpath] at hp
    cases p with
    | nil => simp at hp
    | cons a rest => simp at hp

/-- C2, as amended, in the `float` arithmetic of the code, where `rnd` is the
rounding to `float`: it keeps every natural number up to `2 ^ 24`, and the
sentinel it makes of `INT_MAX` is above `2 ^ 24`. For every graph whose edge
costs are natural numbers up to `W` with `fuelBound * W` at most `2 ^ 24`, so
that no sum rounds, every start node `s` and end node `e` with `s ≠ e` such
that some path from `s` to `e` costs less than `INT_MAX`, however the priority
queue breaks ties, and for every number of iterations from `fuelBound` on:
`FindPath` returns; afterwards `path_node_` has `s` as its first
and `e` as its last element, holds no null entry and no node twice, and each
node of it can be entered from the one before over an edge of the graph. -/
theorem FindPath_stores_simple_path {rnd : α → α}
    (hrnd : ∀ j : Nat, j ≤ 2 ^ 24 → rnd (j : α) = (j : α))
    (hinf : (((2 ^ 24 : Nat) : Nat) : α) < rnd INT_MAX) {g : Graph α} {s e : Nat}
    (hs : g.start_node_ = some s) (he : g.end_node_ = some e)
    (hsn : s < g.node_.length) (hen : e < g.node_.length)
    (hval : TargetsValid g.node_) {W : Nat} (hW : CostsUpTo W g.node_)
    (hfW : fuelBound g.node_ * W ≤ 2 ^ 24) (hse : s ≠ e)
    (hreach : ∃ p L, p.head? = some s ∧ p.getLast? = some e ∧
      pathCost g.node_ p = some L ∧ L < INT_MAX)
    (tie : Nat → Nat) (fuel : Nat) (hf : fuelBound g.node_ ≤ fuel) :
    ∃ g1, FindPathF rnd fuel tie g = some g1 ∧ edgesOf g1.node_ = edgesOf g.node_ ∧
      StoresSimplePath g1 s e := by
  obtain ⟨g1, p, hfp, hpath, hfix, htp, hnd, _, hch, _⟩ :=
    FindPath_reach hs he hsn hen hval (NonNegCosts_of_CostsUpTo hW) (fun h => hse h.symm)
      hreach tie (le_refl (fuelBound g.node_))
  have hE : edgesOf g1.node_ = edgesOf g.node_ := edgesOf_of_fixed_eq hfix
  have hE2 : edgesOf (Graph.stored rnd g1).node_ = edgesOf g1.node_ := edgesOf_stored g1.node_
  refine ⟨Graph.stored rnd g1, FindPathF_of_bound hrnd hinf hW hfW tie hf hfp, hE2.trans hE,
    p, hpath, htp.head, htp.last, hnd, ?_⟩
  refine List.Chain'.imp ?_ hch
  intro u v huv
  obtain ⟨e1, he1, hn⟩ := huv
  exact ⟨e1, by rw [hE2]; exact he1, hn⟩

/-- C2, witness: the triangle with edge costs 2, 3 and 7, with the rounding
to `float`. -/
theorem FindPath_stores_simple_path_witness :
    ∃ g1, FindPathF roundF32 11 (fun _ => 1) triangleGraph = some g1 ∧
      edgesOf g1.node_ = edgesOf triangleGraph.node_ ∧ StoresSimplePath g1 0 2 :=
  @FindPath_stores_simple_path Int _ roundF32 roundF32_small roundF32_sentinel triangleGraph
    0 2 rfl rfl (by decide) (by decide) (TargetsValid_of_forall (by decide)) 7
    (CostsUpTo_of_forall (by decide)) (by decide) (by decide)
    ⟨[0, 1, 2], 5, rfl, rfl, by decide, by decide⟩ (fun _ => 1) 11 (by decide)

end ClaimsPath

/-! ## Edges (`Node::AddNeighbor`) -/

section ClaimsEdges

variable {α : Type} [LinearOrderedCommRing α]

/-- C3. For distinct nodes `a` and `b` and every cost `w`, the call
`a->AddNeighbor(b, w)` returns; afterwards the adjacency list of `a` is the
list before followed by the one edge `(a, b, w)`, the adjacency list of `b` is
the list before followed by the one edge `(b, a, w)`, nothing else of the two
nodes has changed, and every other node is as before. -/
theorem AddNeighbor_appends {nodes : List (Node α)} {a b : Nat} {na nb : Node α} (w : α)
    (hab : a ≠ b) (ha : nodes[a]? = some na) (hb : nodes[b]? = some nb) :
    ∃ nodes2, AddNeighbor nodes a b w = some nodes2 ∧ nodes2.length = nodes.length ∧
      nodes2[a]? = some { na with edge_ := na.edge_ ++ [⟨a, b, w⟩] } ∧
      nodes2[b]? = some { nb with edge_ := nb.edge_ ++ [⟨b, a, w⟩] } ∧
      (edgesOf nodes2 a).length = (edgesOf nodes a).length + 1 ∧
      (edgesOf nodes2 b).length = (edgesOf nodes b).length + 1 ∧
      ∀ u, u ≠ a → u ≠ b → nodes2[u]? = nodes[u]? := by
  have hal : a < nodes.length := by
    rcases List.getElem?_eq_some.1 ha with ⟨hlt, _⟩
    exact hlt
  have hbl : b < nodes.length := by
    rcases List.getElem?_eq_some.1 hb with ⟨hlt, _⟩
    exact hlt
  obtain ⟨nodes2, h⟩ := AddNeighbor_isSome w hal hbl
  have hba : b ≠ a := fun h1 => hab h1.symm
  refine ⟨nodes2, h, AddNeighbor_length h, ?_, ?_, ?_, ?_, ?_⟩
  · rw [AddNeighbor_get h, ha]
    simp [hab]
  · rw [AddNeighbor_get h, hb]
    simp [hba]
  · rw [AddNeighbor_degree h]
    simp [hab]
  · rw [AddNeighbor_degree h]
    simp [hba]
  · intro u hua hub
    rw [AddNeighbor_get h]
    cases nodes[u]? with
    | none => rfl
    | some n => simp [hua, hub]

/-- C3, witness: two fresh nodes joined at cost 5. -/
theorem AddNeighbor_appends_witness :
    ∃ nodes2, AddNeighbor [(Node.new 0 0 0 : Node Int), Node.new 1 1 0] 0 1 5 = some nodes2 ∧
      nodes2.length = [(Node.new 0 0 0 : Node Int), Node.new 1 1 0].length ∧
      nodes2[0]? = some { (Node.new 0 0 0 : Node Int) with
        edge_ := (Node.new 0 0 0 : Node Int).edge_ ++ [⟨0, 1, 5⟩] } ∧
      nodes2[1]? = some { (Node.new 1 1 0 : Node Int) with
        edge_ := (Node.new 1 1 0 : Node Int).edge_ ++ [⟨1, 0, 5⟩] } ∧
      (edgesOf nodes2 0).length =
        (edgesOf [(Node.new 0 0 0 : Node Int), Node.new 1 1 0] 0).length + 1 ∧
      (edgesOf nodes2 1).length =
        (edgesOf [(Node.new 0 0 0 : Node Int), Node.new 1 1 0] 1).length + 1 ∧
      ∀ u, u ≠ 0 → u ≠ 1 → nodes2[u]? = [(Node.new 0 0 0 : Node Int), Node.new 1 1 0][u]? :=
  @AddNeighbor_appends Int _ [(Node.new 0 0 0 : Node Int), Node.new 1 1 0] 0 1 _ _
    5 (by decide) rfl rfl

/-- C4. Edge symmetry (every stored edge has the node that stores it as source,
and the edge `(u, v, w)` occurs in the list of `u` as often as `(v, u, w)` in
the list of `v`) is preserved by every call of `AddNeighbor` that returns, and
it holds for every graph that `BuildSimpleGraph` or `BuildGrid` returns for a
graph without nodes and for every output graph that `BuildMaze` returns for an
output graph without nodes. -/
theorem EdgeSym_invariant :
    (∀ (nodes nodes2 : List (Node α)) (a b : Nat) (w : α),
      AddNeighbor nodes a b w = some nodes2 → EdgeSym nodes → EdgeSym nodes2) ∧
    (∀ (fuel : Nat) (tie : Nat → Nat) (node_sprite edge_sprite : Option (GameObject α))
      (g g1 : Graph α), g.node_ = [] →
      BuildSimpleGraph fuel tie node_sprite edge_sprite g = some g1 → EdgeSym g1.node_) ∧
    (∀ (fuel : Nat) (tie rand : Nat → Nat) (cols rows : Nat)
      (disp_x disp_y start_x start_y viewport_height : α)
      (node_sprite edge_sprite : Option (GameObject α)) (g g1 : Graph α), g.node_ = [] →
      BuildGrid fuel tie rand cols rows disp_x disp_y start_x start_y viewport_height
        node_sprite edge_sprite g = some g1 → EdgeSym g1.node_) ∧
    (∀ (fuel : Nat) (tie : Nat → Nat) (shuffle : Nat → List Nat → List Nat)
      (g output : Graph α) (r : Graph α × Graph α), output.node_ = [] →
      BuildMaze fuel tie shuffle g output = some r → EdgeSym r.2.node_) :=
  ⟨fun _ _ _ _ _ h hsym => AddNeighbor_EdgeSym h hsym,
   fun _ _ _ _ _ _ hg h => BuildSimpleGraph_EdgeSym hg h,
   fun _ _ _ _ _ _ _ _ _ _ _ _ _ _ hg h => BuildGrid_EdgeSym hg h,
   fun _ _ _ _ _ _ hout h => BuildMaze_EdgeSym hout h⟩

/-- C4, witness: the graphs that the three builders return for small inputs
are edge-symmetric, and so is the result of one more `AddNeighbor`. -/
theorem EdgeSym_invariant_witness :
    (∃ g1, BuildSimpleGraph 20 (fun _ => 0) none none (Graph.new : Graph Int) = some g1 ∧
      EdgeSym g1.node_ ∧
      ∃ nodes2, AddNeighbor g1.node_ 0 4 9 = some nodes2 ∧ EdgeSym nodes2) ∧
    (∃ g1, BuildGrid 30 (fun _ => 0) (fun k => k) 2 2 1 1 0 0 4 none none
      (Graph.new : Graph Int) = some g1 ∧ EdgeSym g1.node_) ∧
    (∃ r, BuildMaze 20 (fun _ => 0) keepOrder triangleGraph (Graph.new : Graph Int) = some r ∧
      EdgeSym r.2.node_) := by
  obtain ⟨hadd, hsimple, hgrid, hmaze⟩ := EdgeSym_invariant (α := Int)
  refine ⟨?_, ?_, ?_⟩
  · have hb : (BuildSimpleGraph 20 (fun _ => 0) none none (Graph.new : Graph Int)).isSome
        = true := by decide
    obtain ⟨g1, hg1⟩ := Option.isSome_iff_exists.1 hb
    have hsym := hsimple _ _ _ _ _ g1 rfl hg1
    have hlen : g1.node_.length = 5 := by
      have : (BuildSimpleGraph 20 (fun _ => 0) none none (Graph.new : Graph Int)).map
          (fun g => g.node_.length) = some 5 := by decide
      rw [hg1] at this
      simpa using this
    obtain ⟨nodes2, hn2⟩ := @AddNeighbor_isSome Int _ g1.node_ 0 4 9
      (by omega) (by omega)
    exact ⟨g1, hg1, hsym, nodes2, hn2, hadd _ _ _ _ _ hn2 hsym⟩
  · have hb : (BuildGrid 30 (fun _ => 0) (fun k => k) 2 2 1 1 0 0 4 none none
        (Graph.new : Graph Int)).isSome = true := by decide
    obtain ⟨g1, hg1⟩ := Option.isSome_iff_exists.1 hb
    exact ⟨g1, hg1, hgrid _ _ _ _ _ _ _ _ _ _ _ _ _ g1 rfl hg1⟩
  · have hb : (BuildMaze 20 (fun _ => 0) keepOrder triangleGraph
        (Graph.new : Graph Int)).isSome = true := by decide
    obtain ⟨r, hr⟩ := Option.isSome_iff_exists.1 hb
    exact ⟨r, hr, hmaze _ _ _ _ _ r rfl hr⟩

end ClaimsEdges

/-! ## The maze (`Graph::BuildMaze`) -/

section ClaimsMaze

variable {α : Type} [LinearOrderedCommRing α]

/-- C5. For a source graph with at least one node, ids equal to indices and
symmetric edges, an output graph without nodes and shuffles that permute:
whenever `BuildMaze` returns, the number of edge records over all output nodes
is twice `n - 1`, where `n` is the number of source nodes that can be reached
from node 0, so the number of undirected edges (half of it) is `n - 1`. The
carving itself returns when it is given more than `2 * size` iterations, and
`BuildMaze` as a whole returns when in addition no edge cost is negative and
its loops are given `3 * size + 2` iterations. -/
theorem BuildMaze_edge_count {g output : Graph α} (hne : 0 < g.node_.length)
    (hids : IdsAreIndices g.node_) (hsym : EdgeSym g.node_) (hout : output.node_ = [])
    {shuffle : Nat → List Nat → List Nat} (hperm : ∀ k l, (shuffle k l).Perm l) :
    (∀ fuel tie r, BuildMaze fuel tie shuffle g output = some r →
      ∃ V : Finset Nat, (∀ v, v ∈ V ↔ Reach g.node_ 0 v) ∧
        totalEdges r.2.node_ = 2 * (V.card - 1) ∧ totalEdges r.2.node_ / 2 = V.card - 1) ∧
    (∀ fuel, 2 * g.node_.length < fuel →
      ∃ r, carveMaze fuel shuffle g.node_ output.node_ = some r) ∧
    (NonNegCosts g.node_ → ∀ fuel, 3 * g.node_.length + 2 ≤ fuel → ∀ tie,
      ∃ r, BuildMaze fuel tie shuffle g output = some r) := by
  obtain ⟨hpart, htotal⟩ := BuildMaze_spec hne hids hout hperm
  refine ⟨?_, ?_, htotal (EdgeSym_targets hsym)⟩
  · intro fuel tie r h
    obtain ⟨V, res⟩ := hpart fuel tie r h
    have := res.total
    exact ⟨V, res.reach, by omega, by omega⟩
  · intro fuel hf
    rw [hout]
    exact carveMaze_isSome hperm hne hids (EdgeSym_targets hsym) hf

/-- C5, witness: the maze of the triangle. -/
theorem BuildMaze_edge_count_witness :
    (∀ fuel tie r, BuildMaze fuel tie keepOrder triangleGraph (Graph.new : Graph Int) = some r →
      ∃ V : Finset Nat, (∀ v, v ∈ V ↔ Reach triangleGraph.node_ 0 v) ∧
        totalEdges r.2.node_ = 2 * (V.card - 1) ∧ totalEdges r.2.node_ / 2 = V.card - 1) ∧
    (∀ fuel, 2 * triangleGraph.node_.length < fuel →
      ∃ r, carveMaze fuel keepOrder triangleGraph.node_ (Graph.new : Graph Int).node_ = some r) ∧
    (NonNegCosts triangleGraph.node_ → ∀ fuel, 3 * triangleGraph.node_.length + 2 ≤ fuel →
      ∀ tie, ∃ r, BuildMaze fuel tie keepOrder triangleGraph (Graph.new : Graph Int) = some r) :=
  @BuildMaze_edge_count Int _ triangleGraph Graph.new (by decide)
    (IdsAreIndices_of_forall (by decide)) (EdgeSym_of_forall (by decide)) rfl
    keepOrder (fun _ l => List.Perm.refl l)

/-- C6. For a source graph with at least one node, ids equal to indices and
symmetric edges, an output graph without nodes and shuffles that permute:
whenever `BuildMaze` returns, every node that can be reached from node 0 in
the source is joined to node 0 in the output by exactly one simple path, and
every edge of the output joins two such nodes. `BuildMaze` returns when in
addition no edge cost is negative and its loops are given `3 * size + 2`
iterations. -/
theorem BuildMaze_spanning_tree {g output : Graph α} (hne : 0 < g.node_.length)
    (hids : IdsAreIndices g.node_) (hsym : EdgeSym g.node_) (hout : output.node_ = [])
    {shuffle : Nat → List Nat → List Nat} (hperm : ∀ k l, (shuffle k l).Perm l) :
    (∀ fuel tie r, BuildMaze fuel tie shuffle g output = some r →
      (∀ v, Reach g.node_ 0 v → ∃! p, SimplePath r.2.node_ 0 v p) ∧
      ∀ u, ∀ e ∈ edgesOf r.2.node_ u, Reach g.node_ 0 u ∧ Reach g.node_ 0 e.n2) ∧
    (NonNegCosts g.node_ → ∀ fuel, 3 * g.node_.length + 2 ≤ fuel → ∀ tie,
      ∃ r, BuildMaze fuel tie shuffle g output = some r) := by
  obtain ⟨hpart, htotal⟩ := BuildMaze_spec hne hids hout hperm
  refine ⟨?_, htotal (EdgeSym_targets hsym)⟩
  intro fuel tie r h
  obtain ⟨V, res⟩ := hpart fuel tie r h
  refine ⟨fun v hv => res.tree v ((res.reach v).2 hv), ?_⟩
  intro u e he
  refine ⟨(res.reach u).1 ?_, (res.reach _).1 (res.inside u e he).1⟩
  by_contra hu
  rw [res.outside u hu] at he
  simp at he

/-- C6, witness: the maze of the triangle. -/
theorem BuildMaze_spanning_tree_witness :
    (∀ fuel tie r, BuildMaze fuel tie keepOrder triangleGraph (Graph.new : Graph Int) = some r →
      (∀ v, Reach triangleGraph.node_ 0 v → ∃! p, SimplePath r.2.node_ 0 v p) ∧
      ∀ u, ∀ e ∈ edgesOf r.2.node_ u,
        Reach triangleGraph.node_ 0 u ∧ Reach triangleGraph.node_ 0 e.n2) ∧
    (NonNegCosts triangleGraph.node_ → ∀ fuel, 3 * triangleGraph.node_.length + 2 ≤ fuel →
      ∀ tie, ∃ r, BuildMaze fuel tie keepOrder triangleGraph (Graph.new : Graph Int) = some r) :=
  @BuildMaze_spanning_tree Int _ triangleGraph Graph.new (by decide)
    (IdsAreIndices_of_forall (by decide)) (EdgeSym_of_forall (by decide)) rfl
    keepOrder (fun _ l => List.Perm.refl l)

/-- C7. For a source graph with at least one node and ids equal to indices, an
output graph without nodes and shuffles that permute: whenever `BuildMaze`
returns, every output node has its index as id, and every edge stored in the
output node `u` has source `u` and corresponds to an edge of the source
between the same two nodes with the same cost. `BuildMaze` returns when in
addition every edge target of the source is a node, no edge cost is negative
and its loops are given `3 * size + 2` iterations. -/
theorem BuildMaze_subgraph {g output : Graph α} (hne : 0 < g.node_.length)
    (hids : IdsAreIndices g.node_) (hout : output.node_ = [])
    {shuffle : Nat → List Nat → List Nat} (hperm : ∀ k l, (shuffle k l).Perm l) :
    (∀ fuel tie r, BuildMaze fuel tie shuffle g output = some r →
      IdsAreIndices r.2.node_ ∧
      ∀ u, ∀ e ∈ edgesOf r.2.node_ u, e.n1 = u ∧ FromSource g.node_ u e) ∧
    (TargetsValid g.node_ → NonNegCosts g.node_ → ∀ fuel, 3 * g.node_.length + 2 ≤ fuel →
      ∀ tie, ∃ r, BuildMaze fuel tie shuffle g output = some r) := by
  obtain ⟨hpart, htotal⟩ := BuildMaze_spec hne hids hout hperm
  refine ⟨?_, htotal⟩
  intro fuel tie r h
  obtain ⟨V, res⟩ := hpart fuel tie r h
  refine ⟨?_, fun u e he => ⟨res.sym.1 u e he, (res.inside u e he).2⟩⟩
  intro k m hk
  have h1 := @get_of_map_eq _ _ _ Node.place g.node_ r.2.node_
    res.out_place k
  rw [hk] at h1
  cases hs : g.node_[k]? with
  | none => simp [hs] at h1
  | some n =>
    simp only [hs, Option.map_some', Option.some.injEq, Node.place, Prod.mk.injEq] at h1
    rw [h1.1]
    exact hids k n hs

/-- C7, witness: the maze of the triangle. -/
theorem BuildMaze_subgraph_witness :
    (∀ fuel tie r, BuildMaze fuel tie keepOrder triangleGraph (Graph.new : Graph Int) = some r →
      IdsAreIndices r.2.node_ ∧
      ∀ u, ∀ e ∈ edgesOf r.2.node_ u, e.n1 = u ∧ FromSource triangleGraph.node_ u e) ∧
    (TargetsValid triangleGraph.node_ → NonNegCosts triangleGraph.node_ →
      ∀ fuel, 3 * triangleGraph.node_.length + 2 ≤ fuel →
      ∀ tie, ∃ r, BuildMaze fuel tie keepOrder triangleGraph (Graph.new : Graph Int) = some r) :=
  @BuildMaze_subgraph Int _ triangleGraph Graph.new (by decide)
    (IdsAreIndices_of_forall (by decide)) rfl keepOrder (fun _ l => List.Perm.refl l)

end ClaimsMaze

/-! ## The grid (`Graph::BuildGrid`) -/

section ClaimsGrid

variable {α : Type} [LinearOrderedCommRing α]

/-- C8. For `cols ≥ 1` and `rows ≥ 1`, on a graph without nodes: whenever
`BuildGrid` returns, the graph has `cols * rows` nodes, the node at index `k`
has id `k`, the node at index `i * cols + j` is the one laid out for row `i`
and column `j`, and no two nodes share an id. `BuildGrid` returns when the
loops of `FindPath` are given enough iterations. -/
theorem BuildGrid_node_ids {cols rows : Nat} (hc : 1 ≤ cols) (hr : 1 ≤ rows) {g : Graph α}
    (hg : g.node_ = []) (rand : Nat → Nat) (disp_x disp_y start_x start_y viewport_height : α)
    (node_sprite edge_sprite : Option (GameObject α)) :
    (∀ fuel tie g1, BuildGrid fuel tie rand cols rows disp_x disp_y start_x start_y
        viewport_height node_sprite edge_sprite g = some g1 →
      g1.node_.length = cols * rows ∧ IdsAreIndices g1.node_ ∧
      (∀ i j, i < rows → j < cols → ∃ n, g1.node_[i * cols + j]? = some n ∧
        n.id_ = ((i * cols + j : Nat) : Int) ∧ n.x_ = start_x + j * disp_x ∧
        n.y_ = viewport_height - start_y - i * disp_y) ∧
      ∀ (k1 k2 : Nat) (n1 n2 : Node α), g1.node_[k1]? = some n1 → g1.node_[k2]? = some n2 →
        n1.id_ = n2.id_ → k1 = k2) ∧
    ∃ N, ∀ fuel, N ≤ fuel → ∀ tie, ∃ g1, BuildGrid fuel tie rand cols rows disp_x disp_y
      start_x start_y viewport_height node_sprite edge_sprite g = some g1 := by
  obtain ⟨nodesG, hinv, hres, htotal⟩ := BuildGrid_full hc hr hg rand disp_x disp_y start_x
    start_y viewport_height node_sprite edge_sprite
  refine ⟨?_, fuelBound nodesG, htotal⟩
  intro fuel tie g1 h
  obtain ⟨hlen, _, _, _, hcell⟩ := hres fuel tie g1 h
  have hids : IdsAreIndices g1.node_ := by
    intro k n hk
    have hlt : k < rows * cols := by
      rcases List.getElem?_eq_some.1 hk with ⟨hlt, _⟩
      rw [hlen] at hlt
      exact hlt
    have hcols : 0 < cols := hc
    have hk2 : k = (k / cols) * cols + k % cols := by
      have := Nat.div_add_mod k cols
      rw [Nat.mul_comm] at this
      omega
    have hdiv : k / cols < rows := by
      rw [Nat.div_lt_iff_lt_mul hcols]
      exact hlt
    obtain ⟨m, hm, hid, _⟩ := hcell (k / cols) (k % cols) hdiv (Nat.mod_lt _ hcols)
    rw [← hk2, hk] at hm
    simp only [Option.some.injEq] at hm
    rw [hm, hid, ← hk2]
  refine ⟨by rw [hlen, Nat.mul_comm], hids, hcell, ?_⟩
  intro k1 k2 n1 n2 h1 h2 heq
  rw [hids k1 n1 h1, hids k2 n2 h2] at heq
  exact_mod_cast heq

/-- C8, witness: a grid of two columns and three rows. -/
theorem BuildGrid_node_ids_witness :
    (∀ fuel tie g1, BuildGrid fuel tie (fun k => k) 2 3 (1 : Int) 1 0 0 4 none none Graph.new
        = some g1 →
      g1.node_.length = 2 * 3 ∧ IdsAreIndices g1.node_ ∧
      (∀ i j, i < 3 → j < 2 → ∃ n, g1.node_[i * 2 + j]? = some n ∧
        n.id_ = ((i * 2 + j : Nat) : Int) ∧ n.x_ = (0 : Int) + (j : Int) * 1 ∧
        n.y_ = (4 : Int) - 0 - (i : Int) * 1) ∧
      ∀ (k1 k2 : Nat) (n1 n2 : Node Int), g1.node_[k1]? = some n1 → g1.node_[k2]? = some n2 →
        n1.id_ = n2.id_ → k1 = k2) ∧
    ∃ N, ∀ fuel, N ≤ fuel → ∀ tie, ∃ g1,
      BuildGrid fuel tie (fun k => k) 2 3 (1 : Int) 1 0 0 4 none none Graph.new = some g1 :=
  @BuildGrid_node_ids Int _ 2 3 (by decide) (by decide) Graph.new rfl
    (fun k => k) 1 1 0 0 4 none none

/-- C9. For `cols ≥ 1` and `rows ≥ 1`, on a graph without nodes and for every
sequence of random values: whenever `BuildGrid` returns, every edge stored in
the node of cell `(i, j)` has that node as source and the node of a cell as
target, and the number of its edges to the node of cell `(i2, j2)` is one when
that cell is the left, right, upper or lower neighbour of `(i, j)` and zero
otherwise (so none to a diagonal cell, to the first cell of the next row, or
to the cell itself). `BuildGrid` returns when the loops of `FindPath` are
given enough iterations. -/
theorem BuildGrid_adjacency {cols rows : Nat} (hc : 1 ≤ cols) (hr : 1 ≤ rows) {g : Graph α}
    (hg : g.node_ = []) (rand : Nat → Nat) (disp_x disp_y start_x start_y viewport_height : α)
    (node_sprite edge_sprite : Option (GameObject α)) :
    (∀ fuel tie g1, BuildGrid fuel tie rand cols rows disp_x disp_y start_x start_y
        viewport_height node_sprite edge_sprite g = some g1 →
      ∀ i j, i < rows → j < cols →
        (∀ e ∈ edgesOf g1.node_ (i * cols + j), e.n1 = i * cols + j ∧
          ∃ i2 j2, i2 < rows ∧ j2 < cols ∧ e.n2 = i2 * cols + j2) ∧
        ∀ i2 j2, i2 < rows → j2 < cols →
          targetCount g1.node_ (i * cols + j) (i2 * cols + j2) =
            if (i2 = i ∧ (j2 = j + 1 ∨ j2 + 1 = j)) ∨ (j2 = j ∧ (i2 = i + 1 ∨ i2 + 1 = i))
            then 1 else 0) ∧
    ∃ N, ∀ fuel, N ≤ fuel → ∀ tie, ∃ g1, BuildGrid fuel tie rand cols rows disp_x disp_y
      start_x start_y viewport_height node_sprite edge_sprite g = some g1 := by
  obtain ⟨nodesG, hinv, hres, htotal⟩ := BuildGrid_full hc hr hg rand disp_x disp_y start_x
    start_y viewport_height node_sprite edge_sprite
  refine ⟨?_, fuelBound nodesG, htotal⟩
  intro fuel tie g1 h i j hi hj
  obtain ⟨_, hE, _⟩ := hres fuel tie g1 h
  refine ⟨?_, ?_⟩
  · intro e he
    rw [hE] at he
    refine ⟨hinv.sym.1 _ e he, e.n2 / cols, e.n2 % cols, ?_, Nat.mod_lt _ hc, ?_⟩
    · have hlt := EdgeSym_targets hinv.sym _ e he
      rw [hinv.len] at hlt
      rw [Nat.div_lt_iff_lt_mul hc]
      exact hlt
    · have := Nat.div_add_mod e.n2 cols
      rw [Nat.mul_comm] at this
      exact this.symm
  · intro i2 j2 hi2 hj2
    unfold targetCount
    rw [hE]
    exact GridInv_count hinv hi hj hi2 hj2

/-- C9, witness: a grid of two columns and three rows. -/
theorem BuildGrid_adjacency_witness :
    (∀ fuel tie g1, BuildGrid fuel tie (fun k => k) 2 3 (1 : Int) 1 0 0 4 none none Graph.new
        = some g1 →
      ∀ i j, i < 3 → j < 2 →
        (∀ e ∈ edgesOf g1.node_ (i * 2 + j), e.n1 = i * 2 + j ∧
          ∃ i2 j2, i2 < 3 ∧ j2 < 2 ∧ e.n2 = i2 * 2 + j2) ∧
        ∀ i2 j2, i2 < 3 → j2 < 2 →
          targetCount g1.node_ (i * 2 + j) (i2 * 2 + j2) =
            if (i2 = i ∧ (j2 = j + 1 ∨ j2 + 1 = j)) ∨ (j2 = j ∧ (i2 = i + 1 ∨ i2 + 1 = i))
            then 1 else 0) ∧
    ∃ N, ∀ fuel, N ≤ fuel → ∀ tie, ∃ g1,
      BuildGrid fuel tie (fun k => k) 2 3 (1 : Int) 1 0 0 4 none none Graph.new = some g1 :=
  @BuildGrid_adjacency Int _ 2 3 (by decide) (by decide) Graph.new rfl
    (fun k => k) 1 1 0 0 4 none none

/-- C10, counterexample. The grid with one column and one row has a single
node; it is a corner of the grid and has no edge, not two. -/
theorem BuildGrid_degrees_counterexample :
    (BuildGrid 3 (fun _ => 0) (fun k => k) 1 1 (1 : Int) 1 0 0 4 none none Graph.new).isSome
      = true ∧
    ∀ fuel tie g1, BuildGrid fuel tie (fun k => k) 1 1 (1 : Int) 1 0 0 4 none none Graph.new
      = some g1 → (edgesOf g1.node_ 0).length = 0 ∧ ¬ GridDegrees 1 1 g1.node_ := by
  refine ⟨by decide, ?_⟩
  intro fuel tie g1 h
  obtain ⟨nodesG, hinv, hres, _⟩ := @BuildGrid_full Int _ 1 1 (le_refl 1)
    (le_refl 1) (Graph.new : Graph Int) rfl (fun k => k) 1 1 0 0 4 none none
  obtain ⟨_, hE, _⟩ := hres fuel tie g1 h
  have hdeg := GridInv_degree hinv (i := 0) (j := 0) (by decide) (by decide)
  simp only [Nat.zero_mul, Nat.zero_add] at hdeg
  have h0 : (edgesOf g1.node_ 0).length = 0 := by
    rw [hE, hdeg]
    decide
  refine ⟨h0, ?_⟩
  intro hclaim
  have := (hclaim 0 0 (by decide) (by decide)).2.1 ⟨Or.inl rfl, Or.inl rfl⟩
  simp only [Nat.zero_mul, Nat.zero_add] at this
  omega

/-- C10, as amended. For `cols ≥ 2` and `rows ≥ 2`, on a graph without nodes:
whenever `BuildGrid` returns, a node in the interior of the grid has 4 edges
in its adjacency list, a corner node has 2, and any other node on the boundary
has 3. `BuildGrid` returns when the loops of `FindPath` are given enough
iterations. -/
theorem BuildGrid_degrees {cols rows : Nat} (hc : 2 ≤ cols) (hr : 2 ≤ rows) {g : Graph α}
    (hg : g.node_ = []) (rand : Nat → Nat) (disp_x disp_y start_x start_y viewport_height : α)
    (node_sprite edge_sprite : Option (GameObject α)) :
    (∀ fuel tie g1, BuildGrid fuel tie rand cols rows disp_x disp_y start_x start_y
        viewport_height node_sprite edge_sprite g = some g1 → GridDegrees cols rows g1.node_) ∧
    ∃ N, ∀ fuel, N ≤ fuel → ∀ tie, ∃ g1, BuildGrid fuel tie rand cols rows disp_x disp_y
      start_x start_y viewport_height node_sprite edge_sprite g = some g1 := by
  obtain ⟨nodesG, hinv, hres, htotal⟩ := @BuildGrid_full _ _ cols rows
    (by omega) (by omega) _ hg rand disp_x disp_y start_x start_y viewport_height node_sprite
    edge_sprite
  refine ⟨?_, fuelBound nodesG, htotal⟩
  intro fuel tie g1 h i j hi hj
  obtain ⟨_, hE, _⟩ := hres fuel tie g1 h
  rw [hE, GridInv_degree hinv hi hj]
  refine ⟨?_, ?_, ?_⟩
  · rintro ⟨⟨a1, a2⟩, ⟨a3, a4⟩⟩
    split_ifs <;> omega
  · rintro ⟨a1, a2⟩
    split_ifs <;> omega
  · intro a
    split_ifs <;> omega

/-- C10, witness: a grid of three columns and three rows. -/
theorem BuildGrid_degrees_witness :
    (∀ fuel tie g1, BuildGrid fuel tie (fun k => k) 3 3 (1 : Int) 1 0 0 4 none none Graph.new
        = some g1 → GridDegrees 3 3 g1.node_) ∧
    ∃ N, ∀ fuel, N ≤ fuel → ∀ tie, ∃ g1,
      BuildGrid fuel tie (fun k => k) 3 3 (1 : Int) 1 0 0 4 none none Graph.new = some g1 :=
  @BuildGrid_degrees Int _ 3 3 (by decide) (by decide) Graph.new rfl
    (fun k => k) 1 1 0 0 4 none none

end ClaimsGrid

/-! ## Degenerate path queries and scratch state (`Graph::FindPath`) -/

section ClaimsDegenerate

variable {α : Type} [LinearOrderedCommRing α]

/-- C12, counterexample. On the triangle with its middle node as start node
and as end node, `FindPath` returns after one iteration and, for every
tie-breaking and every number of iterations that lets it return, stores two
entries, a null pointer followed by the node: not a path that consists of
the one node. -/
theorem FindPath_same_node_counterexample :
    sameNodeGraph.start_node_ = some 1 ∧ sameNodeGraph.end_node_ = some 1 ∧
    (FindPath 1 (fun _ => 0) sameNodeGraph).isSome = true ∧
    ∀ fuel tie g1, FindPath fuel tie sameNodeGraph = some g1 →
      g1.path_node_ = [none, some 1] ∧ g1.path_node_ ≠ [some 1] ∧ costOf g1.node_ 1 = 0 := by
  refine ⟨rfl, rfl, by decide, ?_⟩
  intro fuel tie g1 h
  cases fuel with
  | zero => simp [FindPath, sameNodeGraph, triangleGraph, relaxLoop] at h
  | succ fuel =>
    obtain ⟨g2, h2, hpath, hcost, _⟩ :=
      @FindPath_same_fresh Int _ sameNodeGraph 1 rfl rfl (by decide) rfl tie (fuel + 1)
        (Nat.succ_le_succ (Nat.zero_le fuel))
    rw [h] at h2
    have hg : g1 = g2 := Option.some.inj h2
    subst hg
    refine ⟨hpath, ?_, hcost⟩
    rw [hpath]
    decide

/-- C12, as amended. For a graph and a node `s` of it that is start node and
end node: every call of `FindPath` that returns leaves `s` with cost 0 and
stores a path of at least two entries whose last entry is `s`; and when the
`prev` pointer of `s` is null before the call, the call returns after one
iteration, the path it stores is a null pointer followed by `s`, and `s` is
the only node marked as on the path. -/
theorem FindPath_same_node {g : Graph α} {s : Nat} (hs : g.start_node_ = some s)
    (he : g.end_node_ = some s) (hsn : s < g.node_.length) :
    (∀ fuel tie g1, FindPath fuel tie g = some g1 →
      costOf g1.node_ s = 0 ∧ 2 ≤ g1.path_node_.length ∧
        g1.path_node_.getLast? = some (some s)) ∧
    (prevOf g.node_ s = none → ∀ (tie : Nat → Nat) (fuel : Nat), 1 ≤ fuel →
      ∃ g1, FindPath fuel tie g = some g1 ∧ g1.path_node_ = [none, some s] ∧
        costOf g1.node_ s = 0 ∧ ∀ v, onPathOf g1.node_ v = true ↔ v = s) :=
  ⟨fun _ _ _ h => FindPath_same_returned hs he h,
    fun hprev tie _ hf => FindPath_same_fresh hs he hsn hprev tie hf⟩

/-- C12, witness: the triangle with its middle node as start and end node. -/
theorem FindPath_same_node_witness :
    (∀ fuel tie g1, FindPath fuel tie sameNodeGraph = some g1 →
      costOf g1.node_ 1 = 0 ∧ 2 ≤ g1.path_node_.length ∧
        g1.path_node_.getLast? = some (some 1)) ∧
    (prevOf sameNodeGraph.node_ 1 = none → ∀ (tie : Nat → Nat) (fuel : Nat), 1 ≤ fuel →
      ∃ g1, FindPath fuel tie sameNodeGraph = some g1 ∧ g1.path_node_ = [none, some 1] ∧
        costOf g1.node_ 1 = 0 ∧ ∀ v, onPathOf g1.node_ v = true ↔ v = 1) :=
  @FindPath_same_node Int _ sameNodeGraph 1 rfl rfl (by decide)

/-- C13, counterexample. In the graph of two nodes without an edge the end
node cannot be reached from the start node; `FindPath` returns, and for every
tie-breaking and every number of iterations that lets it return the path it
stores is a null pointer followed by the end node, not the start node
followed by the end node. -/
theorem FindPath_unreachable_counterexample :
    isolatedGraph.start_node_ = some 0 ∧ isolatedGraph.end_node_ = some 1 ∧
    ¬ Reach isolatedGraph.node_ 0 1 ∧
    (FindPath 2 (fun _ => 0) isolatedGraph).isSome = true ∧
    ∀ fuel tie g1, FindPath fuel tie isolatedGraph = some g1 →
      g1.path_node_ = [none, some 1] ∧ g1.path_node_ ≠ [some 0, some 1] := by
  refine ⟨rfl, rfl, not_reach_of_no_edges rfl (by decide), by decide, ?_⟩
  intro fuel tie g1 h
  have hpath : g1.path_node_ = [none, some 1] := by
    cases fuel with
    | zero => simp [FindPath, isolatedGraph, relaxLoop] at h
    | succ fuel =>
      cases fuel with
      | zero =>
        simp [FindPath, isolatedGraph, relaxLoop, topIdx_singleton, relaxEdges, Node.new] at h
      | succ fuel =>
        simp [FindPath, isolatedGraph, relaxLoop, topIdx_singleton, relaxEdges, Node.new,
          backtrack, setOnPath] at h
        rw [← h]
  refine ⟨hpath, ?_⟩
  rw [hpath]
  decide

/-- C13, as amended. For a graph with valid edge targets and no negative edge
cost, a start node `s` and an end node `e` that cannot be reached from `s`
and whose `prev` pointer is null before the call: `FindPath` returns when its
loops are given `fuelBound` iterations, it marks no node but `s` and `e` as on
the path, the path it stores is a null pointer followed by `e`, and `e` keeps
the cost `INT_MAX`. -/
theorem FindPath_unreachable_end {g : Graph α} {s e : Nat} (hs : g.start_node_ = some s)
    (he : g.end_node_ = some e) (hsn : s < g.node_.length) (hen : e < g.node_.length)
    (hval : TargetsValid g.node_) (hnn : NonNegCosts g.node_)
    (hun : ¬ Reach g.node_ s e) (hprev : prevOf g.node_ e = none)
    (tie : Nat → Nat) (fuel : Nat) (hf : fuelBound g.node_ ≤ fuel) :
    ∃ g1, FindPath fuel tie g = some g1 ∧ g1.path_node_ = [none, some e] ∧
      (∀ v, onPathOf g1.node_ v = true ↔ (v = s ∨ v = e)) ∧
      costOf g1.node_ e = INT_MAX :=
  FindPath_unreached hs he hsn hen hval hnn hun hprev tie hf

/-- C13, witness: two nodes without an edge. -/
theorem FindPath_unreachable_end_witness :
    ∃ g1, FindPath 4 (fun _ => 0) isolatedGraph = some g1 ∧ g1.path_node_ = [none, some 1] ∧
      (∀ v, onPathOf g1.node_ v = true ↔ (v = 0 ∨ v = 1)) ∧
      costOf g1.node_ 1 = INT_MAX :=
  @FindPath_unreachable_end Int _ isolatedGraph 0 1 rfl rfl (by decide) (by decide)
    (TargetsValid_of_forall (by decide)) (NonNegCosts_of_forall (by decide))
    (not_reach_of_no_edges rfl (by decide)) rfl (fun _ => 0) 4 (by decide)

end ClaimsDegenerate

section ClaimsScratch

variable {α : Type} [LinearOrderedCommRing α]

/-- C14, counterexample, in the `float` arithmetic of the code. In the graph
`freshSplitGraph` the end node cannot be reached from the start node, the
third node; `FindPath` returns, and the start node is marked as on the path
although it is no entry of the path that the call has stored. On the line of
three nodes with the edge costs 2147483520 and 64 the end node can be reached
at a cost below `INT_MAX`, but the sum is rounded to the stored sentinel, the
end node is never relaxed, and again the start node is marked without being an
entry of the stored path. Both for every tie-breaking and every number of
iterations that lets `FindPath` return. -/
theorem FindPath_start_flag_counterexample :
    (freshSplitGraph.start_node_ = some 2 ∧
      ∀ (tie : Nat → Nat) (fuel : Nat), 2 ≤ fuel →
        ∃ g1, FindPathF roundF32 fuel tie freshSplitGraph = some g1 ∧
          onPathOf g1.node_ 2 = true ∧ some 2 ∉ g1.path_node_ ∧
          ¬ (onPathOf g1.node_ 2 = true ↔ some 2 ∈ g1.path_node_)) ∧
    (nearSentinelGraph.start_node_ = some 0 ∧ nearSentinelGraph.end_node_ = some 2 ∧
      NonNegCosts nearSentinelGraph.node_ ∧
      pathCost nearSentinelGraph.node_ [0, 1, 2] = some 2147483584 ∧
      (2147483584 : Int) < INT_MAX ∧
      ∀ (tie : Nat → Nat) (fuel : Nat), 3 ≤ fuel →
        ∃ g1, FindPathF roundF32 fuel tie nearSentinelGraph = some g1 ∧
          onPathOf g1.node_ 0 = true ∧ some 0 ∉ g1.path_node_ ∧
          ¬ (onPathOf g1.node_ 0 = true ↔ some 0 ∈ g1.path_node_)) := by
  have r0 : roundF32 2147483647 = 2147483648 := by decide
  have r1 : roundF32 2147483520 = 2147483520 := by decide
  have r2 : roundF32 4294967040 = 4294967040 := by decide
  have r3 : roundF32 2147483584 = 2147483648 := by decide
  refine ⟨⟨rfl, ?_⟩, rfl, rfl, NonNegCosts_of_forall (by decide), by decide, by decide, ?_⟩
  · intro tie fuel hf
    obtain ⟨f, rfl⟩ : ∃ f, fuel = f + 2 := ⟨fuel - 2, by omega⟩
    have hrun : (FindPathF roundF32 (f + 2) tie freshSplitGraph).map
        (fun g => (g.path_node_, onPathOf g.node_ 2)) = some ([none, some 1], true) := by
      simp [FindPathF, freshSplitGraph, splitGraph, relaxLoopF, topIdx_singleton, relaxEdgesF,
        Node.new, INT_MAX, backtrack, setOnPath, Graph.new, onPathOf, r0]
    obtain ⟨g1, hg1, hres⟩ := Option.map_eq_some'.1 hrun
    simp only [Prod.mk.injEq] at hres
    obtain ⟨hpath, hon⟩ := hres
    have hnot : some 2 ∉ g1.path_node_ := by
      rw [hpath]
      decide
    exact ⟨g1, hg1, hon, hnot, fun hiff => hnot (hiff.1 hon)⟩
  · intro tie fuel hf
    obtain ⟨f, rfl⟩ : ∃ f, fuel = f + 3 := ⟨fuel - 3, by omega⟩
    have hrun : (FindPathF roundF32 (f + 3) tie nearSentinelGraph).map
        (fun g => (g.path_node_, onPathOf g.node_ 0)) = some ([none, some 2], true) := by
      simp [FindPathF, nearSentinelGraph, relaxLoopF, topIdx_singleton, relaxEdgesF, relaxEdgeF,
        Node.new, INT_MAX, backtrack, setOnPath, Graph.new, onPathOf, r0, r1, r2, r3]
    obtain ⟨g1, hg1, hres⟩ := Option.map_eq_some'.1 hrun
    simp only [Prod.mk.injEq] at hres
    obtain ⟨hpath, hon⟩ := hres
    have hnot : some 0 ∉ g1.path_node_ := by
      rw [hpath]
      decide
    exact ⟨g1, hg1, hon, hnot, fun hiff => hnot (hiff.1 hon)⟩

/-- C14, as amended, in the `float` arithmetic of the code, where `rnd` is
the rounding to `float`. After every call of `FindPath` that returns, whatever
flags and pointers earlier calls have left and whatever `rnd` does, a node is
marked as on the path exactly when it is the start node or an entry of the
path that the call has stored. When `rnd` keeps every natural number up to
`2 ^ 24` and makes a sentinel above `2 ^ 24` of `INT_MAX`, the edge costs are
natural numbers up to `W` with `fuelBound * W` at most `2 ^ 24`, so that no
sum rounds, and the end node is not the start node and can be reached from it
at a total cost below `INT_MAX`: with `fuelBound` iterations or more the call
returns and a node is marked exactly when it is an entry of the stored
path. -/
theorem FindPath_on_path_flags {rnd : α → α} {g : Graph α} {s : Nat}
    (hs : g.start_node_ = some s) :
    (∀ fuel tie g1, FindPathF rnd fuel tie g = some g1 →
      ∀ v, onPathOf g1.node_ v = true ↔ (some v ∈ g1.path_node_ ∨ v = s)) ∧
    (∀ e, g.end_node_ = some e → s < g.node_.length → e < g.node_.length → e ≠ s →
      TargetsValid g.node_ → (∀ j : Nat, j ≤ 2 ^ 24 → rnd (j : α) = (j : α)) →
      (((2 ^ 24 : Nat) : Nat) : α) < rnd INT_MAX → ∀ W, CostsUpTo W g.node_ →
      fuelBound g.node_ * W ≤ 2 ^ 24 →
      (∃ p L, p.head? = some s ∧ p.getLast? = some e ∧ pathCost g.node_ p = some L ∧
        L < INT_MAX) →
      ∀ (tie : Nat → Nat) (fuel : Nat), fuelBound g.node_ ≤ fuel →
        ∃ g1, FindPathF rnd fuel tie g = some g1 ∧
          ∀ v, onPathOf g1.node_ v = true ↔ some v ∈ g1.path_node_) := by
  refine ⟨fun _ _ _ h => FindPathF_marks hs h, ?_⟩
  intro e he hsn hen hes hval hrnd hinf W hW hfW hreach tie fuel hf
  obtain ⟨g1, p, h, hpath, _, _, _, _, _, _, _, hon⟩ :=
    FindPath_reach hs he hsn hen hval (NonNegCosts_of_CostsUpTo hW) hes hreach tie
      (le_refl (fuelBound g.node_))
  refine ⟨Graph.stored rnd g1, FindPathF_of_bound hrnd hinf hW hfW tie hf h, ?_⟩
  intro v
  simp only [Graph.stored]
  rw [onPathOf_stored, hon, hpath]
  simp

/-- C14, witness: the triangle with edge costs 2, 3 and 7, with the rounding
to `float`. -/
theorem FindPath_on_path_flags_witness :
    (∀ fuel tie g1, FindPathF roundF32 fuel tie triangleGraph = some g1 →
      ∀ v, onPathOf g1.node_ v = true ↔ (some v ∈ g1.path_node_ ∨ v = 0)) ∧
    ∃ g1, FindPathF roundF32 11 (fun _ => 0) triangleGraph = some g1 ∧
      ∀ v, onPathOf g1.node_ v = true ↔ some v ∈ g1.path_node_ :=
  ⟨(@FindPath_on_path_flags Int _ roundF32 triangleGraph 0 rfl).1,
    (@FindPath_on_path_flags Int _ roundF32 triangleGraph 0 rfl).2 2 rfl (by decide) (by decide)
      (by decide) (TargetsValid_of_forall (by decide)) roundF32_small roundF32_sentinel 7
      (CostsUpTo_of_forall (by decide)) (by decide)
      ⟨[0, 1, 2], 5, rfl, rfl, by decide, by decide⟩ (fun _ => 0) 11 (by decide)⟩

/-- C15, the defect. `FindPath` resets `cost` and `on_path` of every node but
not `prev`. The graph `staleSplitGraph` is what a call of `FindPath` on
`splitGraph` followed by `SetStartNode` leaves; it differs from
`freshSplitGraph` in scratch fields and in the old path only. On the fresh
graph `FindPath` stores a null pointer followed by the end node and marks the
start and the end node; on the stale graph it walks the `prev` pointer that
the earlier call has left in the end node, stores the first node as well and
marks it. -/
theorem FindPath_stale_prev :
    (∀ tie, (FindPath 3 tie splitGraph).map (fun g => { g with start_node_ := some 2 }) =
      some staleSplitGraph) ∧
    staleSplitGraph.node_.map Node.fixed = freshSplitGraph.node_.map Node.fixed ∧
    staleSplitGraph.start_node_ = freshSplitGraph.start_node_ ∧
    staleSplitGraph.end_node_ = freshSplitGraph.end_node_ ∧
    (FindPath 3 (fun _ => 0) freshSplitGraph).isSome = true ∧
    (FindPath 3 (fun _ => 0) staleSplitGraph).isSome = true ∧
    (∀ fuel tie g1, FindPath fuel tie freshSplitGraph = some g1 →
      g1.path_node_ = [none, some 1] ∧ g1.node_.map Node.on_path_ = [false, true, true]) ∧
    (∀ fuel tie g1, FindPath fuel tie staleSplitGraph = some g1 →
      g1.path_node_ = [none, some 0, some 1] ∧
        g1.node_.map Node.on_path_ = [true, true, true]) := by
  refine ⟨?_, by decide, rfl, rfl, by decide, by decide, ?_, ?_⟩
  · intro tie
    simp [FindPath, splitGraph, relaxLoop, topIdx_singleton, relaxEdges, relaxEdge, Node.new,
      INT_MAX, backtrack, setOnPath, staleSplitGraph, Graph.new]
  · intro fuel tie g1 h
    cases fuel with
    | zero => simp [FindPath, freshSplitGraph, splitGraph, relaxLoop] at h
    | succ fuel =>
      cases fuel with
      | zero =>
        simp [FindPath, freshSplitGraph, splitGraph, relaxLoop, topIdx_singleton, relaxEdges,
          Node.new] at h
      | succ fuel =>
        simp [FindPath, freshSplitGraph, splitGraph, relaxLoop, topIdx_singleton, relaxEdges,
          Node.new, backtrack, setOnPath] at h
        rw [← h]
        exact ⟨rfl, rfl⟩
  · intro fuel tie g1 h
    cases fuel with
    | zero => simp [FindPath, staleSplitGraph, relaxLoop] at h
    | succ fuel =>
      cases fuel with
      | zero =>
        simp [FindPath, staleSplitGraph, relaxLoop, topIdx_singleton, relaxEdges,
          Node.new] at h
      | succ fuel =>
        simp [FindPath, staleSplitGraph, relaxLoop, topIdx_singleton, relaxEdges,
          Node.new, backtrack, setOnPath] at h
        rw [← h]
        exact ⟨rfl, rfl⟩

end ClaimsScratch

/-! ## Edge costs of a grid (`Graph::BuildGrid`) -/

section ClaimsGridCosts

variable {α : Type} [LinearOrderedCommRing α]

/-- C11. For `cols ≥ 1` and `rows ≥ 1`, on a graph without nodes and for every
sequence of values that `rand` returns: in every graph that `BuildGrid`
returns, the cost of every edge is an integer between 10 and 15, so no edge
cost is negative; and `BuildGrid` returns when the loops of `FindPath` are
given enough iterations. -/
theorem BuildGrid_edge_costs {cols rows : Nat} (hc : 1 ≤ cols) (hr : 1 ≤ rows) {g : Graph α}
    (hg : g.node_ = []) (rand : Nat → Nat) (disp_x disp_y start_x start_y viewport_height : α)
    (node_sprite edge_sprite : Option (GameObject α)) :
    (∀ fuel tie g1, BuildGrid fuel tie rand cols rows disp_x disp_y start_x start_y
        viewport_height node_sprite edge_sprite g = some g1 →
      (∀ u, ∀ e ∈ edgesOf g1.node_ u,
        ∃ k : Nat, e.cost = (k : α) ∧ 10 ≤ k ∧ k ≤ 15 ∧ (10 : α) ≤ e.cost ∧ e.cost ≤ 15) ∧
      NonNegCosts g1.node_) ∧
    ∃ N, ∀ fuel, N ≤ fuel → ∀ tie, ∃ g1, BuildGrid fuel tie rand cols rows disp_x disp_y
      start_x start_y viewport_height node_sprite edge_sprite g = some g1 := by
  obtain ⟨nodesG, hinv, hres, htotal⟩ := @BuildGrid_full _ _ cols rows hc hr _ hg rand
    disp_x disp_y start_x start_y viewport_height node_sprite edge_sprite
  refine ⟨?_, fuelBound nodesG, htotal⟩
  intro fuel tie g1 h
  obtain ⟨_, hE, _⟩ := hres fuel tie g1 h
  have hw : ∀ u, ∀ e ∈ edgesOf g1.node_ u,
      ∃ k : Nat, e.cost = (k : α) ∧ 10 ≤ k ∧ k ≤ 15 ∧ (10 : α) ≤ e.cost ∧ e.cost ≤ 15 := by
    intro u e he
    rw [hE] at he
    obtain ⟨r, hr1⟩ := hinv.weights u e he
    have hrange := @randWeight_range α _ r
    refine ⟨10 + r % 6, ?_, by omega, ?_, ?_, ?_⟩
    · rw [hr1]
      rfl
    · have := Nat.mod_lt r (by decide : 0 < 6)
      omega
    · rw [hr1]
      exact hrange.1
    · rw [hr1]
      exact hrange.2
  refine ⟨hw, ?_⟩
  intro u e he
  obtain ⟨_, _, _, _, h10, _⟩ := hw u e he
  exact le_trans (by norm_num) h10

/-- C11, witness: the grid with two columns and two rows. -/
theorem BuildGrid_edge_costs_witness :
    (∀ fuel tie g1, BuildGrid fuel tie (fun k => 7 * k) 2 2 (1 : Int) 1 0 0 4 none none
        Graph.new = some g1 →
      (∀ u, ∀ e ∈ edgesOf g1.node_ u,
        ∃ k : Nat, e.cost = (k : Int) ∧ 10 ≤ k ∧ k ≤ 15 ∧ (10 : Int) ≤ e.cost ∧ e.cost ≤ 15) ∧
      NonNegCosts g1.node_) ∧
    ∃ N, ∀ fuel, N ≤ fuel → ∀ tie, ∃ g1,
      BuildGrid fuel tie (fun k => 7 * k) 2 2 (1 : Int) 1 0 0 4 none none Graph.new = some g1 :=
  @BuildGrid_edge_costs Int _ 2 2 (by decide) (by decide) Graph.new rfl
    (fun k => 7 * k) 1 1 0 0 4 none none

end ClaimsGridCosts

/-! ## Picking a node (`Graph::SelectNode`) -/

section ClaimsSelect

variable {β : Type} [LinearOrderedField β]

/-- C16. For every graph, window size and zoom: `SelectNode` returns no node
when the pixel position has `x < 0`, `x > window_width`, `y < 0` or
`y > window_height`; and a position with `0 ≤ x ≤ window_width` and
`0 ≤ y ≤ window_height`, borders included, passes this test, so that the
result is that of the loop over the nodes. -/
theorem SelectNode_outside_window (g : Graph β) (x y : β) (window_width window_height : Int)
    (camera_zoom : β) :
    ((x < 0 ∨ x > (window_width : β) ∨ y < 0 ∨ y > (window_height : β)) →
      SelectNode g x y window_width window_height camera_zoom = some none) ∧
    (0 ≤ x → x ≤ (window_width : β) → 0 ≤ y → y ≤ (window_height : β) →
      ¬ outsideWindow x y window_width window_height ∧
      SelectNode g x y window_width window_height camera_zoom =
        g.node_obj_.map (fun node_obj =>
          pickLoop (cursorPos x y window_width window_height camera_zoom) node_obj.scale_
            g.node_ 0)) := by
  constructor
  · intro h
    have hout : outsideWindow x y window_width window_height := h
    unfold SelectNode
    simp only [hout, if_true]
  · intro hx0 hx1 hy0 hy1
    have hin := not_outsideWindow hx0 hx1 hy0 hy1
    exact ⟨hin, SelectNode_inside hin camera_zoom⟩

/-- C16, witness: in a window of 2 by 2 pixels a position left of the window
gives no node, and the position `(2, 1)` on the right border gives the node
at `(1, 0)`. -/
theorem SelectNode_outside_window_witness :
    SelectNode nearGraph (-1) 1 2 2 1 = some none ∧
    SelectNode nearGraph 2 1 2 2 1 = some (some 0) := by
  constructor
  · exact (SelectNode_outside_window nearGraph (-1) 1 2 2 1).1 (Or.inl (by norm_num))
  · rw [((SelectNode_outside_window nearGraph 2 1 2 2 1).2 (by norm_num) (by norm_num)
      (by norm_num) (by norm_num)).2]
    norm_num [nearGraph, cursorPos, fdiv, pickLoop, hitsNode, lengthLt, Node.new, Graph.new]

end ClaimsSelect

section ClaimsPick

set_option maxRecDepth 20000

/-- C17, counterexample. In a window of 4 by 2 pixels with zoom 1 the pixel
`(3, 1)` lies inside the window and is mapped to the world point `(1, 0)`, in
exact arithmetic and in floating-point arithmetic alike. The node of
`farPickGraph` lies at `(67108864, 0)`, at the Euclidean distance 67108863
from that point, less than the pick radius `8192 * 8192 = 67108864`. But the
`float` difference `1 - 67108864` is `-67108864`, the computed length equals
the radius, and `SelectNode` returns no node. -/
theorem SelectNode_float_counterexample :
    outsideWindowF (Fp.ofInt binary64 3) (Fp.ofInt binary64 1) 4 2 = false ∧
    cursorPosF (Fp.ofInt binary64 3) (Fp.ofInt binary64 1) 4 2 (Fp.ofInt binary32 1) =
      (Fp.ofInt binary32 1, Fp.ofInt binary32 0) ∧
    cursorPos (3 : ℚ) 1 4 2 1 = (some 1, some 0) ∧
    farPickGraph.node_obj_ = some ⟨Fp.ofInt binary32 8192⟩ ∧
    farPickGraph.node_ =
      [Node.newF 0 (Fp.ofInt binary32 67108864) (Fp.ofInt binary32 0)] ∧
    Fp.toRat (Fp.ofInt binary32 8192) = some 8192 ∧
    Fp.toRat (Fp.ofInt binary32 67108864) = some 67108864 ∧
    Fp.toRat (Fp.ofInt binary32 1) = some 1 ∧
    Fp.toRat (Fp.ofInt binary32 0) = some 0 ∧
    InRadius (some (1 : ℚ), some 0) 8192 (Node.new 0 67108864 0) ∧
    Fp.sub binary32 (Fp.ofInt binary32 1) (Fp.ofInt binary32 67108864) =
      Fp.ofInt binary32 (-67108864) ∧
    lengthF (Fp.ofInt binary32 (-67108864)) (Fp.ofInt binary32 0) =
      Fp.mul binary32 (Fp.ofInt binary32 8192) (Fp.ofInt binary32 8192) ∧
    SelectNodeF farPickGraph (Fp.ofInt binary64 3) (Fp.ofInt binary64 1) 4 2
      (Fp.ofInt binary32 1) = some none := by
  have hr := Fp.toRat_nat
  refine ⟨by decide, by decide, ?_, rfl, rfl, ?_, ?_, ?_, ?_, ?_, by decide, by decide,
    by decide⟩
  · norm_num [cursorPos, fdiv]
  · have h : Fp.ofInt binary32 8192 = Fp.fin false (8192 * 2 ^ 1074) := by decide
    rw [h, hr]
    norm_num
  · have h : Fp.ofInt binary32 67108864 = Fp.fin false (67108864 * 2 ^ 1074) := by decide
    rw [h, hr]
    norm_num
  · have h : Fp.ofInt binary32 1 = Fp.fin false (1 * 2 ^ 1074) := by decide
    rw [h, hr]
    norm_num
  · have h : Fp.ofInt binary32 0 = Fp.fin false (0 * 2 ^ 1074) := by decide
    rw [h, hr]
    norm_num
  · refine ⟨1, 0, rfl, by norm_num, ?_⟩
    norm_num [Node.new]

/-- C17, as amended. For a graph with a node sprite and a pixel position that
the window test does not reject, `SelectNode` returns; it returns the node `i`
exactly when `i` is the lowest index of a node that passes the pick test as
the code computes it, in floating-point arithmetic: the `float` length of the
`float` difference between the cursor position (stored as `float`) and the
node position is less than the `float` square of the scale of the node
sprite. It returns no node exactly when no node of the graph passes that
test. -/
theorem SelectNode_first_hit {g : Graph Fp} {node_obj : GameObject Fp}
    (hobj : g.node_obj_ = some node_obj) {x y : Fp} {window_width window_height : Int}
    (hin : outsideWindowF x y window_width window_height = false) (camera_zoom : Fp) :
    ∃ r, SelectNodeF g x y window_width window_height camera_zoom = some r ∧
      (∀ i, r = some i ↔
        ∃ n : Node Fp, g.node_[i]? = some n ∧
          Fp.lt (lengthF
              (Fp.sub binary32 (cursorPosF x y window_width window_height camera_zoom).1 n.x_)
              (Fp.sub binary32 (cursorPosF x y window_width window_height camera_zoom).2 n.y_))
            (Fp.mul binary32 node_obj.scale_ node_obj.scale_) = true ∧
          ∀ (j : Nat) (m : Node Fp), j < i → g.node_[j]? = some m →
            Fp.lt (lengthF
                (Fp.sub binary32 (cursorPosF x y window_width window_height camera_zoom).1 m.x_)
                (Fp.sub binary32 (cursorPosF x y window_width window_height camera_zoom).2 m.y_))
              (Fp.mul binary32 node_obj.scale_ node_obj.scale_) = false) ∧
      (r = none ↔ ∀ (j : Nat) (m : Node Fp), g.node_[j]? = some m →
        Fp.lt (lengthF
            (Fp.sub binary32 (cursorPosF x y window_width window_height camera_zoom).1 m.x_)
            (Fp.sub binary32 (cursorPosF x y window_width window_height camera_zoom).2 m.y_))
          (Fp.mul binary32 node_obj.scale_ node_obj.scale_) = false) := by
  obtain ⟨h1, h2⟩ := pickLoopF_spec (cursorPosF x y window_width window_height camera_zoom)
    node_obj.scale_ g.node_ 0
  refine ⟨_, by rw [SelectNodeF_inside hin, hobj]; rfl, ?_, ?_⟩
  · intro i
    rw [h1 i]
    constructor
    · rintro ⟨j, n, hij, hn, hhit, hfirst⟩
      have hji : j = i := by omega
      subst hji
      exact ⟨n, hn, hhit, hfirst⟩
    · rintro ⟨n, hn, hhit, hfirst⟩
      exact ⟨i, n, by omega, hn, hhit, hfirst⟩
  · exact h2

/-- C17, witness: the pixel `(1, 1)` of a window of 2 by 2 pixels on the
graph `nearGraphF`. -/
theorem SelectNode_first_hit_witness :
    ∃ r, SelectNodeF nearGraphF (Fp.ofInt binary64 1) (Fp.ofInt binary64 1) 2 2
        (Fp.ofInt binary32 1) = some r ∧
      (∀ i, r = some i ↔
        ∃ n : Node Fp, nearGraphF.node_[i]? = some n ∧
          Fp.lt (lengthF
              (Fp.sub binary32 (cursorPosF (Fp.ofInt binary64 1) (Fp.ofInt binary64 1) 2 2
                (Fp.ofInt binary32 1)).1 n.x_)
              (Fp.sub binary32 (cursorPosF (Fp.ofInt binary64 1) (Fp.ofInt binary64 1) 2 2
                (Fp.ofInt binary32 1)).2 n.y_))
            (Fp.mul binary32 (Fp.ofInt binary32 2) (Fp.ofInt binary32 2)) = true ∧
          ∀ (j : Nat) (m : Node Fp), j < i → nearGraphF.node_[j]? = some m →
            Fp.lt (lengthF
                (Fp.sub binary32 (cursorPosF (Fp.ofInt binary64 1) (Fp.ofInt binary64 1) 2 2
                  (Fp.ofInt binary32 1)).1 m.x_)
                (Fp.sub binary32 (cursorPosF (Fp.ofInt binary64 1) (Fp.ofInt binary64 1) 2 2
                  (Fp.ofInt binary32 1)).2 m.y_))
              (Fp.mul binary32 (Fp.ofInt binary32 2) (Fp.ofInt binary32 2)) = false) ∧
      (r = none ↔ ∀ (j : Nat) (m : Node Fp), nearGraphF.node_[j]? = some m →
        Fp.lt (lengthF
            (Fp.sub binary32 (cursorPosF (Fp.ofInt binary64 1) (Fp.ofInt binary64 1) 2 2
              (Fp.ofInt binary32 1)).1 m.x_)
            (Fp.sub binary32 (cursorPosF (Fp.ofInt binary64 1) (Fp.ofInt binary64 1) 2 2
              (Fp.ofInt binary32 1)).2 m.y_))
          (Fp.mul binary32 (Fp.ofInt binary32 2) (Fp.ofInt binary32 2)) = false) :=
  @SelectNode_first_hit nearGraphF ⟨Fp.ofInt binary32 2⟩ rfl (Fp.ofInt binary64 1)
    (Fp.ofInt binary64 1) 2 2 (by decide) (Fp.ofInt binary32 1)

/-- C18, counterexample. In a window of 2 by 2 pixels with zoom 1 the pixel
`(1, 1)` is inside the window and is mapped exactly to the origin. In
`nearGraphF` the origin is the position of the second node, but `SelectNode`
returns the first node, which passes the pick test there. In `tinyScaleGraph`
the origin is the position of the only node and the scale `2 ^ (-75)` of the
sprite is not zero, but its `float` square is zero and `SelectNode` returns no
node. -/
theorem SelectNode_exact_counterexample :
    outsideWindowF (Fp.ofInt binary64 1) (Fp.ofInt binary64 1) 2 2 = false ∧
    cursorPosF (Fp.ofInt binary64 1) (Fp.ofInt binary64 1) 2 2 (Fp.ofInt binary32 1) =
      (Fp.ofInt binary32 0, Fp.ofInt binary32 0) ∧
    nearGraphF.node_[1]? = some (Node.newF 1 (Fp.ofInt binary32 0) (Fp.ofInt binary32 0)) ∧
    SelectNodeF nearGraphF (Fp.ofInt binary64 1) (Fp.ofInt binary64 1) 2 2
      (Fp.ofInt binary32 1) = some (some 0) ∧
    SelectNodeF nearGraphF (Fp.ofInt binary64 1) (Fp.ofInt binary64 1) 2 2
      (Fp.ofInt binary32 1) ≠ some (some 1) ∧
    tinyScaleGraph.node_[0]? =
      some (Node.newF 0 (Fp.ofInt binary32 0) (Fp.ofInt binary32 0)) ∧
    tinyScaleGraph.node_obj_ = some ⟨Fp.fin false (2 ^ 999)⟩ ∧
    Fp.toRat (Fp.fin false (2 ^ 999)) = some (1 / 2 ^ 75) ∧
    Fp.mul binary32 (Fp.fin false (2 ^ 999)) (Fp.fin false (2 ^ 999)) = Fp.fin false 0 ∧
    SelectNodeF tinyScaleGraph (Fp.ofInt binary64 1) (Fp.ofInt binary64 1) 2 2
      (Fp.ofInt binary32 1) = some none := by
  exact ⟨by decide, by decide, rfl, by decide, by decide, rfl, rfl, Fp.toRat_tiny, by decide,
    by decide⟩

/-- C18, as amended. For a graph with a node sprite whose scale has a `float`
square above zero, and a pixel position that the window test does not reject
and that the mapping of `SelectNode` sends to the position of the node `n` at
index `i`, a finite position: `SelectNode` returns the node of the lowest
index that passes the pick test at that position, a node of index at most
`i`; this is `n` itself when no node before it passes the pick test there. -/
theorem SelectNode_exact {g : Graph Fp} {node_obj : GameObject Fp}
    (hobj : g.node_obj_ = some node_obj)
    (hscale : Fp.lt (Fp.fin false 0) (Fp.mul binary32 node_obj.scale_ node_obj.scale_) = true)
    {x y : Fp} {window_width window_height : Int}
    (hin : outsideWindowF x y window_width window_height = false)
    {camera_zoom : Fp} {i : Nat} {n : Node Fp} (hn : g.node_[i]? = some n)
    (hfx : (Fp.toRat n.x_).isSome = true) (hfy : (Fp.toRat n.y_).isSome = true)
    (hx : Fp.toRat (cursorPosF x y window_width window_height camera_zoom).1 = Fp.toRat n.x_)
    (hy : Fp.toRat (cursorPosF x y window_width window_height camera_zoom).2 = Fp.toRat n.y_) :
    ∃ j, j ≤ i ∧ SelectNodeF g x y window_width window_height camera_zoom = some (some j) ∧
      (∃ m : Node Fp, g.node_[j]? = some m ∧
        hitsNodeF (cursorPosF x y window_width window_height camera_zoom)
          node_obj.scale_ m = true) ∧
      (∀ (k : Nat) (m : Node Fp), k < j → g.node_[k]? = some m →
        hitsNodeF (cursorPosF x y window_width window_height camera_zoom)
          node_obj.scale_ m = false) ∧
      ((∀ (k : Nat) (m : Node Fp), k < i → g.node_[k]? = some m →
        hitsNodeF (cursorPosF x y window_width window_height camera_zoom)
          node_obj.scale_ m = false) → j = i) := by
  have hsel := SelectNodeF_inside (g := g) hin camera_zoom
  rw [hobj] at hsel
  simp only [Option.map_some'] at hsel
  obtain ⟨h1, h2⟩ := pickLoopF_spec (cursorPosF x y window_width window_height camera_zoom)
    node_obj.scale_ g.node_ 0
  have hself : hitsNodeF (cursorPosF x y window_width window_height camera_zoom)
      node_obj.scale_ n = true :=
    hitsNodeF_same hscale hx hy (by rw [hx]; exact hfx) (by rw [hy]; exact hfy)
  cases hr : pickLoopF (cursorPosF x y window_width window_height camera_zoom)
      node_obj.scale_ g.node_ 0 with
  | none =>
    have := (h2.1 hr) i n hn
    rw [hself] at this
    exact absurd this (by decide)
  | some j =>
    obtain ⟨j1, m, hj, hm, hmhit, hfirst⟩ := (h1 j).1 hr
    have hjj : j1 = j := by omega
    subst hjj
    have hle : j1 ≤ i := by
      by_contra hcon
      have := hfirst i n (by omega) hn
      rw [hself] at this
      exact absurd this (by decide)
    refine ⟨j1, hle, by rw [hsel, hr], ⟨m, hm, hmhit⟩, hfirst, ?_⟩
    intro hnone
    by_contra hne
    have := hnone j1 m (by omega) hm
    rw [hmhit] at this
    exact absurd this (by decide)

/-- C18, witness: the pixel `(1, 1)` of a window of 2 by 2 pixels is mapped to
the origin, the position of the second node of `nearGraphF`. -/
theorem SelectNode_exact_witness :
    ∃ j, j ≤ 1 ∧ SelectNodeF nearGraphF (Fp.ofInt binary64 1) (Fp.ofInt binary64 1) 2 2
        (Fp.ofInt binary32 1) = some (some j) ∧
      (∃ m : Node Fp, nearGraphF.node_[j]? = some m ∧
        hitsNodeF (cursorPosF (Fp.ofInt binary64 1) (Fp.ofInt binary64 1) 2 2
          (Fp.ofInt binary32 1)) (Fp.ofInt binary32 2) m = true) ∧
      (∀ (k : Nat) (m : Node Fp), k < j → nearGraphF.node_[k]? = some m →
        hitsNodeF (cursorPosF (Fp.ofInt binary64 1) (Fp.ofInt binary64 1) 2 2
          (Fp.ofInt binary32 1)) (Fp.ofInt binary32 2) m = false) ∧
      ((∀ (k : Nat) (m : Node Fp), k < 1 → nearGraphF.node_[k]? = some m →
        hitsNodeF (cursorPosF (Fp.ofInt binary64 1) (Fp.ofInt binary64 1) 2 2
          (Fp.ofInt binary32 1)) (Fp.ofInt binary32 2) m = false) → j = 1) :=
  @SelectNode_exact nearGraphF ⟨Fp.ofInt binary32 2⟩ rfl (by decide) (Fp.ofInt binary64 1)
    (Fp.ofInt binary64 1) 2 2 (by decide) (Fp.ofInt binary32 1) 1
    (Node.newF 1 (Fp.ofInt binary32 0) (Fp.ofInt binary32 0)) rfl (by decide) (by decide)
    (congrArg Fp.toRat (by decide)) (congrArg Fp.toRat (by decide))

end ClaimsPick

section ClaimsMapping

variable {β : Type} [LinearOrderedField β]

/-- C19. Over exact arithmetic, for a window of positive width `w` and height
`h` and a zoom `z > 0`, the pixel-to-world mapping of `SelectNode` sends the
centre of the window to the origin, grows with the pixel `x` and falls with
the pixel `y`, and sends the pixel rectangle from `(0, 0)` to `(w, h)` onto
the world rectangle with `x` from `-(w/h)/z` to `(w/h)/z` and `y` from `-1/z`
to `1/z` when `w > h`, and onto the one with `x` from `-1/z` to `1/z` and `y`
from `-(h/w)/z` to `(h/w)/z` otherwise; for `w = 1024`, `h = 768` and
`z = 1/4` these are `x` from `-16/3` to `16/3` and `y` from `-4` to `4`. -/
theorem cursorPos_mapping (window_width window_height : Int) (camera_zoom : β)
    (hw : 0 < window_width) (hh : 0 < window_height) (hz : 0 < camera_zoom) :
    cursorPos ((window_width : β) / 2) ((window_height : β) / 2) window_width window_height
      camera_zoom = (some 0, some 0) ∧
    (∀ x1 x2 y : β, x1 < x2 → ∃ c1 c2,
      (cursorPos x1 y window_width window_height camera_zoom).1 = some c1 ∧
      (cursorPos x2 y window_width window_height camera_zoom).1 = some c2 ∧ c1 < c2) ∧
    (∀ x y1 y2 : β, y1 < y2 → ∃ c1 c2,
      (cursorPos x y1 window_width window_height camera_zoom).2 = some c1 ∧
      (cursorPos x y2 window_width window_height camera_zoom).2 = some c2 ∧ c2 < c1) ∧
    (window_height < window_width →
      MapsOnto window_width window_height camera_zoom
        (-(((window_width : β) / (window_height : β)) / camera_zoom))
        (((window_width : β) / (window_height : β)) / camera_zoom)
        (-(1 / camera_zoom)) (1 / camera_zoom)) ∧
    (¬ window_height < window_width →
      MapsOnto window_width window_height camera_zoom
        (-(1 / camera_zoom)) (1 / camera_zoom)
        (-(((window_height : β) / (window_width : β)) / camera_zoom))
        (((window_height : β) / (window_width : β)) / camera_zoom)) ∧
    MapsOnto 1024 768 (1 / 4 : β) (-(16 / 3)) (16 / 3) (-4) 4 := by
  have hw1 : (0 : β) < (window_width : β) := by exact_mod_cast hw
  have hh1 : (0 : β) < (window_height : β) := by exact_mod_cast hh
  have hzne : camera_zoom ≠ 0 := ne_of_gt hz
  have hk : (0 : β) < (((if window_height < window_width then window_height
      else window_width : Int) : β) * camera_zoom) := by
    apply mul_pos _ hz
    by_cases hlt : window_height < window_width
    · simp only [hlt, if_true]
      exact hh1
    · simp only [hlt, if_false]
      exact hw1
  refine ⟨?_, ?_, ?_, ?_, ?_, ?_⟩
  · rw [cursorPos_eq hw hh hzne]
    simp only [Prod.mk.injEq, Option.some.injEq]
    constructor
    · rw [mul_div_cancel₀ _ (two_ne_zero), sub_self, zero_div]
    · rw [mul_div_cancel₀ _ (two_ne_zero), sub_self, zero_div]
  · intro x1 x2 y hx
    refine ⟨_, _, by rw [cursorPos_eq hw hh hzne], by rw [cursorPos_eq hw hh hzne], ?_⟩
    rw [div_lt_div_iff_of_pos_right hk]
    linarith
  · intro x y1 y2 hy
    refine ⟨_, _, by rw [cursorPos_eq hw hh hzne], by rw [cursorPos_eq hw hh hzne], ?_⟩
    rw [div_lt_div_iff_of_pos_right hk]
    linarith
  · intro hlt
    have h := @MapsOnto_of_pos β _ window_width window_height camera_zoom hw hh hz _ rfl
    simp only [hlt, if_true] at h
    have e1 : (window_width : β) / ((window_height : β) * camera_zoom) =
        ((window_width : β) / (window_height : β)) / camera_zoom := by
      rw [div_div]
    have e2 : (window_height : β) / ((window_height : β) * camera_zoom) = 1 / camera_zoom := by
      field_simp
    rw [e1, e2] at h
    exact h
  · intro hlt
    have h := @MapsOnto_of_pos β _ window_width window_height camera_zoom hw hh hz _ rfl
    simp only [hlt, if_false] at h
    have e1 : (window_height : β) / ((window_width : β) * camera_zoom) =
        ((window_height : β) / (window_width : β)) / camera_zoom := by
      rw [div_div]
    have e2 : (window_width : β) / ((window_width : β) * camera_zoom) = 1 / camera_zoom := by
      field_simp
    rw [e1, e2] at h
    exact h
  · have h := @MapsOnto_of_pos β _ 1024 768 (1 / 4) (by decide) (by decide) (by norm_num) _ rfl
    have e1 : ((1024 : Int) : β) / ((((if (768 : Int) < 1024 then 768 else 1024 : Int)) : β)
        * (1 / 4)) = 16 / 3 := by
      norm_num
    have e2 : ((768 : Int) : β) / ((((if (768 : Int) < 1024 then 768 else 1024 : Int)) : β)
        * (1 / 4)) = 4 := by
      norm_num
    rw [e1, e2] at h
    exact h

/-- C19, witness: a window of 4 by 2 pixels with zoom 1 over the rational
numbers. -/
theorem cursorPos_mapping_witness :
    cursorPos (((4 : Int) : ℚ) / 2) (((2 : Int) : ℚ) / 2) 4 2 1 = (some 0, some 0) ∧
    (∀ x1 x2 y : ℚ, x1 < x2 → ∃ c1 c2,
      (cursorPos x1 y 4 2 1).1 = some c1 ∧ (cursorPos x2 y 4 2 1).1 = some c2 ∧ c1 < c2) ∧
    (∀ x y1 y2 : ℚ, y1 < y2 → ∃ c1 c2,
      (cursorPos x y1 4 2 1).2 = some c1 ∧ (cursorPos x y2 4 2 1).2 = some c2 ∧ c2 < c1) ∧
    ((2 : Int) < 4 →
      MapsOnto 4 2 (1 : ℚ) (-((((4 : Int) : ℚ) / ((2 : Int) : ℚ)) / 1))
        ((((4 : Int) : ℚ) / ((2 : Int) : ℚ)) / 1) (-(1 / 1)) (1 / 1)) ∧
    (¬ (2 : Int) < 4 →
      MapsOnto 4 2 (1 : ℚ) (-(1 / 1)) (1 / 1)
        (-((((2 : Int) : ℚ) / ((4 : Int) : ℚ)) / 1)) ((((2 : Int) : ℚ) / ((4 : Int) : ℚ)) / 1)) ∧
    MapsOnto 1024 768 (1 / 4 : ℚ) (-(16 / 3)) (16 / 3) (-4) 4 :=
  @cursorPos_mapping ℚ _ 4 2 1 (by decide) (by decide) (by norm_num)

end ClaimsMapping

/-! ## The demo graph (`Graph::BuildSimpleGraph`) -/

section ClaimsSimple

variable {α : Type} [LinearOrderedCommRing α]

/-- C20. On a graph without nodes, for every tie-breaking, `BuildSimpleGraph`
returns when the loops of `FindPath` are given at least five iterations. The
graph then has five nodes with the ids 0 to 4 at `x = -2, -1, 0, 1, 2` and
`y = 0`, each joined with the next by an edge of cost 1 in both directions and
by no other edge; the start node is node 0, the end node is node 4, the stored
path is the node sequence 0, 1, 2, 3, 4, the cost of the end node is 4, and
all five nodes are marked as on the path. -/
theorem BuildSimpleGraph_result (node_sprite edge_sprite : Option (GameObject α))
    {g : Graph α} (hg : g.node_ = []) (tie : Nat → Nat) (fuel : Nat) (hf : 5 ≤ fuel) :
    ∃ g1, BuildSimpleGraph fuel tie node_sprite edge_sprite g = some g1 ∧
      g1.node_.map Node.place = [(0, -2, 0), (1, -1, 0), (2, 0, 0), (3, 1, 0), (4, 2, 0)] ∧
      g1.node_.map Node.edge_ = [[⟨0, 1, 1⟩], [⟨1, 0, 1⟩, ⟨1, 2, 1⟩], [⟨2, 1, 1⟩, ⟨2, 3, 1⟩],
        [⟨3, 2, 1⟩, ⟨3, 4, 1⟩], [⟨4, 3, 1⟩]] ∧
      g1.start_node_ = some 0 ∧ g1.end_node_ = some 4 ∧
      g1.path_node_ = [some 0, some 1, some 2, some 3, some 4] ∧
      costOf g1.node_ 4 = 4 ∧
      g1.node_.map Node.on_path_ = [true, true, true, true, true] := by
  obtain ⟨f, rfl⟩ : ∃ f, fuel = f + 1 + 1 + 1 + 1 + 1 := ⟨fuel - 5, by omega⟩
  obtain ⟨g1, h, hplace, hedge, hs, he, hpath, _, hcost, hon, _⟩ :=
    BuildSimpleGraph_eval node_sprite edge_sprite hg tie f
  exact ⟨g1, h, hplace, hedge, hs, he, hpath, hcost, hon⟩

/-- C20, witness: the call on the graph that the constructor makes. -/
theorem BuildSimpleGraph_result_witness :
    ∃ g1, BuildSimpleGraph 5 (fun _ => 0) none none (Graph.new : Graph Int) = some g1 ∧
      g1.node_.map Node.place = [(0, -2, 0), (1, -1, 0), (2, 0, 0), (3, 1, 0), (4, 2, 0)] ∧
      g1.node_.map Node.edge_ = [[⟨0, 1, 1⟩], [⟨1, 0, 1⟩, ⟨1, 2, 1⟩], [⟨2, 1, 1⟩, ⟨2, 3, 1⟩],
        [⟨3, 2, 1⟩, ⟨3, 4, 1⟩], [⟨4, 3, 1⟩]] ∧
      g1.start_node_ = some 0 ∧ g1.end_node_ = some 4 ∧
      g1.path_node_ = [some 0, some 1, some 2, some 3, some 4] ∧
      costOf g1.node_ 4 = 4 ∧
      g1.node_.map Node.on_path_ = [true, true, true, true, true] :=
  @BuildSimpleGraph_result Int _ none none Graph.new rfl (fun _ => 0) 5 (by decide)

end ClaimsSimple

/-! ## The nodes of a maze (`Graph::BuildMaze`) -/

section ClaimsMazeNodes

variable {α : Type} [LinearOrderedCommRing α]

/-- C22. For a source graph with at least one node and ids equal to indices,
an output graph without nodes and shuffles that permute: whenever `BuildMaze`
returns, the output has as many nodes as the source, the node at each index
has the id and the position of the source node at that index, every output
node whose source node cannot be reached from node 0 has an empty adjacency
list, and the source nodes marked as visited are exactly those that can be
reached from node 0. `BuildMaze` returns when the edge targets of the source
are valid, no edge cost is negative and its loops are given `3 * size + 2`
iterations. -/
theorem BuildMaze_copies_nodes {g output : Graph α} (hne : 0 < g.node_.length)
    (hids : IdsAreIndices g.node_) (hout : output.node_ = [])
    {shuffle : Nat → List Nat → List Nat} (hperm : ∀ k l, (shuffle k l).Perm l) :
    (∀ fuel tie r, BuildMaze fuel tie shuffle g output = some r →
      r.2.node_.length = g.node_.length ∧
      r.2.node_.map Node.place = g.node_.map Node.place ∧
      (∀ u, ¬ Reach g.node_ 0 u → edgesOf r.2.node_ u = []) ∧
      (∀ v, visitedOf r.1.node_ v = true ↔ Reach g.node_ 0 v)) ∧
    (TargetsValid g.node_ → NonNegCosts g.node_ → ∀ fuel, 3 * g.node_.length + 2 ≤ fuel →
      ∀ tie, ∃ r, BuildMaze fuel tie shuffle g output = some r) := by
  obtain ⟨h1, h2⟩ := BuildMaze_spec hne hids hout hperm
  refine ⟨?_, h2⟩
  intro fuel tie r h
  obtain ⟨V, res⟩ := h1 fuel tie r h
  refine ⟨res.out_len, res.out_place, ?_, ?_⟩
  · intro u hu
    exact res.outside u (fun hV => hu ((res.reach u).1 hV))
  · intro v
    rw [← res.visited v]
    exact res.reach v

/-- C22, witness: the maze of the graph `splitGraph`, whose third node cannot
be reached from the first. -/
theorem BuildMaze_copies_nodes_witness :
    (∀ fuel tie r, BuildMaze fuel tie keepOrder splitGraph (Graph.new : Graph Int) = some r →
      r.2.node_.length = splitGraph.node_.length ∧
      r.2.node_.map Node.place = splitGraph.node_.map Node.place ∧
      (∀ u, ¬ Reach splitGraph.node_ 0 u → edgesOf r.2.node_ u = []) ∧
      (∀ v, visitedOf r.1.node_ v = true ↔ Reach splitGraph.node_ 0 v)) ∧
    (TargetsValid splitGraph.node_ → NonNegCosts splitGraph.node_ →
      ∀ fuel, 3 * splitGraph.node_.length + 2 ≤ fuel →
      ∀ tie, ∃ r, BuildMaze fuel tie keepOrder splitGraph (Graph.new : Graph Int) = some r) :=
  @BuildMaze_copies_nodes Int _ splitGraph Graph.new (by decide)
    (IdsAreIndices_of_forall (by decide)) rfl keepOrder (fun _ l => List.Perm.refl l)

end ClaimsMazeNodes

/-! ## The sentinel `INT_MAX` (`Graph::FindPath`) -/

section ClaimsSentinel

variable {α : Type} [LinearOrderedCommRing α]

/-- C29, counterexample, in the `float` arithmetic of the code. What
`FindPath` stores for `INT_MAX` is the `float` value 2147483648, not
2147483647. On the line of five nodes with the edge costs 2147483520, 60, 60
and 60 no edge cost is negative and every path from the start node to the last
node costs `INT_MAX` or more, 2147483700 at least; but every sum of 2147483520
and 60 is rounded to 2147483520, so for every tie-breaking and every number of
iterations that lets `FindPath` return the last node is relaxed: its cost is
2147483520, its `prev` pointer is the node before it, and the stored path
leads from the start node to it. -/
theorem FindPath_sentinel_rounding_counterexample :
    roundF32 INT_MAX = 2147483648 ∧ roundF32 INT_MAX ≠ INT_MAX ∧
    chainGraph.start_node_ = some 0 ∧ chainGraph.end_node_ = some 4 ∧
    TargetsValid chainGraph.node_ ∧ NonNegCosts chainGraph.node_ ∧
    pathCost chainGraph.node_ [0, 1, 2, 3, 4] = some 2147483700 ∧
    (∀ (p : List Nat) (L : Int), p.head? = some 0 → p.getLast? = some 4 →
      pathCost chainGraph.node_ p = some L → INT_MAX ≤ L) ∧
    ∀ (tie : Nat → Nat) (fuel : Nat), 5 ≤ fuel →
      (FindPathF roundF32 fuel tie chainGraph).map
          (fun g => (g.path_node_, costOf g.node_ 4, prevOf g.node_ 4))
        = some ([some 0, some 1, some 2, some 3, some 4], 2147483520, some 3) := by
  have r0 : roundF32 2147483647 = 2147483648 := by decide
  have r1 : roundF32 2147483520 = 2147483520 := by decide
  have r2 : roundF32 4294967040 = 4294967040 := by decide
  have r3 : roundF32 2147483580 = 2147483520 := by decide
  refine ⟨by decide, by decide, rfl, rfl, TargetsValid_of_forall (by decide),
    NonNegCosts_of_forall (by decide), by decide, ?_, ?_⟩
  · intro p L hh hl hc
    have hpot := pathCost_potential
      (fun v => ([0, 2147483520, 2147483580, 2147483640, 2147483700] : List Int).getD v 0)
      (by
        intro u e he
        rw [edgesOf_eq_getD] at he
        have hu : u < 5 := by
          by_contra hcon
          have hnone : (chainGraph.node_.map Node.edge_)[u]? = none := by
            apply List.getElem?_eq_none
            simp only [chainGraph, List.map_cons, List.map_nil, List.length_cons,
              List.length_nil]
            omega
          rw [hnone] at he
          simp at he
        interval_cases u <;> simp [chainGraph, Node.new, Graph.new] at he <;>
          rcases he with rfl | rfl <;> simp) p 0 4 L hh hl hc
    simp only [List.getD_cons_succ, List.getD_cons_zero] at hpot
    unfold INT_MAX
    omega
  · intro tie fuel hf
    obtain ⟨f, rfl⟩ : ∃ f, fuel = f + 5 := ⟨fuel - 5, by omega⟩
    simp [FindPathF, chainGraph, relaxLoopF, topIdx_singleton, relaxEdgesF, relaxEdgeF,
      Node.new, INT_MAX, backtrack, setOnPath, Graph.new, costOf, prevOf, r0, r1, r2, r3]

/-- C29, as amended, in the `float` arithmetic of the code, where `rnd` is
the rounding to `float` and the sentinel `rnd INT_MAX`, which `FindPath`
stores for `INT_MAX`, is positive. An edge whose candidate cost, the rounded
sum, is not below the cost of its target changes nothing. After every call of
`FindPath` that returns, a node for which every walk from the start node
costs, summed edge by edge in `float` arithmetic, the sentinel or more has the
sentinel as cost and the `prev` pointer it had before the call. When the end
node is such a node and its `prev` pointer is null before the call, the
outcome is that of an end node that cannot be reached: the stored path is a
null pointer followed by the end node, and only the start and the end node
are marked. -/
theorem FindPath_sentinel {rnd : α → α} (hpos : 0 < rnd INT_MAX) {g : Graph α} {s : Nat}
    (hs : g.start_node_ = some s) :
    (∀ (u : Nat) (c : α) (st : List (Node α) × List (QNode α)) (edge : Edge α) (n : Node α),
      st.1[edge.n2]? = some n → ¬ (rnd (c + edge.cost) < n.cost_) →
      relaxEdgeF rnd u c st edge = some st) ∧
    (∀ fuel tie g1, FindPathF rnd fuel tie g = some g1 → ∀ v, v < g.node_.length →
      (∀ c, FCost rnd g.node_ s v c → rnd INT_MAX ≤ c) →
      costOf g1.node_ v = rnd INT_MAX ∧ prevOf g1.node_ v = prevOf g.node_ v) ∧
    (∀ e, g.end_node_ = some e → e < g.node_.length →
      (∀ c, FCost rnd g.node_ s e c → rnd INT_MAX ≤ c) → prevOf g.node_ e = none →
      ∀ fuel tie g1, FindPathF rnd fuel tie g = some g1 →
        g1.path_node_ = [none, some e] ∧
        (∀ v, onPathOf g1.node_ v = true ↔ (v = s ∨ v = e)) ∧
        costOf g1.node_ e = rnd INT_MAX) := by
  refine ⟨?_, ?_, ?_⟩
  · intro u c st edge n hn hlt
    unfold relaxEdgeF
    simp only [hn, hlt, if_false]
  · intro fuel tie g1 h v hv hfar
    exact FindPathF_far hpos hs h hv hfar
  · intro e he hen hfar hprev fuel tie g1 h
    obtain ⟨hpath, hon⟩ := FindPathF_far_end hpos hs he h hen hfar hprev
    exact ⟨hpath, hon, (FindPathF_far hpos hs h hen hfar).1⟩

/-- C29, witness, with the rounding to `float`: in the graph of two nodes
joined by an edge of cost `2 ^ 31` the end node can be reached from the start
node, every walk to it costs the stored sentinel `2 ^ 31` or more, and
`FindPath` returns. -/
theorem FindPath_sentinel_witness :
    roundF32 INT_MAX = 2147483648 ∧ Reach farGraph.node_ 0 1 ∧
    (∀ c, FCost roundF32 farGraph.node_ 0 1 c → roundF32 INT_MAX ≤ c) ∧
    (∀ (tie : Nat → Nat) (fuel : Nat), 2 ≤ fuel →
      (FindPathF roundF32 fuel tie farGraph).isSome = true) ∧
    ∀ fuel tie g1, FindPathF roundF32 fuel tie farGraph = some g1 →
      g1.path_node_ = [none, some 1] ∧
      (∀ v, onPathOf g1.node_ v = true ↔ (v = 0 ∨ v = 1)) ∧
      costOf g1.node_ 1 = roundF32 INT_MAX := by
  have r0 : roundF32 2147483647 = 2147483648 := by decide
  have r1 : roundF32 2147483648 = 2147483648 := by decide
  refine ⟨by decide, ?_, farGraph_far, ?_, ?_⟩
  · exact Relation.ReflTransGen.single ⟨⟨0, 1, 2147483648⟩, by simp [edgesOf, farGraph], rfl⟩
  · intro tie fuel hf
    obtain ⟨f, rfl⟩ : ∃ f, fuel = f + 2 := ⟨fuel - 2, by omega⟩
    simp [FindPathF, farGraph, relaxLoopF, topIdx_singleton, relaxEdgesF, relaxEdgeF,
      Node.new, INT_MAX, backtrack, setOnPath, Graph.new, r0, r1]
  · exact (@FindPath_sentinel Int _ roundF32 roundF32_sentinel_pos farGraph 0 rfl).2.2 1 rfl
      (by decide) farGraph_far rfl

end ClaimsSentinel

section ClaimsTermination

/-- C23, the defect. `FindPath` never resets `prev`. The graph `cycleGraph`
is what two calls of `FindPath` on `splitGraph`, with the start node and the
end node exchanged in between, followed by `SetStartNode` with the third
node, leave: the `prev` pointers of the first two nodes point at each other.
No edge cost is negative and the end node cannot be reached from the start
node, but with no number of iterations does `FindPath` return: the walk back
from the end node goes round the two nodes for ever. -/
theorem FindPath_stale_cycle :
    (∀ tie1 tie2, ((FindPath 3 tie1 splitGraph).bind (fun g =>
        FindPath 3 tie2 { g with start_node_ := some 1, end_node_ := some 0 })).map
      (fun g => { g with start_node_ := some 2 }) = some cycleGraph) ∧
    TargetsValid cycleGraph.node_ ∧ NonNegCosts cycleGraph.node_ ∧
    cycleGraph.start_node_ = some 2 ∧ cycleGraph.end_node_ = some 0 ∧
    ¬ Reach cycleGraph.node_ 2 0 ∧
    ∀ fuel tie, FindPath fuel tie cycleGraph = none := by
  refine ⟨?_, TargetsValid_of_forall (by decide), NonNegCosts_of_forall (by decide), rfl, rfl,
    not_reach_of_no_edges rfl (by decide), ?_⟩
  · intro tie1 tie2
    simp [FindPath, splitGraph, relaxLoop, topIdx_singleton, relaxEdges, relaxEdge, Node.new,
      INT_MAX, backtrack, setOnPath, cycleGraph, Graph.new]
  · intro fuel tie
    cases hres : FindPath fuel tie cycleGraph with
    | none => rfl
    | some g1 =>
      exfalso
      obtain ⟨s, e, sn, nodes2, en, nodes3, path, cur, nodes4, nodes5, hs, he, h0, h1, h2, h3, _⟩ :=
        FindPath_returned hres
      have hs2 : s = 2 := by
        have : cycleGraph.start_node_ = some 2 := rfl
        rw [hs] at this
        exact Option.some.inj this
      have he0 : e = 0 := by
        have : cycleGraph.end_node_ = some 0 := rfl
        rw [he] at this
        exact Option.some.inj this
      subst hs2
      subst he0
      have hprev : prevOf nodes2 0 = some 1 ∧ prevOf nodes2 1 = some 0 := by
        cases fuel with
        | zero => simp [relaxLoop] at h1
        | succ fuel =>
          cases fuel with
          | zero =>
            simp [cycleGraph, Node.new] at h0
            subst h0
            simp [cycleGraph, relaxLoop, topIdx_singleton, relaxEdges, Node.new] at h1
          | succ fuel =>
            simp [cycleGraph, Node.new] at h0
            subst h0
            simp [cycleGraph, relaxLoop, topIdx_singleton, relaxEdges, Node.new] at h1
            subst h1
            exact ⟨rfl, rfl⟩
      have hen : en.prev_ = some 1 := by
        have := hprev.1
        simpa [prevOf, h2] using this
      rw [hen] at h3
      have hnone := backtrack_diverges 2 (fun x => x = 0 ∨ x = 1) fuel 1 nodes2 [some 0]
        (Or.inr rfl) (by
          intro x hx
          rcases hx with rfl | rfl
          · exact ⟨by decide, 1, hprev.1, Or.inr rfl⟩
          · exact ⟨by decide, 0, hprev.2, Or.inl rfl⟩)
      rw [hnone] at h3
      exact absurd h3 (by simp)

end ClaimsTermination

/-! ## Mouse input (`Graph::Update`) -/

section ClaimsUpdate

variable {β : Type} [LinearOrderedField β]

/-- C27. Whenever `Update` returns, with the node `n` that `SelectNode` has
picked (possibly none) and whatever the states of the two buttons: the hover
node is `n`; if the start node and the end node were different before, they
are different afterwards; the start node is the one before or `n`, and it is
the one before when the left button is not pressed; the end node is the one
before or `n`, and it is the one before when the right button is not pressed;
and when `n` is none, both are the ones before. -/
theorem Update_keeps_distinct {fuel : Nat} {tie_left tie_right : Nat → Nat} {g g1 : Graph β}
    {xpos ypos : β} {width height : Int} {left_pressed right_pressed : Bool} {zoom : β}
    (h : Update fuel tie_left tie_right g xpos ypos width height left_pressed right_pressed
      zoom = some g1) :
    ∃ n, SelectNode g xpos ypos width height zoom = some n ∧ g1.hover_node_ = n ∧
      (g.start_node_ ≠ g.end_node_ → g1.start_node_ ≠ g1.end_node_) ∧
      (g1.start_node_ = g.start_node_ ∨ g1.start_node_ = n) ∧
      (g1.end_node_ = g.end_node_ ∨ g1.end_node_ = n) ∧
      (left_pressed = false → g1.start_node_ = g.start_node_) ∧
      (right_pressed = false → g1.end_node_ = g.end_node_) ∧
      (n = none → g1.start_node_ = g.start_node_ ∧ g1.end_node_ = g.end_node_) := by
  unfold Update at h
  cases hsel : SelectNode g xpos ypos width height zoom with
  | none => simp [hsel] at h
  | some n =>
    simp only [hsel] at h
    refine ⟨n, rfl, ?_⟩
    -- the graph after the left button
    have hleft : ∃ g2 : Graph β,
        (if left_pressed = true then
          FindPath fuel tie_left
            (if n ≠ none ∧ n ≠ g.end_node_ then
              { g with hover_node_ := n, start_node_ := n }
            else { g with hover_node_ := n })
        else some { g with hover_node_ := n }) = some g2 ∧
        (if right_pressed = true then
          FindPath fuel tie_right
            (if n ≠ none ∧ n ≠ g2.start_node_ then { g2 with end_node_ := n } else g2)
        else some g2) = some g1 := by
      cases hl : (if left_pressed = true then
          FindPath fuel tie_left
            (if n ≠ none ∧ n ≠ g.end_node_ then
              { g with hover_node_ := n, start_node_ := n }
            else { g with hover_node_ := n })
        else some { g with hover_node_ := n }) with
      | none => simp [hl] at h
      | some g2 =>
        simp only [hl] at h
        exact ⟨g2, rfl, h⟩
    obtain ⟨g2, hl, hr⟩ := hleft
    have h2 : g2.hover_node_ = n ∧ g2.end_node_ = g.end_node_ ∧
        (g2.start_node_ = g.start_node_ ∨
          (left_pressed = true ∧ n ≠ none ∧ n ≠ g.end_node_ ∧ g2.start_node_ = n)) := by
      by_cases hlp : left_pressed = true
      · simp only [hlp, if_true] at hl
        by_cases hc : n ≠ none ∧ n ≠ g.end_node_
        · rw [if_pos hc] at hl
          obtain ⟨_, hs, he, _, _, hh⟩ := FindPath_fixed hl
          exact ⟨hh, he, Or.inr ⟨hlp, hc.1, hc.2, hs⟩⟩
        · rw [if_neg hc] at hl
          obtain ⟨_, hs, he, _, _, hh⟩ := FindPath_fixed hl
          exact ⟨hh, he, Or.inl hs⟩
      · simp only [hlp, Bool.false_eq_true, if_false, Option.some.injEq] at hl
        subst hl
        exact ⟨rfl, rfl, Or.inl rfl⟩
    obtain ⟨hh2, he2, hs2⟩ := h2
    have h1 : g1.hover_node_ = n ∧ g1.start_node_ = g2.start_node_ ∧
        (g1.end_node_ = g2.end_node_ ∨
          (right_pressed = true ∧ n ≠ none ∧ n ≠ g2.start_node_ ∧ g1.end_node_ = n)) := by
      by_cases hrp : right_pressed = true
      · simp only [hrp, if_true] at hr
        by_cases hc : n ≠ none ∧ n ≠ g2.start_node_
        · rw [if_pos hc] at hr
          obtain ⟨_, hs, he, _, _, hh⟩ := FindPath_fixed hr
          exact ⟨hh.trans hh2, hs, Or.inr ⟨hrp, hc.1, hc.2, he⟩⟩
        · rw [if_neg hc] at hr
          obtain ⟨_, hs, he, _, _, hh⟩ := FindPath_fixed hr
          exact ⟨hh.trans hh2, hs, Or.inl he⟩
      · simp only [hrp, Bool.false_eq_true, if_false, Option.some.injEq] at hr
        subst hr
        exact ⟨hh2, rfl, Or.inl rfl⟩
    obtain ⟨hh1, hs1, he1⟩ := h1
    refine ⟨hh1, ?_, ?_, ?_, ?_, ?_, ?_⟩
    · intro hne
      rw [hs1]
      rcases hs2 with hs2 | ⟨_, _, hne2, hs2⟩ <;> rcases he1 with he1 | ⟨_, _, hne1, he1⟩
      · rw [hs2, he1, he2]
        exact hne
      · rw [he1]
        exact fun hcon => hne1 hcon.symm
      · rw [hs2, he1, he2]
        exact hne2
      · rw [he1]
        exact fun hcon => hne1 hcon.symm
    · rw [hs1]
      rcases hs2 with hs2 | ⟨_, _, _, hs2⟩
      · exact Or.inl hs2
      · exact Or.inr hs2
    · rcases he1 with he1 | ⟨_, _, _, he1⟩
      · exact Or.inl (he1.trans he2)
      · exact Or.inr he1
    · intro hlp
      rw [hs1]
      rcases hs2 with hs2 | ⟨hcon, _⟩
      · exact hs2
      · rw [hlp] at hcon
        exact absurd hcon (by decide)
    · intro hrp
      rcases he1 with he1 | ⟨hcon, _⟩
      · exact he1.trans he2
      · rw [hrp] at hcon
        exact absurd hcon (by decide)
    · intro hn
      constructor
      · rw [hs1]
        rcases hs2 with hs2 | ⟨_, hcon, _⟩
        · exact hs2
        · exact absurd hn hcon
      · rcases he1 with he1 | ⟨_, hcon, _⟩
        · exact he1.trans he2
        · exact absurd hn hcon

/-- C27, witness: both buttons pressed with the cursor over the first node of
`pickGraph`, which is its start node. -/
theorem Update_keeps_distinct_witness :
    ∃ g1, Update 3 (fun _ => 0) (fun _ => 0) pickGraph 1 1 2 2 true true 1 = some g1 ∧
      ∃ n, SelectNode pickGraph 1 1 2 2 1 = some n ∧ g1.hover_node_ = n ∧
        (pickGraph.start_node_ ≠ pickGraph.end_node_ → g1.start_node_ ≠ g1.end_node_) ∧
        (g1.start_node_ = pickGraph.start_node_ ∨ g1.start_node_ = n) ∧
        (g1.end_node_ = pickGraph.end_node_ ∨ g1.end_node_ = n) ∧
        (true = false → g1.start_node_ = pickGraph.start_node_) ∧
        (true = false → g1.end_node_ = pickGraph.end_node_) ∧
        (n = none → g1.start_node_ = pickGraph.start_node_ ∧
          g1.end_node_ = pickGraph.end_node_) := by
  have hsome : ∃ g1, Update 3 (fun _ => 0) (fun _ => 0) pickGraph 1 1 2 2 true true 1
      = some g1 := by
    norm_num [Update, SelectNode, outsideWindow, pickGraph, nearGraph, cursorPos, fdiv, pickLoop,
      hitsNode, lengthLt, Node.new, Graph.new, FindPath, relaxLoop, topIdx_singleton,
      relaxEdges, backtrack, setOnPath]
  obtain ⟨g1, h⟩ := hsome
  exact ⟨g1, h, Update_keeps_distinct h⟩

end ClaimsUpdate

section ClaimsGridIndices

variable {α : Type} [LinearOrderedCommRing α]

/-- C28. For `cols ≥ 1` and `rows ≥ 1` on a graph without nodes: the first
loop nest of `BuildGrid` makes `rows * cols` nodes; in the second loop nest
the running index is `i * cols + j` in the body for row `i` and column `j`, and
the indices of the right and of the bottom neighbour are below `rows * cols`
where they are used, so that the loop nest with these checks is the loop nest
without them, and it returns with the running index `rows * cols`; the nodes
at the indices `0` and `rows * cols - 1` exist, so that `BuildGrid` goes on to
`FindPath` with them as start node and as end node. With `cols = 0` or
`rows = 0` the access to the node at index 0 is out of bounds and `BuildGrid`
has no result. -/
theorem BuildGrid_indices {cols rows : Nat} (hc : 1 ≤ cols) (hr : 1 ≤ rows) {g : Graph α}
    (hg : g.node_ = []) (rand : Nat → Nat) (disp_x disp_y start_x start_y viewport_height : α)
    (node_sprite edge_sprite : Option (GameObject α)) :
    (gridAddRows cols disp_x disp_y start_x rows
      (g.node_, 0, start_x, viewport_height - start_y)).1.length = rows * cols ∧
    gridConnectChecked rand cols rows (gridAddRows cols disp_x disp_y start_x rows
        (g.node_, 0, start_x, viewport_height - start_y)).1 =
      gridConnect rand cols rows (gridAddRows cols disp_x disp_y start_x rows
        (g.node_, 0, start_x, viewport_height - start_y)).1 ∧
    (∀ i j, i < rows → j < cols →
      (j < cols - 1 → i * cols + j + 1 < rows * cols) ∧
      (i < rows - 1 → (i + 1) * cols + j < rows * cols)) ∧
    (∃ st, gridConnect rand cols rows (gridAddRows cols disp_x disp_y start_x rows
        (g.node_, 0, start_x, viewport_height - start_y)).1 = some st ∧
      st.2.1 = rows * cols ∧ st.1.length = rows * cols ∧ 0 < st.1.length ∧
      rows * cols - 1 < st.1.length ∧
      ∀ fuel tie, BuildGrid fuel tie rand cols rows disp_x disp_y start_x start_y
          viewport_height node_sprite edge_sprite g =
        FindPath fuel tie
          { g with node_obj_ := node_sprite, edge_obj_ := edge_sprite, node_ := st.1,
                   start_node_ := some 0, end_node_ := some (rows * cols - 1) }) ∧
    (∀ cols1 rows1 : Nat, cols1 = 0 ∨ rows1 = 0 → ∀ fuel tie,
      BuildGrid fuel tie rand cols1 rows1 disp_x disp_y start_x start_y viewport_height
        node_sprite edge_sprite g = none) := by
  rw [hg]
  obtain ⟨h1, _, h3⟩ := gridAddRows_fresh cols rows disp_x disp_y start_x
    (viewport_height - start_y)
  obtain ⟨hchk, hfin⟩ := @gridConnectChecked_eq α _ rand cols rows _ h1
  obtain ⟨st, hst, hinv⟩ := gridConnect_spec rand h1 h3
  obtain ⟨hidx, hlen⟩ := hfin st hst
  have hpos : 0 < rows * cols := Nat.mul_pos hr hc
  refine ⟨h1, hchk, ?_, ⟨st, hst, hidx, hlen, by omega, by omega, ?_⟩, ?_⟩
  · intro i j hi hj
    have hbelow : (i + 1) * cols ≤ rows * cols := Nat.mul_le_mul_right _ hi
    constructor
    · intro hjc
      rw [Nat.succ_mul] at hbelow
      omega
    · intro hir
      have h4 : (i + 1 + 1) * cols ≤ rows * cols := Nat.mul_le_mul_right _ (by omega)
      rw [Nat.succ_mul] at h4
      omega
  · intro fuel tie
    unfold BuildGrid
    simp only [hg, hst]
    have c1 : 0 < st.1.length := by omega
    have c2 : rows * cols - 1 < st.1.length ∧ 0 < rows * cols := ⟨by omega, hpos⟩
    simp only [c1, c2, if_true, and_self]
  · intro cols1 rows1 hzero fuel tie
    obtain ⟨k1, _, k3⟩ := gridAddRows_fresh cols1 rows1 disp_x disp_y start_x
      (viewport_height - start_y)
    obtain ⟨st1, hst1, hinv1⟩ := gridConnect_spec rand k1 k3
    have hz : rows1 * cols1 = 0 := by
      rcases hzero with h | h
      · rw [h, Nat.mul_zero]
      · rw [h, Nat.zero_mul]
    have hl := hinv1.len
    unfold BuildGrid
    simp only [hg, hst1]
    have c1 : ¬ 0 < st1.1.length := by omega
    simp only [c1, if_false]

/-- C28, witness: the grid with two columns and three rows. -/
theorem BuildGrid_indices_witness :
    (gridAddRows 2 (1 : Int) 1 0 3 ((Graph.new : Graph Int).node_, 0, 0, 4 - 0)).1.length
      = 3 * 2 ∧
    gridConnectChecked (fun k => k) 2 3 (gridAddRows 2 (1 : Int) 1 0 3
        ((Graph.new : Graph Int).node_, 0, 0, 4 - 0)).1 =
      gridConnect (fun k => k) 2 3 (gridAddRows 2 (1 : Int) 1 0 3
        ((Graph.new : Graph Int).node_, 0, 0, 4 - 0)).1 ∧
    (∀ i j, i < 3 → j < 2 →
      (j < 2 - 1 → i * 2 + j + 1 < 3 * 2) ∧ (i < 3 - 1 → (i + 1) * 2 + j < 3 * 2)) ∧
    (∃ st, gridConnect (fun k => k) 2 3 (gridAddRows 2 (1 : Int) 1 0 3
        ((Graph.new : Graph Int).node_, 0, 0, 4 - 0)).1 = some st ∧
      st.2.1 = 3 * 2 ∧ st.1.length = 3 * 2 ∧ 0 < st.1.length ∧ 3 * 2 - 1 < st.1.length ∧
      ∀ fuel tie, BuildGrid fuel tie (fun k => k) 2 3 (1 : Int) 1 0 0 4 none none Graph.new =
        FindPath fuel tie
          { (Graph.new : Graph Int) with
            node_obj_ := none, edge_obj_ := none, node_ := st.1,
            start_node_ := some 0, end_node_ := some (3 * 2 - 1) }) ∧
    (∀ cols1 rows1 : Nat, cols1 = 0 ∨ rows1 = 0 → ∀ fuel tie,
      BuildGrid fuel tie (fun k => k) cols1 rows1 (1 : Int) 1 0 0 4 none none Graph.new
        = none) :=
  @BuildGrid_indices Int _ 2 3 (by decide) (by decide) Graph.new rfl (fun k => k) 1 1 0 0 4
    none none

end ClaimsGridIndices

/-! ## Termination of the carving (`Graph::BuildMaze`) -/

section ClaimsCarve

variable {α : Type} [LinearOrderedCommRing α]

/-- C24, counterexample. The source graph `offsetIdGraph` has two nodes,
joined by an edge, with valid edge targets, but their ids, 5 and 6, are not
their indices. In the first iteration the loop finds the second node
unvisited and looks up the output node with id 5 in an output graph of two
nodes: the access is out of bounds, and the carving has no result, for every
number of iterations and every shuffle that permutes. -/
theorem carve_ids_counterexample :
    0 < offsetIdGraph.node_.length ∧ TargetsValid offsetIdGraph.node_ ∧
    ¬ IdsAreIndices offsetIdGraph.node_ ∧
    ∀ (shuffle : Nat → List Nat → List Nat), (∀ k l, (shuffle k l).Perm l) → ∀ fuel,
      carveMaze fuel shuffle offsetIdGraph.node_ [] = none ∧
      carveMazeLog fuel shuffle offsetIdGraph.node_ [] = none := by
  refine ⟨by decide, TargetsValid_of_forall (by decide), ?_, ?_⟩
  · intro h
    have := h 0 _ (rfl : offsetIdGraph.node_[0]? = some _)
    simp [offsetIdGraph, Node.new] at this
  · intro shuffle hperm fuel
    have hsh : shuffle 0 [0] = [0] := List.perm_singleton.1 (hperm 0 [0])
    have hr : List.range 1 = [0] := rfl
    have hmaze : carveMaze fuel shuffle offsetIdGraph.node_ [] = none := by
      cases fuel with
      | zero => simp [carveMaze, offsetIdGraph, carveLoop]
      | succ fuel =>
        simp [carveMaze, offsetIdGraph, carveLoop, carveStep, scanUnvisited, hr, hsh, GetNode,
          AddNode, Node.new, Graph.new]
    refine ⟨hmaze, ?_⟩
    have hfst : (carveMazeLog fuel shuffle offsetIdGraph.node_ []).map (fun r => (r.1, r.2.1)) =
        carveMaze fuel shuffle offsetIdGraph.node_ [] := by
      unfold carveMazeLog carveMaze
      simp only
      cases (offsetIdGraph.node_.map (fun n => ({ n with visited_ := false } : Node Int)))[0]? with
      | none => rfl
      | some first => exact carveLoopLog_fst shuffle _ _ _ _ _ _
    rw [hmaze] at hfst
    cases hlog : carveMazeLog fuel shuffle offsetIdGraph.node_ [] with
    | none => rfl
    | some r => simp [hlog] at hfst

/-- C24, as amended. The depth-first loop of `BuildMaze` with a log is the
loop without it. For a source graph with at least one node, ids equal to
indices and valid edge targets, every output graph and shuffles that permute,
the loop returns, which it does with an empty stack only, when it is given
more than `2 * size` iterations; it has then run at most `2 * size`
iterations, one for every push and one for every pop; the log of the pushes
repeats no node and does not hold node 0, which is pushed before the loop, and
the nodes marked as visited are node 0 and the nodes of the log. Every
iteration that returns has popped the stack and changed nothing else, or has
pushed a node that was not visited and has marked it, and no other node, as
visited. -/
theorem carve_terminates {src : List (Node α)} (hne : 0 < src.length)
    (hids : IdsAreIndices src) (hval : TargetsValid src)
    {shuffle : Nat → List Nat → List Nat} (hperm : ∀ k l, (shuffle k l).Perm l) :
    (∀ fuel out, (carveMazeLog fuel shuffle src out).map (fun r => (r.1, r.2.1)) =
      carveMaze fuel shuffle src out) ∧
    (∀ fuel out, 2 * src.length < fuel → ∃ r, carveMazeLog fuel shuffle src out = some r ∧
      r.2.2.2 ≤ 2 * src.length ∧ r.2.2.2 = 2 * r.2.2.1.length + 1 ∧
      r.2.2.1.Nodup ∧ 0 ∉ r.2.2.1 ∧
      (∀ x, visitedOf r.1 x = true ↔ (x = 0 ∨ x ∈ r.2.2.1))) ∧
    (∀ (k : Nat) (src1 out1 : List (Node α)) (n : Nat) (st : List Nat)
        (r : List (Node α) × List (Node α) × List Nat),
      carveStep shuffle k src1 out1 n st = some r →
      (carvePushed shuffle k src1 n = none ∧ r.1 = src1 ∧ r.2.1 = out1 ∧ r.2.2 = st) ∨
      (∃ x, carvePushed shuffle k src1 n = some x ∧ visitedOf src1 x = false ∧
        r.2.2 = x :: n :: st ∧ visitedOf r.1 x = true ∧
        (∀ y, y ≠ x → visitedOf r.1 y = visitedOf src1 y) ∧ r.1.length = src1.length)) := by
  have hfst : ∀ fuel out, (carveMazeLog fuel shuffle src out).map (fun r => (r.1, r.2.1)) =
      carveMaze fuel shuffle src out := by
    intro fuel out
    unfold carveMazeLog carveMaze
    simp only
    cases (src.map (fun n => ({ n with visited_ := false } : Node α)))[0]? with
    | none => rfl
    | some first => exact carveLoopLog_fst shuffle _ _ _ _ _ _
  have hnil : ∀ fuel, 2 * src.length < fuel → ∃ r, carveMazeLog fuel shuffle src [] = some r ∧
      r.2.2.2 ≤ 2 * src.length ∧ r.2.2.2 = 2 * r.2.2.1.length + 1 ∧
      r.2.2.1.Nodup ∧ 0 ∉ r.2.2.1 ∧
      (∀ x, visitedOf r.1 x = true ↔ (x = 0 ∨ x ∈ r.2.2.1)) := by
    intro fuel hf
    obtain ⟨r0, hr0⟩ := carveMaze_isSome hperm hne hids hval hf
    have hmap := hfst fuel []
    rw [hr0] at hmap
    cases hr : carveMazeLog fuel shuffle src [] with
    | none => simp [hr] at hmap
    | some r =>
      refine ⟨r, rfl, ?_⟩
      unfold carveMazeLog at hr
      have hlt0 : 0 < (src.map (fun n => ({ n with visited_ := false } : Node α))).length := by
        simpa using hne
      have h0 := List.getElem?_eq_getElem hlt0
      simp only [h0] at hr
      obtain ⟨a1, a2, a3, a4, a5⟩ := carveLoopLog_spec shuffle _ _ _ _ _ _ _ hr (by
          intro x
          rw [visitedOf_set hlt0]
          by_cases hx : x = 0
          · simp [hx]
          · simp only [hx, if_false, List.not_mem_nil, or_false, iff_false]
            unfold visitedOf
            rw [List.getElem?_map]
            cases src[x]? <;> simp)
        List.nodup_nil (by simp) (by simp)
      have hlen : r.1.length = src.length := by
        rw [a5]
        simp
      have hbound : r.2.2.1.length + 1 ≤ src.length := by
        apply length_le_of_nodup_pos hne a2 _ a3
        intro x hx
        rw [← hlen]
        exact visited_lt ((a1 x).2 (Or.inr hx))
      exact ⟨by omega, a4, a2, a3, a1⟩

  refine ⟨hfst, ?_, fun _ _ _ _ _ _ h => carveStep_cases h⟩
  intro fuel out hf
  obtain ⟨r0, hr0, hrest⟩ := hnil fuel hf
  have hlt0 : 0 < (src.map (fun n => ({ n with visited_ := false } : Node α))).length := by
    simpa using hne
  have h0 := List.getElem?_eq_getElem hlt0
  unfold carveMazeLog at hr0 ⊢
  simp only [h0] at hr0 ⊢
  obtain ⟨o, ho⟩ := carveLoopLog_other_out shuffle fuel 0 _
    (src.foldl (fun o n => AddNode o n.id_ n.x_ n.y_) out) _ [0] [] r0 hr0 (by
      intro nd hnd
      have hsrc : ∃ nd0 ∈ src, nd.id_ = nd0.id_ := by
        rcases List.mem_or_eq_of_mem_set hnd with h1 | h1
        · obtain ⟨nd0, hnd0, heq⟩ := List.mem_map.1 h1
          exact ⟨nd0, hnd0, by rw [← heq]⟩
        · have hmem := List.getElem_mem hlt0
          obtain ⟨nd0, hnd0, heq⟩ := List.mem_map.1 hmem
          exact ⟨nd0, hnd0, by rw [h1, ← heq]⟩
      obtain ⟨nd0, hnd0, hid⟩ := hsrc
      obtain ⟨i, hi, hget⟩ := List.getElem_of_mem hnd0
      have hidx := hids i nd0 (by rw [List.getElem?_eq_getElem hi, hget])
      rw [hid, hidx, copy_nodes]
      simp only [List.length_append, List.length_map]
      constructor
      · exact Int.natCast_nonneg i
      · rw [Int.toNat_natCast]
        omega)
  exact ⟨_, ho, hrest⟩

/-- C24, witness: the carving of the triangle. -/
theorem carve_terminates_witness :
    (∀ fuel out, (carveMazeLog fuel keepOrder triangleGraph.node_ out).map
        (fun r => (r.1, r.2.1)) = carveMaze fuel keepOrder triangleGraph.node_ out) ∧
    (∀ fuel out, 2 * triangleGraph.node_.length < fuel →
      ∃ r, carveMazeLog fuel keepOrder triangleGraph.node_ out = some r ∧
      r.2.2.2 ≤ 2 * triangleGraph.node_.length ∧ r.2.2.2 = 2 * r.2.2.1.length + 1 ∧
      r.2.2.1.Nodup ∧ 0 ∉ r.2.2.1 ∧
      (∀ x, visitedOf r.1 x = true ↔ (x = 0 ∨ x ∈ r.2.2.1))) ∧
    (∀ (k : Nat) (src1 out1 : List (Node Int)) (n : Nat) (st : List Nat)
        (r : List (Node Int) × List (Node Int) × List Nat),
      carveStep keepOrder k src1 out1 n st = some r →
      (carvePushed keepOrder k src1 n = none ∧ r.1 = src1 ∧ r.2.1 = out1 ∧ r.2.2 = st) ∨
      (∃ x, carvePushed keepOrder k src1 n = some x ∧ visitedOf src1 x = false ∧
        r.2.2 = x :: n :: st ∧ visitedOf r.1 x = true ∧
        (∀ y, y ≠ x → visitedOf r.1 y = visitedOf src1 y) ∧ r.1.length = src1.length)) :=
  @carve_terminates Int _ triangleGraph.node_ (by decide)
    (IdsAreIndices_of_forall (by decide)) (TargetsValid_of_forall (by decide)) keepOrder
    (fun _ l => List.Perm.refl l)

end ClaimsCarve

/-! ## Stale queue entries (`Graph::FindPath`) -/

section ClaimsStale

variable {α : Type} [LinearOrderedCommRing α]

/-- C25: in `Graph::FindPath` on a graph with valid edge targets and
non-negative edge costs, however the priority queue breaks ties, the work on a
stale queue entry changes nothing: in every state of the relaxation loop, when
the popped entry costs more than its node does now, the loop over the edges of
that node returns the nodes as they are, with every cost and every `prev`, and
the queue without the popped entry; and for every number of iterations
`FindPath` gives what the variant that skips stale entries gives, be it a
graph, with its costs, `prev` links and path, or no result. -/
theorem FindPath_stale_noop {g : Graph α} (hval : TargetsValid g.node_)
    (hnn : NonNegCosts g.node_) (tie : Nat → Nat) :
    (∀ s e sn, g.start_node_ = some s → g.end_node_ = some e →
      (g.node_.map (fun n => ({ n with cost_ := INT_MAX, on_path_ := false } : Node α)))[s]?
        = some sn →
      ∀ k nodes pq lowest un,
        LoopState tie e ((g.node_.map (fun n =>
          ({ n with cost_ := INT_MAX, on_path_ := false } : Node α))).set s
          { sn with cost_ := 0 }) [⟨s, 0⟩] k nodes pq →
        pq[topIdx (tie k) pq]? = some lowest → nodes[lowest.node]? = some un →
        un.cost_ < lowest.cost →
        relaxEdges lowest.node lowest.cost un.edge_ (nodes, pq.eraseIdx (topIdx (tie k) pq))
          = some (nodes, pq.eraseIdx (topIdx (tie k) pq))) ∧
    ∀ fuel, FindPathSkip fuel tie g = FindPath fuel tie g := by
  constructor
  · intro s e sn _ _ h0 k nodes pq lowest un hst hq hun hstale
    obtain ⟨S1, m1, rank1, B1, inv1⟩ := LoopState_inv hnn hval (DInv_init h0) hst
    have hne : pq ≠ [] := by
      intro hnil
      rw [hnil] at hq
      simp at hq
    obtain ⟨x, hx, hmin⟩ := topIdx_spec (tie k) pq hne
    rw [hq] at hx
    have hxl : lowest = x := Option.some.inj hx
    subst hxl
    obtain ⟨un1, st1, _, _, _, _, hget, hr, _, _, hno⟩ := relax_step hnn hval inv1 hq hmin
    rw [hun] at hget
    have hu : un = un1 := Option.some.inj hget
    subst hu
    rw [hr, hno hstale]
  · intro fuel
    rw [FindPath_eq_With]
    unfold FindPathSkip
    apply FindPathWith_congr
    intro s e sn _ _ h0
    exact relaxLoopSkip_eq hnn hval tie e fuel 0 _ _ _ _ _ _ (DInv_init h0)

/-- C25, witness: the graph of four nodes in which the entry of node 2 with
cost 5 is stale when it is popped in the fourth iteration, the cost of node 2
being 2 by then. -/
theorem FindPath_stale_noop_witness :
    (∃ nodes un, LoopState (fun _ => 0) 3
        ((staleEntryGraph.node_.map (fun n =>
          ({ n with cost_ := INT_MAX, on_path_ := false } : Node Int))).set 0
          { (Node.new 0 0 0 : Node Int) with
            edge_ := [⟨0, 1, 1⟩, ⟨0, 2, 5⟩], cost_ := 0 }) [⟨0, 0⟩] 3 nodes
        [⟨2, 5⟩, ⟨3, 12⟩] ∧
      nodes[2]? = some un ∧ un.cost_ = 2 ∧
      relaxEdges 2 5 un.edge_ (nodes, [⟨3, 12⟩]) = some (nodes, [⟨3, 12⟩])) ∧
    (∀ fuel, FindPathSkip fuel (fun _ => 0) staleEntryGraph
      = FindPath fuel (fun _ => 0) staleEntryGraph) ∧
    (FindPath 20 (fun _ => 0) staleEntryGraph).map Graph.path_node_
      = some [some 0, some 1, some 2, some 3] := by
  have hthm := @FindPath_stale_noop Int _ staleEntryGraph (TargetsValid_of_forall (by decide))
    (NonNegCosts_of_forall (by decide)) (fun _ => 0)
  have h1 := @LoopState.next Int _ (fun _ => 0) 3 _ _ 0 _ _ ⟨0, 0⟩ _ _
    (LoopState.start : LoopState (fun _ => 0) 3
        ((staleEntryGraph.node_.map (fun n =>
          ({ n with cost_ := INT_MAX, on_path_ := false } : Node Int))).set 0
          { (Node.new 0 0 0 : Node Int) with
            edge_ := [⟨0, 1, 1⟩, ⟨0, 2, 5⟩], cost_ := 0 }) [⟨0, 0⟩] 0 _ _)
    (by decide) (by decide) rfl rfl
  have h2 := @LoopState.next Int _ (fun _ => 0) 3 _ _ 1 _ _ ⟨1, 1⟩ _ _ h1
    (by decide) (by decide) rfl rfl
  have h3 := @LoopState.next Int _ (fun _ => 0) 3 _ _ 2 _ _ ⟨2, 2⟩ _ _ h2
    (by decide) (by decide) rfl rfl
  refine ⟨⟨_, _, h3, rfl, by decide, ?_⟩, hthm.2, by decide⟩
  exact hthm.1 0 3 _ rfl rfl rfl 3 _ _ ⟨2, 5⟩ _ h3 (by decide) rfl (by decide)

end ClaimsStale

/-! ## The early exit of `Graph::FindPath` -/

section ClaimsEarlyExit

variable {α : Type} [LinearOrderedCommRing α]

/-- C26, counterexample. The graph `staleSameGraph` is what a call of
`FindPath` on two nodes joined by an edge of cost 1, from the second node to
the first, followed by `SetStartNode` with the first node, leaves: the first
node is start node and end node, and its `prev` pointer is the second node. No
edge cost is negative and the end node is reached from the start node by the
path without an edge. `FindPath` leaves the loop at once, so the `prev`
pointer of the second node stays null and `path_node_` is a null pointer, the
second node and the first node; the variant without the early exit relaxes
the second node, so its `prev` pointer is the first node and `path_node_` is
the first node, the second node and the first node. -/
theorem FindPath_early_exit_counterexample :
    (∀ tie, (FindPath 3 tie pairGraph).map (fun g => { g with start_node_ := some 0 })
      = some staleSameGraph) ∧
    staleSameGraph.start_node_ = some 0 ∧ staleSameGraph.end_node_ = some 0 ∧
    TargetsValid staleSameGraph.node_ ∧ NonNegCosts staleSameGraph.node_ ∧
    pathCost staleSameGraph.node_ [0] = some 0 ∧ Reach staleSameGraph.node_ 0 0 ∧
    ∀ (tie : Nat → Nat) (fuel : Nat), 3 ≤ fuel →
      (FindPath fuel tie staleSameGraph).map
          (fun g => (g.path_node_, costOf g.node_ 0, prevOf g.node_ 1))
        = some ([none, some 1, some 0], 0, none) ∧
      (FindPathFull fuel tie staleSameGraph).map
          (fun g => (g.path_node_, costOf g.node_ 0, prevOf g.node_ 1))
        = some ([some 0, some 1, some 0], 0, some 0) := by
  refine ⟨?_, rfl, rfl, TargetsValid_of_forall (by decide), NonNegCosts_of_forall (by decide),
    rfl, Relation.ReflTransGen.refl, ?_⟩
  · intro tie
    simp [FindPath, pairGraph, relaxLoop, topIdx_singleton, relaxEdges, relaxEdge, Node.new,
      INT_MAX, backtrack, setOnPath, staleSameGraph, Graph.new]
  · intro tie fuel hf
    obtain ⟨f, rfl⟩ : ∃ f, fuel = f + 3 := ⟨fuel - 3, by omega⟩
    constructor
    · simp [FindPath, staleSameGraph, relaxLoop, topIdx_singleton, relaxEdges, relaxEdge,
        Node.new, INT_MAX, backtrack, setOnPath, Graph.new, costOf, prevOf]
    · simp [FindPathFull, FindPathWith, staleSameGraph, relaxLoopFull, topIdx_singleton,
        relaxEdges, relaxEdge, Node.new, INT_MAX, backtrack, setOnPath, Graph.new, costOf,
        prevOf]

/-- C26, amended: for every graph with valid edge targets and non-negative
edge costs, every start node `s` and every end node `e` such that `e` is not
`s` or the `prev` pointer of `s` is null before the call, and however the
priority queue breaks ties, the early exit of `Graph::FindPath` does not
change the answer. Given `fuelBound` iterations for each loop, `FindPath` and
the variant that relaxes until the priority queue is empty either both do not
return or both return, and then with the same `path_node_`, the same cost of
the end node and the same `prev` pointer at every node of the path. When some
path from `s` to `e` costs less than `INT_MAX`, both return. -/
theorem FindPath_early_exit {g : Graph α} {s e : Nat} (hs : g.start_node_ = some s)
    (he : g.end_node_ = some e) (hsn : s < g.node_.length) (hen : e < g.node_.length)
    (hval : TargetsValid g.node_) (hnn : NonNegCosts g.node_)
    (hse : e ≠ s ∨ prevOf g.node_ s = none)
    (tie : Nat → Nat) {fuel : Nat} (hf : fuelBound g.node_ ≤ fuel) :
    ((FindPath fuel tie g = none ∧ FindPathFull fuel tie g = none) ∨
      ∃ g1 g2, FindPath fuel tie g = some g1 ∧ FindPathFull fuel tie g = some g2 ∧
        SameAnswer e g1 g2) ∧
    ((∃ p L, p.head? = some s ∧ p.getLast? = some e ∧
        pathCost g.node_ p = some L ∧ L < INT_MAX) →
      ∃ g1 g2, FindPath fuel tie g = some g1 ∧ FindPathFull fuel tie g = some g2 ∧
        SameAnswer e g1 g2) := by
  have h1 := FindPath_vs_full hs he hsn hval hnn hse tie hf
  refine ⟨h1, ?_⟩
  intro hreach
  rcases h1 with ⟨hnone, _⟩ | h
  · exfalso
    by_cases hes : e = s
    · subst hes
      have hprev : prevOf g.node_ e = none := by
        rcases hse with h | h
        · exact absurd rfl h
        · exact h
      have hfuel : 1 ≤ fuel := by
        unfold fuelBound at hf
        omega
      obtain ⟨g1, hg1, _⟩ := FindPath_same_fresh hs he hsn hprev tie hfuel
      rw [hnone] at hg1
      exact Option.noConfusion hg1
    · obtain ⟨g1, _, hg1, _⟩ := FindPath_reach hs he hsn hen hval hnn hes hreach tie hf
      rw [hnone] at hg1
      exact Option.noConfusion hg1
  · exact h

/-- C26, witness: the triangle with edge costs 2, 3 and 7, in which
`FindPath` leaves the loop with the stale entry of the end node still in the
queue. -/
theorem FindPath_early_exit_witness :
    (∃ g1 g2, FindPath 11 (fun _ => 0) triangleGraph = some g1 ∧
      FindPathFull 11 (fun _ => 0) triangleGraph = some g2 ∧ SameAnswer 2 g1 g2) ∧
    (FindPath 11 (fun _ => 0) triangleGraph).map Graph.path_node_
      = some [some 0, some 1, some 2] :=
  ⟨(@FindPath_early_exit Int _ triangleGraph 0 2 rfl rfl (by decide) (by decide)
    (TargetsValid_of_forall (by decide)) (NonNegCosts_of_forall (by decide))
    (Or.inl (by decide)) (fun _ => 0) 11 (by decide)).2
      ⟨[0, 1, 2], 5, rfl, rfl, by decide, by decide⟩, by decide⟩

end ClaimsEarlyExit

/-! ## The unit grid of 3 columns and 3 rows (`Graph::BuildGrid`) -/

section ClaimsUnitGrid

variable {α : Type} [LinearOrderedCommRing α]

/-- C21. `BuildGrid` is `BuildGridWith` for the weight expression of the
source. For 3 columns and 3 rows on a graph without nodes, with every edge
weight fixed to 1, however the priority queue breaks ties and with 35 or more
iterations for each loop of `FindPath`: the builder returns; the start node is
the node with index 0 and the end node the node with index 8; the cost of the
end node is 4; and `path_node_` is a sequence of 5 nodes from index 0 to
index 8 in which each node lies next to the one before it in the grid. -/
theorem BuildGrid_unit_grid {g : Graph α} (hg : g.node_ = []) (tie : Nat → Nat) {fuel : Nat}
    (hf : 35 ≤ fuel) (disp_x disp_y start_x start_y viewport_height : α)
    (node_sprite edge_sprite : Option (GameObject α)) :
    (∀ rand cols rows, BuildGrid fuel tie rand cols rows disp_x disp_y start_x start_y
        viewport_height node_sprite edge_sprite g =
      BuildGridWith (fun k => randWeight (rand k)) fuel tie cols rows disp_x disp_y start_x
        start_y viewport_height node_sprite edge_sprite g) ∧
    ∃ g1 p, BuildGridWith (fun _ => (1 : α)) fuel tie 3 3 disp_x disp_y start_x start_y
        viewport_height node_sprite edge_sprite g = some g1 ∧
      g1.node_.map Node.edge_ = unitGrid3Edges ∧
      g1.start_node_ = some 0 ∧ g1.end_node_ = some 8 ∧ costOf g1.node_ 8 = 4 ∧
      g1.path_node_ = p.map some ∧ p.length = 5 ∧ p.head? = some 0 ∧ p.getLast? = some 8 ∧
      List.Chain' (GridAdj 3 3) p := by
  refine ⟨fun rand cols rows => BuildGrid_eq_With fuel tie rand cols rows disp_x disp_y start_x
    start_y viewport_height node_sprite edge_sprite g, ?_⟩
  obtain ⟨st, hst, hmap⟩ := gridConnectWith_unit3 disp_x disp_y start_x
    (viewport_height - start_y)
  obtain ⟨hlen, hval, hnn, hedge, hpc, hfb⟩ := unitGrid3_facts hmap
  obtain ⟨g1, p, hfp, hpath, hfix, htp, _, _, hch, hcost, hopt, _⟩ :=
    @FindPath_reach α _ ({ g with node_obj_ := node_sprite, edge_obj_ := edge_sprite,
                                  node_ := st.1, start_node_ := some 0,
                                  end_node_ := some 8 } : Graph α) 0 8 rfl rfl
      (by simp only; omega) (by simp only; omega) hval hnn (by decide)
      ⟨[0, 1, 2, 5, 8], 4, rfl, rfl, hpc, by simp only [INT_MAX]; norm_num⟩ tie fuel
      (by simp only; omega)
  simp only at hfix hch hcost hopt
  have hE : edgesOf g1.node_ = edgesOf st.1 := edgesOf_of_fixed_eq hfix
  have hpc1 : pathCost g1.node_ = pathCost st.1 := pathCost_congr hE
  obtain ⟨_, hstart, hend, _⟩ := FindPath_fixed hfp
  have hup : costOf g1.node_ 8 ≤ 4 := hopt [0, 1, 2, 5, 8] 4 rfl rfl (by rw [hpc1]; exact hpc)
  rw [hpc1] at hcost
  have hlow := pathCost_potential (fun v => ((v / 3 + v % 3 : Nat) : α))
    (fun u e he => by
      have h := (hedge u e he).2.2
      rw [(hedge u e he).1]
      exact h) p 0 8 _ htp.head htp.last hcost
  have hlow4 : (4 : α) ≤ costOf g1.node_ 8 := by
    norm_num at hlow
    exact hlow
  have hc4 : costOf g1.node_ 8 = 4 := le_antisymm hup hlow4
  have hunit := pathCost_unit (fun u e he => (hedge u e he).1) p _ hcost htp.ne_nil
  have hp5 : p.length = 5 := by
    rw [hc4] at hunit
    have h5 : ((p.length : Nat) : α) = ((5 : Nat) : α) := by
      rw [← hunit]
      norm_num
    exact Nat.cast_injective h5
  refine ⟨g1, p, ?_, ?_, hstart, hend, hc4, hpath, hp5, htp.head, htp.last, ?_⟩
  · unfold BuildGridWith
    rw [hg]
    simp only [hst, hlen]
    exact hfp
  · have := congrArg (List.map Prod.fst) hfix
    simp only [List.map_map] at this
    rw [← hmap]
    exact this
  · refine List.Chain'.imp ?_ hch
    intro u v huv
    obtain ⟨e, he, hn⟩ := huv
    rw [hE] at he
    rw [← hn]
    exact (hedge u e he).2.1

/-- C21, witness: the grid at integer positions, with 35 iterations and the
tie-breaking that takes the first entry of least cost. -/
theorem BuildGrid_unit_grid_witness :
    (∀ rand cols rows, BuildGrid 35 (fun _ => 0) rand cols rows (1 : Int) 1 0 0 3 none none
        Graph.new =
      BuildGridWith (fun k => randWeight (rand k)) 35 (fun _ => 0) cols rows 1 1 0 0 3 none none
        Graph.new) ∧
    ∃ g1 p, BuildGridWith (fun _ => (1 : Int)) 35 (fun _ => 0) 3 3 1 1 0 0 3 none none
        Graph.new = some g1 ∧
      g1.node_.map Node.edge_ = unitGrid3Edges ∧
      g1.start_node_ = some 0 ∧ g1.end_node_ = some 8 ∧ costOf g1.node_ 8 = 4 ∧
      g1.path_node_ = p.map some ∧ p.length = 5 ∧ p.head? = some 0 ∧ p.getLast? = some 8 ∧
      List.Chain' (GridAdj 3 3) p :=
  @BuildGrid_unit_grid Int _ Graph.new rfl (fun _ => 0) 35 (le_refl _) 1 1 0 0 3 none none

end ClaimsUnitGrid
end game
